import Mathlib

/-!
# Shenandoah: region allocation, forwarding barriers and the degenerated cycle

A shallow embedding of parts of the Shenandoah collector
(`hotspot/src/share/vm/gc_implementation/shenandoah`, and the interpreter
barriers under `hotspot/src/cpu/{x86,aarch64}/vm`).

Conventions of the embedding.
* A pointer (`HeapWord*`, `oop`, a register holding one) is a natural number,
  the byte address; pointer and `size_t` arithmetic is written with an explicit
  `% 2 ^ 64` (LP64, the only configuration the x86 barrier file implements).
* A function returning `HeapWord*` with `NULL` for failure returns `Option Nat`.
* Stateful code is written in state-passing style.
-/

namespace Shenandoah

/-! ## Machine words -/

/-- Bytes per heap word on LP64 (`HeapWordSize`). -/
def HeapWordSize : Nat := 8

/-- Number of values of a pointer or `size_t` (64 bit). -/
def WORD_MOD : Nat := 2 ^ 64

/-- Modelled from the spec: `pointer_delta(left, right)` of globalDefinitions.hpp,
a file that is not embedded here; the spec writes it `end - top` counted in
words.  It is the unsigned difference of the two addresses divided by the word size. -/
def pointer_delta (left right : Nat) : Nat :=
  ((left + WORD_MOD - right) % WORD_MOD) / HeapWordSize

/-- The C++ expression `p + n` for `HeapWord* p` and `size_t n`. -/
def heapword_plus (p n : Nat) : Nat :=
  (p + n * HeapWordSize) % WORD_MOD

/-- The operand `Address(base, disp)`: base register plus signed displacement. -/
def Address (base : Nat) (disp : Int) : Nat :=
  (((base : Int) + disp) % (2 ^ 64 : Int)).toNat

/-! ## ShenandoahHeapRegion (shenandoahHeapRegion.inline.hpp) -/

/-- The four allocation kinds (`ShenandoahHeap::AllocType`, shenandoahHeap.hpp); the
enumeration's closing sentinel `_ALLOC_LIMIT` is not a kind and is left out. -/
inductive AllocType where
  | _alloc_shared
  | _alloc_shared_gc
  | _alloc_tlab
  | _alloc_gclab
  deriving DecidableEq, Repr

/-- The region states listed by `print_heap_regions_on` and the spec. -/
inductive RegionState where
  | _empty_uncommitted
  | _empty_committed
  | _regular
  | _humongous_start
  | _humongous_cont
  | _cset
  | _trash
  | _pinned
  deriving DecidableEq, Repr

/-- The fields of a `ShenandoahHeapRegion` that `allocate` reads or writes. -/
structure ShenandoahHeapRegion where
  _bottom : Nat
  _top : Nat
  _end : Nat
  _tlab_allocs : Nat
  _gclab_allocs : Nat
  _shared_allocs : Nat
  _state : RegionState
  deriving DecidableEq, Repr

namespace ShenandoahHeapRegion

/-- The region invariant of the spec: `bottom <= top <= end`. -/
def invariant (r : ShenandoahHeapRegion) : Prop :=
  r._bottom ≤ r._top ∧ r._top ≤ r._end

instance (r : ShenandoahHeapRegion) : Decidable r.invariant :=
  inferInstanceAs (Decidable (_ ∧ _))

/-- The method `adjust_alloc_metadata(type, size)`: one `size_t` counter grows. -/
def adjust_alloc_metadata (r : ShenandoahHeapRegion) (type : AllocType) (size : Nat) :
    ShenandoahHeapRegion :=
  match type with
  | AllocType._alloc_shared => { r with _shared_allocs := (r._shared_allocs + size) % WORD_MOD }
  | AllocType._alloc_shared_gc => { r with _shared_allocs := (r._shared_allocs + size) % WORD_MOD }
  | AllocType._alloc_tlab => { r with _tlab_allocs := (r._tlab_allocs + size) % WORD_MOD }
  | AllocType._alloc_gclab => { r with _gclab_allocs := (r._gclab_allocs + size) % WORD_MOD }

/-- The method `allocate(size, type)`.  The state change `make_regular_allocation()`
is defined in shenandoahHeapRegion.cpp, which is not embedded here, and is taken as the
parameter `mra`, acting on the state tag.  The result is the returned pointer (`none`
for `NULL`) and the region afterwards. -/
def allocate (mra : RegionState → RegionState) (r : ShenandoahHeapRegion) (size : Nat)
    (type : AllocType) : Option Nat × ShenandoahHeapRegion :=
  let obj := r._top
  if size ≤ pointer_delta r._end obj then
    let r1 := { r with _state := mra r._state }
    let r2 := adjust_alloc_metadata r1 type size
    let new_top := heapword_plus obj size
    (some obj, { r2 with _top := new_top })
  else
    (none, r)

/-- A sequence of `allocate` calls on one region, in order; the returned pointers are
dropped. -/
def allocate_all (mra : RegionState → RegionState) (r : ShenandoahHeapRegion) :
    List (Nat × AllocType) → ShenandoahHeapRegion
  | [] => r
  | (size, type) :: rest => allocate_all mra (allocate mra r size type).2 rest

/-- A regular region of seven words, one of them in use, for concrete evaluations. -/
def sample_region : ShenandoahHeapRegion :=
  { _bottom := 64, _top := 72, _end := 128,
    _tlab_allocs := 0, _gclab_allocs := 0, _shared_allocs := 1,
    _state := RegionState._regular }

end ShenandoahHeapRegion

/-! ## GC state bits (shenandoahHeap.hpp) -/

/-- Bit position of `HAS_FORWARDED` (`GCStateBitPos`). -/
def HAS_FORWARDED_BITPOS : Nat := 0

/-- Bit position of `MARKING`. -/
def MARKING_BITPOS : Nat := 1

/-- Bit position of `EVACUATION`. -/
def EVACUATION_BITPOS : Nat := 2

/-- Bit position of `UPDATEREFS`. -/
def UPDATEREFS_BITPOS : Nat := 3

/-- The enumerator `STABLE` of `GCState`. -/
def STABLE : Nat := 0

/-- The enumerator `HAS_FORWARDED` of `GCState`. -/
def HAS_FORWARDED : Nat := 1 <<< HAS_FORWARDED_BITPOS

/-- The enumerator `MARKING` of `GCState`. -/
def MARKING : Nat := 1 <<< MARKING_BITPOS

/-- The enumerator `EVACUATION` of `GCState`. -/
def EVACUATION : Nat := 1 <<< EVACUATION_BITPOS

/-- The enumerator `UPDATEREFS` of `GCState`. -/
def UPDATEREFS : Nat := 1 <<< UPDATEREFS_BITPOS

/-- Modelled from the spec: `ShenandoahSharedBitmap::is_set(mask)`
(shenandoahSharedVariables.hpp, not embedded here): some bit of
`mask` is set in the value. -/
def is_set (value mask : Nat) : Bool :=
  value &&& mask != 0

/-- Modelled from the spec: `ShenandoahSharedBitmap::set_cond(mask, value)`
(shenandoahSharedVariables.hpp, not embedded here): the bits of the
one-byte bitmap are independent, `set_cond` sets or clears those of `mask` only. -/
def set_cond (value mask : Nat) (cond : Bool) : Nat :=
  if cond then value ||| mask else value &&& (255 ^^^ mask)

/-! ## Brooks pointers and the interpreter barriers
(shenandoahBarrierSet_x86.cpp, shenandoahBarrierSet_aarch64.cpp) -/

/-- Memory as seen by the barriers: the 64-bit word stored at each byte address. -/
abbrev Memory := Nat → Nat

/-- A word store `*addr = value`. -/
def Memory.store (mem : Memory) (addr value : Nat) : Memory :=
  fun a => if a = addr then value else mem a

namespace BrooksPointer

/-- Modelled from the spec: `BrooksPointer::word_size()` (shenandoahBrooksPointer.hpp,
not embedded here): one word is reserved for the forwarding pointer. -/
def word_size : Nat := 1

/-- Modelled from the spec: `BrooksPointer::byte_size()`, the reserved word in
bytes. -/
def byte_size : Nat := word_size * HeapWordSize

/-- Modelled from the spec: `BrooksPointer::byte_offset()`, the reserved word precedes
the object; the aarch64 `compile_prepare_oop` writes it as `-1 * HeapWordSize`. -/
def byte_offset : Int := -8

/-- Modelled from the spec: `BrooksPointer::initialize(obj)`, the forwarding pointer
initially points to the object itself (named `init` here, the source's name being
reserved in Lean). -/
def init (mem : Memory) (obj : Nat) : Memory :=
  mem.store (Address obj byte_offset) obj

/-- Modelled from the spec: `BrooksPointer::forwardee(obj)`, the content of the
forwarding word of `obj`. -/
def forwardee (mem : Memory) (obj : Nat) : Nat :=
  mem (Address obj byte_offset)

end BrooksPointer

/-- What the generated barrier code depends on: the diagnostic flags of
shenandoah_globals.hpp, the thread-local GC state byte, memory, the in-collection-set
byte table behind `in_cset_fast_test_addr()`, the region size shift and the runtime
entry `write_barrier_IRT`. -/
structure BarrierContext where
  ShenandoahReadBarrier : Bool
  ShenandoahWriteBarrier : Bool
  ShenandoahAcmpBarrier : Bool
  gc_state : Nat
  mem : Memory
  in_cset_fast_test : Nat → Nat
  region_size_bytes_shift : Nat
  write_barrier_IRT : Nat → Nat

/-- Effect of the generated write barrier: the final content of `dst` and the
arguments of the calls made to `write_barrier_IRT`, in order. -/
structure WriteBarrierResult where
  dst : Nat
  irt_calls : List Nat
  deriving DecidableEq, Repr

/-- Effect of the generated acmp barrier: the equality flag (`ZF` on x86, `EQ` on
aarch64) and the final contents of the two operand registers. -/
structure AcmpResult where
  equal : Bool
  op1 : Nat
  op2 : Nat
  deriving DecidableEq, Repr

namespace x86

/-- Code emitted by `interpreter_read_barrier_not_null` (x86):
`movptr(dst, Address(dst, byte_offset))` under `ShenandoahReadBarrier`. -/
def interpreter_read_barrier_not_null (c : BarrierContext) (dst : Nat) : Nat :=
  if c.ShenandoahReadBarrier then c.mem (Address dst BrooksPointer.byte_offset) else dst

/-- Code emitted by `interpreter_read_barrier` (x86): a null test around the
not-null barrier. -/
def interpreter_read_barrier (c : BarrierContext) (dst : Nat) : Nat :=
  if c.ShenandoahReadBarrier then
    if dst = 0 then dst else interpreter_read_barrier_not_null c dst
  else dst

/-- Code emitted by `interpreter_write_barrier` (x86, `_LP64`). -/
def interpreter_write_barrier (c : BarrierContext) (dst : Nat) : WriteBarrierResult :=
  if !c.ShenandoahWriteBarrier then
    { dst := interpreter_read_barrier c dst, irt_calls := [] }
  else if c.gc_state &&& (HAS_FORWARDED ||| EVACUATION) = 0 then
    { dst := dst, irt_calls := [] }
  else
    let dst := interpreter_read_barrier_not_null c dst
    if c.gc_state &&& EVACUATION = 0 then
      { dst := dst, irt_calls := [] }
    else
      let rscratch1 := dst >>> c.region_size_bytes_shift
      let rscratch2 := c.in_cset_fast_test rscratch1
      if rscratch2 &&& 1 = 0 then
        { dst := dst, irt_calls := [] }
      else
        { dst := c.write_barrier_IRT dst, irt_calls := [dst] }

/-- Code emitted by `asm_acmp_barrier` (x86); `equal` is the flag left by the
comparison of the two operands that precedes the barrier. -/
def asm_acmp_barrier (c : BarrierContext) (equal : Bool) (op1 op2 : Nat) : AcmpResult :=
  if c.ShenandoahAcmpBarrier then
    if equal then
      { equal := equal, op1 := op1, op2 := op2 }
    else
      let op1 := interpreter_read_barrier c op1
      let op2 := interpreter_read_barrier c op2
      { equal := decide (op1 = op2), op1 := op1, op2 := op2 }
  else
    { equal := equal, op1 := op1, op2 := op2 }

/-- Code emitted by `ShenandoahHeap::compile_prepare_oop` (x86): the register after
`incrementq`, and memory after the store of the forwarding word. -/
def compile_prepare_oop (mem : Memory) (obj : Nat) : Nat × Memory :=
  let obj := (obj + BrooksPointer.byte_size) % WORD_MOD
  (obj, mem.store (Address obj BrooksPointer.byte_offset) obj)

end x86

namespace aarch64

/-- Code emitted by `interpreter_read_barrier_not_null` (aarch64):
`ldr(dst, Address(dst, byte_offset))` under `ShenandoahReadBarrier`. -/
def interpreter_read_barrier_not_null (c : BarrierContext) (dst : Nat) : Nat :=
  if c.ShenandoahReadBarrier then c.mem (Address dst BrooksPointer.byte_offset) else dst

/-- Code emitted by `interpreter_read_barrier` (aarch64): `cbz` around the not-null
barrier. -/
def interpreter_read_barrier (c : BarrierContext) (dst : Nat) : Nat :=
  if c.ShenandoahReadBarrier then
    if dst = 0 then dst else interpreter_read_barrier_not_null c dst
  else dst

/-- Code emitted by `interpreter_write_barrier` (aarch64); the forwarding word is
loaded by an `ldr` of its own, whatever `ShenandoahReadBarrier` says. -/
def interpreter_write_barrier (c : BarrierContext) (dst : Nat) : WriteBarrierResult :=
  if !c.ShenandoahWriteBarrier then
    { dst := interpreter_read_barrier c dst, irt_calls := [] }
  else
    let rscratch1 := c.gc_state
    if rscratch1 &&& (HAS_FORWARDED ||| EVACUATION) = 0 then
      { dst := dst, irt_calls := [] }
    else
      let dst := c.mem (Address dst BrooksPointer.byte_offset)
      if rscratch1 &&& EVACUATION = 0 then
        { dst := dst, irt_calls := [] }
      else
        let rscratch1 := dst >>> c.region_size_bytes_shift
        let rscratch2 := c.in_cset_fast_test rscratch1
        if rscratch2 &&& 1 = 0 then
          { dst := dst, irt_calls := [] }
        else
          { dst := c.write_barrier_IRT dst, irt_calls := [dst] }

/-- Code emitted by `asm_acmp_barrier` (aarch64); the `membar` has no effect on the
registers. -/
def asm_acmp_barrier (c : BarrierContext) (equal : Bool) (op1 op2 : Nat) : AcmpResult :=
  if c.ShenandoahAcmpBarrier then
    if equal then
      { equal := equal, op1 := op1, op2 := op2 }
    else
      let op1 := interpreter_read_barrier c op1
      let op2 := interpreter_read_barrier c op2
      { equal := decide (op1 = op2), op1 := op1, op2 := op2 }
  else
    { equal := equal, op1 := op1, op2 := op2 }

/-- Code emitted by `ShenandoahHeap::compile_prepare_oop` (aarch64):
`add(obj, obj, byte_size)` then `str(obj, Address(obj, -1 * HeapWordSize))`. -/
def compile_prepare_oop (mem : Memory) (obj : Nat) : Nat × Memory :=
  let obj := (obj + BrooksPointer.byte_size) % WORD_MOD
  (obj, mem.store (Address obj (-1 * (HeapWordSize : Int))) obj)

end aarch64

/-- The write barrier's decision once the reference `ref` has been obtained, in the
words of the spec: the runtime entry `write_barrier_IRT` is called, and its result
taken, exactly when `EVACUATION` is set and the in-collection-set table marks the
region of `ref`; otherwise `ref` is the result and no call is made. -/
def evacuate_if_in_cset (c : BarrierContext) (ref : Nat) : WriteBarrierResult :=
  if is_set c.gc_state EVACUATION = true ∧
      c.in_cset_fast_test (ref >>> c.region_size_bytes_shift) &&& 1 ≠ 0 then
    { dst := c.write_barrier_IRT ref, irt_calls := [ref] }
  else
    { dst := ref, irt_calls := [] }

/-- Modelled from the spec: `ShenandoahBarrierSet::resolve_forwarded_not_null(p)`
(shenandoahBarrierSet.inline.hpp, not embedded here): follow the
stored indirection word once. -/
def resolve_forwarded_not_null (mem : Memory) (p : Nat) : Nat :=
  BrooksPointer.forwardee mem p

/-- Modelled from the spec: `ShenandoahBarrierSet::resolve_forwarded(p)`
(shenandoahBarrierSet.inline.hpp, not embedded here): if the object
pointer is non-null, resolve forwarding; a null pointer stays null. -/
def resolve_forwarded (mem : Memory) (p : Nat) : Nat :=
  if p ≠ 0 then resolve_forwarded_not_null mem p else p

/-! ## Allocation requests and the allocation paths (shenandoahHeap.hpp/.cpp) -/

/-- The class `ShenandoahAllocationRequest`. -/
structure ShenandoahAllocationRequest where
  _min_size : Nat
  _requested_size : Nat
  _actual_size : Nat
  _alloc_type : AllocType
  deriving DecidableEq, Repr

namespace ShenandoahAllocationRequest

/-- The factory `for_tlab(requested_size)`. -/
def for_tlab (requested_size : Nat) : ShenandoahAllocationRequest :=
  { _min_size := requested_size, _requested_size := requested_size, _actual_size := 0,
    _alloc_type := AllocType._alloc_tlab }

/-- The factory `for_gclab(min_size, requested_size)`. -/
def for_gclab (min_size requested_size : Nat) : ShenandoahAllocationRequest :=
  { _min_size := min_size, _requested_size := requested_size, _actual_size := 0,
    _alloc_type := AllocType._alloc_gclab }

/-- The factory `for_shared_gc(requested_size)`. -/
def for_shared_gc (requested_size : Nat) : ShenandoahAllocationRequest :=
  { _min_size := 0, _requested_size := requested_size, _actual_size := 0,
    _alloc_type := AllocType._alloc_shared_gc }

/-- The factory `for_shared(requested_size)`. -/
def for_shared (requested_size : Nat) : ShenandoahAllocationRequest :=
  { _min_size := 0, _requested_size := requested_size, _actual_size := 0,
    _alloc_type := AllocType._alloc_shared }

/-- The accessor `size()`. -/
def size (req : ShenandoahAllocationRequest) : Nat :=
  req._requested_size

/-- The accessor `type()`. -/
def type (req : ShenandoahAllocationRequest) : AllocType :=
  req._alloc_type

end ShenandoahAllocationRequest

/-- The method `ShenandoahHeap::mem_allocate(size, _)`.  The allocator
`allocate_memory(req)` is the parameter `allocate_memory` (`none` for `NULL`); the
result is the returned pointer and memory afterwards. -/
def mem_allocate (allocate_memory : ShenandoahAllocationRequest → Option Nat)
    (mem : Memory) (size : Nat) : Option Nat × Memory :=
  let req := ShenandoahAllocationRequest.for_shared ((size + BrooksPointer.word_size) % WORD_MOD)
  match allocate_memory req with
  | some filler =>
    let result := heapword_plus filler BrooksPointer.word_size
    (some result, BrooksPointer.init mem result)
  | none => (none, mem)

/-- The method `ShenandoahHeap::tlab_post_allocation_setup(obj)`: the returned pointer
and memory afterwards. -/
def tlab_post_allocation_setup (mem : Memory) (obj : Nat) : Nat × Memory :=
  let result := heapword_plus obj BrooksPointer.word_size
  (result, BrooksPointer.init mem result)

/-! ## Objects and evacuation -/

/-- The objects of the heap with their forwarding words: memory, the addresses of the
objects allocated so far, and the collection-set test `in_collection_set(obj)`. -/
structure ObjectHeap where
  mem : Memory
  objects : List Nat
  in_cset : Nat → Bool

namespace ObjectHeap

/-- An address at which a new object can be placed: a non-null 64-bit pointer that is
not an object yet and lies outside the collection set (`mem_allocate` asserts
"never allocate in targetted region"). -/
def fresh (h : ObjectHeap) (p : Nat) : Prop :=
  p ≠ 0 ∧ p < 2 ^ 64 ∧ p ∉ h.objects ∧ h.in_cset p = false

instance (h : ObjectHeap) (p : Nat) : Decidable (h.fresh p) :=
  inferInstanceAs (Decidable (_ ∧ _ ∧ _ ∧ _))

/-- A new object at `p`, as left by the allocation paths: its forwarding word is
initialised by `BrooksPointer::initialize`. -/
def new_object (h : ObjectHeap) (p : Nat) : ObjectHeap :=
  { h with mem := BrooksPointer.init h.mem p, objects := p :: h.objects }

/-- Modelled from the spec: `ShenandoahHeap::evacuate_object(p, ...)`
(shenandoahHeap.inline.hpp, not embedded here): copy the object into
fresh to-space at `copy`, then attempt a compare-and-swap installing the forwarding
pointer to the copy; if the swap fails another thread's copy has won and this copy is
abandoned. -/
def evacuate_object (h : ObjectHeap) (p copy : Nat) : ObjectHeap :=
  let mem1 := BrooksPointer.init h.mem copy
  let mem2 :=
    if BrooksPointer.forwardee mem1 p = p then
      mem1.store (Address p BrooksPointer.byte_offset) copy
    else mem1
  { h with mem := mem2, objects := copy :: h.objects }

/-- The choice of a new collection set `cset` (`prepare_for_concurrent_evacuation`, run
by `op_final_mark` once `stop_concurrent_marking` has cleared `HAS_FORWARDED`). -/
def choose_collection_set (h : ObjectHeap) (cset : Nat → Bool) : ObjectHeap :=
  { h with in_cset := cset }

/-- The end of a cycle (`trash_cset_regions` and the recycling of the trash): the
objects of the collection set are gone and the collection set is empty. -/
def trash_cset_regions (h : ObjectHeap) : ObjectHeap :=
  { h with objects := h.objects.filter (fun p => !h.in_cset p), in_cset := fun _ => false }

/-- The heaps reached from an empty heap by allocations, by the choice of a collection
set while no object is forwarded, by evacuations of collection-set objects, and by
the reclamation of the collection set. -/
inductive Reachable : ObjectHeap → Prop where
  | empty (mem : Memory) (in_cset : Nat → Bool) :
      Reachable { mem := mem, objects := [], in_cset := in_cset }
  | alloc (h : ObjectHeap) (p : Nat) :
      Reachable h → h.fresh p → Reachable (h.new_object p)
  | choose (h : ObjectHeap) (cset : Nat → Bool) :
      Reachable h → (∀ p ∈ h.objects, BrooksPointer.forwardee h.mem p = p) →
      Reachable (h.choose_collection_set cset)
  | evac (h : ObjectHeap) (p copy : Nat) :
      Reachable h → p ∈ h.objects → h.in_cset p = true → h.fresh copy →
      Reachable (h.evacuate_object p copy)
  | trash (h : ObjectHeap) :
      Reachable h → Reachable h.trash_cset_regions

/-- Absence of forwarding chains: every object is a non-null 64-bit pointer whose
forwardee is an object with a forwarding word pointing to itself, and an object that is
forwarded lies in the collection set while its forwardee lies outside. -/
def no_chains (h : ObjectHeap) : Prop :=
  ∀ p ∈ h.objects,
    p ≠ 0 ∧ p < 2 ^ 64 ∧
    BrooksPointer.forwardee h.mem p ∈ h.objects ∧
    BrooksPointer.forwardee h.mem (BrooksPointer.forwardee h.mem p) =
      BrooksPointer.forwardee h.mem p ∧
    (BrooksPointer.forwardee h.mem p ≠ p →
      h.in_cset p = true ∧ h.in_cset (BrooksPointer.forwardee h.mem p) = false)

/-- A heap for concrete evaluations: the object 16 has been allocated, the addresses
below 64 have become the collection set, and 16 has been evacuated to 128. -/
def sample : ObjectHeap :=
  evacuate_object
    (choose_collection_set
      (new_object { mem := fun _ => 0, objects := [], in_cset := fun _ => false } 16)
      (fun p => decide (p < 64)))
    16 128

end ObjectHeap

/-- A barrier context for concrete evaluations: read barriers switched off, write and
acmp barriers on, GC state `HAS_FORWARDED`, and the object 16 forwarded to 32. -/
def sample_context : BarrierContext :=
  { ShenandoahReadBarrier := false,
    ShenandoahWriteBarrier := true,
    ShenandoahAcmpBarrier := true,
    gc_state := HAS_FORWARDED,
    mem := fun a => if a = 8 then 32 else if a = 24 then 32 else 0,
    in_cset_fast_test := fun _ => 0,
    region_size_bytes_shift := 20,
    write_barrier_IRT := fun p => p }

/-- The context `sample_context` with read barriers switched on, for concrete
evaluations. -/
def resolving_context : BarrierContext :=
  { sample_context with ShenandoahReadBarrier := true }

/-! ## The collector state and the degenerated cycle (shenandoahHeap.cpp) -/

/-- The enumeration `ShenandoahDegenPoint`. -/
inductive ShenandoahDegenPoint where
  | _degenerated_unset
  | _degenerated_outside_cycle
  | _degenerated_mark
  | _degenerated_evac
  | _degenerated_updaterefs
  | _DEGENERATED_LIMIT
  deriving DecidableEq, Repr

/-- The operations that `op_degenerated` calls, and its progress check; they tag the
records of the trace kept in `ShenandoahHeap.log`. -/
inductive GCPhase where
  | init_mark
  | final_mark
  | cleanup
  | evac
  | init_updaterefs
  | final_updaterefs
  | cleanup_bitmaps
  | progress_check
  | full_gc
  deriving DecidableEq, Repr

/-- One record of the trace: the operation that has run and the value that
`cancelled_gc()` has when it returns. -/
structure PhaseRecord where
  phase : GCPhase
  cancelled_at_exit : Bool
  deriving DecidableEq, Repr

/-- The steps of the cycle during which worker threads run and a cancellation request
(`cancel_gc`, for example on an evacuation failure) may arrive. -/
inductive GCStep where
  | init_mark_roots
  | finish_mark_from_roots
  | evacuate_and_update_roots
  | parallel_evacuation
  | init_updaterefs
  | update_heap_references
  | update_roots
  deriving DecidableEq, Repr

/-- What the cycle takes from outside the heap object: the cancellation requests that
arrive during each step, the collection set that the heuristics choose, the free set
that `rebuild` computes, the verdicts of the metrics snapshots, and two flags. -/
structure GCEnvironment where
  cancel_during : GCStep → Bool
  choose_collection_set : List Nat
  free_set_rebuild : List Nat
  is_good_progress_degenerated : Bool
  is_good_progress_full : Bool
  ShenandoahRefProcFrequency : Nat
  ClassUnloading : Bool

/-- The fields of `ShenandoahHeap` (and of the objects it owns) that the cycle
operations read or write.  Regions are named by their index; `trash` lists the regions
in state Trash, `degenerated_upgrade_to_full` is the counter behind
`ShenandoahCollectorPolicy::record_degenerated_upgrade_to_full`, `full_gc_count` counts
the runs of `full_gc()->do_it`, and `log` is the trace of `op_degenerated`. -/
structure ShenandoahHeap where
  _gc_state : Nat
  _cancelled_gc : Bool
  _collection_set : List Nat
  _free_set : List Nat
  trash : List Nat
  _complete_marking_context : Nat
  _next_marking_context : Nat
  _update_refs_iterator_has_next : Bool
  _progress_last_gc : Bool
  _process_references : Bool
  _unload_classes : Bool
  degenerated_upgrade_to_full : Nat
  full_gc_count : Nat
  log : List PhaseRecord
  deriving DecidableEq, Repr

/-- How the `switch` of `op_degenerated` is left: by `return` after
`op_degenerated_fail`, by the `break` of its last case, or through the `default` case
(`ShouldNotReachHere`). -/
inductive SwitchExit where
  | fail_return
  | break_out
  | should_not_reach_here
  deriving DecidableEq, Repr

namespace ShenandoahHeap

/-- The method `set_gc_state_mask(mask, value)`; the copies of the state in the threads
are not part of the model. -/
def set_gc_state_mask (h : ShenandoahHeap) (mask : Nat) (value : Bool) : ShenandoahHeap :=
  { h with _gc_state := set_cond h._gc_state mask value }

/-- The method `set_concurrent_mark_in_progress(in_progress)`. -/
def set_concurrent_mark_in_progress (h : ShenandoahHeap) (in_progress : Bool) :
    ShenandoahHeap :=
  h.set_gc_state_mask MARKING in_progress

/-- The method `set_evacuation_in_progress(in_progress)`. -/
def set_evacuation_in_progress (h : ShenandoahHeap) (in_progress : Bool) : ShenandoahHeap :=
  h.set_gc_state_mask EVACUATION in_progress

/-- The method `set_update_refs_in_progress(in_progress)`. -/
def set_update_refs_in_progress (h : ShenandoahHeap) (in_progress : Bool) : ShenandoahHeap :=
  h.set_gc_state_mask UPDATEREFS in_progress

/-- The method `set_has_forwarded_objects(cond)`. -/
def set_has_forwarded_objects (h : ShenandoahHeap) (cond : Bool) : ShenandoahHeap :=
  h.set_gc_state_mask HAS_FORWARDED cond

/-- Modelled from the spec: `is_evacuation_in_progress()` (shenandoahHeap.inline.hpp, not
embedded here), the `evacuating` bit of the GC state. -/
def is_evacuation_in_progress (h : ShenandoahHeap) : Bool :=
  is_set h._gc_state EVACUATION

/-- Modelled from the spec: `has_forwarded_objects()` (shenandoahHeap.inline.hpp, not
embedded here), the `has-forwarded-objects` bit of the GC state. -/
def has_forwarded_objects (h : ShenandoahHeap) : Bool :=
  is_set h._gc_state HAS_FORWARDED

/-- Modelled from the spec: `cancelled_gc()` (shenandoahHeap.inline.hpp, not embedded
here), the value of the cancellation flag. -/
def cancelled_gc (h : ShenandoahHeap) : Bool :=
  h._cancelled_gc

/-- Modelled from the spec: `clear_cancelled_gc()` (shenandoahHeap.inline.hpp, not
embedded here), which resets the cancellation flag. -/
def clear_cancelled_gc (h : ShenandoahHeap) : ShenandoahHeap :=
  { h with _cancelled_gc := false }

/-- The method `cancel_gc(cause)`: the flag is set (the message is not modelled). -/
def cancel_gc (h : ShenandoahHeap) : ShenandoahHeap :=
  { h with _cancelled_gc := true }

/-- A step during which a cancellation request may arrive: the flag is set if
the environment says so. -/
def run_step (env : GCEnvironment) (step : GCStep) (h : ShenandoahHeap) : ShenandoahHeap :=
  { h with _cancelled_gc := h._cancelled_gc || env.cancel_during step }

/-- Appends to the trace the record of an operation that has just returned. -/
def record (phase : GCPhase) (h : ShenandoahHeap) : ShenandoahHeap :=
  { h with log := h.log ++ [{ phase := phase, cancelled_at_exit := h._cancelled_gc }] }

/-- The method `swap_mark_contexts()`. -/
def swap_mark_contexts (h : ShenandoahHeap) : ShenandoahHeap :=
  let tmp := h._complete_marking_context
  { h with _complete_marking_context := h._next_marking_context,
           _next_marking_context := tmp }

/-- The method `stop_concurrent_marking()`. -/
def stop_concurrent_marking (h : ShenandoahHeap) : ShenandoahHeap :=
  let h := if !h.cancelled_gc then (h.set_has_forwarded_objects false).swap_mark_contexts else h
  h.set_concurrent_mark_in_progress false

/-- The method `trash_cset_regions()`: every region of the collection set becomes
trash and the collection set is cleared. -/
def trash_cset_regions (h : ShenandoahHeap) : ShenandoahHeap :=
  { h with trash := h.trash ++ h._collection_set, _collection_set := [] }

/-- The method `prepare_for_concurrent_evacuation()`. -/
def prepare_for_concurrent_evacuation (env : GCEnvironment) (h : ShenandoahHeap) :
    ShenandoahHeap :=
  if !h.cancelled_gc then
    let h := h.trash_cset_regions
    let h := { h with _collection_set := [], _free_set := [] }
    let h := { h with _collection_set := h._collection_set ++ env.choose_collection_set }
    { h with _free_set := env.free_set_rebuild }
  else h

/-- The method `op_init_mark()`. -/
def op_init_mark (env : GCEnvironment) (h : ShenandoahHeap) : ShenandoahHeap :=
  let h := h.set_concurrent_mark_in_progress true
  run_step env GCStep.init_mark_roots h

/-- The method `op_final_mark()`; the reference processor, which the cancelled branch
tells to abandon its discovery, is not part of the model. -/
def op_final_mark (env : GCEnvironment) (h : ShenandoahHeap) : ShenandoahHeap :=
  if !h.cancelled_gc then
    let h := run_step env GCStep.finish_mark_from_roots h
    let h := h.stop_concurrent_marking
    let h := prepare_for_concurrent_evacuation env h
    if !h._collection_set.isEmpty then
      let h := h.set_evacuation_in_progress true
      let h := h.set_has_forwarded_objects true
      run_step env GCStep.evacuate_and_update_roots h
    else h
  else
    h.stop_concurrent_marking

/-- The method `op_evac()`. -/
def op_evac (env : GCEnvironment) (h : ShenandoahHeap) : ShenandoahHeap :=
  run_step env GCStep.parallel_evacuation h

/-- The method `op_cleanup()`: `free_set()->recycle_trash()`. -/
def op_cleanup (h : ShenandoahHeap) : ShenandoahHeap :=
  { h with trash := [] }

/-- The method `reset_next_mark_bitmap()`; the content of the bitmaps is not part of
the model. -/
def reset_next_mark_bitmap (h : ShenandoahHeap) : ShenandoahHeap :=
  h

/-- The method `op_cleanup_bitmaps()`. -/
def op_cleanup_bitmaps (h : ShenandoahHeap) : ShenandoahHeap :=
  h.op_cleanup.reset_next_mark_bitmap

/-- The method `update_heap_references(concurrent)`: the workers leave regions to the
iterator only when they stop on a cancellation. -/
def update_heap_references (env : GCEnvironment) (h : ShenandoahHeap) : ShenandoahHeap :=
  let h := run_step env GCStep.update_heap_references h
  { h with _update_refs_iterator_has_next := h._cancelled_gc }

/-- The method `op_init_updaterefs()`. -/
def op_init_updaterefs (env : GCEnvironment) (h : ShenandoahHeap) : ShenandoahHeap :=
  let h := h.set_evacuation_in_progress false
  let h := h.set_update_refs_in_progress true
  let h := { h with _update_refs_iterator_has_next := true }
  run_step env GCStep.init_updaterefs h

/-- The method `op_final_updaterefs()`. -/
def op_final_updaterefs (env : GCEnvironment) (h : ShenandoahHeap) : ShenandoahHeap :=
  let h := if h._update_refs_iterator_has_next then
      update_heap_references env h.clear_cancelled_gc
    else h
  let h := if h.cancelled_gc then h.clear_cancelled_gc else h
  let h := run_step env GCStep.update_roots h
  let h := h.trash_cset_regions
  let h := h.set_has_forwarded_objects false
  let h := h.set_update_refs_in_progress false
  { h with _free_set := env.free_set_rebuild }

/-- The method `op_full(cause)`.  Of `full_gc()->do_it(cause)`, which belongs to
shenandoahMarkCompact.cpp and is not embedded here, only the fact that it runs is
kept. -/
def op_full (env : GCEnvironment) (h : ShenandoahHeap) : ShenandoahHeap :=
  let h := { h with full_gc_count := h.full_gc_count + 1 }
  if env.is_good_progress_full then
    { h with _progress_last_gc := true }
  else
    { h with _progress_last_gc := false }

/-- The method `op_degenerated_fail()`. -/
def op_degenerated_fail (env : GCEnvironment) (h : ShenandoahHeap) : ShenandoahHeap :=
  let h := { h with degenerated_upgrade_to_full := h.degenerated_upgrade_to_full + 1 }
  record GCPhase.full_gc (op_full env h)

/-- The method `op_degenerated_futile()`. -/
def op_degenerated_futile (env : GCEnvironment) (h : ShenandoahHeap) : ShenandoahHeap :=
  let h := { h with degenerated_upgrade_to_full := h.degenerated_upgrade_to_full + 1 }
  record GCPhase.full_gc (op_full env h)

/-- The `switch` of `op_degenerated` from `case _degenerated_updaterefs` to its
`break`. -/
def degenerated_updaterefs (env : GCEnvironment) (h : ShenandoahHeap) :
    SwitchExit × ShenandoahHeap :=
  if h.has_forwarded_objects then
    let h := record GCPhase.final_updaterefs (op_final_updaterefs env h)
    if h.cancelled_gc then
      (SwitchExit.fail_return, op_degenerated_fail env h)
    else
      (SwitchExit.break_out, record GCPhase.cleanup_bitmaps h.op_cleanup_bitmaps)
  else
    (SwitchExit.break_out, record GCPhase.cleanup_bitmaps h.op_cleanup_bitmaps)

/-- The second statement of `case _degenerated_evac`, `if (has_forwarded_objects())`,
falling through to `case _degenerated_updaterefs`. -/
def degenerated_init_updaterefs (env : GCEnvironment) (h : ShenandoahHeap) :
    SwitchExit × ShenandoahHeap :=
  if h.has_forwarded_objects then
    let h := record GCPhase.init_updaterefs (op_init_updaterefs env h)
    if h.cancelled_gc then
      (SwitchExit.fail_return, op_degenerated_fail env h)
    else degenerated_updaterefs env h
  else degenerated_updaterefs env h

/-- The `switch` of `op_degenerated` from `case _degenerated_evac`: its first statement,
`if (is_evacuation_in_progress())`, then the second one (the cursor reset by
`clear_current_index` is not part of the model). -/
def degenerated_evac (env : GCEnvironment) (h : ShenandoahHeap) :
    SwitchExit × ShenandoahHeap :=
  if h.is_evacuation_in_progress then
    let h := record GCPhase.evac (op_evac env h)
    if h.cancelled_gc then
      (SwitchExit.fail_return, op_degenerated_fail env h)
    else degenerated_init_updaterefs env h
  else degenerated_init_updaterefs env h

/-- The `switch` of `op_degenerated` from `case _degenerated_mark`, falling through to
`case _degenerated_evac`. -/
def degenerated_mark (env : GCEnvironment) (h : ShenandoahHeap) :
    SwitchExit × ShenandoahHeap :=
  let h := record GCPhase.final_mark (op_final_mark env h)
  if h.cancelled_gc then
    (SwitchExit.fail_return, op_degenerated_fail env h)
  else
    let h := record GCPhase.cleanup h.op_cleanup
    degenerated_evac env h

/-- The `switch` of `op_degenerated` from `case _degenerated_outside_cycle`, falling
through to `case _degenerated_mark`. -/
def degenerated_outside_cycle (env : GCEnvironment) (h : ShenandoahHeap) :
    SwitchExit × ShenandoahHeap :=
  let h := { h with _process_references := decide (env.ShenandoahRefProcFrequency ≠ 0) }
  let h := { h with _unload_classes := env.ClassUnloading }
  let h := record GCPhase.init_mark (op_init_mark env h)
  if h.cancelled_gc then
    (SwitchExit.fail_return, op_degenerated_fail env h)
  else degenerated_mark env h

/-- The `switch (point)` of `op_degenerated`. -/
def degenerated_switch (env : GCEnvironment) (point : ShenandoahDegenPoint)
    (h : ShenandoahHeap) : SwitchExit × ShenandoahHeap :=
  match point with
  | ShenandoahDegenPoint._degenerated_outside_cycle => degenerated_outside_cycle env h
  | ShenandoahDegenPoint._degenerated_mark => degenerated_mark env h
  | ShenandoahDegenPoint._degenerated_evac => degenerated_evac env h
  | ShenandoahDegenPoint._degenerated_updaterefs => degenerated_updaterefs env h
  | _ => (SwitchExit.should_not_reach_here, h)

/-- The part of `op_degenerated` that follows the `switch` when it is left by
`break`: the check for futility. -/
def degenerated_progress_check (env : GCEnvironment) (h : ShenandoahHeap) : ShenandoahHeap :=
  let h := record GCPhase.progress_check h
  if !env.is_good_progress_degenerated then
    let h := { h with _progress_last_gc := false }
    let h := h.cancel_gc
    op_degenerated_futile env h
  else
    { h with _progress_last_gc := true }

/-- The method `op_degenerated(point)`; `none` stands for the fatal error of
`ShouldNotReachHere`. -/
def op_degenerated (env : GCEnvironment) (point : ShenandoahDegenPoint)
    (h : ShenandoahHeap) : Option ShenandoahHeap :=
  let h := h.clear_cancelled_gc
  match degenerated_switch env point h with
  | (SwitchExit.fail_return, h) => some h
  | (SwitchExit.break_out, h) => some (degenerated_progress_check env h)
  | (SwitchExit.should_not_reach_here, _) => none

/-- The operations after which `op_degenerated` checks `cancelled_gc()`. -/
def checked_phases : List GCPhase :=
  [GCPhase.init_mark, GCPhase.final_mark, GCPhase.evac, GCPhase.init_updaterefs,
    GCPhase.final_updaterefs]

/-- The operations of the degenerated cycle proper: all but Full GC and the progress
check. -/
def degenerated_phases : List GCPhase :=
  [GCPhase.init_mark, GCPhase.final_mark, GCPhase.cleanup, GCPhase.evac,
    GCPhase.init_updaterefs, GCPhase.final_updaterefs, GCPhase.cleanup_bitmaps]

/-- A run of the `switch` from `x` that reaches the `break`: no Full GC, no upgrade
recorded, the flag clear, and every operation run is one of the degenerated cycle and
has left the flag clear. -/
def switch_completed (x : ShenandoahHeap) (res : SwitchExit × ShenandoahHeap) : Prop :=
  res.1 = SwitchExit.break_out ∧ res.2._cancelled_gc = false ∧
  res.2.degenerated_upgrade_to_full = x.degenerated_upgrade_to_full ∧
  res.2.full_gc_count = x.full_gc_count ∧
  ∃ l, res.2.log = x.log ++ l ∧
    ∀ r ∈ l, r.cancelled_at_exit = false ∧ r.phase ∈ degenerated_phases

/-- A run of the `switch` from `x` that ends by `op_degenerated_fail(); return`: the
operations before the failing one have left the flag clear, the failing one is a
checked operation that has left it set, and Full GC follows as the last record. -/
def switch_failed (x : ShenandoahHeap) (res : SwitchExit × ShenandoahHeap) : Prop :=
  res.1 = SwitchExit.fail_return ∧
  res.2.degenerated_upgrade_to_full = x.degenerated_upgrade_to_full + 1 ∧
  res.2.full_gc_count = x.full_gc_count + 1 ∧
  ∃ pre p, res.2.log = x.log ++ (pre ++ [{ phase := p, cancelled_at_exit := true },
      { phase := GCPhase.full_gc, cancelled_at_exit := true }]) ∧
    p ∈ checked_phases ∧
    ∀ r ∈ pre, r.cancelled_at_exit = false ∧ r.phase ∈ degenerated_phases

/-- The records that a run has appended to the trace of `before`. -/
def phases_since (before after : ShenandoahHeap) : List PhaseRecord :=
  after.log.drop before.log.length

/-- The operations that the `switch` runs when entered at `point` in the state `x`, in
order. -/
def phases_run (env : GCEnvironment) (point : ShenandoahDegenPoint) (x : ShenandoahHeap) :
    List GCPhase :=
  (phases_since x (degenerated_switch env point x).2).map PhaseRecord.phase

/-- No operation that the `switch` runs when entered at `point` in the state `x` leaves
the cancellation flag set. -/
def no_phase_leaves_flag_set (env : GCEnvironment) (point : ShenandoahDegenPoint)
    (x : ShenandoahHeap) : Prop :=
  ∀ r ∈ phases_since x (degenerated_switch env point x).2, r.cancelled_at_exit = false

/-- Some checked operation that the `switch` runs when entered at `point` in the state
`x` leaves the cancellation flag set. -/
def checked_phase_leaves_flag_set (env : GCEnvironment) (point : ShenandoahDegenPoint)
    (x : ShenandoahHeap) : Prop :=
  ∃ r ∈ phases_since x (degenerated_switch env point x).2,
    r.cancelled_at_exit = true ∧ r.phase ∈ checked_phases

instance (env : GCEnvironment) (point : ShenandoahDegenPoint) (x : ShenandoahHeap) :
    Decidable (no_phase_leaves_flag_set env point x) :=
  inferInstanceAs (Decidable (∀ r ∈ _, _))

instance (env : GCEnvironment) (point : ShenandoahDegenPoint) (x : ShenandoahHeap) :
    Decidable (checked_phase_leaves_flag_set env point x) :=
  inferInstanceAs (Decidable (∃ r ∈ _, _))

/-- The state in which `case _degenerated_mark` is reached from
`case _degenerated_outside_cycle`. -/
def after_init_mark (env : GCEnvironment) (x : ShenandoahHeap) : ShenandoahHeap :=
  record GCPhase.init_mark
    (op_init_mark env
      { x with _process_references := decide (env.ShenandoahRefProcFrequency ≠ 0),
               _unload_classes := env.ClassUnloading })

/-- The state in which `case _degenerated_evac` is reached from
`case _degenerated_mark`. -/
def after_final_mark (env : GCEnvironment) (x : ShenandoahHeap) : ShenandoahHeap :=
  record GCPhase.cleanup (record GCPhase.final_mark (op_final_mark env x)).op_cleanup

/-- The state after the first statement of `case _degenerated_evac`. -/
def after_evac (env : GCEnvironment) (x : ShenandoahHeap) : ShenandoahHeap :=
  if x.is_evacuation_in_progress then record GCPhase.evac (op_evac env x) else x

/-- The state after the second statement of `case _degenerated_evac`. -/
def after_init_updaterefs (env : GCEnvironment) (x : ShenandoahHeap) : ShenandoahHeap :=
  if x.has_forwarded_objects then
    record GCPhase.init_updaterefs (op_init_updaterefs env x)
  else x

/-- The state after the first statement of `case _degenerated_updaterefs`. -/
def after_final_updaterefs (env : GCEnvironment) (x : ShenandoahHeap) : ShenandoahHeap :=
  if x.has_forwarded_objects then
    record GCPhase.final_updaterefs (op_final_updaterefs env x)
  else x

/-- The state at the `break` of the `switch`. -/
def after_cleanup_bitmaps (x : ShenandoahHeap) : ShenandoahHeap :=
  record GCPhase.cleanup_bitmaps x.op_cleanup_bitmaps

/-- A heap just cancelled out of concurrent evacuation, for concrete evaluations. -/
def sample_heap : ShenandoahHeap :=
  { _gc_state := EVACUATION ||| HAS_FORWARDED,
    _cancelled_gc := true,
    _collection_set := [3, 5],
    _free_set := [0, 1],
    trash := [],
    _complete_marking_context := 0,
    _next_marking_context := 1,
    _update_refs_iterator_has_next := false,
    _progress_last_gc := true,
    _process_references := false,
    _unload_classes := false,
    degenerated_upgrade_to_full := 0,
    full_gc_count := 0,
    log := [] }

end ShenandoahHeap

/-- An environment in which no cancellation request arrives and the degenerated cycle
makes progress, for concrete evaluations. -/
def quiet_environment : GCEnvironment :=
  { cancel_during := fun _ => false,
    choose_collection_set := [2],
    free_set_rebuild := [0, 1, 3, 5],
    is_good_progress_degenerated := true,
    is_good_progress_full := true,
    ShenandoahRefProcFrequency := 5,
    ClassUnloading := true }

/-- An environment in which the evacuation is cancelled, for concrete evaluations. -/
def failing_environment : GCEnvironment :=
  { cancel_during := fun step => decide (step = GCStep.parallel_evacuation),
    choose_collection_set := [2],
    free_set_rebuild := [0, 1, 3, 5],
    is_good_progress_degenerated := true,
    is_good_progress_full := true,
    ShenandoahRefProcFrequency := 5,
    ClassUnloading := true }

/-! ## Allocation requests: the derived kinds (shenandoahHeap.hpp) -/

namespace ShenandoahAllocationRequest

/-- The accessor `min_size()`. -/
def min_size (req : ShenandoahAllocationRequest) : Nat :=
  req._min_size

/-- The accessor `actual_size()`. -/
def actual_size (req : ShenandoahAllocationRequest) : Nat :=
  req._actual_size

/-- The method `set_actual_size(v)`. -/
def set_actual_size (req : ShenandoahAllocationRequest) (v : Nat) :
    ShenandoahAllocationRequest :=
  { req with _actual_size := v }

/-- The method `is_mutator_alloc()`. -/
def is_mutator_alloc (req : ShenandoahAllocationRequest) : Bool :=
  match req._alloc_type with
  | AllocType._alloc_tlab => true
  | AllocType._alloc_shared => true
  | AllocType._alloc_gclab => false
  | AllocType._alloc_shared_gc => false

/-- The method `is_gc_alloc()`. -/
def is_gc_alloc (req : ShenandoahAllocationRequest) : Bool :=
  match req._alloc_type with
  | AllocType._alloc_tlab => false
  | AllocType._alloc_shared => false
  | AllocType._alloc_gclab => true
  | AllocType._alloc_shared_gc => true

/-- The method `is_lab_alloc()`. -/
def is_lab_alloc (req : ShenandoahAllocationRequest) : Bool :=
  match req._alloc_type with
  | AllocType._alloc_tlab => true
  | AllocType._alloc_gclab => true
  | AllocType._alloc_shared => false
  | AllocType._alloc_shared_gc => false

end ShenandoahAllocationRequest

/-! ## `allocate_memory` and its accounting (shenandoahHeap.cpp) -/

/-- What one call of `allocate_memory_under_lock(req, in_new_region)` hands back: the
returned pointer (`none` for `NULL`), the argument of `req.set_actual_size` if the
allocator has called it, and the value left in the reference `in_new_region`. -/
structure AllocAttempt where
  result : Option Nat
  actual_size : Option Nat
  in_new_region : Bool
  deriving DecidableEq, Repr

/-- What `allocate_memory` takes from outside: the free-set allocator behind
`allocate_memory_under_lock` (shenandoahFreeSet.cpp, not embedded here), whose answer
may depend on how many calls came before; the value that `last_gc_made_progress()` has
once the control thread has handled a given number of allocation failures; the flag
`ShenandoahFullGCThreshold`; and the failure injection of `ShenandoahAllocFailureALot`. -/
structure AllocEnvironment where
  allocate_memory_under_lock : Nat → ShenandoahAllocationRequest → Bool → AllocAttempt
  last_gc_made_progress : Nat → Bool
  ShenandoahFullGCThreshold : Nat
  ShenandoahAllocFailureALot : Bool
  should_inject_alloc_failure : Bool

/-- The calls that `allocate_memory` makes, as recorded in its trace. -/
inductive AllocEvent where
  | attempt (succeeded : Bool)
  | handle_alloc_failure (words : Nat)
  | notify_heap_changed
  deriving DecidableEq, Repr

/-- The counters of `ShenandoahHeap` that the allocation path maintains. -/
structure AllocCounters where
  _used : Nat
  _bytes_allocated_since_gc_start : Nat
  deriving DecidableEq, Repr

namespace AllocCounters

/-- The method `increase_used(bytes)`: an atomic add to the 64-bit `_used`. -/
def increase_used (c : AllocCounters) (bytes : Nat) : AllocCounters :=
  { c with _used := (c._used + bytes) % WORD_MOD }

/-- The method `increase_allocated(bytes)`: an atomic add to the 64-bit
`_bytes_allocated_since_gc_start`. -/
def increase_allocated (c : AllocCounters) (bytes : Nat) : AllocCounters :=
  { c with _bytes_allocated_since_gc_start :=
      (c._bytes_allocated_since_gc_start + bytes) % WORD_MOD }

/-- The method `notify_mutator_alloc_words(words, waste)`; the notifications to the
pacer are not part of the model. -/
def notify_mutator_alloc_words (c : AllocCounters) (words : Nat) (waste : Bool) :
    AllocCounters :=
  let bytes := (words * HeapWordSize) % WORD_MOD
  let c := if !waste then c.increase_used bytes else c
  c.increase_allocated bytes

end AllocCounters

/-- The state of one run of `allocate_memory`: the heap counters, the request, the
locals `in_new_region`, `result` and `tries`, and for the trace the calls made so far
with the numbers of calls of `allocate_memory_under_lock` and of
`handle_alloc_failure`. -/
structure AllocFrame where
  counters : AllocCounters
  req : ShenandoahAllocationRequest
  in_new_region : Bool
  result : Option Nat
  tries : Nat
  attempts : Nat
  handled : Nat
  events : List AllocEvent
  deriving DecidableEq, Repr

namespace AllocFrame

/-- The statement `result = allocate_memory_under_lock(req, in_new_region)`. -/
def try_allocate (env : AllocEnvironment) (f : AllocFrame) : AllocFrame :=
  let a := env.allocate_memory_under_lock f.attempts f.req f.in_new_region
  { f with
    result := a.result,
    req := match a.actual_size with
      | some v => f.req.set_actual_size v
      | none => f.req,
    in_new_region := a.in_new_region,
    attempts := f.attempts + 1,
    events := f.events ++ [AllocEvent.attempt a.result.isSome] }

/-- The body of the two retry loops: `tries++`, then
`control_thread()->handle_alloc_failure(req.size())`, then a new attempt. -/
def retry (env : AllocEnvironment) (f : AllocFrame) : AllocFrame :=
  let f := { f with tries := (f.tries + 1) % WORD_MOD }
  let f := { f with handled := f.handled + 1,
                    events := f.events ++ [AllocEvent.handle_alloc_failure f.req.size] }
  try_allocate env f

/-- The loop `while (result == NULL && last_gc_made_progress())`; `none` when the fuel
runs out before the loop ends. -/
def retry_while_progress (env : AllocEnvironment) : Nat → AllocFrame → Option AllocFrame
  | 0, f =>
    if f.result.isNone && env.last_gc_made_progress f.handled then none else some f
  | fuel + 1, f =>
    if f.result.isNone && env.last_gc_made_progress f.handled then
      retry_while_progress env fuel (retry env f)
    else some f

/-- The loop `while (result == NULL && tries <= ShenandoahFullGCThreshold)`; `none`
when the fuel runs out before the loop ends. -/
def retry_up_to_threshold (env : AllocEnvironment) : Nat → AllocFrame → Option AllocFrame
  | 0, f =>
    if f.result.isNone && decide (f.tries ≤ env.ShenandoahFullGCThreshold) then none
    else some f
  | fuel + 1, f =>
    if f.result.isNone && decide (f.tries ≤ env.ShenandoahFullGCThreshold) then
      retry_up_to_threshold env fuel (retry env f)
    else some f

/-- The end of `allocate_memory`: the notification of a new region, then the
accounting of a successful allocation with the actual size. -/
def account (f : AllocFrame) : AllocFrame :=
  let f := if f.in_new_region then
      { f with events := f.events ++ [AllocEvent.notify_heap_changed] }
    else f
  if f.result.isSome then
    let actual := f.req.actual_size
    if f.req.is_mutator_alloc then
      { f with counters := f.counters.notify_mutator_alloc_words actual false }
    else
      { f with counters := f.counters.increase_used ((actual * HeapWordSize) % WORD_MOD) }
  else f

/-- The locals of `allocate_memory` at its start. -/
def start (c : AllocCounters) (req : ShenandoahAllocationRequest) : AllocFrame :=
  { counters := c, req := req, in_new_region := false, result := none, tries := 0,
    attempts := 0, handled := 0, events := [] }

end AllocFrame

/-- The method `ShenandoahHeap::allocate_memory(req)`, from the counters `c`; the pacer
and the allocation tracing are not part of the model.  The result is `none` when the
fuel runs out in one of the retry loops, and otherwise the final state, whose `result`
is the returned pointer. -/
def allocate_memory (env : AllocEnvironment) (fuel : Nat) (c : AllocCounters)
    (req : ShenandoahAllocationRequest) : Option AllocFrame :=
  let f := AllocFrame.start c req
  if req.is_mutator_alloc then
    let f :=
      if !env.ShenandoahAllocFailureALot || !env.should_inject_alloc_failure then
        f.try_allocate env
      else f
    let f := { f with tries := 0 }
    match AllocFrame.retry_while_progress env fuel f with
    | none => none
    | some f =>
      match AllocFrame.retry_up_to_threshold env fuel f with
      | none => none
      | some f => some f.account
  else
    some (f.try_allocate env).account

/-- The trace of `n` retries that all fail: `handle_alloc_failure(words)` followed by a
failed attempt, `n` times. -/
def failed_retries (words : Nat) : Nat → List AllocEvent
  | 0 => []
  | n + 1 =>
    failed_retries words n ++
      [AllocEvent.handle_alloc_failure words, AllocEvent.attempt false]

/-- An allocator that never finds memory while the collector makes progress ten times,
with a threshold of three, for concrete evaluations. -/
def starving_environment : AllocEnvironment :=
  { allocate_memory_under_lock := fun _ _ _ =>
      { result := none, actual_size := none, in_new_region := false },
    last_gc_made_progress := fun n => decide (n < 10),
    ShenandoahFullGCThreshold := 3,
    ShenandoahAllocFailureALot := false,
    should_inject_alloc_failure := false }

/-- An allocator that grants five words at address 4096 on its second call, for concrete
evaluations. -/
def granting_environment : AllocEnvironment :=
  { allocate_memory_under_lock := fun n _ _ =>
      if n = 0 then { result := none, actual_size := none, in_new_region := false }
      else { result := some 4096, actual_size := some 5, in_new_region := true },
    last_gc_made_progress := fun _ => true,
    ShenandoahFullGCThreshold := 3,
    ShenandoahAllocFailureALot := false,
    should_inject_alloc_failure := false }

/-- A heap in the middle of concurrent marking, for concrete evaluations. -/
def ShenandoahHeap.marking_heap : ShenandoahHeap :=
  { ShenandoahHeap.sample_heap with
    _gc_state := MARKING, _cancelled_gc := false, _collection_set := [] }

/-- The environment `quiet_environment` with heuristics that choose no region, for
concrete evaluations. -/
def empty_cset_environment : GCEnvironment :=
  { quiet_environment with choose_collection_set := [] }

/-- The environment `quiet_environment` with a degenerated cycle that makes no progress
and a Full GC that does, for concrete evaluations. -/
def futile_environment : GCEnvironment :=
  { quiet_environment with is_good_progress_degenerated := false }

/-- A heap whose concurrent marking has been cancelled, with forwarded objects left
from an earlier cycle, for concrete evaluations. -/
def ShenandoahHeap.cancelled_marking_heap : ShenandoahHeap :=
  { ShenandoahHeap.sample_heap with _gc_state := MARKING ||| HAS_FORWARDED }

/-- The environment `quiet_environment` with a cancellation request that arrives while
marking is finished in the final-mark pause, for concrete evaluations. -/
def late_cancel_environment : GCEnvironment :=
  { quiet_environment with
    cancel_during := fun step => decide (step = GCStep.finish_mark_from_roots) }

/-- The four masks of `GCState` other than `STABLE`. -/
def gc_state_masks : List Nat :=
  [HAS_FORWARDED, MARKING, EVACUATION, UPDATEREFS]

/-! ## Reclaiming a humongous object (shenandoahHeap.cpp) -/

/-- What `trash_humongous_region_at` takes from outside the heap object: the size in
words of the object at an address (`oopDesc::size()`), the number of regions that a
number of bytes needs (`ShenandoahHeapRegion::required_regions`) and the state change
`make_trash()`, acting on the state tag; their files are not embedded here. -/
structure HumongousEnvironment where
  object_size : Nat → Nat
  required_regions : Nat → Nat
  make_trash : RegionState → RegionState

/-- The region table `_regions` of the heap, indexed by region number, with the trace
`make_trash_calls` of the region numbers on which `make_trash()` has been called, in
order. -/
structure RegionTable where
  _regions : List ShenandoahHeapRegion
  make_trash_calls : List Nat
  deriving DecidableEq, Repr

namespace RegionTable

/-- The accessor `num_regions()`. -/
def num_regions (t : RegionTable) : Nat :=
  t._regions.length

/-- Modelled from the spec: `get_region(region_idx)` (shenandoahHeap.inline.hpp, not
embedded here), the region of that number, `NULL` when the number is not below
`num_regions()`. -/
def get_region (t : RegionTable) (region_idx : Nat) : Option ShenandoahHeapRegion :=
  t._regions[region_idx]?

/-- The statements `region = get_region(index); region->make_trash();` of the loop
body; `none` stands for the call through a `NULL` region. -/
def make_trash_at (env : HumongousEnvironment) (t : RegionTable) (index : Nat) :
    Option RegionTable :=
  match t.get_region index with
  | none => none
  | some region =>
    some { _regions := t._regions.set index { region with _state := env.make_trash region._state },
           make_trash_calls := t.make_trash_calls ++ [index] }

/-- The loop `for (size_t i = 0; i < required_regions; i++)` of
`trash_humongous_region_at`, by the number of iterations that remain; `index` is
decremented as a `size_t`. -/
def trash_loop (env : HumongousEnvironment) : Nat → Nat → RegionTable → Option RegionTable
  | 0, _, t => some t
  | remaining + 1, index, t =>
    match make_trash_at env t index with
    | none => none
    | some t => trash_loop env remaining ((index + WORD_MOD - 1) % WORD_MOD) t

/-- The local `required_regions` of `trash_humongous_region_at(start)`: the regions
needed by the object at the bottom of the region plus its forwarding word, in bytes. -/
def humongous_required_regions (env : HumongousEnvironment) (start : ShenandoahHeapRegion) :
    Nat :=
  let humongous_obj := heapword_plus start._bottom BrooksPointer.word_size
  let size := (env.object_size humongous_obj + BrooksPointer.word_size) % WORD_MOD
  env.required_regions ((size * HeapWordSize) % WORD_MOD) % WORD_MOD

/-- The method `trash_humongous_region_at(start)`; the region `start` is given by its
number, which is what `start->region_number()` returns. -/
def trash_humongous_region_at (env : HumongousEnvironment) (t : RegionTable) (start : Nat) :
    Option RegionTable :=
  match t.get_region start with
  | none => none
  | some region =>
    let required_regions := humongous_required_regions env region
    let index := ((start + required_regions) % WORD_MOD + WORD_MOD - 1) % WORD_MOD
    trash_loop env required_regions index t

end RegionTable

/-- The region numbers `start + n - 1, ..., start + 1, start`, in this order. -/
def descending_from (start : Nat) : Nat → List Nat
  | 0 => []
  | n + 1 => (start + n) :: descending_from start n

/-- Regions of 128 words and an object of 300 words, for concrete evaluations. -/
def sample_humongous_environment : HumongousEnvironment :=
  { object_size := fun _ => 300,
    required_regions := fun bytes => (bytes + 1023) / 1024,
    make_trash := fun _ => RegionState._trash }

/-- Five regions of 128 words, of which regions 1 to 3 hold one humongous object, for
concrete evaluations. -/
def sample_table : RegionTable :=
  { _regions :=
      [{ _bottom := 0, _top := 64, _end := 1024, _tlab_allocs := 0, _gclab_allocs := 0,
         _shared_allocs := 8, _state := RegionState._regular },
       { _bottom := 1024, _top := 2048, _end := 2048, _tlab_allocs := 0, _gclab_allocs := 0,
         _shared_allocs := 128, _state := RegionState._humongous_start },
       { _bottom := 2048, _top := 3072, _end := 3072, _tlab_allocs := 0, _gclab_allocs := 0,
         _shared_allocs := 128, _state := RegionState._humongous_cont },
       { _bottom := 3072, _top := 3432, _end := 4096, _tlab_allocs := 0, _gclab_allocs := 0,
         _shared_allocs := 45, _state := RegionState._humongous_cont },
       { _bottom := 4096, _top := 4096, _end := 5120, _tlab_allocs := 0, _gclab_allocs := 0,
         _shared_allocs := 0, _state := RegionState._empty_committed }],
    make_trash_calls := [] }

/-! ## The code-roots iterator (shenandoahCodeRoots.cpp) -/

/-- A `jlong` value: the integer wrapped to 64 bits, two's complement. -/
def jlong_wrap (x : Int) : Int :=
  (x + 2 ^ 63) % 2 ^ 64 - 2 ^ 63

/-- An entry of the list `_recorded_nms`: the nmethod, and what `has_cset_oops(_heap)`
answers for it. -/
structure ShenandoahNMethod where
  _nm : Nat
  has_cset_oops : Bool
  deriving DecidableEq, Repr

/-- Where a worker stands in `fast_parallel_blobs_do`: before the test `_claimed < max`
of the `while`, before the `Atomic::add`, in the `for` loop before the test
`idx < end` with the current `idx` and `end`, or after the loop. -/
inductive BlobsPc where
  | loop_test
  | claim
  | chunk (idx end_ : Nat)
  | returned
  deriving DecidableEq, Repr

/-- The iterator shared by the workers: the cursor `_claimed` (a `jlong`), where each
worker stands, and the trace `blobs_done` of the list indices whose nmethod has been
passed to `f->do_code_blob`, in order. -/
structure ShenandoahCodeRootsIterator where
  _claimed : Int
  workers : List BlobsPc
  blobs_done : List Nat
  deriving DecidableEq, Repr

namespace ShenandoahCodeRootsIterator

/-- The local `stride` of `fast_parallel_blobs_do`. -/
def stride : Nat := 256

/-- A fresh iterator (`_claimed(0)`) that `workers` workers are about to use. -/
def fresh (workers : Nat) : ShenandoahCodeRootsIterator :=
  { _claimed := 0, workers := List.replicate workers BlobsPc.loop_test, blobs_done := [] }

/-- One step of worker `w` in `fast_parallel_blobs_do<CSET_FILTER>` over the list
`list` of recorded nmethods: the test of the `while`; the `Atomic::add`, which in JDK 8
returns the old value, with the computation of `start` and `end` and the `break`; or one
round of the `for` loop.  The wrapped `size_t` and `jlong` arithmetic is kept; the cast
`(int) idx` of an index below `end`, which is at most the `int` length of the list, is
not. -/
def step (CSET_FILTER : Bool) (list : List ShenandoahNMethod) (w : Nat)
    (s : ShenandoahCodeRootsIterator) : ShenandoahCodeRootsIterator :=
  match s.workers[w]? with
  | none => s
  | some BlobsPc.loop_test =>
    if s._claimed < (list.length : Int) then
      { s with workers := s.workers.set w BlobsPc.claim }
    else
      { s with workers := s.workers.set w BlobsPc.returned }
  | some BlobsPc.claim =>
    let cur := (s._claimed % 2 ^ 64).toNat
    let start := cur
    let end_ := min ((cur + stride) % WORD_MOD) list.length
    let s := { s with _claimed := jlong_wrap (s._claimed + (stride : Int)) }
    if start ≥ list.length then
      { s with workers := s.workers.set w BlobsPc.returned }
    else
      { s with workers := s.workers.set w (BlobsPc.chunk start end_) }
  | some (BlobsPc.chunk idx end_) =>
    if idx < end_ then
      let skip :=
        match list[idx]? with
        | some nmr => CSET_FILTER && !nmr.has_cset_oops
        | none => true
      let s := if skip then s else { s with blobs_done := s.blobs_done ++ [idx] }
      { s with workers := s.workers.set w (BlobsPc.chunk ((idx + 1) % WORD_MOD) end_) }
    else
      { s with workers := s.workers.set w BlobsPc.loop_test }
  | some BlobsPc.returned => s

/-- The steps of the workers in the order given by `schedule`, a list of worker
numbers. -/
def run (CSET_FILTER : Bool) (list : List ShenandoahNMethod) (schedule : List Nat)
    (s : ShenandoahCodeRootsIterator) : ShenandoahCodeRootsIterator :=
  schedule.foldl (fun s w => step CSET_FILTER list w s) s

/-- Every worker has left `fast_parallel_blobs_do`. -/
def all_returned (s : ShenandoahCodeRootsIterator) : Prop :=
  ∀ pc ∈ s.workers, pc = BlobsPc.returned

instance (s : ShenandoahCodeRootsIterator) : Decidable s.all_returned :=
  inferInstanceAs (Decidable (∀ pc ∈ _, _))

/-- Worker `w` is in the `for` loop and has still to visit the index `i`. -/
def pending (s : ShenandoahCodeRootsIterator) (w i : Nat) : Prop :=
  ∃ idx end_, s.workers[w]? = some (BlobsPc.chunk idx end_) ∧ idx ≤ i ∧ i < end_

/-- What holds of the iterator whenever `workers` workers run over a list of `length`
entries without the filter, with `c` the value of the cursor: the cursor has not
wrapped, also counting the additions that workers have committed to; every index done
or pending lies below the cursor and the length; no index is done twice, done and
pending, or pending with two workers; every index below the cursor and the length is
done or pending; and a worker has returned only with the cursor at or past the
length. -/
def claims_invariant (length workers c : Nat) (s : ShenandoahCodeRootsIterator) : Prop :=
  s._claimed = (c : Int) ∧
  s.workers.length = workers ∧
  c + stride * s.workers.countP (fun pc => pc == BlobsPc.claim) ≤ length + stride * workers ∧
  s.blobs_done.Nodup ∧
  (∀ i ∈ s.blobs_done, i < c ∧ i < length) ∧
  (∀ w i : Nat, s.pending w i → i < c ∧ i < length ∧ i ∉ s.blobs_done) ∧
  (∀ w w' i : Nat, s.pending w i → s.pending w' i → w = w') ∧
  (∀ i : Nat, i < c → i < length → i ∈ s.blobs_done ∨ ∃ w, s.pending w i) ∧
  (∀ w : Nat, s.workers[w]? = some BlobsPc.returned → length ≤ c)

end ShenandoahCodeRootsIterator

/-- A bound on the steps that a worker standing at `pc` still takes, when it runs alone
with the cursor at `c` over a list of `length` entries. -/
def solo_measure (length : Nat) (pc : BlobsPc) (c : Nat) : Nat :=
  match pc with
  | BlobsPc.returned => 0
  | BlobsPc.loop_test => 3 * (length + ShenandoahCodeRootsIterator.stride - c) + 2
  | BlobsPc.claim => 3 * (length + ShenandoahCodeRootsIterator.stride - c) + 1
  | BlobsPc.chunk idx end_ =>
    3 * (length + ShenandoahCodeRootsIterator.stride - c) + 2 * (end_ - idx) + 3

/-- Three recorded nmethods, for concrete evaluations. -/
def sample_nmethods : List ShenandoahNMethod :=
  [{ _nm := 1000, has_cset_oops := false }, { _nm := 1001, has_cset_oops := true },
    { _nm := 1002, has_cset_oops := false }]

/-- What holds of the locals of `allocate_memory` for the request `req` from the
counters `c` throughout the retry loops: the counters are untouched, the kind and the
requested size of the request are those of `req`, `tries` counts at most the handled
failures, and as long as no attempt has succeeded the trace is `first` followed by the
failed retries. -/
def AllocFrame.retry_invariant (c : AllocCounters) (req : ShenandoahAllocationRequest)
    (first : List AllocEvent) (f : AllocFrame) : Prop :=
  f.counters = c ∧ f.req._alloc_type = req._alloc_type ∧
  f.req._requested_size = req._requested_size ∧ f.tries ≤ f.handled ∧
  (f.result = none → f.events = first ++ failed_retries req.size f.handled)

/-! ## Allocation counters of a region (shenandoahHeapRegion.inline.hpp) -/

namespace ShenandoahHeapRegion

/-- The sum of the three allocation counters, in words. -/
def alloc_total (r : ShenandoahHeapRegion) : Nat :=
  r._tlab_allocs + r._gclab_allocs + r._shared_allocs

/-- What holds of a region that started empty with zero counters, after any `allocate`
calls: `top` lies `alloc_total` words above `bottom` and not above `end`. -/
def counters_invariant (r : ShenandoahHeapRegion) : Prop :=
  r._top = r._bottom + r.alloc_total * HeapWordSize ∧ r._top ≤ r._end ∧ r._end < WORD_MOD

instance (r : ShenandoahHeapRegion) : Decidable r.counters_invariant :=
  inferInstanceAs (Decidable (_ ∧ _ ∧ _))

/-- The counter that `adjust_alloc_metadata` selects for an allocation kind. -/
def counter_of (r : ShenandoahHeapRegion) (type : AllocType) : Nat :=
  match type with
  | AllocType._alloc_shared => r._shared_allocs
  | AllocType._alloc_shared_gc => r._shared_allocs
  | AllocType._alloc_tlab => r._tlab_allocs
  | AllocType._alloc_gclab => r._gclab_allocs

/-- An empty region of eight words with zero counters, for concrete evaluations. -/
def empty_region : ShenandoahHeapRegion :=
  { _bottom := 64, _top := 64, _end := 128,
    _tlab_allocs := 0, _gclab_allocs := 0, _shared_allocs := 0,
    _state := RegionState._empty_committed }

end ShenandoahHeapRegion

/-! ## Iterating over the regions (shenandoahHeap.cpp) -/

/-- One call `blk->heap_region_do(current)` made by `heap_region_iterate`: the number of
the region, what `current->is_humongous_continuation()` and `in_collection_set(current)`
answer when the call is made, whether the region is committed then, and the value that
the call returns. -/
structure RegionVisit where
  index : Nat
  humongous_continuation : Bool
  in_cset : Bool
  committed : Bool
  stop : Bool
  deriving DecidableEq, Repr

/-- What `heap_region_iterate` works on, for a state `σ` of the heap and of the closure
together: the number of regions, the two tests it makes on a region, the test
`is_committed()` (which it does not make) and the closure's `heap_region_do`, which
returns its answer and the state it leaves. Regions are named by their number. -/
structure RegionIteration (σ : Type) where
  num_regions : Nat
  is_humongous_continuation : σ → Nat → Bool
  in_collection_set : σ → Nat → Bool
  is_committed : σ → Nat → Bool
  heap_region_do : σ → Nat → Bool × σ

namespace RegionIteration

/-- The loop `for (size_t i = 0; i < num_regions(); i++)` of `heap_region_iterate`, by
the number of regions that remain from `i` on, with the trace of the calls made.  The
index stays below `num_regions()`, a `size_t`, so `i++` does not wrap. -/
def iterate_loop {σ : Type} (env : RegionIteration σ)
    (skip_cset_regions skip_humongous_continuation : Bool) :
    Nat → Nat → σ × List RegionVisit → σ × List RegionVisit
  | 0, _, st => st
  | remaining + 1, i, (s, calls) =>
    if skip_humongous_continuation && env.is_humongous_continuation s i then
      iterate_loop env skip_cset_regions skip_humongous_continuation remaining (i + 1) (s, calls)
    else if skip_cset_regions && env.in_collection_set s i then
      iterate_loop env skip_cset_regions skip_humongous_continuation remaining (i + 1) (s, calls)
    else
      let visit : RegionVisit :=
        { index := i,
          humongous_continuation := env.is_humongous_continuation s i,
          in_cset := env.in_collection_set s i,
          committed := env.is_committed s i,
          stop := (env.heap_region_do s i).1 }
      if (env.heap_region_do s i).1 then
        ((env.heap_region_do s i).2, calls ++ [visit])
      else
        iterate_loop env skip_cset_regions skip_humongous_continuation remaining (i + 1)
          ((env.heap_region_do s i).2, calls ++ [visit])

/-- The method `heap_region_iterate(blk, skip_cset_regions,
skip_humongous_continuation)`: the state afterwards and the calls made, in order. -/
def heap_region_iterate {σ : Type} (env : RegionIteration σ) (s : σ)
    (skip_cset_regions skip_humongous_continuation : Bool) : σ × List RegionVisit :=
  iterate_loop env skip_cset_regions skip_humongous_continuation env.num_regions 0 (s, [])

/-- Whether the loop passes over region `i` without a call when it reaches it in state
`s`: a set flag excludes the region (`continue`). -/
def excluded {σ : Type} (env : RegionIteration σ)
    (skip_cset_regions skip_humongous_continuation : Bool) (s : σ) (i : Nat) : Bool :=
  (skip_humongous_continuation && env.is_humongous_continuation s i) ||
    (skip_cset_regions && env.in_collection_set s i)

/-- The record of the call `blk->heap_region_do(current)` on region `i` made in state
`s`. -/
def visit {σ : Type} (env : RegionIteration σ) (s : σ) (i : Nat) : RegionVisit :=
  { index := i,
    humongous_continuation := env.is_humongous_continuation s i,
    in_cset := env.in_collection_set s i,
    committed := env.is_committed s i,
    stop := (env.heap_region_do s i).1 }

end RegionIteration

/-- Modelled from the spec: `is_committed()` (shenandoahHeapRegion.hpp, not
embedded here): every state but empty-uncommitted is committed. -/
def ShenandoahHeapRegion.is_committed (r : ShenandoahHeapRegion) : Bool :=
  r._state != RegionState._empty_uncommitted

/-- Modelled from the spec: `is_humongous_continuation()` (shenandoahHeapRegion.hpp, not
embedded here). -/
def ShenandoahHeapRegion.is_humongous_continuation (r : ShenandoahHeapRegion) : Bool :=
  r._state == RegionState._humongous_cont

/-- The iteration over a list of regions with a closure that counts its calls and
answers `stop_at` of the region number; `cset` lists the numbers of the regions in the
collection set. -/
def counting_iteration (regions : List ShenandoahHeapRegion) (cset : List Nat)
    (stop_at : Nat → Bool) : RegionIteration Nat :=
  { num_regions := regions.length,
    is_humongous_continuation := fun _ i =>
      match regions[i]? with
      | some r => r.is_humongous_continuation
      | none => false,
    in_collection_set := fun _ i => cset.contains i,
    is_committed := fun _ i =>
      match regions[i]? with
      | some r => r.is_committed
      | none => false,
    heap_region_do := fun count i => (stop_at i, count + 1) }

/-- Four regions as a heap has them: regular, humongous start, humongous continuation and
empty-uncommitted, for concrete evaluations. -/
def sample_regions : List ShenandoahHeapRegion :=
  [{ _bottom := 0, _top := 64, _end := 1024, _tlab_allocs := 0, _gclab_allocs := 0,
     _shared_allocs := 8, _state := RegionState._regular },
   { _bottom := 1024, _top := 2048, _end := 2048, _tlab_allocs := 0, _gclab_allocs := 0,
     _shared_allocs := 128, _state := RegionState._humongous_start },
   { _bottom := 2048, _top := 2448, _end := 3072, _tlab_allocs := 0, _gclab_allocs := 0,
     _shared_allocs := 50, _state := RegionState._humongous_cont },
   { _bottom := 3072, _top := 3072, _end := 4096, _tlab_allocs := 0, _gclab_allocs := 0,
     _shared_allocs := 0, _state := RegionState._empty_uncommitted }]

/-! ## The memory pool (services/shenandoahMemoryPool.cpp) -/

/-- The four values of a `MemoryUsage`, in the order of its constructor. -/
structure MemoryUsage where
  initSize : Nat
  used : Nat
  committed : Nat
  maxSize : Nat
  deriving DecidableEq, Repr

/-- The four assertions of `ShenandoahMemoryPool::get_memory_usage`, in source order. -/
inductive PoolAssertion where
  | initial_le_max
  | used_le_max
  | committed_le_max
  | used_le_committed
  deriving DecidableEq, Repr

/-- The method `ShenandoahMemoryPool::get_memory_usage()` in a build with assertions, as
a function of what `initial_size()`, `max_size()`, `used_in_bytes()` and
`_heap->committed()` return; a failed assertion is an error. -/
def get_memory_usage (initial_size max_size used_in_bytes heap_committed : Nat) :
    Except PoolAssertion MemoryUsage :=
  let initial := initial_size
  let max := max_size
  let used := used_in_bytes
  let committed := heap_committed
  if ¬ initial ≤ max then Except.error PoolAssertion.initial_le_max
  else if ¬ used ≤ max then Except.error PoolAssertion.used_le_max
  else if ¬ committed ≤ max then Except.error PoolAssertion.committed_le_max
  else if ¬ used ≤ committed then Except.error PoolAssertion.used_le_committed
  else
    let committed := Nat.max used committed
    Except.ok { initSize := initial, used := used, committed := committed, maxSize := max }

/-! ## Liveness of a region (shenandoahHeapRegion.inline.hpp, shenandoahHeap.cpp) -/

/-- A `jint` value: the integer wrapped to 32 bits, two's complement. -/
def jint_wrap (x : Int) : Int :=
  (x + 2 ^ 31) % 2 ^ 32 - 2 ^ 31

/-- The constant `max_jint`. -/
def max_jint : Nat := 2 ^ 31 - 1

/-- A region together with its field `_live_data`, a `jint` counting live words, which
`allocate` does not touch. -/
structure RegionLiveness where
  region : ShenandoahHeapRegion
  _live_data : Int
  deriving DecidableEq, Repr

/-- The two assertions of `internal_increase_live_data`, in source order. -/
inductive LiveAssertion where
  | sanity
  | live_le_used
  deriving DecidableEq, Repr

namespace RegionLiveness

/-- Modelled from the spec: `used()` (space.hpp, not embedded here), the bytes from
`bottom` to `top`. -/
def used (r : RegionLiveness) : Nat :=
  (r.region._top + WORD_MOD - r.region._bottom) % WORD_MOD

/-- Modelled from the spec: `is_active()` (shenandoahHeapRegion.hpp, not embedded
here): the region is neither empty nor trash. -/
def is_active (r : RegionLiveness) : Bool :=
  match r.region._state with
  | RegionState._empty_uncommitted => false
  | RegionState._empty_committed => false
  | RegionState._trash => false
  | _ => true

/-- The method `internal_increase_live_data(s)` in a build with assertions: the
`Atomic::add` on a `jint` returns the updated value, which is converted to `size_t`; a
failed assertion is an error. -/
def internal_increase_live_data (r : RegionLiveness) (s : Nat) :
    Except LiveAssertion RegionLiveness :=
  if ¬ s < max_jint then Except.error LiveAssertion.sanity
  else
    let updated := jint_wrap (r._live_data + jint_wrap (s : Int))
    let new_live_data := (updated % 2 ^ 64).toNat
    let live_bytes := (new_live_data * HeapWordSize) % WORD_MOD
    let used_bytes := r.used
    if ¬ live_bytes ≤ used_bytes then Except.error LiveAssertion.live_le_used
    else Except.ok { r with _live_data := updated }

/-- The method `increase_live_data_alloc_words(s)`. -/
def increase_live_data_alloc_words (r : RegionLiveness) (s : Nat) :
    Except LiveAssertion RegionLiveness :=
  r.internal_increase_live_data s

/-- The body of the loop of `op_final_mark` that completes liveness, for one region
whose top-at-mark-start in the complete marking context is `tams`. -/
def complete_liveness_of (tams : Nat) (r : RegionLiveness) :
    Except LiveAssertion RegionLiveness :=
  if !r.is_active then Except.ok r
  else
    let top := r.region._top
    if top > tams then r.increase_live_data_alloc_words (pointer_delta top tams)
    else Except.ok r

/-- What C26 assumes of a region with top-at-mark-start `tams`: the addresses are
64-bit values with `bottom <= tams`, the region is smaller than `max_jint` words, and the
marked live words are at most the words from `bottom` to `tams`. -/
def marked_below_tams (tams : Nat) (r : RegionLiveness) : Prop :=
  r.region._bottom ≤ tams ∧ tams < WORD_MOD ∧ r.region._top < WORD_MOD ∧
  r.region._top - r.region._bottom < max_jint * HeapWordSize ∧
  0 ≤ r._live_data ∧ r._live_data * 8 ≤ ((tams - r.region._bottom : Nat) : Int)

instance (tams : Nat) (r : RegionLiveness) : Decidable (marked_below_tams tams r) :=
  inferInstanceAs (Decidable (_ ∧ _ ∧ _ ∧ _ ∧ _ ∧ _))

end RegionLiveness

/-- The loop of `op_final_mark` under the phase `complete_liveness`, over the regions
from number `i` on; `top_at_mark_start` is that of the complete marking context. -/
def complete_liveness (top_at_mark_start : Nat → Nat) :
    Nat → List RegionLiveness → Except LiveAssertion (List RegionLiveness)
  | _, [] => Except.ok []
  | i, r :: rest =>
    match r.complete_liveness_of (top_at_mark_start i) with
    | Except.error e => Except.error e
    | Except.ok r' =>
      match complete_liveness top_at_mark_start (i + 1) rest with
      | Except.error e => Except.error e
      | Except.ok rest' => Except.ok (r' :: rest')

/-- A regular region of 128 words with 100 in use, 40 of them marked live below a
top-at-mark-start 60 words up, for concrete evaluations. -/
def sample_live_region : RegionLiveness :=
  { region := { _bottom := 1024, _top := 1824, _end := 2048, _tlab_allocs := 100,
                _gclab_allocs := 0, _shared_allocs := 0, _state := RegionState._regular },
    _live_data := 40 }

/-! ## Bitmap slices (shenandoahHeap.cpp) -/

/-- A call to the operating system on one of the two marking bitmaps (`0` for
`_bitmap0_region`, `1` for `_bitmap1_region`): `os::commit_memory(start + off, len,
false)` or `os::uncommit_memory(start + off, len)`. -/
inductive OsCall where
  | commit_memory (bitmap off len : Nat)
  | uncommit_memory (bitmap off len : Nat)
  deriving DecidableEq, Repr

/-- The part of the heap that the bitmap-slice methods read, with the trace `os_calls` of
the calls they make to the operating system. -/
structure BitmapSlices where
  _regions : List ShenandoahHeapRegion
  _bitmap_regions_per_slice : Nat
  _bitmap_bytes_per_slice : Nat
  os_calls : List OsCall
  deriving DecidableEq, Repr

namespace BitmapSlices

/-- The accessor `num_regions()`. -/
def num_regions (h : BitmapSlices) : Nat :=
  h._regions.length

/-- Whether the region of number `g` exists and is committed. -/
def region_committed (h : BitmapSlices) (g : Nat) : Bool :=
  match h._regions[g]? with
  | some region => region.is_committed
  | none => false

/-- The loop of `is_bitmap_slice_committed` from `g` on, by the number of iterations
that remain; `none` stands for the call through a `NULL` region. -/
def slice_loop (h : BitmapSlices) (r : Nat) (skip_self : Bool) : Nat → Nat → Option Bool
  | 0, _ => some false
  | remaining + 1, g =>
    if skip_self && g == r then slice_loop h r skip_self remaining (g + 1)
    else
      match h._regions[g]? with
      | none => none
      | some region =>
        if region.is_committed then some true
        else slice_loop h r skip_self remaining (g + 1)

/-- The method `is_bitmap_slice_committed(r, skip_self)`; the region `r` is given by its
number. -/
def is_bitmap_slice_committed (h : BitmapSlices) (r : Nat) (skip_self : Bool) : Option Bool :=
  let slice := r / h._bitmap_regions_per_slice
  let regions_from := (h._bitmap_regions_per_slice * slice) % WORD_MOD
  let regions_to := min h.num_regions ((h._bitmap_regions_per_slice * (slice + 1)) % WORD_MOD)
  slice_loop h r skip_self (regions_to - regions_from) regions_from

/-- The method `commit_bitmap_slice(r)`: the value returned and the heap afterwards;
`os_commit_memory` tells whether the operating system grants a request. -/
def commit_bitmap_slice (os_commit_memory : Nat → Nat → Nat → Bool) (h : BitmapSlices)
    (r : Nat) : Option (Bool × BitmapSlices) :=
  match h.is_bitmap_slice_committed r true with
  | none => none
  | some true => some (true, h)
  | some false =>
    let slice := r / h._bitmap_regions_per_slice
    let off := (h._bitmap_bytes_per_slice * slice) % WORD_MOD
    let len := h._bitmap_bytes_per_slice
    let h := { h with os_calls := h.os_calls ++ [OsCall.commit_memory 0 off len] }
    if !os_commit_memory 0 off len then some (false, h)
    else
      let h := { h with os_calls := h.os_calls ++ [OsCall.commit_memory 1 off len] }
      if !os_commit_memory 1 off len then some (false, h)
      else some (true, h)

/-- The method `uncommit_bitmap_slice(r)`: the value returned and the heap afterwards;
`os_uncommit_memory` tells whether the operating system grants a request. -/
def uncommit_bitmap_slice (os_uncommit_memory : Nat → Nat → Nat → Bool) (h : BitmapSlices)
    (r : Nat) : Option (Bool × BitmapSlices) :=
  match h.is_bitmap_slice_committed r true with
  | none => none
  | some true => some (true, h)
  | some false =>
    let slice := r / h._bitmap_regions_per_slice
    let off := (h._bitmap_bytes_per_slice * slice) % WORD_MOD
    let len := h._bitmap_bytes_per_slice
    let h := { h with os_calls := h.os_calls ++ [OsCall.uncommit_memory 0 off len] }
    if !os_uncommit_memory 0 off len then some (false, h)
    else
      let h := { h with os_calls := h.os_calls ++ [OsCall.uncommit_memory 1 off len] }
      if !os_uncommit_memory 1 off len then some (false, h)
      else some (true, h)

/-- Some committed region shares the bitmap slice of region `r`: its number has the
same quotient by the regions per slice; with `skip_self`, `r` itself does not count. -/
def group_committed (h : BitmapSlices) (r : Nat) (skip_self : Bool) : Prop :=
  ∃ g, g < h.num_regions ∧
    g / h._bitmap_regions_per_slice = r / h._bitmap_regions_per_slice ∧
    ¬ (skip_self = true ∧ g = r) ∧ h.region_committed g = true

end BitmapSlices

/-- The regions of `sample_regions` with two regions to a bitmap slice of 4096 bytes,
for concrete evaluations. -/
def sample_slices : BitmapSlices :=
  { _regions := sample_regions,
    _bitmap_regions_per_slice := 2,
    _bitmap_bytes_per_slice := 4096,
    os_calls := [] }

/-! ## The string deduplication thread (shenandoahStrDedupThread.cpp) -/

/-- The fields of `ShenandoahStrDedupThread` that the two iterations over the work lists
read or write: the claim counter `_claimed`, seen as the `jint` that `claim()` adds to,
and the array `_work_list`, one chain of chunked lists of oops per queue (the empty chain
for `NULL`); with the traces `queues_done` of the queue indices whose chain has been
walked and `oops_done` of the calls `cl->do_oop`, each with the index of its queue. -/
structure ShenandoahStrDedupThread where
  _claimed : Int
  _work_list : List (List (List Nat))
  queues_done : List Nat
  oops_done : List (Nat × Nat)
  deriving DecidableEq, Repr

namespace ShenandoahStrDedupThread

/-- The value of `queues()->num_queues()`, the length of `_work_list`. -/
def num_queues (t : ShenandoahStrDedupThread) : Nat :=
  t._work_list.length

/-- The loop `while (q != NULL) { q->oops_do(cl); q = q->next(); }` over a chain:
`q->oops_do(cl)` passes each oop of the chunk to the closure. -/
def walk_chain (index : Nat) : List (List Nat) → List (Nat × Nat) → List (Nat × Nat)
  | [], done => done
  | q :: next, done => walk_chain index next (done ++ q.map (fun o => (index, o)))

/-- The body shared by the loops of `parallel_oops_do` and `oops_do_slow`: the chain
`_work_list[index]` is walked. -/
def walk_queue (t : ShenandoahStrDedupThread) (index : Nat) : ShenandoahStrDedupThread :=
  { t with queues_done := t.queues_done ++ [index],
           oops_done := walk_chain index (t._work_list.getD index []) t.oops_done }

/-- The method `claim()`: `Atomic::add` on a `jint` returns the updated value, which is
converted to `size_t` before one is subtracted. -/
def claim (t : ShenandoahStrDedupThread) : Nat × ShenandoahStrDedupThread :=
  let updated := jint_wrap (t._claimed + 1)
  let index := ((updated % 2 ^ 64).toNat + WORD_MOD - 1) % WORD_MOD
  (index, { t with _claimed := updated })

/-- The method `parallel_oops_do(cl)`, with fuel for the number of calls to `claim()`;
`none` when the fuel does not suffice. -/
def parallel_oops_do : Nat → ShenandoahStrDedupThread → Option ShenandoahStrDedupThread
  | 0, _ => none
  | fuel + 1, t =>
    let claimed_index := t.claim.1
    let t := t.claim.2
    if claimed_index < t.num_queues then parallel_oops_do fuel (t.walk_queue claimed_index)
    else some t

/-- The loop of `oops_do_slow` from `index` on, by the number of queues that remain. -/
def oops_do_slow_loop : Nat → Nat → ShenandoahStrDedupThread → ShenandoahStrDedupThread
  | 0, _, t => t
  | remaining + 1, index, t => oops_do_slow_loop remaining (index + 1) (t.walk_queue index)

/-- The method `oops_do_slow(cl)`. -/
def oops_do_slow (t : ShenandoahStrDedupThread) : ShenandoahStrDedupThread :=
  oops_do_slow_loop t.num_queues 0 t

/-- Calls of `parallel_oops_do` one after the other, `callers` of them. -/
def successive_callers (fuel : Nat) :
    Nat → ShenandoahStrDedupThread → Option ShenandoahStrDedupThread
  | 0, t => some t
  | callers + 1, t =>
    match parallel_oops_do fuel t with
    | none => none
    | some t => successive_callers fuel callers t

end ShenandoahStrDedupThread

/-- Three queues, the second without work, the third with a chain of two chunks, and a
claim counter of 0, for concrete evaluations. -/
def sample_dedup_thread : ShenandoahStrDedupThread :=
  { _claimed := 0,
    _work_list := [[[16, 24]], [], [[32], [40, 48]]],
    queues_done := [],
    oops_done := [] }

/-! ## The root processor (shenandoahRootProcessor.cpp) -/

/-- The tasks of `_process_strong_tasks` that `process_vm_roots` claims, named as in the
source (`SHENANDOAH_RP_PS_..._oops_do`). -/
inductive RootTask where
  | Universe_oops_do
  | JNIHandles_oops_do
  | FlatProfiler_oops_do
  | Management_oops_do
  | jvmti_oops_do
  | SystemDictionary_oops_do
  | JNIHandles_weak_oops_do
  deriving DecidableEq, Repr

/-- Modelled from the spec: `SubTasksDone::is_task_claimed(t)` (workgroup.cpp, not
embedded here), "mark each task as claimed, first claimant executes it": in one atomic
step the task is marked, and the answer is whether it was marked before.  The set of
marked tasks is the list `claimed`. -/
def is_task_claimed (claimed : List RootTask) (t : RootTask) : Bool × List RootTask :=
  if claimed.contains t then (true, claimed) else (false, t :: claimed)

/-- The tasks that `process_vm_roots` tries to claim, in source order; the last one only
when `jni_weak_roots` is not `NULL`, as when called by `process_all_roots` and not when
called by `process_strong_roots`. -/
def vm_root_tasks (jni_weak_roots : Bool) : List RootTask :=
  [RootTask.Universe_oops_do, RootTask.JNIHandles_oops_do, RootTask.FlatProfiler_oops_do,
    RootTask.Management_oops_do, RootTask.jvmti_oops_do, RootTask.SystemDictionary_oops_do] ++
  (if jni_weak_roots then [RootTask.JNIHandles_weak_oops_do] else [])

/-- Where a worker stands in `process_vm_roots`: before the calls of `is_task_claimed`
for the tasks `rest` (with `rest` empty, past all of them), or inside the block of task
`t`, about to scan its roots, with `rest` still to come.  The roots that
`process_vm_roots` scans without a task of `_process_strong_tasks` (string deduplication,
monitors, string table) are not part of the model. -/
inductive VmRootsPc where
  | testing (rest : List RootTask)
  | scanning (t : RootTask) (rest : List RootTask)
  deriving DecidableEq, Repr

/-- The tasks for which the worker has still to call `is_task_claimed`. -/
def VmRootsPc.remaining : VmRootsPc → List RootTask
  | VmRootsPc.testing rest => rest
  | VmRootsPc.scanning _ rest => rest

/-- A bound on the steps that a worker at this place still takes. -/
def VmRootsPc.steps_left : VmRootsPc → Nat
  | VmRootsPc.testing rest => 2 * rest.length
  | VmRootsPc.scanning _ rest => 2 * rest.length + 1

/-- A `ShenandoahRootProcessor` shared by workers: the marked tasks of
`_process_strong_tasks`, where each worker stands, and the trace `scanned` of the root
categories scanned, each with the number of the worker that scanned it. -/
structure ShenandoahRootProcessor where
  _process_strong_tasks : List RootTask
  workers : List VmRootsPc
  scanned : List (Nat × RootTask)
  deriving DecidableEq, Repr

namespace ShenandoahRootProcessor

/-- A new root processor that one worker per entry of `calls` is about to use, each
entering `process_vm_roots` with `jni_weak_roots` given or not. -/
def fresh (calls : List Bool) : ShenandoahRootProcessor :=
  { _process_strong_tasks := [],
    workers := calls.map (fun jni_weak_roots => VmRootsPc.testing (vm_root_tasks jni_weak_roots)),
    scanned := [] }

/-- One step of worker `w` in `process_vm_roots`: a call of `is_task_claimed`, or the
scan of the roots of the task just claimed. -/
def step (w : Nat) (s : ShenandoahRootProcessor) : ShenandoahRootProcessor :=
  match s.workers[w]? with
  | none => s
  | some (VmRootsPc.testing []) => s
  | some (VmRootsPc.testing (t :: rest)) =>
    if (is_task_claimed s._process_strong_tasks t).1 then
      { s with _process_strong_tasks := (is_task_claimed s._process_strong_tasks t).2,
               workers := s.workers.set w (VmRootsPc.testing rest) }
    else
      { s with _process_strong_tasks := (is_task_claimed s._process_strong_tasks t).2,
               workers := s.workers.set w (VmRootsPc.scanning t rest) }
  | some (VmRootsPc.scanning t rest) =>
    { s with scanned := s.scanned ++ [(w, t)],
             workers := s.workers.set w (VmRootsPc.testing rest) }

/-- The steps of the workers in the order given by `schedule`, a list of worker
numbers. -/
def run (schedule : List Nat) (s : ShenandoahRootProcessor) : ShenandoahRootProcessor :=
  schedule.foldl (fun s w => step w s) s

/-- Every worker is past its last call of `is_task_claimed`. -/
def all_finished (s : ShenandoahRootProcessor) : Prop :=
  ∀ pc ∈ s.workers, pc = VmRootsPc.testing []

instance (s : ShenandoahRootProcessor) : Decidable s.all_finished :=
  inferInstanceAs (Decidable (∀ pc ∈ _, _))

/-- The root categories scanned so far, in order. -/
def categories (s : ShenandoahRootProcessor) : List RootTask :=
  s.scanned.map Prod.snd

/-- Worker `w` is inside the block of task `t`. -/
def scanning_at (s : ShenandoahRootProcessor) (w : Nat) (t : RootTask) : Prop :=
  ∃ rest, s.workers[w]? = some (VmRootsPc.scanning t rest)

/-- What holds of the root processor whenever workers run `process_vm_roots`: no
category has been scanned twice; a category scanned or being scanned is marked, and one
being scanned has not been scanned and is with one worker only; every marked task is
scanned or being scanned; and each of the six tasks that every worker tries to claim is
marked or still ahead of the worker. -/
def tasks_invariant (s : ShenandoahRootProcessor) : Prop :=
  s.categories.Nodup ∧
  (∀ t ∈ s.categories, t ∈ s._process_strong_tasks) ∧
  (∀ (w : Nat) (t : RootTask), s.scanning_at w t →
    t ∈ s._process_strong_tasks ∧ t ∉ s.categories) ∧
  (∀ (w w' : Nat) (t : RootTask), s.scanning_at w t → s.scanning_at w' t → w = w') ∧
  (∀ t ∈ s._process_strong_tasks, t ∈ s.categories ∨ ∃ w, s.scanning_at w t) ∧
  (∀ (w : Nat) (pc : VmRootsPc), s.workers[w]? = some pc →
    ∀ t ∈ vm_root_tasks false, t ∈ pc.remaining ∨ t ∈ s._process_strong_tasks)

end ShenandoahRootProcessor

/-! ## Heap iteration (shenandoahHeap.cpp, object_iterate) -/

/-- What `object_iterate` reads of the heap at the safepoint: the memory, the root slots
that `process_all_roots` hands to the closure, in its order, and for each object the
reference slots that `obj->oop_iterate` hands to the closure, in its order (the root
scan and `oop_iterate` of the object's class are not embedded here; both only apply the
closure to slots). -/
structure ObjectGraph where
  mem : Memory
  roots : List Nat
  oop_iterate : Nat → List Nat

/-- The state of one `object_iterate`: the marked addresses of `_aux_bit_map`, the
`oop_stack` with its top first, and the trace `reported` of the calls of
`cl->do_object`, in order. -/
structure ObjectIteration where
  _aux_bit_map : List Nat
  oop_stack : List Nat
  reported : List Nat
  deriving DecidableEq, Repr

namespace ObjectGraph

/-- The object that the reference in slot `p` stands for: the slot's content, resolved
through the forwarding pointer; `none` for a null reference. -/
def target (g : ObjectGraph) (p : Nat) : Option Nat :=
  if g.mem p = 0 then none else some (resolve_forwarded_not_null g.mem (g.mem p))

/-- `ObjectIterateScanRootClosure::do_oop_work(p)`: load the slot; if it is not null,
resolve forwarding, and if the object is not marked, mark it and push it. -/
def do_oop_work (g : ObjectGraph) (st : ObjectIteration) (p : Nat) : ObjectIteration :=
  let o := g.mem p
  if o ≠ 0 then
    let obj := resolve_forwarded_not_null g.mem o
    if ¬ st._aux_bit_map.contains obj then
      { st with _aux_bit_map := obj :: st._aux_bit_map, oop_stack := obj :: st.oop_stack }
    else st
  else st

/-- The closure applied to the slots `ps` in order. -/
def do_oops (g : ObjectGraph) (st : ObjectIteration) (ps : List Nat) : ObjectIteration :=
  ps.foldl g.do_oop_work st

/-- The loop `while (!oop_stack.is_empty())` of `object_iterate`, with a bound on the
number of iterations: pop, `cl->do_object(obj)`, `obj->oop_iterate(&oops)`. -/
def drain (g : ObjectGraph) : Nat → ObjectIteration → Option ObjectIteration
  | 0, st => if st.oop_stack = [] then some st else none
  | fuel + 1, st =>
    match st.oop_stack with
    | [] => some st
    | obj :: rest =>
      drain g fuel
        (g.do_oops { st with oop_stack := rest, reported := st.reported ++ [obj] }
          (g.oop_iterate obj))

/-- `ShenandoahHeap::object_iterate(cl)`: the objects passed to `cl->do_object`, in
order; `none` when the bound on the loop is too low.  `os_commit_memory` is the answer
of `os::commit_memory` for the auxiliary bitmap, and `_aux_bit_map` the marks read from
the bitmap once committed (no code of `object_iterate` clears it). -/
def object_iterate (g : ObjectGraph) (os_commit_memory : Bool) (_aux_bit_map : List Nat)
    (fuel : Nat) : Option (List Nat) :=
  if !os_commit_memory then some []
  else
    (g.drain fuel
      (g.do_oops { _aux_bit_map := _aux_bit_map, oop_stack := [], reported := [] } g.roots)).map
      (fun st => st.reported)

/-- The objects reachable from the GC roots: the target of a root slot, and the target
of a reference slot of a reachable object. -/
inductive Reachable (g : ObjectGraph) : Nat → Prop where
  | root (p obj : Nat) : p ∈ g.roots → g.target p = some obj → Reachable g obj
  | field (from_ p obj : Nat) : Reachable g from_ → p ∈ g.oop_iterate from_ →
      g.target p = some obj → Reachable g obj

/-- The objects that a traversal comes to when it starts with the marks `marks` in the
bitmap: the unmarked target of a root slot, and the unmarked target of a reference slot
of such an object. -/
inductive ReachableUnmarked (g : ObjectGraph) (marks : List Nat) : Nat → Prop where
  | root (p obj : Nat) : p ∈ g.roots → g.target p = some obj → obj ∉ marks →
      ReachableUnmarked g marks obj
  | field (from_ p obj : Nat) : ReachableUnmarked g marks from_ → p ∈ g.oop_iterate from_ →
      g.target p = some obj → obj ∉ marks → ReachableUnmarked g marks obj

/-- What holds of the traversal that started with the marks `marks`, between two
iterations of the loop: no object is twice on the stack or reported, or both; the marked
objects are those of `marks`, those on the stack and those reported; and every object on
the stack or reported is one that the traversal comes to. -/
def marks_invariant (g : ObjectGraph) (marks : List Nat) (st : ObjectIteration) : Prop :=
  (st.oop_stack ++ st.reported).Nodup ∧
  (∀ x, x ∈ st._aux_bit_map ↔ x ∈ marks ∨ x ∈ st.oop_stack ∨ x ∈ st.reported) ∧
  (∀ x, x ∈ st.oop_stack ∨ x ∈ st.reported → g.ReachableUnmarked marks x)

/-- Every target of the slots `ps` is marked. -/
def targets_marked (g : ObjectGraph) (st : ObjectIteration) (ps : List Nat) : Prop :=
  ∀ p ∈ ps, ∀ obj, g.target p = some obj → obj ∈ st._aux_bit_map

end ObjectGraph

/-- A heap of four objects at 16, 32, 48 and 64 (forwarding word in the word before
each): object 32 has been evacuated to 48; the root slots 1000 and 1008 hold 16 and
null; object 16 refers to 32 and to itself, object 48 to 16; object 64 refers to 16
and nothing refers to it. -/
def sample_graph : ObjectGraph :=
  { mem := fun a =>
      if a = 8 then 16 else if a = 24 then 48 else if a = 40 then 48 else if a = 56 then 64
      else if a = 1000 then 16 else if a = 1008 then 0
      else if a = 2000 then 32 else if a = 2008 then 16
      else if a = 2016 then 16 else if a = 2024 then 16 else 0,
    roots := [1000, 1008],
    oop_iterate := fun obj =>
      if obj = 16 then [2000, 2008] else if obj = 48 then [2016]
      else if obj = 64 then [2024] else [] }

/-! ## Memory dominance of barriers (opto/shenandoahSupport.cpp) -/

/-- What `dominates_memory_impl` asks of a node, as the first of its tests that the node
passes, in the order of the source: `is_top()`, `isa_Phi()`,
`Opcode() == Op_ShenandoahWriteBarrier`, `Opcode() == Op_ShenandoahWBMemProj`,
`is_Proj()`, `is_Call()`, `is_MemBar()`, `is_MergeMem()`, or none of them. -/
inductive NodeClass where
  | top
  | Phi
  | ShenandoahWriteBarrier
  | ShenandoahWBMemProj
  | Proj
  | Call
  | MemBar
  | MergeMem
  | other
  deriving DecidableEq, Repr

/-- A node of the compiler's graph: its class and its inputs `in(0)`, ..., each the
`_idx` of a node or `NULL`; `req()` is the number of inputs. -/
structure Node where
  cls : NodeClass
  ins : List (Option Nat)
  deriving DecidableEq, Repr

namespace Node

/-- The number of inputs: `req()`. -/
def req (n : Node) : Nat := n.ins.length

/-- The input `in(i)`. -/
def input (n : Node) (i : Nat) : Option Nat := (n.ins[i]?).join

end Node

/-- What `dominates_memory_impl` reads through `phase`: the nodes by `_idx`, the node
`C->immutable_memory()`, for a `MergeMem` node the slice
`memory_at(alias_idx)` of the Brooks pointer of `b2`, and the input numbers
`ShenandoahBarrierNode::Memory` and `TypeFunc::Memory` (declared in headers that are
not embedded here). -/
structure PhaseTransform where
  node : Nat → Node
  immutable_memory : Nat
  memory_at : Nat → Option Nat
  Memory : Nat
  TypeFunc_Memory : Nat

/-- How a walk can end without an answer: at `ShouldNotReachHere()`, or because the
bound given for the inner loop over the stack of phis was too low. -/
inductive WalkError where
  | should_not_reach_here
  | inner_bound
  deriving DecidableEq, Repr

namespace ShenandoahBarrierNode

/-- The inner loop `while (phis.is_nonempty() && current == NULL)` of
`dominates_memory_impl`, run when a branch has ended: the next input of the phi on top
of the stack, or of a phi below once the top one has no input left; the stack has its
top first, each entry a phi with the index of its next input.  `none` when the bound
`fuel` on the iterations is too low. -/
def unwind (phase : PhaseTransform) :
    Nat → List (Nat × Nat) → Option (Option Nat × List (Nat × Nat))
  | 0, [] => some (none, [])
  | 0, _ :: _ => none
  | _ + 1, [] => some (none, [])
  | fuel + 1, (phi, idx) :: rest =>
    if idx ≥ (phase.node phi).req then unwind phase fuel rest
    else
      match (phase.node phi).input idx with
      | none => unwind phase fuel ((phi, idx + 1) :: rest)
      | some current => some (some current, (phi, idx + 1) :: rest)

/-- A number of iterations that the inner loop does not exceed. -/
def unwind_bound (phase : PhaseTransform) : List (Nat × Nat) → Nat
  | [] => 0
  | (phi, idx) :: rest => ((phase.node phi).req - idx) + 1 + unwind_bound phase rest

/-- The loop `for (int i = 0; i < 10; i++)` of `dominates_memory_impl`, with `n`
iterations left: `visited` holds the `_idx` of the nodes seen, `phis` is the stack of
phis. -/
def dominates_memory_loop (phase : PhaseTransform) (b1 b2 : Nat) (linear : Bool)
    (fuel : Nat) :
    Nat → Option Nat → List Nat → List (Nat × Nat) → Except WalkError Bool
  | 0, _, _, _ => Except.ok false
  | n + 1, current, visited, phis =>
    match current with
    | none => Except.ok false
    | some c =>
      let seen := visited.contains c
      let visited := if seen then visited else c :: visited
      if seen || (phase.node c).cls = NodeClass.top || c = b1 then
        match unwind phase fuel phis with
        | none => Except.error WalkError.inner_bound
        | some (none, _) => Except.ok true
        | some (some next, phis) =>
          dominates_memory_loop phase b1 b2 linear fuel n (some next) visited phis
      else if c = b2 then Except.ok false
      else if c = phase.immutable_memory then Except.ok false
      else
        match (phase.node c).cls with
        | NodeClass.Phi =>
          if !linear then Except.ok false
          else
            dominates_memory_loop phase b1 b2 linear fuel n ((phase.node c).input 1) visited
              ((c, 2) :: phis)
        | NodeClass.ShenandoahWriteBarrier =>
          dominates_memory_loop phase b1 b2 linear fuel n
            ((phase.node c).input phase.Memory) visited phis
        | NodeClass.ShenandoahWBMemProj =>
          dominates_memory_loop phase b1 b2 linear fuel n ((phase.node c).input 0) visited phis
        | NodeClass.Proj =>
          dominates_memory_loop phase b1 b2 linear fuel n ((phase.node c).input 0) visited phis
        | NodeClass.Call =>
          dominates_memory_loop phase b1 b2 linear fuel n
            ((phase.node c).input phase.TypeFunc_Memory) visited phis
        | NodeClass.MemBar =>
          dominates_memory_loop phase b1 b2 linear fuel n
            ((phase.node c).input phase.TypeFunc_Memory) visited phis
        | NodeClass.MergeMem =>
          dominates_memory_loop phase b1 b2 linear fuel n (phase.memory_at c) visited phis
        | _ => Except.error WalkError.should_not_reach_here

/-- `ShenandoahBarrierNode::dominates_memory_impl(phase, b1, b2, current, linear)`. -/
def dominates_memory_impl (phase : PhaseTransform) (fuel : Nat) (b1 b2 : Nat)
    (current : Option Nat) (linear : Bool) : Except WalkError Bool :=
  dominates_memory_loop phase b1 b2 linear fuel 10 current [] []

/-- `ShenandoahBarrierNode::dominates_memory(phase, b1, b2, linear)`. -/
def dominates_memory (phase : PhaseTransform) (fuel : Nat) (b1 b2 : Nat) (linear : Bool) :
    Except WalkError Bool :=
  dominates_memory_impl phase fuel b1 b2 ((phase.node b2).input phase.Memory) linear

end ShenandoahBarrierNode

/-- A loop with two write barriers: barrier 1 before the loop, barrier 2 in it.  The
memory phi 3 of the loop merges the memory projection 4 of barrier 1 (loop entry) with
the memory projection 5 of barrier 2 (back edge), and is the memory input of barrier
2.  Node 6 is the region of the phi, 7 the value of both barriers, 8 the memory before
barrier 1 and 9 the immutable memory. -/
def sample_loop_phase : PhaseTransform :=
  { node := fun idx =>
      if idx = 1 then { cls := NodeClass.ShenandoahWriteBarrier, ins := [none, some 8, some 7] }
      else if idx = 2 then
        { cls := NodeClass.ShenandoahWriteBarrier, ins := [none, some 3, some 7] }
      else if idx = 3 then { cls := NodeClass.Phi, ins := [some 6, some 4, some 5] }
      else if idx = 4 then { cls := NodeClass.ShenandoahWBMemProj, ins := [some 1] }
      else if idx = 5 then { cls := NodeClass.ShenandoahWBMemProj, ins := [some 2] }
      else { cls := NodeClass.other, ins := [] },
    immutable_memory := 9,
    memory_at := fun _ => none,
    Memory := 1,
    TypeFunc_Memory := 2 }

/-! ## Theorems -/

section RegionLemmas

open ShenandoahHeapRegion

theorem pointer_delta_eq (l r : Nat) (hl : l < 2 ^ 64) (hr : r ≤ l) :
    pointer_delta l r = (l - r) / HeapWordSize := by
  unfold pointer_delta WORD_MOD
  congr 1
  omega

theorem adjust_alloc_metadata_top (r : ShenandoahHeapRegion) (type : AllocType) (size : Nat) :
    (adjust_alloc_metadata r type size)._top = r._top ∧
    (adjust_alloc_metadata r type size)._bottom = r._bottom ∧
    (adjust_alloc_metadata r type size)._end = r._end := by
  cases type <;> simp [adjust_alloc_metadata]

theorem allocate_top (mra : RegionState → RegionState) (r : ShenandoahHeapRegion)
    (size : Nat) (type : AllocType) (hend : r._end < 2 ^ 64) (hle : r._top ≤ r._end) :
    (size ≤ (r._end - r._top) / HeapWordSize →
      allocate mra r size type =
        (some r._top,
          { adjust_alloc_metadata { r with _state := mra r._state } type size with
            _top := r._top + size * HeapWordSize })) ∧
    (¬ size ≤ (r._end - r._top) / HeapWordSize → allocate mra r size type = (none, r)) := by
  have hpd := pointer_delta_eq r._end r._top hend hle
  constructor
  · intro h
    have hfit : r._top + size * HeapWordSize < 2 ^ 64 := by
      unfold HeapWordSize at h ⊢
      omega
    simp only [allocate, hpd, h, if_true, heapword_plus, WORD_MOD, Nat.mod_eq_of_lt hfit]
  · intro h
    simp only [allocate, hpd, h, if_false]

theorem allocate_frame (mra : RegionState → RegionState) (r : ShenandoahHeapRegion)
    (size : Nat) (type : AllocType) :
    (allocate mra r size type).2._bottom = r._bottom ∧
    (allocate mra r size type).2._end = r._end := by
  simp only [allocate]
  split
  · cases type <;> simp [adjust_alloc_metadata]
  · simp

theorem allocate_top_bounds (mra : RegionState → RegionState) (r : ShenandoahHeapRegion)
    (size : Nat) (type : AllocType) (hend : r._end < 2 ^ 64) (hle : r._top ≤ r._end) :
    r._top ≤ (allocate mra r size type).2._top ∧
    (allocate mra r size type).2._top ≤ r._end := by
  obtain ⟨hs, hf⟩ := allocate_top mra r size type hend hle
  by_cases h : size ≤ (r._end - r._top) / HeapWordSize
  · rw [hs h]
    unfold HeapWordSize at h ⊢
    simp only
    omega
  · rw [hf h]
    simp only
    omega

theorem allocate_all_top_bounds (mra : RegionState → RegionState)
    (reqs : List (Nat × AllocType)) :
    ∀ r : ShenandoahHeapRegion, r._end < 2 ^ 64 → r._top ≤ r._end →
      r._top ≤ (allocate_all mra r reqs)._top ∧ (allocate_all mra r reqs)._top ≤ r._end := by
  induction reqs with
  | nil =>
    intro r _ hle
    exact ⟨Nat.le_refl _, hle⟩
  | cons q rest ih =>
    intro r hend hle
    obtain ⟨size, type⟩ := q
    have hb := allocate_top_bounds mra r size type hend hle
    have hfr := allocate_frame mra r size type
    have hrec := ih (allocate mra r size type).2 (by rw [hfr.2]; exact hend)
      (by rw [hfr.2]; exact hb.2)
    rw [hfr.2] at hrec
    exact ⟨Nat.le_trans hb.1 hrec.1, hrec.2⟩

end RegionLemmas

section ForwardingLemmas

open BrooksPointer ObjectHeap

theorem Address_injective (p q : Nat) (hp : p < 2 ^ 64) (hq : q < 2 ^ 64)
    (h : Address p byte_offset = Address q byte_offset) : p = q := by
  unfold Address byte_offset at h
  omega

theorem forwardee_store (mem : Memory) (a v q : Nat) (ha : a < 2 ^ 64) (hq : q < 2 ^ 64) :
    forwardee (mem.store (Address a byte_offset) v) q =
      if q = a then v else forwardee mem q := by
  unfold forwardee Memory.store
  by_cases h : q = a
  · simp [h]
  · have hne : Address q byte_offset ≠ Address a byte_offset :=
      fun hh => h (Address_injective q a hq ha hh)
    simp [h, hne]

theorem forwardee_init (mem : Memory) (a q : Nat) (ha : a < 2 ^ 64) (hq : q < 2 ^ 64) :
    forwardee (init mem a) q = if q = a then a else forwardee mem q :=
  forwardee_store mem a a q ha hq

theorem no_chains_new_object (h : ObjectHeap) (p : Nat) (hinv : h.no_chains)
    (hfresh : h.fresh p) : (h.new_object p).no_chains := by
  obtain ⟨hp0, hp64, hpnew, _⟩ := hfresh
  intro q hq
  simp only [new_object, List.mem_cons] at hq ⊢
  rcases hq with rfl | hq
  · have hself : forwardee (init h.mem q) q = q := by
      rw [forwardee_init _ _ _ hp64 hp64]; simp
    refine ⟨hp0, hp64, ?_, ?_, ?_⟩
    · rw [hself]; exact Or.inl rfl
    · rw [hself, hself]
    · intro hne; exact absurd hself hne
  · obtain ⟨hq0, hq64, hmem, hidem, hcs⟩ := hinv q hq
    have hqp : q ≠ p := fun e => hpnew (e ▸ hq)
    have hfq : forwardee (init h.mem p) q = forwardee h.mem q := by
      rw [forwardee_init _ _ _ hp64 hq64]; simp [hqp]
    have htp : forwardee h.mem q ≠ p := fun e => hpnew (e ▸ hmem)
    have ht64 : forwardee h.mem q < 2 ^ 64 := (hinv _ hmem).2.1
    have hft : forwardee (init h.mem p) (forwardee h.mem q) = forwardee h.mem q := by
      rw [forwardee_init _ _ _ hp64 ht64]; simp [htp, hidem]
    refine ⟨hq0, hq64, ?_, ?_, ?_⟩
    · rw [hfq]; exact Or.inr hmem
    · rw [hfq, hft]
    · rw [hfq]; exact hcs

theorem no_chains_evacuate_object (h : ObjectHeap) (p c : Nat) (hinv : h.no_chains)
    (hp : p ∈ h.objects) (hpcs : h.in_cset p = true) (hfresh : h.fresh c) :
    (h.evacuate_object p c).no_chains := by
  obtain ⟨hc0, hc64, hcnew, hccs⟩ := hfresh
  obtain ⟨_, hp64, _, _, _⟩ := hinv p hp
  have hpc : p ≠ c := fun e => hcnew (e ▸ hp)
  -- the forwarding words after the evacuation
  have hfwd : ∀ q, q < 2 ^ 64 →
      forwardee (h.evacuate_object p c).mem q =
        if q = c then c
        else if q = p ∧ forwardee h.mem p = p then c
        else forwardee h.mem q := by
    intro q hq64
    have h1p : forwardee (init h.mem c) p = forwardee h.mem p := by
      rw [forwardee_init _ _ _ hc64 hp64]; simp [hpc]
    simp only [evacuate_object, h1p]
    by_cases hcas : forwardee h.mem p = p
    · simp only [hcas, if_true]
      rw [forwardee_store _ _ _ _ hp64 hq64, forwardee_init _ _ _ hc64 hq64]
      by_cases hqc : q = c
      · subst hqc
        have : q ≠ p := fun e => hpc e.symm
        simp [this]
      · by_cases hqp : q = p
        · simp [hqp, hpc]
        · simp [hqc, hqp]
    · simp only [hcas, if_false]
      rw [forwardee_init _ _ _ hc64 hq64]
      by_cases hqc : q = c
      · simp [hqc]
      · simp [hqc]
  have hobj : (h.evacuate_object p c).objects = c :: h.objects := rfl
  have hcset : (h.evacuate_object p c).in_cset = h.in_cset := rfl
  have hfc : forwardee (h.evacuate_object p c).mem c = c := by
    rw [hfwd c hc64]; simp
  intro q hq
  rw [hobj, List.mem_cons] at hq
  rw [hobj, hcset]
  rcases hq with rfl | hq
  · refine ⟨hc0, hc64, ?_, ?_, ?_⟩
    · rw [hfc]; exact List.mem_cons_self _ _
    · rw [hfc, hfc]
    · intro hne; exact absurd hfc hne
  · obtain ⟨hq0, hq64, hmem, hidem, hcs⟩ := hinv q hq
    have hqc : q ≠ c := fun e => hcnew (e ▸ hq)
    by_cases hwin : q = p ∧ forwardee h.mem p = p
    · have hfq : forwardee (h.evacuate_object p c).mem q = c := by
        rw [hfwd q hq64]; simp [hqc, hwin]
      refine ⟨hq0, hq64, ?_, ?_, ?_⟩
      · rw [hfq]; exact List.mem_cons_self _ _
      · rw [hfq, hfc]
      · intro _
        rw [hfq]
        exact ⟨hwin.1 ▸ hpcs, hccs⟩
    · have hfq : forwardee (h.evacuate_object p c).mem q = forwardee h.mem q := by
        rw [hfwd q hq64]; simp [hqc, hwin]
      have htc : forwardee h.mem q ≠ c := fun e => hcnew (e ▸ hmem)
      have ht64 : forwardee h.mem q < 2 ^ 64 := (hinv _ hmem).2.1
      have htwin : ¬ (forwardee h.mem q = p ∧ forwardee h.mem p = p) := by
        rintro ⟨e1, e2⟩
        by_cases hqp : q = p
        · exact hwin ⟨hqp, e2⟩
        · have hne : forwardee h.mem q ≠ q := fun e => hqp (e.symm.trans e1)
          have := (hcs hne).2
          rw [e1, hpcs] at this
          exact Bool.noConfusion this
      have hft : forwardee (h.evacuate_object p c).mem (forwardee h.mem q) =
          forwardee h.mem q := by
        rw [hfwd _ ht64]; simp [htc, htwin, hidem]
      refine ⟨hq0, hq64, ?_, ?_, ?_⟩
      · rw [hfq]; exact List.mem_cons_of_mem _ hmem
      · rw [hfq, hft]
      · rw [hfq]; exact hcs

theorem reachable_no_chains (h : ObjectHeap) (hr : Reachable h) : h.no_chains := by
  induction hr with
  | empty mem in_cset =>
    intro p hp
    exact absurd hp (List.not_mem_nil p)
  | alloc h p _ hfresh ih => exact no_chains_new_object h p ih hfresh
  | choose h cset _ hstable ih =>
    intro p hp
    obtain ⟨hp0, hp64, _, _, _⟩ := ih p hp
    have hself : forwardee h.mem p = p := hstable p hp
    simp only [choose_collection_set] at hp ⊢
    refine ⟨hp0, hp64, ?_, ?_, ?_⟩
    · rw [hself]; exact hp
    · rw [hself, hself]
    · intro hne; exact absurd hself hne
  | evac h p c _ hp hcs hfresh ih => exact no_chains_evacuate_object h p c ih hp hcs hfresh
  | trash h _ ih =>
    intro p hp
    simp only [trash_cset_regions, List.mem_filter, Bool.not_eq_true'] at hp ⊢
    obtain ⟨hp0, hp64, _, _, hcs⟩ := ih p hp.1
    have hself : forwardee h.mem p = p := by
      by_contra hne
      have := (hcs hne).1
      rw [hp.2] at this
      exact Bool.noConfusion this
    refine ⟨hp0, hp64, ?_, ?_, ?_⟩
    · rw [hself]; exact hp
    · rw [hself, hself]
    · intro hne; exact absurd hself hne

end ForwardingLemmas

section BarrierLemmas

theorem lor_eq_zero_iff (a b : Nat) : a ||| b = 0 ↔ a = 0 ∧ b = 0 := by
  constructor
  · intro h
    have hb : ∀ i, (a.testBit i || b.testBit i) = false := by
      intro i
      rw [← Nat.testBit_or, h]
      exact Nat.zero_testBit i
    constructor
    · apply Nat.eq_of_testBit_eq
      intro i
      have := hb i
      rw [Bool.or_eq_false_iff] at this
      rw [this.1, Nat.zero_testBit]
    · apply Nat.eq_of_testBit_eq
      intro i
      have := hb i
      rw [Bool.or_eq_false_iff] at this
      rw [this.2, Nat.zero_testBit]
  · rintro ⟨rfl, rfl⟩
    rfl

theorem stable_test_iff (g : Nat) :
    g &&& (HAS_FORWARDED ||| EVACUATION) = 0 ↔
      is_set g HAS_FORWARDED = false ∧ is_set g EVACUATION = false := by
  rw [Nat.and_or_distrib_left, lor_eq_zero_iff]
  simp [is_set]

theorem evacuation_test_iff (g : Nat) :
    g &&& EVACUATION = 0 ↔ is_set g EVACUATION = false := by
  simp [is_set]

theorem forwardee_init_self (mem : Memory) (obj : Nat) :
    BrooksPointer.forwardee (BrooksPointer.init mem obj) obj = obj := by
  simp [BrooksPointer.forwardee, BrooksPointer.init, Memory.store]

theorem resolve_forwarded_init_self (mem : Memory) (obj : Nat) :
    resolve_forwarded (BrooksPointer.init mem obj) obj = obj := by
  unfold resolve_forwarded resolve_forwarded_not_null
  split
  · exact forwardee_init_self mem obj
  · rfl

theorem read_barrier_eq_resolve (c : BarrierContext) (p : Nat)
    (hrb : c.ShenandoahReadBarrier = true) :
    x86.interpreter_read_barrier c p = resolve_forwarded c.mem p ∧
    aarch64.interpreter_read_barrier c p = resolve_forwarded c.mem p := by
  by_cases hp : p = 0
  · simp [x86.interpreter_read_barrier, aarch64.interpreter_read_barrier, resolve_forwarded,
      hrb, hp]
  · simp [x86.interpreter_read_barrier, aarch64.interpreter_read_barrier,
      x86.interpreter_read_barrier_not_null, aarch64.interpreter_read_barrier_not_null,
      resolve_forwarded, resolve_forwarded_not_null, BrooksPointer.forwardee, hrb, hp]

/-- With read barriers switched off, the interpreter read barrier emits no code. -/
theorem read_barrier_off (c : BarrierContext) (p : Nat)
    (hrb : c.ShenandoahReadBarrier = false) :
    x86.interpreter_read_barrier c p = p ∧ aarch64.interpreter_read_barrier c p = p := by
  simp [x86.interpreter_read_barrier, aarch64.interpreter_read_barrier, hrb]

theorem write_barrier_slow_path (c : BarrierContext) (r : Nat) :
    (if c.gc_state &&& EVACUATION = 0 then
        ({ dst := r, irt_calls := [] } : WriteBarrierResult)
      else if c.in_cset_fast_test (r >>> c.region_size_bytes_shift) &&& 1 = 0 then
        { dst := r, irt_calls := [] }
      else { dst := c.write_barrier_IRT r, irt_calls := [r] }) =
    evacuate_if_in_cset c r := by
  unfold evacuate_if_in_cset
  by_cases he : c.gc_state &&& EVACUATION = 0
  · have hs := (evacuation_test_iff c.gc_state).mp he
    rw [if_pos he, if_neg]
    rintro ⟨h1, _⟩
    rw [hs] at h1
    exact Bool.noConfusion h1
  · have hs : is_set c.gc_state EVACUATION = true := by
      simpa [is_set] using he
    by_cases ht : c.in_cset_fast_test (r >>> c.region_size_bytes_shift) &&& 1 = 0
    · rw [if_neg he, if_pos ht, if_neg]
      rintro ⟨_, h2⟩
      exact h2 ht
    · rw [if_neg he, if_neg ht, if_pos ⟨hs, ht⟩]

end BarrierLemmas

section CycleLemmas

open ShenandoahHeap

/-- The trace and the two counters, which no operation of the cycle proper touches. -/
theorem op_init_mark_frame (env : GCEnvironment) (h : ShenandoahHeap) :
    (op_init_mark env h).log = h.log ∧
    (op_init_mark env h).degenerated_upgrade_to_full = h.degenerated_upgrade_to_full ∧
    (op_init_mark env h).full_gc_count = h.full_gc_count := by
  simp [op_init_mark, run_step, set_concurrent_mark_in_progress, set_gc_state_mask]

theorem stop_concurrent_marking_frame (h : ShenandoahHeap) :
    h.stop_concurrent_marking.log = h.log ∧
    h.stop_concurrent_marking.degenerated_upgrade_to_full = h.degenerated_upgrade_to_full ∧
    h.stop_concurrent_marking.full_gc_count = h.full_gc_count ∧
    h.stop_concurrent_marking._cancelled_gc = h._cancelled_gc := by
  unfold stop_concurrent_marking
  by_cases hc : h.cancelled_gc = true <;>
    simp [hc, set_concurrent_mark_in_progress, set_gc_state_mask, swap_mark_contexts,
      set_has_forwarded_objects]

theorem prepare_for_concurrent_evacuation_frame (env : GCEnvironment) (h : ShenandoahHeap) :
    (prepare_for_concurrent_evacuation env h).log = h.log ∧
    (prepare_for_concurrent_evacuation env h).degenerated_upgrade_to_full =
      h.degenerated_upgrade_to_full ∧
    (prepare_for_concurrent_evacuation env h).full_gc_count = h.full_gc_count ∧
    (prepare_for_concurrent_evacuation env h)._cancelled_gc = h._cancelled_gc := by
  unfold prepare_for_concurrent_evacuation
  by_cases hc : h.cancelled_gc = true <;> simp [hc, trash_cset_regions]

theorem op_final_mark_frame (env : GCEnvironment) (h : ShenandoahHeap) :
    (op_final_mark env h).log = h.log ∧
    (op_final_mark env h).degenerated_upgrade_to_full = h.degenerated_upgrade_to_full ∧
    (op_final_mark env h).full_gc_count = h.full_gc_count := by
  unfold op_final_mark
  by_cases hc : h.cancelled_gc = true
  · simp [hc, stop_concurrent_marking_frame]
  · simp only [hc]
    simp only [Bool.not_false, if_true]
    split <;>
      simp [run_step, set_evacuation_in_progress, set_has_forwarded_objects, set_gc_state_mask,
        prepare_for_concurrent_evacuation_frame, stop_concurrent_marking_frame]

theorem op_evac_frame (env : GCEnvironment) (h : ShenandoahHeap) :
    (op_evac env h).log = h.log ∧
    (op_evac env h).degenerated_upgrade_to_full = h.degenerated_upgrade_to_full ∧
    (op_evac env h).full_gc_count = h.full_gc_count := by
  simp [op_evac, run_step]

theorem op_init_updaterefs_frame (env : GCEnvironment) (h : ShenandoahHeap) :
    (op_init_updaterefs env h).log = h.log ∧
    (op_init_updaterefs env h).degenerated_upgrade_to_full = h.degenerated_upgrade_to_full ∧
    (op_init_updaterefs env h).full_gc_count = h.full_gc_count := by
  simp [op_init_updaterefs, run_step, set_evacuation_in_progress, set_update_refs_in_progress,
    set_gc_state_mask]

theorem op_final_updaterefs_frame (env : GCEnvironment) (h : ShenandoahHeap) :
    (op_final_updaterefs env h).log = h.log ∧
    (op_final_updaterefs env h).degenerated_upgrade_to_full = h.degenerated_upgrade_to_full ∧
    (op_final_updaterefs env h).full_gc_count = h.full_gc_count := by
  unfold op_final_updaterefs
  by_cases hn : h._update_refs_iterator_has_next = true
  · by_cases hc : env.cancel_during GCStep.update_heap_references = true <;>
      simp [hn, hc, update_heap_references, run_step, clear_cancelled_gc, cancelled_gc,
        trash_cset_regions, set_has_forwarded_objects, set_update_refs_in_progress,
        set_gc_state_mask]
  · by_cases hc : h._cancelled_gc = true <;>
      simp [hn, hc, update_heap_references, run_step, clear_cancelled_gc, cancelled_gc,
        trash_cset_regions, set_has_forwarded_objects, set_update_refs_in_progress,
        set_gc_state_mask]

theorem op_cleanup_frame (h : ShenandoahHeap) :
    h.op_cleanup.log = h.log ∧
    h.op_cleanup.degenerated_upgrade_to_full = h.degenerated_upgrade_to_full ∧
    h.op_cleanup.full_gc_count = h.full_gc_count ∧
    h.op_cleanup._cancelled_gc = h._cancelled_gc ∧
    h.op_cleanup._gc_state = h._gc_state ∧
    h.op_cleanup._collection_set = h._collection_set := by
  simp [op_cleanup]

theorem op_cleanup_bitmaps_frame (h : ShenandoahHeap) :
    h.op_cleanup_bitmaps.log = h.log ∧
    h.op_cleanup_bitmaps.degenerated_upgrade_to_full = h.degenerated_upgrade_to_full ∧
    h.op_cleanup_bitmaps.full_gc_count = h.full_gc_count ∧
    h.op_cleanup_bitmaps._cancelled_gc = h._cancelled_gc ∧
    h.op_cleanup_bitmaps._gc_state = h._gc_state ∧
    h.op_cleanup_bitmaps._collection_set = h._collection_set := by
  simp [op_cleanup_bitmaps, op_cleanup, reset_next_mark_bitmap]

theorem op_degenerated_fail_effect (env : GCEnvironment) (h : ShenandoahHeap) :
    (op_degenerated_fail env h).log =
      h.log ++ [{ phase := GCPhase.full_gc, cancelled_at_exit := h._cancelled_gc }] ∧
    (op_degenerated_fail env h).degenerated_upgrade_to_full =
      h.degenerated_upgrade_to_full + 1 ∧
    (op_degenerated_fail env h).full_gc_count = h.full_gc_count + 1 := by
  unfold op_degenerated_fail op_full
  by_cases hg : env.is_good_progress_full = true <;> simp [hg, record]

theorem record_effect (p : GCPhase) (h : ShenandoahHeap) :
    (record p h).log = h.log ++ [{ phase := p, cancelled_at_exit := h._cancelled_gc }] ∧
    (record p h).degenerated_upgrade_to_full = h.degenerated_upgrade_to_full ∧
    (record p h).full_gc_count = h.full_gc_count ∧
    (record p h)._cancelled_gc = h._cancelled_gc ∧
    (record p h)._gc_state = h._gc_state ∧
    (record p h)._collection_set = h._collection_set := by
  simp [record]

theorem switch_completed_extend (x z : ShenandoahHeap) (l0 : List PhaseRecord)
    (res : SwitchExit × ShenandoahHeap) (hlog : z.log = x.log ++ l0)
    (hl0 : ∀ r ∈ l0, r.cancelled_at_exit = false ∧ r.phase ∈ degenerated_phases)
    (hu : z.degenerated_upgrade_to_full = x.degenerated_upgrade_to_full)
    (hf : z.full_gc_count = x.full_gc_count) (hres : switch_completed z res) :
    switch_completed x res := by
  obtain ⟨h1, h2, h3, h4, l, h5, h6⟩ := hres
  refine ⟨h1, h2, h3.trans hu, h4.trans hf, l0 ++ l, ?_, ?_⟩
  · rw [h5, hlog, List.append_assoc]
  · intro r hr
    rcases List.mem_append.mp hr with hr | hr
    · exact hl0 r hr
    · exact h6 r hr

theorem switch_failed_extend (x z : ShenandoahHeap) (l0 : List PhaseRecord)
    (res : SwitchExit × ShenandoahHeap) (hlog : z.log = x.log ++ l0)
    (hl0 : ∀ r ∈ l0, r.cancelled_at_exit = false ∧ r.phase ∈ degenerated_phases)
    (hu : z.degenerated_upgrade_to_full = x.degenerated_upgrade_to_full)
    (hf : z.full_gc_count = x.full_gc_count) (hres : switch_failed z res) :
    switch_failed x res := by
  obtain ⟨h1, h3, h4, pre, p, h5, hp, h6⟩ := hres
  refine ⟨h1, by rw [h3, hu], by rw [h4, hf], l0 ++ pre, p, ?_, hp, ?_⟩
  · rw [h5, hlog, List.append_assoc, List.append_assoc]
  · intro r hr
    rcases List.mem_append.mp hr with hr | hr
    · exact hl0 r hr
    · exact h6 r hr

/-- An operation followed by the check of `cancelled_gc()`, then the rest `K`. -/
theorem checked_step (env : GCEnvironment) (x y : ShenandoahHeap) (p : GCPhase)
    (hp : p ∈ checked_phases) (hpd : p ∈ degenerated_phases)
    (hlog : y.log = x.log)
    (hu : y.degenerated_upgrade_to_full = x.degenerated_upgrade_to_full)
    (hf : y.full_gc_count = x.full_gc_count)
    (K : ShenandoahHeap → SwitchExit × ShenandoahHeap)
    (hK : ∀ z, z._cancelled_gc = false → switch_completed z (K z) ∨ switch_failed z (K z)) :
    switch_completed x
        (if (record p y).cancelled_gc then
          (SwitchExit.fail_return, op_degenerated_fail env (record p y))
        else K (record p y)) ∨
      switch_failed x
        (if (record p y).cancelled_gc then
          (SwitchExit.fail_return, op_degenerated_fail env (record p y))
        else K (record p y)) := by
  obtain ⟨rl, ru, rf, rc, _, _⟩ := record_effect p y
  by_cases hc : y._cancelled_gc = true
  · right
    have hcc : (record p y).cancelled_gc = true := by
      unfold cancelled_gc; rw [rc]; exact hc
    rw [if_pos hcc]
    obtain ⟨fl, fu, ff⟩ := op_degenerated_fail_effect env (record p y)
    refine ⟨rfl, ?_, ?_, [], p, ?_, hp, ?_⟩
    · show (op_degenerated_fail env (record p y)).degenerated_upgrade_to_full = _
      rw [fu, ru, hu]
    · show (op_degenerated_fail env (record p y)).full_gc_count = _
      rw [ff, rf, hf]
    · show (op_degenerated_fail env (record p y)).log = _
      rw [fl, rl, rc, hc, hlog]
      simp
    · intro r hr
      exact absurd hr (List.not_mem_nil r)
  · have hc' : y._cancelled_gc = false := by
      cases hcv : y._cancelled_gc
      · rfl
      · exact absurd hcv hc
    have hcc : ¬ (record p y).cancelled_gc = true := by
      unfold cancelled_gc; rw [rc, hc']; exact Bool.false_ne_true
    rw [if_neg hcc]
    have hl0 : ∀ r ∈ [({ phase := p, cancelled_at_exit := false } : PhaseRecord)],
        r.cancelled_at_exit = false ∧ r.phase ∈ degenerated_phases := by
      intro r hr
      rw [List.mem_singleton] at hr
      subst hr
      exact ⟨rfl, hpd⟩
    have hlog' : (record p y).log =
        x.log ++ [({ phase := p, cancelled_at_exit := false } : PhaseRecord)] := by
      rw [rl, hc', hlog]
    rcases hK (record p y) (by rw [rc, hc']) with hk | hk
    · exact Or.inl (switch_completed_extend x _ _ _ hlog' hl0 (ru.trans hu) (rf.trans hf) hk)
    · exact Or.inr (switch_failed_extend x _ _ _ hlog' hl0 (ru.trans hu) (rf.trans hf) hk)

/-- An operation that is not followed by a check, then the rest `K`. -/
theorem unchecked_step (x y : ShenandoahHeap) (p : GCPhase) (hpd : p ∈ degenerated_phases)
    (hlog : y.log = x.log)
    (hu : y.degenerated_upgrade_to_full = x.degenerated_upgrade_to_full)
    (hf : y.full_gc_count = x.full_gc_count) (hc : y._cancelled_gc = false)
    (K : ShenandoahHeap → SwitchExit × ShenandoahHeap)
    (hK : ∀ z, z._cancelled_gc = false → switch_completed z (K z) ∨ switch_failed z (K z)) :
    switch_completed x (K (record p y)) ∨ switch_failed x (K (record p y)) := by
  obtain ⟨rl, ru, rf, rc, _, _⟩ := record_effect p y
  have hl0 : ∀ r ∈ [({ phase := p, cancelled_at_exit := false } : PhaseRecord)],
      r.cancelled_at_exit = false ∧ r.phase ∈ degenerated_phases := by
    intro r hr
    rw [List.mem_singleton] at hr
    subst hr
    exact ⟨rfl, hpd⟩
  have hlog' : (record p y).log =
      x.log ++ [({ phase := p, cancelled_at_exit := false } : PhaseRecord)] := by
    rw [rl, hc, hlog]
  rcases hK (record p y) (by rw [rc, hc]) with hk | hk
  · exact Or.inl (switch_completed_extend x _ _ _ hlog' hl0 (ru.trans hu) (rf.trans hf) hk)
  · exact Or.inr (switch_failed_extend x _ _ _ hlog' hl0 (ru.trans hu) (rf.trans hf) hk)

theorem break_completes (z : ShenandoahHeap) (hz : z._cancelled_gc = false) :
    switch_completed z (SwitchExit.break_out, z) ∨
      switch_failed z (SwitchExit.break_out, z) :=
  Or.inl ⟨rfl, hz, rfl, rfl, [], by simp, fun r hr => absurd hr (List.not_mem_nil r)⟩

theorem degenerated_updaterefs_outcome (env : GCEnvironment) (x : ShenandoahHeap)
    (hx : x._cancelled_gc = false) :
    switch_completed x (degenerated_updaterefs env x) ∨
      switch_failed x (degenerated_updaterefs env x) := by
  have hlast : ∀ z : ShenandoahHeap, z._cancelled_gc = false →
      switch_completed z (SwitchExit.break_out, record GCPhase.cleanup_bitmaps z.op_cleanup_bitmaps) ∨
      switch_failed z (SwitchExit.break_out, record GCPhase.cleanup_bitmaps z.op_cleanup_bitmaps) := by
    intro z hz
    obtain ⟨cl, cu, cf, cc, _, _⟩ := op_cleanup_bitmaps_frame z
    exact unchecked_step z z.op_cleanup_bitmaps GCPhase.cleanup_bitmaps (by decide) cl cu cf
      (cc.trans hz) (fun w => (SwitchExit.break_out, w)) break_completes
  unfold degenerated_updaterefs
  split
  · obtain ⟨fl, fu, ff⟩ := op_final_updaterefs_frame env x
    exact checked_step env x (op_final_updaterefs env x) GCPhase.final_updaterefs
      (by decide) (by decide) fl fu ff
      (fun w => (SwitchExit.break_out, record GCPhase.cleanup_bitmaps w.op_cleanup_bitmaps))
      hlast
  · exact hlast x hx

theorem degenerated_init_updaterefs_outcome (env : GCEnvironment) (x : ShenandoahHeap)
    (hx : x._cancelled_gc = false) :
    switch_completed x (degenerated_init_updaterefs env x) ∨
      switch_failed x (degenerated_init_updaterefs env x) := by
  unfold degenerated_init_updaterefs
  split
  · obtain ⟨fl, fu, ff⟩ := op_init_updaterefs_frame env x
    exact checked_step env x (op_init_updaterefs env x) GCPhase.init_updaterefs
      (by decide) (by decide) fl fu ff (degenerated_updaterefs env)
      (degenerated_updaterefs_outcome env)
  · exact degenerated_updaterefs_outcome env x hx

theorem degenerated_evac_outcome (env : GCEnvironment) (x : ShenandoahHeap)
    (hx : x._cancelled_gc = false) :
    switch_completed x (degenerated_evac env x) ∨ switch_failed x (degenerated_evac env x) := by
  unfold degenerated_evac
  split
  · obtain ⟨fl, fu, ff⟩ := op_evac_frame env x
    exact checked_step env x (op_evac env x) GCPhase.evac
      (by decide) (by decide) fl fu ff (degenerated_init_updaterefs env)
      (degenerated_init_updaterefs_outcome env)
  · exact degenerated_init_updaterefs_outcome env x hx

theorem degenerated_mark_outcome (env : GCEnvironment) (x : ShenandoahHeap)
    (_hx : x._cancelled_gc = false) :
    switch_completed x (degenerated_mark env x) ∨ switch_failed x (degenerated_mark env x) := by
  obtain ⟨fl, fu, ff⟩ := op_final_mark_frame env x
  exact checked_step env x (op_final_mark env x) GCPhase.final_mark
    (by decide) (by decide) fl fu ff
    (fun w => degenerated_evac env (record GCPhase.cleanup w.op_cleanup))
    (fun z hz => by
      obtain ⟨cl, cu, cf, cc, _, _⟩ := op_cleanup_frame z
      exact unchecked_step z z.op_cleanup GCPhase.cleanup (by decide) cl cu cf
        (cc.trans hz) (degenerated_evac env) (degenerated_evac_outcome env))

theorem degenerated_outside_cycle_outcome (env : GCEnvironment) (x : ShenandoahHeap)
    (_hx : x._cancelled_gc = false) :
    switch_completed x (degenerated_outside_cycle env x) ∨
      switch_failed x (degenerated_outside_cycle env x) := by
  obtain ⟨fl, fu, ff⟩ := op_init_mark_frame env
    { x with _process_references := decide (env.ShenandoahRefProcFrequency ≠ 0),
             _unload_classes := env.ClassUnloading }
  exact checked_step env x _ GCPhase.init_mark
    (by decide) (by decide) fl fu ff (degenerated_mark env) (degenerated_mark_outcome env)

theorem phases_since_append (x z r : ShenandoahHeap) (l0 l : List PhaseRecord)
    (hz : z.log = x.log ++ l0) (hr : r.log = z.log ++ l) :
    phases_since x r = l0 ++ l ∧ phases_since z r = l := by
  unfold phases_since
  constructor
  · rw [hr, hz, List.append_assoc, List.drop_left]
  · rw [hr, List.drop_left]

theorem outcome_log (x : ShenandoahHeap) (res : SwitchExit × ShenandoahHeap)
    (h : switch_completed x res ∨ switch_failed x res) : ∃ l, res.2.log = x.log ++ l := by
  rcases h with ⟨_, _, _, _, l, hl, _⟩ | ⟨_, _, _, pre, p, hl, _, _⟩
  · exact ⟨l, hl⟩
  · exact ⟨_, hl⟩

/-- A checked operation that, like all the operations of the run, leaves the flag
clear: the rest `K` runs. -/
theorem checked_step_clear (env : GCEnvironment) (x y : ShenandoahHeap) (p : GCPhase)
    (hlog : y.log = x.log) (K : ShenandoahHeap → SwitchExit × ShenandoahHeap)
    (hK : ∀ z, z._cancelled_gc = false → ∃ l, (K z).2.log = z.log ++ l)
    (H : ∀ r ∈ phases_since x
        (if (record p y).cancelled_gc then
          (SwitchExit.fail_return, op_degenerated_fail env (record p y))
        else K (record p y)).2, r.cancelled_at_exit = false) :
    y._cancelled_gc = false ∧
    (if (record p y).cancelled_gc then
        (SwitchExit.fail_return, op_degenerated_fail env (record p y))
      else K (record p y)) = K (record p y) ∧
    (record p y)._cancelled_gc = false ∧
    phases_since x (K (record p y)).2 =
      { phase := p, cancelled_at_exit := false } :: phases_since (record p y) (K (record p y)).2 := by
  obtain ⟨rl, _, _, rc, _, _⟩ := record_effect p y
  have hc : y._cancelled_gc = false := by
    cases hcv : y._cancelled_gc
    · rfl
    · exfalso
      have hcc : (record p y).cancelled_gc = true := by
        unfold cancelled_gc; rw [rc]; exact hcv
      rw [if_pos hcc] at H
      obtain ⟨fl, _, _⟩ := op_degenerated_fail_effect env (record p y)
      have hps := (phases_since_append x (record p y) (op_degenerated_fail env (record p y))
        [{ phase := p, cancelled_at_exit := true }] _ (by rw [rl, hcv, hlog]) fl).1
      have := H { phase := p, cancelled_at_exit := true } (by
        show _ ∈ phases_since x (op_degenerated_fail env (record p y))
        rw [hps]; simp)
      exact Bool.noConfusion this
  have hcc : ¬ (record p y).cancelled_gc = true := by
    unfold cancelled_gc; rw [rc, hc]; exact Bool.false_ne_true
  obtain ⟨l, hl⟩ := hK (record p y) (by rw [rc, hc])
  have hps := phases_since_append x (record p y) (K (record p y)).2
    [{ phase := p, cancelled_at_exit := false }] l (by rw [rl, hc, hlog]) hl
  refine ⟨hc, if_neg hcc, by rw [rc, hc], ?_⟩
  rw [hps.1, hps.2]
  rfl

/-- An operation without check in a run whose flag is clear: the trace grows by its
record. -/
theorem unchecked_step_clear (x y : ShenandoahHeap) (p : GCPhase) (hlog : y.log = x.log)
    (hc : y._cancelled_gc = false) (K : ShenandoahHeap → SwitchExit × ShenandoahHeap)
    (hK : ∀ z, z._cancelled_gc = false → ∃ l, (K z).2.log = z.log ++ l) :
    (record p y)._cancelled_gc = false ∧
    phases_since x (K (record p y)).2 =
      { phase := p, cancelled_at_exit := false } :: phases_since (record p y) (K (record p y)).2 := by
  obtain ⟨rl, _, _, rc, _, _⟩ := record_effect p y
  obtain ⟨l, hl⟩ := hK (record p y) (by rw [rc, hc])
  have hps := phases_since_append x (record p y) (K (record p y)).2
    [{ phase := p, cancelled_at_exit := false }] l (by rw [rl, hc, hlog]) hl
  refine ⟨by rw [rc, hc], ?_⟩
  rw [hps.1, hps.2]
  rfl

theorem phases_since_self (x : ShenandoahHeap) : phases_since x x = [] := by
  unfold phases_since
  exact List.drop_length x.log

theorem degenerated_updaterefs_clear (env : GCEnvironment) (x : ShenandoahHeap)
    (hx : x._cancelled_gc = false)
    (H : ∀ r ∈ phases_since x (degenerated_updaterefs env x).2, r.cancelled_at_exit = false) :
    degenerated_updaterefs env x =
      (SwitchExit.break_out, after_cleanup_bitmaps (after_final_updaterefs env x)) ∧
    (after_final_updaterefs env x)._cancelled_gc = false ∧
    (phases_since x (degenerated_updaterefs env x).2).map PhaseRecord.phase =
      (if x.has_forwarded_objects then [GCPhase.final_updaterefs] else []) ++
        [GCPhase.cleanup_bitmaps] := by
  have hKlog : ∀ z : ShenandoahHeap, z._cancelled_gc = false →
      ∃ l, ((fun w => (SwitchExit.break_out, w)) z : SwitchExit × ShenandoahHeap).2.log =
        z.log ++ l := fun z _ => ⟨[], by simp⟩
  have hlast : ∀ z : ShenandoahHeap, z._cancelled_gc = false →
      phases_since z (after_cleanup_bitmaps z) =
        [{ phase := GCPhase.cleanup_bitmaps, cancelled_at_exit := false }] := by
    intro z hz
    obtain ⟨cl, _, _, cc, _, _⟩ := op_cleanup_bitmaps_frame z
    have := (unchecked_step_clear z z.op_cleanup_bitmaps GCPhase.cleanup_bitmaps cl
      (cc.trans hz) (fun w => (SwitchExit.break_out, w)) hKlog).2
    simp only [phases_since_self] at this
    exact this
  have hlastlog : ∀ z : ShenandoahHeap, z._cancelled_gc = false →
      ∃ l, (SwitchExit.break_out, after_cleanup_bitmaps z).2.log = z.log ++ l := by
    intro z _
    refine ⟨[{ phase := GCPhase.cleanup_bitmaps, cancelled_at_exit := z._cancelled_gc }], ?_⟩
    simp [after_cleanup_bitmaps, record, op_cleanup_bitmaps, op_cleanup, reset_next_mark_bitmap]
  by_cases hf : x.has_forwarded_objects = true
  · simp only [degenerated_updaterefs, hf, if_true] at H ⊢
    obtain ⟨fl, _, _⟩ := op_final_updaterefs_frame env x
    obtain ⟨_, heq, hc1, hps⟩ := checked_step_clear env x (op_final_updaterefs env x)
      GCPhase.final_updaterefs fl
      (fun w => (SwitchExit.break_out, after_cleanup_bitmaps w)) hlastlog H
    have haf : after_final_updaterefs env x =
        record GCPhase.final_updaterefs (op_final_updaterefs env x) := by
      simp [after_final_updaterefs, hf]
    refine ⟨?_, ?_, ?_⟩
    · rw [haf]; exact heq
    · rw [haf]; exact hc1
    · have heq' : (if (record GCPhase.final_updaterefs (op_final_updaterefs env x)).cancelled_gc
            then (SwitchExit.fail_return,
              op_degenerated_fail env (record GCPhase.final_updaterefs (op_final_updaterefs env x)))
            else (SwitchExit.break_out,
              record GCPhase.cleanup_bitmaps
                (record GCPhase.final_updaterefs
                  (op_final_updaterefs env x)).op_cleanup_bitmaps)) =
          (SwitchExit.break_out, after_cleanup_bitmaps
            (record GCPhase.final_updaterefs (op_final_updaterefs env x))) := heq
      rw [heq']
      simp only at hps
      rw [hps, hlast _ hc1]
      rfl
  · simp only [degenerated_updaterefs, hf] at H ⊢
    have haf : after_final_updaterefs env x = x := by
      simp [after_final_updaterefs, hf]
    refine ⟨?_, ?_, ?_⟩
    · rw [haf]; rfl
    · rw [haf]; exact hx
    · have := hlast x hx
      simp only [after_cleanup_bitmaps] at this
      simp [this]

/-- A guarded checked operation, as in `if (cond) { op(); if (cancelled_gc()) ... }`,
in a run whose operations leave the flag clear. -/
theorem guarded_step_clear (env : GCEnvironment) (x : ShenandoahHeap) (cond : Bool)
    (op : ShenandoahHeap → ShenandoahHeap) (p : GCPhase) (hop : (op x).log = x.log)
    (hx : x._cancelled_gc = false) (K : ShenandoahHeap → SwitchExit × ShenandoahHeap)
    (hK : ∀ z, z._cancelled_gc = false → ∃ l, (K z).2.log = z.log ++ l)
    (H : ∀ r ∈ phases_since x
        (if cond then
          (if (record p (op x)).cancelled_gc then
            (SwitchExit.fail_return, op_degenerated_fail env (record p (op x)))
          else K (record p (op x)))
        else K x).2, r.cancelled_at_exit = false) :
    (if cond then
        (if (record p (op x)).cancelled_gc then
          (SwitchExit.fail_return, op_degenerated_fail env (record p (op x)))
        else K (record p (op x)))
      else K x) = K (if cond then record p (op x) else x) ∧
    (if cond then record p (op x) else x)._cancelled_gc = false ∧
    phases_since x (K (if cond then record p (op x) else x)).2 =
      (if cond then [{ phase := p, cancelled_at_exit := false }] else []) ++
        phases_since (if cond then record p (op x) else x)
          (K (if cond then record p (op x) else x)).2 := by
  cases cond
  · simp only [Bool.false_eq_true, if_false]
    exact ⟨trivial, hx, by simp⟩
  · simp only [if_true] at H ⊢
    obtain ⟨_, heq, hc1, hps⟩ := checked_step_clear env x (op x) p hop K hK H
    exact ⟨heq, hc1, by rw [hps]; rfl⟩

theorem degenerated_updaterefs_log (env : GCEnvironment) (z : ShenandoahHeap)
    (hz : z._cancelled_gc = false) :
    ∃ l, (degenerated_updaterefs env z).2.log = z.log ++ l :=
  outcome_log z _ (degenerated_updaterefs_outcome env z hz)

theorem degenerated_init_updaterefs_log (env : GCEnvironment) (z : ShenandoahHeap)
    (hz : z._cancelled_gc = false) :
    ∃ l, (degenerated_init_updaterefs env z).2.log = z.log ++ l :=
  outcome_log z _ (degenerated_init_updaterefs_outcome env z hz)

theorem degenerated_evac_log (env : GCEnvironment) (z : ShenandoahHeap)
    (hz : z._cancelled_gc = false) :
    ∃ l, (degenerated_evac env z).2.log = z.log ++ l :=
  outcome_log z _ (degenerated_evac_outcome env z hz)

theorem degenerated_mark_log (env : GCEnvironment) (z : ShenandoahHeap)
    (hz : z._cancelled_gc = false) :
    ∃ l, (degenerated_mark env z).2.log = z.log ++ l :=
  outcome_log z _ (degenerated_mark_outcome env z hz)

theorem forall_mem_of_append {α : Type} (P : α → Prop) (l l1 l2 : List α)
    (h : l = l1 ++ l2) (H : ∀ r ∈ l, P r) : ∀ r ∈ l2, P r := by
  intro r hr
  exact H r (by rw [h]; exact List.mem_append_right l1 hr)

theorem degenerated_init_updaterefs_clear (env : GCEnvironment) (x : ShenandoahHeap)
    (hx : x._cancelled_gc = false)
    (H : ∀ r ∈ phases_since x (degenerated_init_updaterefs env x).2,
      r.cancelled_at_exit = false) :
    degenerated_init_updaterefs env x =
      degenerated_updaterefs env (after_init_updaterefs env x) ∧
    (after_init_updaterefs env x)._cancelled_gc = false ∧
    phases_since x (degenerated_init_updaterefs env x).2 =
      (if x.has_forwarded_objects then
          [{ phase := GCPhase.init_updaterefs, cancelled_at_exit := false }]
        else []) ++
        phases_since (after_init_updaterefs env x)
          (degenerated_updaterefs env (after_init_updaterefs env x)).2 := by
  obtain ⟨fl, _, _⟩ := op_init_updaterefs_frame env x
  obtain ⟨heq, hc, hps⟩ := guarded_step_clear env x x.has_forwarded_objects
    (op_init_updaterefs env) GCPhase.init_updaterefs fl hx (degenerated_updaterefs env)
    (degenerated_updaterefs_log env) H
  have hdef : degenerated_init_updaterefs env x =
      degenerated_updaterefs env (after_init_updaterefs env x) := heq
  refine ⟨hdef, hc, ?_⟩
  rw [hdef]
  exact hps

theorem degenerated_evac_clear (env : GCEnvironment) (x : ShenandoahHeap)
    (hx : x._cancelled_gc = false)
    (H : ∀ r ∈ phases_since x (degenerated_evac env x).2, r.cancelled_at_exit = false) :
    degenerated_evac env x = degenerated_init_updaterefs env (after_evac env x) ∧
    (after_evac env x)._cancelled_gc = false ∧
    phases_since x (degenerated_evac env x).2 =
      (if x.is_evacuation_in_progress then
          [{ phase := GCPhase.evac, cancelled_at_exit := false }]
        else []) ++
        phases_since (after_evac env x)
          (degenerated_init_updaterefs env (after_evac env x)).2 := by
  obtain ⟨fl, _, _⟩ := op_evac_frame env x
  obtain ⟨heq, hc, hps⟩ := guarded_step_clear env x x.is_evacuation_in_progress
    (op_evac env) GCPhase.evac fl hx (degenerated_init_updaterefs env)
    (degenerated_init_updaterefs_log env) H
  have hdef : degenerated_evac env x =
      degenerated_init_updaterefs env (after_evac env x) := heq
  refine ⟨hdef, hc, ?_⟩
  rw [hdef]
  exact hps

theorem degenerated_mark_clear (env : GCEnvironment) (x : ShenandoahHeap)
    (H : ∀ r ∈ phases_since x (degenerated_mark env x).2, r.cancelled_at_exit = false) :
    degenerated_mark env x = degenerated_evac env (after_final_mark env x) ∧
    (op_final_mark env x)._cancelled_gc = false ∧
    (after_final_mark env x)._cancelled_gc = false ∧
    phases_since x (degenerated_mark env x).2 =
      [{ phase := GCPhase.final_mark, cancelled_at_exit := false },
        { phase := GCPhase.cleanup, cancelled_at_exit := false }] ++
        phases_since (after_final_mark env x)
          (degenerated_evac env (after_final_mark env x)).2 := by
  obtain ⟨fl, _, _⟩ := op_final_mark_frame env x
  have hKlog : ∀ z : ShenandoahHeap, z._cancelled_gc = false →
      ∃ l, (degenerated_evac env (record GCPhase.cleanup z.op_cleanup)).2.log = z.log ++ l := by
    intro z hz
    obtain ⟨cl, _, _, cc, _, _⟩ := op_cleanup_frame z
    obtain ⟨rl, _, _, rc, _, _⟩ := record_effect GCPhase.cleanup z.op_cleanup
    obtain ⟨l, hl⟩ := degenerated_evac_log env (record GCPhase.cleanup z.op_cleanup)
      (by rw [rc, cc, hz])
    exact ⟨{ phase := GCPhase.cleanup, cancelled_at_exit := z.op_cleanup._cancelled_gc } :: l,
      by rw [hl, rl, cl]; simp⟩
  obtain ⟨hc0, heq, hc1, hps⟩ := checked_step_clear env x (op_final_mark env x)
    GCPhase.final_mark fl (fun w => degenerated_evac env (record GCPhase.cleanup w.op_cleanup))
    hKlog H
  have hdef : degenerated_mark env x = degenerated_evac env (after_final_mark env x) := heq
  obtain ⟨cl, _, _, cc, _, _⟩ :=
    op_cleanup_frame (record GCPhase.final_mark (op_final_mark env x))
  obtain ⟨hc2, hps2⟩ := unchecked_step_clear
    (record GCPhase.final_mark (op_final_mark env x))
    (record GCPhase.final_mark (op_final_mark env x)).op_cleanup GCPhase.cleanup cl
    (cc.trans hc1) (degenerated_evac env) (degenerated_evac_log env)
  refine ⟨hdef, hc0, hc2, ?_⟩
  rw [hdef]
  show phases_since x (degenerated_evac env (after_final_mark env x)).2 = _
  unfold after_final_mark
  rw [hps, hps2]
  rfl

theorem degenerated_outside_cycle_clear (env : GCEnvironment) (x : ShenandoahHeap)
    (H : ∀ r ∈ phases_since x (degenerated_outside_cycle env x).2,
      r.cancelled_at_exit = false) :
    degenerated_outside_cycle env x = degenerated_mark env (after_init_mark env x) ∧
    (after_init_mark env x)._cancelled_gc = false ∧
    phases_since x (degenerated_outside_cycle env x).2 =
      { phase := GCPhase.init_mark, cancelled_at_exit := false } ::
        phases_since (after_init_mark env x)
          (degenerated_mark env (after_init_mark env x)).2 := by
  obtain ⟨fl, _, _⟩ := op_init_mark_frame env
    { x with _process_references := decide (env.ShenandoahRefProcFrequency ≠ 0),
             _unload_classes := env.ClassUnloading }
  obtain ⟨_, heq, hc1, hps⟩ := checked_step_clear env x _ GCPhase.init_mark fl
    (degenerated_mark env) (degenerated_mark_log env) H
  have hdef : degenerated_outside_cycle env x =
      degenerated_mark env (after_init_mark env x) := heq
  refine ⟨hdef, hc1, ?_⟩
  rw [hdef]
  exact hps

theorem no_cancel_completed (x : ShenandoahHeap) (res : SwitchExit × ShenandoahHeap)
    (H : ∀ r ∈ phases_since x res.2, r.cancelled_at_exit = false)
    (h : switch_completed x res ∨ switch_failed x res) : switch_completed x res := by
  rcases h with h | ⟨_, _, _, pre, p, hl, _, _⟩
  · exact h
  · exfalso
    have hps : phases_since x res.2 = pre ++ [{ phase := p, cancelled_at_exit := true },
        { phase := GCPhase.full_gc, cancelled_at_exit := true }] := by
      unfold phases_since
      rw [hl, List.drop_left]
    have := H { phase := p, cancelled_at_exit := true } (by rw [hps]; simp)
    exact Bool.noConfusion this

theorem switch_outcome (env : GCEnvironment) (point : ShenandoahDegenPoint)
    (x : ShenandoahHeap) (hx : x._cancelled_gc = false) :
    (switch_completed x (degenerated_switch env point x) ∨
      switch_failed x (degenerated_switch env point x)) ∨
    degenerated_switch env point x = (SwitchExit.should_not_reach_here, x) := by
  cases point
  · exact Or.inr rfl
  · exact Or.inl (degenerated_outside_cycle_outcome env x hx)
  · exact Or.inl (degenerated_mark_outcome env x hx)
  · exact Or.inl (degenerated_evac_outcome env x hx)
  · exact Or.inl (degenerated_updaterefs_outcome env x hx)
  · exact Or.inr rfl

/-! ### GC state and collection set along a run without cancellation -/

theorem after_init_mark_state (env : GCEnvironment) (x : ShenandoahHeap) :
    (after_init_mark env x)._gc_state = set_cond x._gc_state MARKING true := by
  simp [after_init_mark, record, op_init_mark, run_step, set_concurrent_mark_in_progress,
    set_gc_state_mask]

theorem after_final_mark_state (env : GCEnvironment) (x : ShenandoahHeap)
    (hx : x._cancelled_gc = false) (hc : (op_final_mark env x)._cancelled_gc = false) :
    (after_final_mark env x)._collection_set = env.choose_collection_set ∧
    (after_final_mark env x)._gc_state =
      if env.choose_collection_set.isEmpty then
        set_cond (set_cond x._gc_state HAS_FORWARDED false) MARKING false
      else
        set_cond (set_cond (set_cond (set_cond x._gc_state HAS_FORWARDED false) MARKING false)
          EVACUATION true) HAS_FORWARDED true := by
  have hf : env.cancel_during GCStep.finish_mark_from_roots = false := by
    cases hv : env.cancel_during GCStep.finish_mark_from_roots
    · rfl
    · exfalso
      revert hc
      by_cases hcs : x._collection_set = [] <;>
        simp [op_final_mark, cancelled_gc, hx, run_step, hv, stop_concurrent_marking,
          prepare_for_concurrent_evacuation, set_concurrent_mark_in_progress,
          set_evacuation_in_progress, set_has_forwarded_objects, set_gc_state_mask, hcs]
  cases he : env.choose_collection_set.isEmpty <;>
    simp [after_final_mark, record, op_cleanup, op_final_mark, cancelled_gc, hx, run_step, hf,
      stop_concurrent_marking, prepare_for_concurrent_evacuation, trash_cset_regions,
      set_concurrent_mark_in_progress, set_has_forwarded_objects, set_evacuation_in_progress,
      swap_mark_contexts, set_gc_state_mask, he]

theorem after_evac_state (env : GCEnvironment) (x : ShenandoahHeap) :
    (after_evac env x)._collection_set = x._collection_set ∧
    (after_evac env x)._gc_state = x._gc_state := by
  unfold after_evac
  split <;> simp [record, op_evac, run_step]

theorem after_init_updaterefs_state (env : GCEnvironment) (x : ShenandoahHeap) :
    (after_init_updaterefs env x)._collection_set = x._collection_set ∧
    (after_init_updaterefs env x)._gc_state =
      if x.has_forwarded_objects then
        set_cond (set_cond x._gc_state EVACUATION false) UPDATEREFS true
      else x._gc_state := by
  unfold after_init_updaterefs
  split <;>
    simp [record, op_init_updaterefs, run_step, set_evacuation_in_progress,
      set_update_refs_in_progress, set_gc_state_mask]

theorem op_final_updaterefs_state (env : GCEnvironment) (x : ShenandoahHeap) :
    (op_final_updaterefs env x)._collection_set = [] ∧
    (op_final_updaterefs env x)._gc_state =
      set_cond (set_cond x._gc_state HAS_FORWARDED false) UPDATEREFS false := by
  unfold op_final_updaterefs
  by_cases hn : x._update_refs_iterator_has_next = true
  · by_cases hc : env.cancel_during GCStep.update_heap_references = true <;>
      simp [hn, hc, update_heap_references, run_step, clear_cancelled_gc, cancelled_gc,
        trash_cset_regions, set_has_forwarded_objects, set_update_refs_in_progress,
        set_gc_state_mask]
  · by_cases hc : x._cancelled_gc = true <;>
      simp [hn, hc, update_heap_references, run_step, clear_cancelled_gc, cancelled_gc,
        trash_cset_regions, set_has_forwarded_objects, set_update_refs_in_progress,
        set_gc_state_mask]

theorem after_final_updaterefs_state (env : GCEnvironment) (x : ShenandoahHeap) :
    (after_final_updaterefs env x)._collection_set =
      (if x.has_forwarded_objects then [] else x._collection_set) ∧
    (after_final_updaterefs env x)._gc_state =
      if x.has_forwarded_objects then
        set_cond (set_cond x._gc_state HAS_FORWARDED false) UPDATEREFS false
      else x._gc_state := by
  unfold after_final_updaterefs
  split
  · obtain ⟨h1, h2⟩ := op_final_updaterefs_state env x
    simp [record, h1, h2]
  · simp

theorem after_cleanup_bitmaps_state (x : ShenandoahHeap) :
    (after_cleanup_bitmaps x)._collection_set = x._collection_set ∧
    (after_cleanup_bitmaps x)._gc_state = x._gc_state ∧
    (after_cleanup_bitmaps x)._cancelled_gc = x._cancelled_gc := by
  simp [after_cleanup_bitmaps, record, op_cleanup_bitmaps, op_cleanup, reset_next_mark_bitmap]

/-- The end of a run without cancellation entered at `case _degenerated_updaterefs`. -/
theorem updaterefs_tail_stable (env : GCEnvironment) (x : ShenandoahHeap)
    (hx : x._cancelled_gc = false)
    (H : ∀ r ∈ phases_since x (degenerated_updaterefs env x).2, r.cancelled_at_exit = false)
    (hg : x._gc_state = UPDATEREFS ||| HAS_FORWARDED ∨
      (x._gc_state = STABLE ∧ x._collection_set = [])) :
    (degenerated_updaterefs env x).1 = SwitchExit.break_out ∧
    (degenerated_updaterefs env x).2._gc_state = STABLE ∧
    (degenerated_updaterefs env x).2._cancelled_gc = false ∧
    (degenerated_updaterefs env x).2._collection_set = [] := by
  obtain ⟨heq, hc, _⟩ := degenerated_updaterefs_clear env x hx H
  obtain ⟨b1, b2, b3⟩ := after_cleanup_bitmaps_state (after_final_updaterefs env x)
  obtain ⟨f1, f2⟩ := after_final_updaterefs_state env x
  rw [heq]
  refine ⟨rfl, ?_, ?_, ?_⟩
  · show (after_cleanup_bitmaps (after_final_updaterefs env x))._gc_state = STABLE
    have hfw : x.has_forwarded_objects = is_set x._gc_state HAS_FORWARDED := rfl
    rw [b2, f2, hfw]
    rcases hg with hg | ⟨hg, _⟩ <;> rw [hg] <;> decide
  · show (after_cleanup_bitmaps (after_final_updaterefs env x))._cancelled_gc = false
    rw [b3]; exact hc
  · show (after_cleanup_bitmaps (after_final_updaterefs env x))._collection_set = []
    rw [b1, f1]
    rcases hg with hg | ⟨hg, hcs⟩
    · have : x.has_forwarded_objects = true := by
        unfold has_forwarded_objects; rw [hg]; decide
      simp [this]
    · simp [hcs]

/-- The end of a run without cancellation entered at `case _degenerated_evac`. -/
theorem evac_tail_stable (env : GCEnvironment) (x : ShenandoahHeap)
    (hx : x._cancelled_gc = false)
    (H : ∀ r ∈ phases_since x (degenerated_evac env x).2, r.cancelled_at_exit = false)
    (hg : x._gc_state = EVACUATION ||| HAS_FORWARDED ∨
      (x._gc_state = STABLE ∧ x._collection_set = [])) :
    (degenerated_evac env x).1 = SwitchExit.break_out ∧
    (degenerated_evac env x).2._gc_state = STABLE ∧
    (degenerated_evac env x).2._cancelled_gc = false ∧
    (degenerated_evac env x).2._collection_set = [] := by
  obtain ⟨heq, hc, hps⟩ := degenerated_evac_clear env x hx H
  have H1 : ∀ r ∈ phases_since (after_evac env x)
      (degenerated_init_updaterefs env (after_evac env x)).2, r.cancelled_at_exit = false :=
    forall_mem_of_append _ _ _ _ hps H
  obtain ⟨heq1, hc1, hps1⟩ := degenerated_init_updaterefs_clear env (after_evac env x) hc H1
  have H2 := forall_mem_of_append _ _ _ _ hps1 H1
  obtain ⟨e1, e2⟩ := after_evac_state env x
  obtain ⟨u1, u2⟩ := after_init_updaterefs_state env (after_evac env x)
  rw [heq, heq1]
  apply updaterefs_tail_stable env _ hc1 H2
  rw [u1, u2, e1, e2]
  unfold has_forwarded_objects
  rw [e2]
  rcases hg with hg | ⟨hg, hcs⟩
  · left; rw [hg]; decide
  · right; rw [hg]; exact ⟨by decide, hcs⟩

/-- The end of a run without cancellation entered at `case _degenerated_mark`. -/
theorem mark_tail_stable (env : GCEnvironment) (x : ShenandoahHeap)
    (hx : x._cancelled_gc = false)
    (H : ∀ r ∈ phases_since x (degenerated_mark env x).2, r.cancelled_at_exit = false)
    (hg : x._gc_state = MARKING ∨ x._gc_state = MARKING ||| HAS_FORWARDED) :
    (degenerated_mark env x).1 = SwitchExit.break_out ∧
    (degenerated_mark env x).2._gc_state = STABLE ∧
    (degenerated_mark env x).2._cancelled_gc = false ∧
    (degenerated_mark env x).2._collection_set = [] := by
  obtain ⟨heq, hc0, hc2, hps⟩ := degenerated_mark_clear env x H
  have H1 := forall_mem_of_append _ _ _ _ hps H
  obtain ⟨m1, m2⟩ := after_final_mark_state env x hx hc0
  rw [heq]
  apply evac_tail_stable env _ hc2 H1
  rw [m1, m2]
  cases he : env.choose_collection_set.isEmpty
  · left
    rcases hg with hg | hg <;> rw [hg] <;> decide
  · right
    refine ⟨?_, List.isEmpty_iff.mp he⟩
    rcases hg with hg | hg <;> rw [hg] <;> decide

/-- The end of a run without cancellation entered at
`case _degenerated_outside_cycle`. -/
theorem outside_cycle_tail_stable (env : GCEnvironment) (x : ShenandoahHeap)
    (H : ∀ r ∈ phases_since x (degenerated_outside_cycle env x).2,
      r.cancelled_at_exit = false)
    (hg : x._gc_state = STABLE) :
    (degenerated_outside_cycle env x).1 = SwitchExit.break_out ∧
    (degenerated_outside_cycle env x).2._gc_state = STABLE ∧
    (degenerated_outside_cycle env x).2._cancelled_gc = false ∧
    (degenerated_outside_cycle env x).2._collection_set = [] := by
  obtain ⟨heq, hc1, hps⟩ := degenerated_outside_cycle_clear env x H
  have H1 : ∀ r ∈ phases_since (after_init_mark env x)
      (degenerated_mark env (after_init_mark env x)).2, r.cancelled_at_exit = false :=
    forall_mem_of_append _ _ [_] _ hps H
  rw [heq]
  apply mark_tail_stable env _ hc1 H1
  left
  rw [after_init_mark_state, hg]
  decide

theorem op_degenerated_of_break (env : GCEnvironment) (point : ShenandoahDegenPoint)
    (h : ShenandoahHeap)
    (he : (degenerated_switch env point h.clear_cancelled_gc).1 = SwitchExit.break_out) :
    op_degenerated env point h =
      some (degenerated_progress_check env
        (degenerated_switch env point h.clear_cancelled_gc).2) := by
  simp only [op_degenerated]
  rcases hsw : degenerated_switch env point h.clear_cancelled_gc with ⟨e, r⟩
  rw [hsw] at he
  simp only at he
  subst he
  rfl

theorem op_degenerated_of_fail (env : GCEnvironment) (point : ShenandoahDegenPoint)
    (h : ShenandoahHeap)
    (he : (degenerated_switch env point h.clear_cancelled_gc).1 = SwitchExit.fail_return) :
    op_degenerated env point h =
      some (degenerated_switch env point h.clear_cancelled_gc).2 := by
  simp only [op_degenerated]
  rcases hsw : degenerated_switch env point h.clear_cancelled_gc with ⟨e, r⟩
  rw [hsw] at he
  simp only at he
  subst he
  rfl

end CycleLemmas

section AllocationLemmas

open AllocFrame ShenandoahAllocationRequest

theorem try_allocate_fields (env : AllocEnvironment) (f : AllocFrame) :
    (f.try_allocate env).counters = f.counters ∧
    (f.try_allocate env).req._alloc_type = f.req._alloc_type ∧
    (f.try_allocate env).req._requested_size = f.req._requested_size ∧
    (f.try_allocate env).tries = f.tries ∧
    (f.try_allocate env).handled = f.handled ∧
    (f.try_allocate env).attempts = f.attempts + 1 ∧
    (f.try_allocate env).result =
      (env.allocate_memory_under_lock f.attempts f.req f.in_new_region).result ∧
    (f.try_allocate env).events =
      f.events ++ [AllocEvent.attempt (f.try_allocate env).result.isSome] := by
  unfold try_allocate
  cases ha : (env.allocate_memory_under_lock f.attempts f.req f.in_new_region).actual_size <;>
    simp [set_actual_size, ha]

theorem retry_fields (env : AllocEnvironment) (f : AllocFrame) :
    (f.retry env).counters = f.counters ∧
    (f.retry env).req._alloc_type = f.req._alloc_type ∧
    (f.retry env).req._requested_size = f.req._requested_size ∧
    (f.retry env).tries = (f.tries + 1) % WORD_MOD ∧
    (f.retry env).handled = f.handled + 1 ∧
    (f.retry env).events =
      f.events ++ [AllocEvent.handle_alloc_failure f.req.size,
        AllocEvent.attempt (f.retry env).result.isSome] := by
  obtain ⟨h1, h2, h3, h4, h5, _, _, h8⟩ := try_allocate_fields env
    { f with tries := (f.tries + 1) % WORD_MOD, handled := f.handled + 1,
             events := f.events ++ [AllocEvent.handle_alloc_failure f.req.size] }
  refine ⟨h1, h2, h3, h4, h5, ?_⟩
  show (try_allocate env _).events = _
  rw [h8]
  simp [retry]

theorem retry_invariant_retry (env : AllocEnvironment) (c : AllocCounters)
    (req : ShenandoahAllocationRequest) (first : List AllocEvent) (f : AllocFrame)
    (hinv : f.retry_invariant c req first) (hres : f.result = none) :
    (f.retry env).retry_invariant c req first := by
  obtain ⟨i1, i2, i3, i4, i5⟩ := hinv
  obtain ⟨r1, r2, r3, r4, r5, r6⟩ := retry_fields env f
  refine ⟨r1.trans i1, r2.trans i2, r3.trans i3, ?_, ?_⟩
  · rw [r4, r5]
    exact Nat.le_trans (Nat.mod_le _ _) (Nat.succ_le_succ i4)
  · intro hnone
    have hsz : f.req.size = req.size := i3
    rw [r6, r5, hnone, i5 hres, hsz]
    simp [failed_retries]

theorem retry_while_progress_invariant (env : AllocEnvironment) (c : AllocCounters)
    (req : ShenandoahAllocationRequest) (first : List AllocEvent) (fuel : Nat) :
    ∀ f f', f.retry_invariant c req first → retry_while_progress env fuel f = some f' →
      f'.retry_invariant c req first := by
  induction fuel with
  | zero =>
    intro f f' hinv hrun
    unfold retry_while_progress at hrun
    split at hrun
    · exact Option.noConfusion hrun
    · simp only [Option.some.injEq] at hrun
      exact hrun ▸ hinv
  | succ n ih =>
    intro f f' hinv hrun
    unfold retry_while_progress at hrun
    split at hrun
    · rename_i hcond
      have hres : f.result = none := by
        simp only [Bool.and_eq_true, Option.isNone_iff_eq_none] at hcond
        exact hcond.1
      exact ih _ _ (retry_invariant_retry env c req first f hinv hres) hrun
    · simp only [Option.some.injEq] at hrun
      exact hrun ▸ hinv

theorem retry_up_to_threshold_invariant (env : AllocEnvironment) (c : AllocCounters)
    (req : ShenandoahAllocationRequest) (first : List AllocEvent) (fuel : Nat) :
    ∀ f f', f.retry_invariant c req first → retry_up_to_threshold env fuel f = some f' →
      f'.retry_invariant c req first ∧
      (f'.result = none → env.ShenandoahFullGCThreshold < f'.tries) := by
  induction fuel with
  | zero =>
    intro f f' hinv hrun
    unfold retry_up_to_threshold at hrun
    split at hrun
    · exact Option.noConfusion hrun
    · rename_i hcond
      simp only [Option.some.injEq] at hrun
      subst hrun
      refine ⟨hinv, fun hnone => ?_⟩
      simp only [Bool.and_eq_true, Option.isNone_iff_eq_none, decide_eq_true_eq,
        not_and, Nat.not_le] at hcond
      exact hcond hnone
  | succ n ih =>
    intro f f' hinv hrun
    unfold retry_up_to_threshold at hrun
    split at hrun
    · rename_i hcond
      have hres : f.result = none := by
        simp only [Bool.and_eq_true, Option.isNone_iff_eq_none] at hcond
        exact hcond.1
      exact ih _ _ (retry_invariant_retry env c req first f hinv hres) hrun
    · rename_i hcond
      simp only [Option.some.injEq] at hrun
      subst hrun
      refine ⟨hinv, fun hnone => ?_⟩
      simp only [Bool.and_eq_true, Option.isNone_iff_eq_none, decide_eq_true_eq,
        not_and, Nat.not_le] at hcond
      exact hcond hnone

theorem account_fields (f : AllocFrame) :
    f.account.result = f.result ∧ f.account.req = f.req ∧
    f.account.handled = f.handled ∧ f.account.attempts = f.attempts ∧
    f.account.events =
      f.events ++ (if f.in_new_region then [AllocEvent.notify_heap_changed] else []) ∧
    (f.result = none → f.account.counters = f.counters) ∧
    (f.result ≠ none → f.req.is_mutator_alloc = true →
      f.account.counters = f.counters.notify_mutator_alloc_words f.req.actual_size false) ∧
    (f.result ≠ none → f.req.is_mutator_alloc = false →
      f.account.counters =
        f.counters.increase_used ((f.req.actual_size * HeapWordSize) % WORD_MOD)) := by
  unfold account
  cases hn : f.in_new_region <;> cases hr : f.result <;>
    cases hm : f.req.is_mutator_alloc <;> simp [hn, hr, hm]

/-- The locals when the first retry loop is reached, for a mutator request. -/
theorem first_attempt_invariant (env : AllocEnvironment) (c : AllocCounters)
    (req : ShenandoahAllocationRequest) :
    ∃ first, (first = [] ∨ first = [AllocEvent.attempt false]) ∧
      ({ (if !env.ShenandoahAllocFailureALot || !env.should_inject_alloc_failure then
            (AllocFrame.start c req).try_allocate env
          else AllocFrame.start c req) with tries := 0 } : AllocFrame).retry_invariant
        c req first := by
  by_cases hinj : (!env.ShenandoahAllocFailureALot || !env.should_inject_alloc_failure) = true
  · obtain ⟨h1, h2, h3, _, h5, _, _, h8⟩ := try_allocate_fields env (AllocFrame.start c req)
    refine ⟨[AllocEvent.attempt false], Or.inr rfl, ?_⟩
    rw [if_pos hinj]
    refine ⟨h1, h2, h3, Nat.zero_le _, ?_⟩
    intro hnone
    have hnone' : ((AllocFrame.start c req).try_allocate env).result = none := hnone
    show ((AllocFrame.start c req).try_allocate env).events = _
    rw [h8, hnone', h5]
    simp [AllocFrame.start, failed_retries]
  · refine ⟨[], Or.inl rfl, ?_⟩
    rw [if_neg hinj]
    exact ⟨rfl, rfl, rfl, Nat.le_refl _, fun _ => rfl⟩

/-- A run of `allocate_memory` for a mutator request, taken apart. -/
theorem allocate_memory_mutator_run (env : AllocEnvironment) (fuel : Nat) (c : AllocCounters)
    (req : ShenandoahAllocationRequest) (out : AllocFrame)
    (hmut : req.is_mutator_alloc = true) (hrun : allocate_memory env fuel c req = some out) :
    ∃ (first : List AllocEvent) (f : AllocFrame),
      (first = [] ∨ first = [AllocEvent.attempt false]) ∧
      f.retry_invariant c req first ∧
      (f.result = none → env.ShenandoahFullGCThreshold < f.tries) ∧ out = f.account := by
  obtain ⟨first, hfirst, hinv0⟩ := first_attempt_invariant env c req
  simp only [allocate_memory, hmut, if_true] at hrun
  cases h1 : retry_while_progress env fuel
      { (if !env.ShenandoahAllocFailureALot || !env.should_inject_alloc_failure then
            (AllocFrame.start c req).try_allocate env
          else AllocFrame.start c req) with tries := 0 } with
  | none => rw [h1] at hrun; exact Option.noConfusion hrun
  | some f1 =>
    rw [h1] at hrun
    simp only at hrun
    have hinv1 := retry_while_progress_invariant env c req first fuel _ _ hinv0 h1
    cases h2 : retry_up_to_threshold env fuel f1 with
    | none => rw [h2] at hrun; exact Option.noConfusion hrun
    | some f2 =>
      rw [h2] at hrun
      simp only [Option.some.injEq] at hrun
      obtain ⟨hinv2, hthr⟩ := retry_up_to_threshold_invariant env c req first fuel _ _ hinv1 h2
      exact ⟨first, f2, hfirst, hinv2, hthr, hrun.symm⟩

end AllocationLemmas

section StarvationLemmas

open AllocFrame ShenandoahAllocationRequest

theorem retry_result_of_failing (env : AllocEnvironment)
    (hfail : ∀ n r b, (env.allocate_memory_under_lock n r b).result = none) (f : AllocFrame) :
    (f.retry env).result = none := by
  obtain ⟨_, _, _, _, _, _, h7, _⟩ := try_allocate_fields env
    { f with tries := (f.tries + 1) % WORD_MOD, handled := f.handled + 1,
             events := f.events ++ [AllocEvent.handle_alloc_failure f.req.size] }
  show (try_allocate env _).result = none
  rw [h7]
  exact hfail _ _ _

/-- With an allocator that never grants, the first loop runs until the control thread
first reports no progress, given fuel for the remaining iterations. -/
theorem retry_while_progress_of_failing (env : AllocEnvironment) (k : Nat)
    (hfail : ∀ n r b, (env.allocate_memory_under_lock n r b).result = none)
    (hprog : ∀ j, j < k → env.last_gc_made_progress j = true)
    (hstop : env.last_gc_made_progress k = false) (hk : k < WORD_MOD) (fuel : Nat) :
    ∀ f : AllocFrame, f.result = none → f.handled ≤ k → f.tries = f.handled →
      k - f.handled ≤ fuel →
      ∃ f', retry_while_progress env fuel f = some f' ∧ f'.result = none ∧
        f'.handled = k ∧ f'.tries = k ∧ f'.counters = f.counters := by
  induction fuel with
  | zero =>
    intro f hres hle htr hfuel
    have hk' : f.handled = k := by omega
    refine ⟨f, ?_, hres, hk', htr.trans hk', rfl⟩
    unfold retry_while_progress
    rw [hk', hstop]
    simp
  | succ n ih =>
    intro f hres hle htr hfuel
    by_cases hk' : f.handled = k
    · refine ⟨f, ?_, hres, hk', htr.trans hk', rfl⟩
      unfold retry_while_progress
      rw [hk', hstop]
      simp
    · have hlt : f.handled < k := by omega
      obtain ⟨r1, _, _, r4, r5, _⟩ := retry_fields env f
      have hstep : retry_while_progress env (n + 1) f =
          retry_while_progress env n (f.retry env) := by
        conv => lhs; unfold retry_while_progress
        rw [hres, hprog _ hlt]
        simp
      have htr' : (f.retry env).tries = (f.retry env).handled := by
        rw [r4, r5, htr]
        exact Nat.mod_eq_of_lt (by omega)
      obtain ⟨f', h1, h2, h3, h4, h5⟩ := ih (f.retry env)
        (retry_result_of_failing env hfail f) (by rw [r5]; omega) htr' (by rw [r5]; omega)
      exact ⟨f', hstep.trans h1, h2, h3, h4, h5.trans r1⟩

/-- With an allocator that never grants, the second loop runs until `tries` exceeds
the threshold, given fuel for the remaining iterations. -/
theorem retry_up_to_threshold_of_failing (env : AllocEnvironment)
    (hfail : ∀ n r b, (env.allocate_memory_under_lock n r b).result = none)
    (hT : env.ShenandoahFullGCThreshold + 1 < WORD_MOD) (fuel : Nat) :
    ∀ f : AllocFrame, f.result = none → f.tries = f.handled →
      env.ShenandoahFullGCThreshold + 1 - f.handled ≤ fuel →
      ∃ f', retry_up_to_threshold env fuel f = some f' ∧ f'.result = none ∧
        f'.handled = max f.handled (env.ShenandoahFullGCThreshold + 1) ∧
        f'.counters = f.counters := by
  induction fuel with
  | zero =>
    intro f hres htr hfuel
    have hgt : ¬ f.tries ≤ env.ShenandoahFullGCThreshold := by omega
    refine ⟨f, ?_, hres, by omega, rfl⟩
    unfold retry_up_to_threshold
    simp [hgt]
  | succ n ih =>
    intro f hres htr hfuel
    by_cases hle : f.tries ≤ env.ShenandoahFullGCThreshold
    · obtain ⟨r1, _, _, r4, r5, _⟩ := retry_fields env f
      have hstep : retry_up_to_threshold env (n + 1) f =
          retry_up_to_threshold env n (f.retry env) := by
        conv => lhs; unfold retry_up_to_threshold
        simp [hres, hle]
      have htr' : (f.retry env).tries = (f.retry env).handled := by
        rw [r4, r5, htr]
        exact Nat.mod_eq_of_lt (by omega)
      obtain ⟨f', h1, h2, h3, h4⟩ := ih (f.retry env)
        (retry_result_of_failing env hfail f) htr' (by rw [r5]; omega)
      refine ⟨f', hstep.trans h1, h2, ?_, h4.trans r1⟩
      rw [h3, r5]
      omega
    · refine ⟨f, ?_, hres, by omega, rfl⟩
      unfold retry_up_to_threshold
      simp [hle]

/-- With an allocator that never grants and a control thread that always reports
progress, the first loop does not end, whatever the fuel. -/
theorem retry_while_progress_diverges (env : AllocEnvironment)
    (hfail : ∀ n r b, (env.allocate_memory_under_lock n r b).result = none)
    (hforever : ∀ j, env.last_gc_made_progress j = true) (fuel : Nat) :
    ∀ f : AllocFrame, f.result = none → retry_while_progress env fuel f = none := by
  induction fuel with
  | zero =>
    intro f hres
    unfold retry_while_progress
    simp [hres, hforever]
  | succ n ih =>
    intro f hres
    unfold retry_while_progress
    rw [hres, hforever]
    simpa using ih _ (retry_result_of_failing env hfail f)

/-- The locals when the first retry loop is reached, with an allocator that never
grants. -/
theorem first_attempt_of_failing (env : AllocEnvironment) (c : AllocCounters)
    (req : ShenandoahAllocationRequest)
    (hfail : ∀ n r b, (env.allocate_memory_under_lock n r b).result = none) :
    ∃ f0 : AllocFrame,
      ({ (if !env.ShenandoahAllocFailureALot || !env.should_inject_alloc_failure then
            (AllocFrame.start c req).try_allocate env
          else AllocFrame.start c req) with tries := 0 } : AllocFrame) = f0 ∧
      f0.result = none ∧ f0.handled = 0 ∧ f0.tries = 0 ∧ f0.counters = c := by
  refine ⟨_, rfl, ?_⟩
  by_cases hinj : (!env.ShenandoahAllocFailureALot || !env.should_inject_alloc_failure) = true
  · obtain ⟨h1, _, _, _, h5, _, h7, _⟩ := try_allocate_fields env (AllocFrame.start c req)
    rw [if_pos hinj]
    exact ⟨h7.trans (hfail _ _ _), h5, rfl, h1⟩
  · rw [if_neg hinj]
    exact ⟨rfl, rfl, rfl, rfl⟩

end StarvationLemmas

section AccountingLemmas

open AllocFrame ShenandoahAllocationRequest

theorem is_mutator_alloc_congr (a b : ShenandoahAllocationRequest)
    (h : a._alloc_type = b._alloc_type) : a.is_mutator_alloc = b.is_mutator_alloc := by
  unfold is_mutator_alloc
  rw [h]

theorem is_gc_alloc_eq_not (a : ShenandoahAllocationRequest) :
    a.is_gc_alloc = !a.is_mutator_alloc := by
  unfold is_gc_alloc is_mutator_alloc
  cases a._alloc_type <;> rfl

/-- A run of `allocate_memory` for a GC request is one attempt and the accounting. -/
theorem allocate_memory_gc_run (env : AllocEnvironment) (fuel : Nat) (c : AllocCounters)
    (req : ShenandoahAllocationRequest) (hgc : req.is_mutator_alloc = false) :
    allocate_memory env fuel c req = some ((AllocFrame.start c req).try_allocate env).account := by
  simp [allocate_memory, hgc]

/-- Every run of `allocate_memory` ends in the accounting of locals whose counters are
still the initial ones and whose request is of the kind asked for. -/
theorem allocate_memory_run (env : AllocEnvironment) (fuel : Nat) (c : AllocCounters)
    (req : ShenandoahAllocationRequest) (out : AllocFrame)
    (hrun : allocate_memory env fuel c req = some out) :
    ∃ f : AllocFrame, out = f.account ∧ f.counters = c ∧
      f.req._alloc_type = req._alloc_type ∧ f.req._requested_size = req._requested_size := by
  cases hmut : req.is_mutator_alloc with
  | true =>
    obtain ⟨_, f, _, hinv, _, hout⟩ := allocate_memory_mutator_run env fuel c req out hmut hrun
    exact ⟨f, hout, hinv.1, hinv.2.1, hinv.2.2.1⟩
  | false =>
    rw [allocate_memory_gc_run env fuel c req hmut] at hrun
    obtain ⟨h1, h2, h3, _⟩ := try_allocate_fields env (AllocFrame.start c req)
    exact ⟨_, (Option.some.inj hrun).symm, h1, h2, h3⟩

end AccountingLemmas

section StateBitLemmas

open ShenandoahHeap

theorem is_set_two_pow (g j : Nat) : is_set g (2 ^ j) = g.testBit j := by
  unfold is_set
  rw [Nat.and_two_pow]
  cases h : g.testBit j <;> simp [h]

theorem testBit_set_cond (g k j : Nat) (hj : j < 8) (b : Bool) :
    (set_cond g (2 ^ k) b).testBit j = if j = k then b else g.testBit j := by
  have h255 : (255 : Nat) = 2 ^ 8 - 1 := by norm_num
  unfold set_cond
  cases b
  · simp only [Bool.false_eq_true, if_false, Nat.testBit_and, Nat.testBit_xor, h255,
      Nat.testBit_two_pow_sub_one, Nat.testBit_two_pow]
    by_cases hjk : j = k
    · subst hjk; simp [hj]
    · have : ¬ k = j := fun h => hjk h.symm
      simp [hj, hjk, this]
  · simp only [if_true, Nat.testBit_or, Nat.testBit_two_pow]
    by_cases hjk : j = k
    · subst hjk; simp
    · have : ¬ k = j := fun h => hjk h.symm
      simp [hjk, this]

/-- The effect of `set_cond` with a one-bit mask on the test of a one-bit mask. -/
theorem is_set_set_cond (g k j : Nat) (hj : j < 8) (b : Bool) :
    is_set (set_cond g (2 ^ k) b) (2 ^ j) = if j = k then b else is_set g (2 ^ j) := by
  rw [is_set_two_pow, is_set_two_pow, testBit_set_cond g k j hj b]

theorem set_cond_lt (g k : Nat) (hk : k < 4) (b : Bool) (hg : g < 16) :
    set_cond g (2 ^ k) b < 16 := by
  unfold set_cond
  cases b
  · simp only [Bool.false_eq_true, if_false]
    exact Nat.lt_of_le_of_lt Nat.and_le_left hg
  · simp only [if_true]
    have h16 : (16 : Nat) = 2 ^ 4 := by norm_num
    rw [h16] at hg ⊢
    exact Nat.or_lt_two_pow hg (Nat.pow_lt_pow_right (by norm_num) hk)

theorem masks_two_pow :
    HAS_FORWARDED = 2 ^ 0 ∧ MARKING = 2 ^ 1 ∧ EVACUATION = 2 ^ 2 ∧ UPDATEREFS = 2 ^ 3 := by
  decide

/-- The tests of all four masks after `set_cond` with the mask `2 ^ k`. -/
theorem is_set_masks_set_cond (g k : Nat) (b : Bool) :
    ∀ mask ∈ gc_state_masks,
      is_set (set_cond g (2 ^ k) b) mask = if mask = 2 ^ k then b else is_set g mask := by
  obtain ⟨m0, m1, m2, m3⟩ := masks_two_pow
  have key : ∀ j : Nat, j < 8 →
      is_set (set_cond g (2 ^ k) b) (2 ^ j) =
        if (2 : Nat) ^ j = 2 ^ k then b else is_set g (2 ^ j) := by
    intro j hj
    rw [is_set_set_cond g k j hj b]
    by_cases hjk : j = k
    · rw [if_pos hjk, if_pos (by rw [hjk])]
    · rw [if_neg hjk, if_neg (fun h => hjk (Nat.pow_right_injective (Nat.le_refl 2) h))]
  intro mask hmask
  simp only [gc_state_masks, List.mem_cons, List.mem_singleton, List.not_mem_nil,
    or_false] at hmask
  rcases hmask with h | h | h | h
  · rw [h, m0]; exact key 0 (by norm_num)
  · rw [h, m1]; exact key 1 (by norm_num)
  · rw [h, m2]; exact key 2 (by norm_num)
  · rw [h, m3]; exact key 3 (by norm_num)

theorem stable_iff_no_bit :
    ∀ g, g < 16 → (g = STABLE ↔ ∀ mask ∈ gc_state_masks, is_set g mask = false) := by
  decide

end StateBitLemmas

section FinalMarkLemmas

open ShenandoahHeap

/-- Nothing in `op_final_mark` clears the cancellation flag: if it is clear at exit, no
request arrived while marking was finished. -/
theorem finish_mark_quiet_of_exit_clear (env : GCEnvironment) (x : ShenandoahHeap)
    (hx : x._cancelled_gc = false) (hc : (op_final_mark env x)._cancelled_gc = false) :
    env.cancel_during GCStep.finish_mark_from_roots = false := by
  cases hv : env.cancel_during GCStep.finish_mark_from_roots
  · rfl
  · exfalso
    revert hc
    by_cases hcs : x._collection_set = [] <;>
      simp [op_final_mark, cancelled_gc, hx, run_step, hv, stop_concurrent_marking,
        prepare_for_concurrent_evacuation, set_concurrent_mark_in_progress,
        set_evacuation_in_progress, set_has_forwarded_objects, set_gc_state_mask, hcs]

/-- The state after `op_final_mark` when no cancellation request has arrived by the end
of marking. -/
theorem op_final_mark_of_quiet (env : GCEnvironment) (x : ShenandoahHeap)
    (hx : x._cancelled_gc = false)
    (hf : env.cancel_during GCStep.finish_mark_from_roots = false) :
    (op_final_mark env x)._collection_set = env.choose_collection_set ∧
    (op_final_mark env x)._complete_marking_context = x._next_marking_context ∧
    (op_final_mark env x)._next_marking_context = x._complete_marking_context ∧
    (op_final_mark env x)._gc_state =
      if env.choose_collection_set.isEmpty then
        set_cond (set_cond x._gc_state HAS_FORWARDED false) MARKING false
      else
        set_cond (set_cond (set_cond (set_cond x._gc_state HAS_FORWARDED false) MARKING false)
          EVACUATION true) HAS_FORWARDED true := by
  cases he : env.choose_collection_set.isEmpty <;>
    simp [op_final_mark, cancelled_gc, hx, run_step, hf,
      stop_concurrent_marking, prepare_for_concurrent_evacuation, trash_cset_regions,
      set_concurrent_mark_in_progress, set_has_forwarded_objects, set_evacuation_in_progress,
      swap_mark_contexts, set_gc_state_mask, he]

/-- With the cancellation flag set, `op_final_mark` only clears `MARKING`. -/
theorem op_final_mark_of_cancelled (env : GCEnvironment) (x : ShenandoahHeap)
    (hx : x._cancelled_gc = true) :
    op_final_mark env x = { x with _gc_state := set_cond x._gc_state MARKING false } := by
  simp [op_final_mark, cancelled_gc, hx, stop_concurrent_marking,
    set_concurrent_mark_in_progress, set_gc_state_mask]

/-- The state after `op_final_mark` when the flag is clear at entry and a cancellation
request arrives while marking is finished. -/
theorem op_final_mark_of_late_cancel (env : GCEnvironment) (x : ShenandoahHeap)
    (hx : x._cancelled_gc = false)
    (hf : env.cancel_during GCStep.finish_mark_from_roots = true) :
    (op_final_mark env x)._complete_marking_context = x._complete_marking_context ∧
    (op_final_mark env x)._next_marking_context = x._next_marking_context ∧
    (op_final_mark env x)._collection_set = x._collection_set ∧
    (op_final_mark env x)._free_set = x._free_set ∧
    (op_final_mark env x).trash = x.trash ∧
    (op_final_mark env x)._cancelled_gc = true ∧
    (x._collection_set = [] →
      op_final_mark env x =
        { x with _cancelled_gc := true, _gc_state := set_cond x._gc_state MARKING false }) := by
  by_cases hcs : x._collection_set = [] <;>
    simp [op_final_mark, cancelled_gc, hx, run_step, hf, stop_concurrent_marking,
      prepare_for_concurrent_evacuation, set_concurrent_mark_in_progress,
      set_evacuation_in_progress, set_has_forwarded_objects, set_gc_state_mask, hcs]

end FinalMarkLemmas

section ProgressLemmas

open ShenandoahHeap

/-- Entered at one of the four degeneration points, the `switch` is left by `break` or
by `return`. -/
theorem switch_outcome_of_valid (env : GCEnvironment) (point : ShenandoahDegenPoint)
    (x : ShenandoahHeap) (hx : x._cancelled_gc = false)
    (hpoint : point ∈ [ShenandoahDegenPoint._degenerated_outside_cycle,
      ShenandoahDegenPoint._degenerated_mark, ShenandoahDegenPoint._degenerated_evac,
      ShenandoahDegenPoint._degenerated_updaterefs]) :
    switch_completed x (degenerated_switch env point x) ∨
      switch_failed x (degenerated_switch env point x) := by
  simp only [List.mem_cons, List.mem_singleton, List.not_mem_nil, or_false] at hpoint
  rcases hpoint with hp | hp | hp | hp <;> subst hp
  · exact degenerated_outside_cycle_outcome env x hx
  · exact degenerated_mark_outcome env x hx
  · exact degenerated_evac_outcome env x hx
  · exact degenerated_updaterefs_outcome env x hx

end ProgressLemmas

section HumongousLemmas

open RegionTable

theorem mem_descending_from (start n i : Nat) :
    i ∈ descending_from start n ↔ start ≤ i ∧ i < start + n := by
  induction n with
  | zero => simp [descending_from]
  | succ n ih =>
    simp only [descending_from, List.mem_cons, ih]
    omega

theorem descending_from_pairwise (start n : Nat) :
    (descending_from start n).Pairwise (fun a b => b < a) := by
  induction n with
  | zero => exact List.Pairwise.nil
  | succ n ih =>
    refine List.Pairwise.cons ?_ ih
    intro b hb
    rw [mem_descending_from] at hb
    exact hb.2

theorem descending_from_getLast (start n : Nat) :
    (descending_from start (n + 1)).getLast? = some start := by
  induction n with
  | zero => rfl
  | succ n ih =>
    show (_ :: (start + n) :: descending_from start n).getLast? = _
    rw [List.getLast?_cons_cons]
    exact ih

/-- The loop of `trash_humongous_region_at` over `n` regions that lie in the table,
entered with `index` at the last of them. -/
theorem trash_loop_descending (env : HumongousEnvironment) (start : Nat) :
    ∀ (n : Nat) (t : RegionTable), start + n ≤ t._regions.length →
      t._regions.length < WORD_MOD →
      ∃ t', trash_loop env n ((start + n + WORD_MOD - 1) % WORD_MOD) t = some t' ∧
        t'.make_trash_calls = t.make_trash_calls ++ descending_from start n ∧
        t'._regions.length = t._regions.length ∧
        ∀ i, t'._regions[i]? =
          if start ≤ i ∧ i < start + n then
            (t._regions[i]?).map (fun r => { r with _state := env.make_trash r._state })
          else t._regions[i]? := by
  intro n
  induction n with
  | zero =>
    intro t _ _
    refine ⟨t, rfl, by simp [descending_from], rfl, ?_⟩
    intro i
    rw [if_neg (by omega)]
  | succ n ih =>
    intro t hfit hlen
    have hidx : (start + (n + 1) + WORD_MOD - 1) % WORD_MOD = start + n := by
      unfold WORD_MOD at hlen ⊢
      omega
    have hlt : start + n < t._regions.length := by omega
    have hget : t._regions[start + n]? = some (t._regions[start + n]) :=
      List.getElem?_eq_getElem hlt
    obtain ⟨t', h1, h2, h3, h4⟩ := ih
      { _regions := t._regions.set (start + n)
          { t._regions[start + n] with
            _state := env.make_trash (t._regions[start + n])._state },
        make_trash_calls := t.make_trash_calls ++ [start + n] }
      (by simp only [List.length_set]; omega) (by simp only [List.length_set]; exact hlen)
    refine ⟨t', ?_, ?_, ?_, ?_⟩
    · rw [hidx]
      simp only [trash_loop, make_trash_at, get_region, hget]
      exact h1
    · rw [h2]
      simp [descending_from]
    · rw [h3, List.length_set]
    · intro i
      rw [h4 i]
      simp only [List.getElem?_set]
      by_cases hi : start + n = i
      · subst hi
        rw [if_neg (by omega), if_pos rfl, if_pos hlt, if_pos (by omega), hget]
        rfl
      · rw [if_neg hi]
        by_cases hr : start ≤ i ∧ i < start + n
        · rw [if_pos hr, if_pos (by omega)]
        · rw [if_neg hr, if_neg (by omega)]

end HumongousLemmas

section ClaimLemmas

open ShenandoahCodeRootsIterator

theorem lt_length_of_getElem? {α : Type} (l : List α) (w : Nat) (a : α)
    (h : l[w]? = some a) : w < l.length := by
  obtain ⟨hlt, _⟩ := List.getElem?_eq_some.1 h
  exact hlt

/-- The pending indices of a worker other than the one that has moved. -/
theorem pending_set_other (s s' : ShenandoahCodeRootsIterator) (w w' i : Nat) (pc : BlobsPc)
    (hs : s'.workers = s.workers.set w pc) (hne : w ≠ w') :
    s'.pending w' i ↔ s.pending w' i := by
  unfold pending
  rw [hs, List.getElem?_set_ne hne]

/-- The pending indices of the worker that has moved. -/
theorem pending_set_self (s s' : ShenandoahCodeRootsIterator) (w i : Nat) (pc old : BlobsPc)
    (hs : s'.workers = s.workers.set w pc) (hw : s.workers[w]? = some old) :
    s'.pending w i ↔ ∃ idx end_, pc = BlobsPc.chunk idx end_ ∧ idx ≤ i ∧ i < end_ := by
  unfold pending
  rw [hs, List.getElem?_set_self (lt_length_of_getElem? _ _ _ hw)]
  constructor
  · rintro ⟨idx, e, h, h1, h2⟩
    exact ⟨idx, e, Option.some.inj h, h1, h2⟩
  · rintro ⟨idx, e, h, h1, h2⟩
    exact ⟨idx, e, congrArg some h, h1, h2⟩

theorem pending_of_pc (s : ShenandoahCodeRootsIterator) (w i : Nat) (old : BlobsPc)
    (hw : s.workers[w]? = some old) :
    s.pending w i ↔ ∃ idx end_, old = BlobsPc.chunk idx end_ ∧ idx ≤ i ∧ i < end_ := by
  unfold pending
  rw [hw]
  constructor
  · rintro ⟨idx, e, h, h1, h2⟩
    exact ⟨idx, e, Option.some.inj h, h1, h2⟩
  · rintro ⟨idx, e, h, h1, h2⟩
    exact ⟨idx, e, congrArg some h, h1, h2⟩

/-- The number of workers committed to an addition, after one worker has moved. -/
theorem countP_claim_set (l : List BlobsPc) (w : Nat) (pc old : BlobsPc)
    (hw : l[w]? = some old) :
    (l.set w pc).countP (fun pc => pc == BlobsPc.claim) +
        (if old = BlobsPc.claim then 1 else 0) =
      l.countP (fun pc => pc == BlobsPc.claim) + (if pc = BlobsPc.claim then 1 else 0) := by
  obtain ⟨hlt, hget⟩ := List.getElem?_eq_some.1 hw
  rw [List.countP_set _ _ _ _ hlt, hget]
  have hpos : old = BlobsPc.claim → 0 < l.countP (fun pc => pc == BlobsPc.claim) := by
    intro ho
    rw [List.countP_pos_iff]
    exact ⟨l[w], List.getElem_mem hlt, by rw [hget, ho]; rfl⟩
  by_cases ho : old = BlobsPc.claim <;> by_cases hn : pc = BlobsPc.claim
  · have := hpos ho
    simp only [ho, hn, beq_self_eq_true, if_true]
    omega
  · have := hpos ho
    simp only [ho, hn, beq_self_eq_true, if_true, beq_iff_eq, if_false]
    omega
  · simp only [ho, hn, beq_self_eq_true, if_true, beq_iff_eq, if_false]
    omega
  · simp only [ho, hn, beq_iff_eq, if_false]
    omega

theorem fresh_invariant (length workers : Nat) :
    claims_invariant length workers 0 (fresh workers) := by
  have hget : ∀ (w : Nat) (pc : BlobsPc), (fresh workers).workers[w]? = some pc →
      pc = BlobsPc.loop_test := by
    intro w pc h
    simp only [fresh, List.getElem?_replicate] at h
    split at h
    · exact (Option.some.inj h).symm
    · exact Option.noConfusion h
  have hpend : ∀ w i : Nat, ¬ (fresh workers).pending w i := by
    rintro w i ⟨idx, e, h, _⟩
    exact BlobsPc.noConfusion (hget _ _ h)
  refine ⟨rfl, by simp [fresh], ?_, List.nodup_nil, ?_, ?_, ?_, ?_, ?_⟩
  · have h1 := List.countP_le_length (fun pc => pc == BlobsPc.claim) (l := (fresh workers).workers)
    have h2 : (fresh workers).workers.length = workers := by simp [fresh]
    rw [h2] at h1
    have := Nat.mul_le_mul_left stride h1
    omega
  · intro i hi
    exact absurd hi (List.not_mem_nil i)
  · intro w i h
    exact absurd h (hpend w i)
  · intro w w' i h
    exact absurd h (hpend w i)
  · intro i hi
    exact absurd hi (Nat.not_lt_zero i)
  · intro w h
    exact BlobsPc.noConfusion (hget _ _ h)

/-- The invariant when a worker moves to a place outside the `for` loop, having no index
left to visit, and the cursor does not uncover new indices. -/
theorem invariant_move (length workers c c' : Nat) (s s' : ShenandoahCodeRootsIterator)
    (w : Nat) (old pc : BlobsPc)
    (hinv : claims_invariant length workers c s)
    (hw : s.workers[w]? = some old)
    (hws : s'.workers = s.workers.set w pc)
    (hbs : s'.blobs_done = s.blobs_done)
    (hcl : s'._claimed = (c' : Int))
    (hc : c ≤ c') (hnew : c < c' → length ≤ c)
    (hpc : ∀ idx e, pc ≠ BlobsPc.chunk idx e)
    (hold : ∀ i, ¬ s.pending w i)
    (hcount : c' + stride * (s.workers.set w pc).countP (fun pc => pc == BlobsPc.claim) ≤
      length + stride * workers)
    (hret : pc = BlobsPc.returned → length ≤ c') :
    claims_invariant length workers c' s' := by
  obtain ⟨_, i2, _, i4, i5, i6, i7, i8, i9⟩ := hinv
  have hself : ∀ i, ¬ s'.pending w i := by
    intro i hp
    obtain ⟨idx, e, h, _⟩ := (pending_set_self s s' w i pc old hws hw).1 hp
    exact hpc idx e h
  have hother : ∀ w' i, s'.pending w' i → w ≠ w' ∧ s.pending w' i := by
    intro w' i hp
    by_cases hne : w = w'
    · subst hne
      exact absurd hp (hself i)
    · exact ⟨hne, (pending_set_other s s' w w' i pc hws hne).1 hp⟩
  refine ⟨hcl, ?_, ?_, ?_, ?_, ?_, ?_, ?_, ?_⟩
  · rw [hws, List.length_set]
    exact i2
  · rw [hws]
    exact hcount
  · rw [hbs]
    exact i4
  · intro i hi
    rw [hbs] at hi
    exact ⟨Nat.lt_of_lt_of_le (i5 i hi).1 hc, (i5 i hi).2⟩
  · intro w' i hp
    obtain ⟨h1, h2, h3⟩ := i6 w' i (hother w' i hp).2
    rw [hbs]
    exact ⟨Nat.lt_of_lt_of_le h1 hc, h2, h3⟩
  · intro w1 w2 i hp1 hp2
    exact i7 w1 w2 i (hother w1 i hp1).2 (hother w2 i hp2).2
  · intro i hic hil
    have hlt : i < c := by
      by_cases h : i < c
      · exact h
      · have := hnew (by omega)
        omega
    rcases i8 i hlt hil with h | ⟨w0, h⟩
    · exact Or.inl (hbs ▸ h)
    · have hne : w ≠ w0 := fun he => hold i (he ▸ h)
      exact Or.inr ⟨w0, (pending_set_other s s' w w0 i pc hws hne).2 h⟩
  · intro w' hr
    rw [hws, List.getElem?_set] at hr
    by_cases hne : w = w'
    · rw [if_pos hne, if_pos (lt_length_of_getElem? _ _ _ hw)] at hr
      exact hret (Option.some.inj hr)
    · rw [if_neg hne] at hr
      exact Nat.le_trans (i9 w' hr) hc

/-- The invariant when a worker at the `Atomic::add` is granted the chunk from the cursor
to the smaller of the cursor plus the stride and the length. -/
theorem invariant_grant (length workers c : Nat) (s s' : ShenandoahCodeRootsIterator)
    (w : Nat)
    (hinv : claims_invariant length workers c s)
    (hw : s.workers[w]? = some BlobsPc.claim)
    (hws : s'.workers = s.workers.set w (BlobsPc.chunk c (min (c + stride) length)))
    (hbs : s'.blobs_done = s.blobs_done)
    (hcl : s'._claimed = ((c + stride : Nat) : Int)) :
    claims_invariant length workers (c + stride) s' := by
  obtain ⟨_, i2, i3, i4, i5, i6, i7, i8, i9⟩ := hinv
  have hold : ∀ i, ¬ s.pending w i := by
    intro i hp
    obtain ⟨_, _, h, _⟩ := (pending_of_pc s w i _ hw).1 hp
    exact BlobsPc.noConfusion h
  have hself : ∀ i, s'.pending w i ↔ c ≤ i ∧ i < min (c + stride) length := by
    intro i
    rw [pending_set_self s s' w i _ _ hws hw]
    constructor
    · rintro ⟨idx, e, h, h1, h2⟩
      injection h with ha hb
      subst ha
      subst hb
      exact ⟨h1, h2⟩
    · rintro ⟨h1, h2⟩
      exact ⟨_, _, rfl, h1, h2⟩
  have hother : ∀ w' i, w ≠ w' → (s'.pending w' i ↔ s.pending w' i) := fun w' i hne =>
    pending_set_other s s' w w' i _ hws hne
  have hcnt := countP_claim_set s.workers w (BlobsPc.chunk c (min (c + stride) length)) _ hw
  simp only [if_true] at hcnt
  rw [if_neg (by intro h; exact BlobsPc.noConfusion h)] at hcnt
  refine ⟨hcl, ?_, ?_, ?_, ?_, ?_, ?_, ?_, ?_⟩
  · rw [hws, List.length_set]
    exact i2
  · rw [hws]
    simp only [stride] at i3 hcnt ⊢
    omega
  · rw [hbs]
    exact i4
  · intro i hi
    rw [hbs] at hi
    exact ⟨Nat.lt_of_lt_of_le (i5 i hi).1 (Nat.le_add_right _ _), (i5 i hi).2⟩
  · intro w' i hp
    rw [hbs]
    by_cases hne : w = w'
    · subst hne
      have h := (hself i).1 hp
      refine ⟨by omega, by omega, fun hm => ?_⟩
      have := (i5 i hm).1
      omega
    · obtain ⟨h1, h2, h3⟩ := i6 w' i ((hother w' i hne).1 hp)
      exact ⟨Nat.lt_of_lt_of_le h1 (Nat.le_add_right _ _), h2, h3⟩
  · intro w1 w2 i hp1 hp2
    by_cases h1 : w = w1 <;> by_cases h2 : w = w2
    · exact h1.symm.trans h2
    · subst h1
      have ha := (hself i).1 hp1
      have hb := (i6 w2 i ((hother w2 i h2).1 hp2)).1
      omega
    · subst h2
      have ha := (hself i).1 hp2
      have hb := (i6 w1 i ((hother w1 i h1).1 hp1)).1
      omega
    · exact i7 w1 w2 i ((hother w1 i h1).1 hp1) ((hother w2 i h2).1 hp2)
  · intro i hic hil
    by_cases hlt : i < c
    · rcases i8 i hlt hil with h | ⟨w0, h⟩
      · exact Or.inl (hbs ▸ h)
      · have hne : w ≠ w0 := fun he => hold i (he ▸ h)
        exact Or.inr ⟨w0, (hother w0 i hne).2 h⟩
    · exact Or.inr ⟨w, (hself i).2 ⟨by omega, by omega⟩⟩
  · intro w' hr
    rw [hws, List.getElem?_set] at hr
    by_cases hne : w = w'
    · rw [if_pos hne, if_pos (lt_length_of_getElem? _ _ _ hw)] at hr
      exact BlobsPc.noConfusion (Option.some.inj hr)
    · rw [if_neg hne] at hr
      exact Nat.le_trans (i9 w' hr) (Nat.le_add_right _ _)

/-- The invariant when a worker in the `for` loop passes the nmethod at `idx` to the
closure and goes on to `idx + 1`. -/
theorem invariant_visit (length workers c : Nat) (s s' : ShenandoahCodeRootsIterator)
    (w idx end_ : Nat)
    (hinv : claims_invariant length workers c s)
    (hw : s.workers[w]? = some (BlobsPc.chunk idx end_)) (hlt : idx < end_)
    (hws : s'.workers = s.workers.set w (BlobsPc.chunk (idx + 1) end_))
    (hbs : s'.blobs_done = s.blobs_done ++ [idx])
    (hcl : s'._claimed = s._claimed) :
    claims_invariant length workers c s' := by
  obtain ⟨i1, i2, i3, i4, i5, i6, i7, i8, i9⟩ := hinv
  have hold : ∀ i, s.pending w i ↔ idx ≤ i ∧ i < end_ := by
    intro i
    rw [pending_of_pc s w i _ hw]
    constructor
    · rintro ⟨a, b, h, h1, h2⟩
      injection h with ha hb
      subst ha
      subst hb
      exact ⟨h1, h2⟩
    · rintro ⟨h1, h2⟩
      exact ⟨_, _, rfl, h1, h2⟩
  have hself : ∀ i, s'.pending w i ↔ idx + 1 ≤ i ∧ i < end_ := by
    intro i
    rw [pending_set_self s s' w i _ _ hws hw]
    constructor
    · rintro ⟨a, b, h, h1, h2⟩
      injection h with ha hb
      subst ha
      subst hb
      exact ⟨h1, h2⟩
    · rintro ⟨h1, h2⟩
      exact ⟨_, _, rfl, h1, h2⟩
  have hother : ∀ w' i, w ≠ w' → (s'.pending w' i ↔ s.pending w' i) := fun w' i hne =>
    pending_set_other s s' w w' i _ hws hne
  have hwas : ∀ w' i, s'.pending w' i → s.pending w' i := by
    intro w' i hp
    by_cases hne : w = w'
    · subst hne
      have := (hself i).1 hp
      exact (hold i).2 ⟨by omega, this.2⟩
    · exact (hother w' i hne).1 hp
  have hidx : s.pending w idx := (hold idx).2 ⟨Nat.le_refl _, hlt⟩
  have hcnt := countP_claim_set s.workers w (BlobsPc.chunk (idx + 1) end_) _ hw
  rw [if_neg (by intro h; exact BlobsPc.noConfusion h),
    if_neg (by intro h; exact BlobsPc.noConfusion h)] at hcnt
  refine ⟨hcl.trans i1, ?_, ?_, ?_, ?_, ?_, ?_, ?_, ?_⟩
  · rw [hws, List.length_set]
    exact i2
  · rw [hws]
    simp only [stride] at i3 hcnt ⊢
    omega
  · rw [hbs]
    refine List.Nodup.append i4 (List.nodup_singleton idx) ?_
    intro a ha hb
    rw [List.mem_singleton] at hb
    subst hb
    exact (i6 w a hidx).2.2 ha
  · intro i hi
    rw [hbs, List.mem_append, List.mem_singleton] at hi
    rcases hi with hi | hi
    · exact i5 i hi
    · subst hi
      exact ⟨(i6 w i hidx).1, (i6 w i hidx).2.1⟩
  · intro w' i hp
    obtain ⟨h1, h2, h3⟩ := i6 w' i (hwas w' i hp)
    refine ⟨h1, h2, ?_⟩
    rw [hbs, List.mem_append, List.mem_singleton]
    rintro (hm | hm)
    · exact h3 hm
    · subst hm
      by_cases hne : w = w'
      · subst hne
        have := (hself i).1 hp
        omega
      · exact hne (i7 w w' i hidx (hwas w' i hp))
  · intro w1 w2 i hp1 hp2
    exact i7 w1 w2 i (hwas w1 i hp1) (hwas w2 i hp2)
  · intro i hic hil
    rcases i8 i hic hil with h | ⟨w0, h⟩
    · exact Or.inl (by rw [hbs]; exact List.mem_append_left _ h)
    · by_cases hne : w = w0
      · subst hne
        have hr := (hold i).1 h
        by_cases hi : i = idx
        · subst hi
          exact Or.inl (by rw [hbs]; exact List.mem_append_right _ (List.mem_singleton_self i))
        · exact Or.inr ⟨w, (hself i).2 ⟨by omega, hr.2⟩⟩
      · exact Or.inr ⟨w0, (hother w0 i hne).2 h⟩
  · intro w' hr
    rw [hws, List.getElem?_set] at hr
    by_cases hne : w = w'
    · rw [if_pos hne, if_pos (lt_length_of_getElem? _ _ _ hw)] at hr
      exact BlobsPc.noConfusion (Option.some.inj hr)
    · rw [if_neg hne] at hr
      exact i9 w' hr

theorem progress_of (length c c' : Nat) (s s' : ShenandoahCodeRootsIterator) (w : Nat)
    (old new : BlobsPc) (hw : s.workers[w]? = some old)
    (hws : s'.workers = s.workers.set w new)
    (hm : solo_measure length new c' < solo_measure length old c) :
    ∀ pc, s.workers[w]? = some pc → pc ≠ BlobsPc.returned →
      ∃ pc', s'.workers[w]? = some pc' ∧
        solo_measure length pc' c' < solo_measure length pc c := by
  intro pc hpc _
  rw [hw] at hpc
  have hpc' := Option.some.inj hpc
  subst hpc'
  refine ⟨new, ?_, hm⟩
  rw [hws]
  exact List.getElem?_set_self (lt_length_of_getElem? _ _ _ hw)

/-- Every step of every worker keeps the invariant and never lowers the cursor, and it
lowers the measure of the worker that takes it, unless that worker has returned. -/
theorem step_invariant (list : List ShenandoahNMethod) (workers c w : Nat)
    (s : ShenandoahCodeRootsIterator)
    (hbound : list.length + stride * workers < 2 ^ 63)
    (hinv : claims_invariant list.length workers c s) :
    ∃ c', c ≤ c' ∧ claims_invariant list.length workers c' (step false list w s) ∧
      ∀ pc, s.workers[w]? = some pc → pc ≠ BlobsPc.returned →
        ∃ pc', (step false list w s).workers[w]? = some pc' ∧
          solo_measure list.length pc' c' < solo_measure list.length pc c := by
  have hinv' := hinv
  obtain ⟨i1, i2, i3, _, _, i6, _, _, _⟩ := hinv'
  have hcle : (s.workers.set w BlobsPc.claim).countP (fun pc => pc == BlobsPc.claim) ≤
      workers := by
    have h := List.countP_le_length (fun pc => pc == BlobsPc.claim)
      (l := s.workers.set w BlobsPc.claim)
    rw [List.length_set, i2] at h
    exact h
  have hcases : s.workers[w]? = none ∨ ∃ pc, s.workers[w]? = some pc := by
    cases s.workers[w]?
    · exact Or.inl rfl
    · exact Or.inr ⟨_, rfl⟩
  rcases hcases with hw | ⟨pc, hw⟩
  · have hstep : step false list w s = s := by simp only [step, hw]
    rw [hstep]
    exact ⟨c, Nat.le_refl _, hinv, fun pc hpc _ => Option.noConfusion (hw ▸ hpc)⟩
  · cases pc with
    | loop_test =>
      have hold : ∀ i, ¬ s.pending w i := by
        intro i hp
        obtain ⟨_, _, h, _⟩ := (pending_of_pc s w i _ hw).1 hp
        exact BlobsPc.noConfusion h
      by_cases hlt : s._claimed < (list.length : Int)
      · have hstep : step false list w s = { s with workers := s.workers.set w BlobsPc.claim } := by
          simp only [step, hw, hlt, if_true]
        rw [hstep]
        refine ⟨c, Nat.le_refl _, ?_, progress_of _ c c s _ w _ _ hw rfl ?_⟩
        · refine invariant_move _ _ c c s _ w _ _ hinv hw rfl rfl i1 (Nat.le_refl _)
            (fun h => absurd h (Nat.lt_irrefl _)) (fun _ _ h => BlobsPc.noConfusion h) hold ?_
            (fun h => BlobsPc.noConfusion h)
          rw [i1] at hlt
          simp only [stride] at hbound ⊢
          omega
        · simp only [solo_measure]
          omega
      · have hstep : step false list w s =
            { s with workers := s.workers.set w BlobsPc.returned } := by
          simp only [step, hw, hlt, if_false]
        rw [hstep]
        have hcnt := countP_claim_set s.workers w BlobsPc.returned _ hw
        rw [if_neg (by intro h; exact BlobsPc.noConfusion h),
          if_neg (by intro h; exact BlobsPc.noConfusion h)] at hcnt
        refine ⟨c, Nat.le_refl _, ?_, progress_of _ c c s _ w _ _ hw rfl ?_⟩
        · refine invariant_move _ _ c c s _ w _ _ hinv hw rfl rfl i1 (Nat.le_refl _)
            (fun h => absurd h (Nat.lt_irrefl _)) (fun _ _ h => BlobsPc.noConfusion h) hold
            ?_ ?_
          · simp only [stride] at i3 hcnt ⊢
            omega
          · intro _
            rw [i1] at hlt
            omega
        · simp only [solo_measure]
          omega
    | claim =>
      have hold : ∀ i, ¬ s.pending w i := by
        intro i hp
        obtain ⟨_, _, h, _⟩ := (pending_of_pc s w i _ hw).1 hp
        exact BlobsPc.noConfusion h
      have hcnt := countP_claim_set s.workers w BlobsPc.returned _ hw
      rw [if_pos rfl, if_neg (by intro h; exact BlobsPc.noConfusion h)] at hcnt
      have hroom : c + stride ≤ list.length + stride * workers := by
        simp only [stride] at i3 hcnt ⊢
        omega
      have hcur : (s._claimed % 2 ^ 64).toNat = c := by
        rw [i1]
        simp only [stride] at hroom hbound
        omega
      have hadd : jlong_wrap (s._claimed + (stride : Int)) = ((c + stride : Nat) : Int) := by
        rw [i1]
        unfold jlong_wrap
        simp only [stride] at hroom hbound ⊢
        push_cast
        omega
      have hend : min ((c + stride) % WORD_MOD) list.length = min (c + stride) list.length := by
        rw [Nat.mod_eq_of_lt]
        unfold WORD_MOD
        simp only [stride] at hroom hbound ⊢
        omega
      by_cases hge : c ≥ list.length
      · have hstep : step false list w s =
            { s with _claimed := ((c + stride : Nat) : Int),
                     workers := s.workers.set w BlobsPc.returned } := by
          simp only [step, hw, hcur, hadd, hge, if_true]
        rw [hstep]
        refine ⟨c + stride, Nat.le_add_right _ _, ?_, progress_of _ c _ s _ w _ _ hw rfl ?_⟩
        · refine invariant_move _ _ c (c + stride) s _ w _ _ hinv hw rfl rfl rfl
            (Nat.le_add_right _ _) (fun _ => hge) (fun _ _ h => BlobsPc.noConfusion h) hold ?_
            (fun _ => Nat.le_trans hge (Nat.le_add_right _ _))
          simp only [stride] at i3 hcnt ⊢
          omega
        · simp only [solo_measure]
          omega
      · have hstep : step false list w s =
            { s with _claimed := ((c + stride : Nat) : Int),
                     workers := s.workers.set w
                       (BlobsPc.chunk c (min (c + stride) list.length)) } := by
          simp only [step, hw, hcur, hadd, hend, hge, if_false]
        rw [hstep]
        refine ⟨c + stride, Nat.le_add_right _ _, invariant_grant _ _ c s _ w hinv hw rfl rfl rfl,
          progress_of _ c _ s _ w _ _ hw rfl ?_⟩
        simp only [solo_measure, stride]
        omega
    | chunk idx end_ =>
      by_cases hlt : idx < end_
      · have hp : s.pending w idx := ⟨idx, end_, hw, Nat.le_refl _, hlt⟩
        have hlen : idx < list.length := (i6 w idx hp).2.1
        have hnext : (idx + 1) % WORD_MOD = idx + 1 := by
          rw [Nat.mod_eq_of_lt]
          unfold WORD_MOD
          omega
        have hstep : step false list w s =
            { s with blobs_done := s.blobs_done ++ [idx],
                     workers := s.workers.set w (BlobsPc.chunk (idx + 1) end_) } := by
          simp only [step, hw, hlt, if_true, hnext, List.getElem?_eq_getElem hlen,
            Bool.false_and, Bool.false_eq_true, if_false]
        rw [hstep]
        refine ⟨c, Nat.le_refl _, invariant_visit _ _ c s _ w idx end_ hinv hw hlt rfl rfl rfl,
          progress_of _ c c s _ w _ _ hw rfl ?_⟩
        simp only [solo_measure]
        omega
      · have hold : ∀ i, ¬ s.pending w i := by
          intro i hp
          obtain ⟨a, b, h, h1, h2⟩ := (pending_of_pc s w i _ hw).1 hp
          injection h with ha hb
          subst ha
          subst hb
          omega
        have hstep : step false list w s =
            { s with workers := s.workers.set w BlobsPc.loop_test } := by
          simp only [step, hw, hlt, if_false]
        rw [hstep]
        have hcnt := countP_claim_set s.workers w BlobsPc.loop_test _ hw
        rw [if_neg (by intro h; exact BlobsPc.noConfusion h),
          if_neg (by intro h; exact BlobsPc.noConfusion h)] at hcnt
        refine ⟨c, Nat.le_refl _, ?_, progress_of _ c c s _ w _ _ hw rfl ?_⟩
        · refine invariant_move _ _ c c s _ w _ _ hinv hw rfl rfl i1 (Nat.le_refl _)
            (fun h => absurd h (Nat.lt_irrefl _)) (fun _ _ h => BlobsPc.noConfusion h) hold ?_
            (fun h => BlobsPc.noConfusion h)
          simp only [stride] at i3 hcnt ⊢
          omega
        · simp only [solo_measure]
          omega
    | returned =>
      have hstep : step false list w s = s := by simp only [step, hw]
      rw [hstep]
      exact ⟨c, Nat.le_refl _, hinv,
        fun pc hpc hnr => absurd (Option.some.inj (hw ▸ hpc)).symm hnr⟩

theorem run_append (filter : Bool) (list : List ShenandoahNMethod) (a b : List Nat)
    (s : ShenandoahCodeRootsIterator) :
    run filter list (a ++ b) s = run filter list b (run filter list a s) := by
  unfold run
  rw [List.foldl_append]

/-- Every schedule keeps the invariant. -/
theorem run_invariant (list : List ShenandoahNMethod) (workers : Nat)
    (hbound : list.length + stride * workers < 2 ^ 63) (schedule : List Nat) :
    ∀ (c : Nat) (s : ShenandoahCodeRootsIterator), claims_invariant list.length workers c s →
      ∃ c', c ≤ c' ∧ claims_invariant list.length workers c' (run false list schedule s) := by
  induction schedule with
  | nil =>
    intro c s hinv
    exact ⟨c, Nat.le_refl _, hinv⟩
  | cons w rest ih =>
    intro c s hinv
    obtain ⟨c1, h1, hinv1, _⟩ := step_invariant list workers c w s hbound hinv
    obtain ⟨c2, h2, hinv2⟩ := ih c1 _ hinv1
    exact ⟨c2, Nat.le_trans h1 h2, hinv2⟩

/-- A worker that has returned stays so, whoever steps. -/
theorem step_returned (filter : Bool) (list : List ShenandoahNMethod) (w w' : Nat)
    (s : ShenandoahCodeRootsIterator) (hr : s.workers[w]? = some BlobsPc.returned) :
    (step filter list w' s).workers[w]? = some BlobsPc.returned := by
  by_cases hne : w' = w
  · subst hne
    have hstep : step filter list w' s = s := by simp only [step, hr]
    rw [hstep]
    exact hr
  · unfold step
    split
    · exact hr
    · split <;> (simp only [List.getElem?_set_ne hne]; exact hr)
    · simp only
      split <;> (simp only [List.getElem?_set_ne hne]; exact hr)
    · split
      · simp only [List.getElem?_set_ne hne]
        split <;> exact hr
      · simp only [List.getElem?_set_ne hne]
        exact hr
    · exact hr

theorem run_returned (filter : Bool) (list : List ShenandoahNMethod) (w : Nat)
    (schedule : List Nat) :
    ∀ s : ShenandoahCodeRootsIterator, s.workers[w]? = some BlobsPc.returned →
      (run filter list schedule s).workers[w]? = some BlobsPc.returned := by
  induction schedule with
  | nil => exact fun _ h => h
  | cons w' rest ih => exact fun s h => ih _ (step_returned filter list w w' s h)

/-- A worker that steps alone returns, within the number of steps given by its
measure. -/
theorem solo_returns (list : List ShenandoahNMethod) (workers w : Nat)
    (hbound : list.length + stride * workers < 2 ^ 63) (m : Nat) :
    ∀ (c : Nat) (s : ShenandoahCodeRootsIterator) (pc : BlobsPc),
      claims_invariant list.length workers c s → s.workers[w]? = some pc →
      solo_measure list.length pc c ≤ m →
      (run false list (List.replicate m w) s).workers[w]? = some BlobsPc.returned := by
  induction m with
  | zero =>
    intro c s pc _ hw hm
    cases pc with
    | returned => exact hw
    | loop_test => simp only [solo_measure] at hm; omega
    | claim => simp only [solo_measure] at hm; omega
    | chunk idx e => simp only [solo_measure] at hm; omega
  | succ m ih =>
    intro c s pc hinv hw hm
    by_cases hr : pc = BlobsPc.returned
    · exact run_returned false list w _ s (hr ▸ hw)
    · obtain ⟨c1, _, hinv1, hprog⟩ := step_invariant list workers c w s hbound hinv
      obtain ⟨pc1, hw1, hlt⟩ := hprog pc hw hr
      exact ih c1 _ pc1 hinv1 hw1 (by omega)

/-- From every state of the invariant there is a continuation after which the first `k`
workers have returned. -/
theorem workers_can_return (list : List ShenandoahNMethod) (workers : Nat)
    (hbound : list.length + stride * workers < 2 ^ 63) (k : Nat) (hk : k ≤ workers) :
    ∀ (c : Nat) (s : ShenandoahCodeRootsIterator), claims_invariant list.length workers c s →
      ∃ rest, ∀ w, w < k →
        (run false list rest s).workers[w]? = some BlobsPc.returned := by
  induction k with
  | zero =>
    intro c s _
    exact ⟨[], fun w hw => absurd hw (Nat.not_lt_zero w)⟩
  | succ k ih =>
    intro c s hinv
    obtain ⟨rest, hrest⟩ := ih (Nat.le_of_succ_le hk) c s hinv
    obtain ⟨c1, _, hinv1⟩ := run_invariant list workers hbound rest c s hinv
    have hlen : k < (run false list rest s).workers.length := by
      rw [hinv1.2.1]
      exact hk
    have hget := List.getElem?_eq_getElem hlen
    refine ⟨rest ++ List.replicate
      (solo_measure list.length ((run false list rest s).workers[k]) c1) k, ?_⟩
    intro w hw
    rw [run_append]
    by_cases hwk : w = k
    · subst hwk
      exact solo_returns list workers w hbound _ c1 _ _ hinv1 hget (Nat.le_refl _)
    · exact run_returned false list w _ _ (hrest w (by omega))

/-- When every worker has returned, each index of the list has been passed to the
closure exactly once, and nothing else has. -/
theorem count_of_all_returned (length workers c : Nat) (s : ShenandoahCodeRootsIterator)
    (hinv : claims_invariant length workers c s) (hpos : 0 < workers)
    (hall : s.all_returned) (i : Nat) :
    s.blobs_done.count i = if i < length then 1 else 0 := by
  obtain ⟨_, i2, _, i4, i5, _, _, i8, i9⟩ := hinv
  have hmem : ∀ (w : Nat) (pc : BlobsPc), s.workers[w]? = some pc → pc = BlobsPc.returned :=
    fun w pc h => hall pc (List.mem_iff_getElem?.2 ⟨w, h⟩)
  have h0 : s.workers[0]? = some BlobsPc.returned := by
    have hlt : 0 < s.workers.length := by rw [i2]; exact hpos
    have hget := List.getElem?_eq_getElem hlt
    rw [hget, hmem 0 _ hget]
  have hc : length ≤ c := i9 0 h0
  by_cases hi : i < length
  · rw [if_pos hi]
    rcases i8 i (Nat.lt_of_lt_of_le hi hc) hi with h | ⟨w, idx, e, h, _⟩
    · exact List.count_eq_one_of_mem i4 h
    · exact BlobsPc.noConfusion (hmem w _ h)
  · rw [if_neg hi]
    exact List.count_eq_zero_of_not_mem (fun h => hi (i5 i h).2)

/-- What the `Atomic::add` of a worker does in a state of the invariant: the cursor grows
by the stride without wrapping, and the worker is granted the indices from the old
cursor up to the stride further that lie in the list. -/
theorem claim_step_effect (list : List ShenandoahNMethod) (workers c w : Nat)
    (s : ShenandoahCodeRootsIterator)
    (hbound : list.length + stride * workers < 2 ^ 63)
    (hinv : claims_invariant list.length workers c s)
    (hw : s.workers[w]? = some BlobsPc.claim) :
    s._claimed = (c : Int) ∧ (step false list w s)._claimed = ((c + stride : Nat) : Int) ∧
    ∀ i, (step false list w s).pending w i ↔ c ≤ i ∧ i < c + stride ∧ i < list.length := by
  obtain ⟨i1, _, i3, _⟩ := hinv
  have hcnt := countP_claim_set s.workers w BlobsPc.returned _ hw
  rw [if_pos rfl, if_neg (by intro h; exact BlobsPc.noConfusion h)] at hcnt
  have hroom : c + stride ≤ list.length + stride * workers := by
    simp only [stride] at i3 hcnt ⊢
    omega
  have hcur : (s._claimed % 2 ^ 64).toNat = c := by
    rw [i1]
    simp only [stride] at hroom hbound
    omega
  have hadd : jlong_wrap (s._claimed + (stride : Int)) = ((c + stride : Nat) : Int) := by
    rw [i1]
    unfold jlong_wrap
    simp only [stride] at hroom hbound ⊢
    push_cast
    omega
  have hend : min ((c + stride) % WORD_MOD) list.length = min (c + stride) list.length := by
    rw [Nat.mod_eq_of_lt]
    unfold WORD_MOD
    simp only [stride] at hroom hbound ⊢
    omega
  refine ⟨i1, ?_, ?_⟩
  · by_cases hge : c ≥ list.length <;> simp only [step, hw, hcur, hadd, hge, if_true, if_false]
  · intro i
    by_cases hge : c ≥ list.length
    · have hstep : step false list w s =
          { s with _claimed := ((c + stride : Nat) : Int),
                   workers := s.workers.set w BlobsPc.returned } := by
        simp only [step, hw, hcur, hadd, hge, if_true]
      rw [pending_set_self s _ w i BlobsPc.returned _ (by rw [hstep]) hw]
      constructor
      · rintro ⟨_, _, h, _⟩
        exact BlobsPc.noConfusion h
      · intro h
        omega
    · have hstep : step false list w s =
          { s with _claimed := ((c + stride : Nat) : Int),
                   workers := s.workers.set w
                     (BlobsPc.chunk c (min (c + stride) list.length)) } := by
        simp only [step, hw, hcur, hadd, hend, hge, if_false]
      rw [pending_set_self s _ w i (BlobsPc.chunk c (min (c + stride) list.length)) _
        (by rw [hstep]) hw]
      constructor
      · rintro ⟨a, b, h, h1, h2⟩
        injection h with ha hb
        subst ha
        subst hb
        omega
      · intro h
        exact ⟨_, _, rfl, h.1, by omega⟩

end ClaimLemmas

section CounterLemmas

open ShenandoahHeapRegion

/-- One `allocate` in a region of the invariant: on success the selected counter and the
total grow by `size` without wrapping; on failure the region is as it was. -/
theorem allocate_counters (mra : RegionState → RegionState) (r : ShenandoahHeapRegion)
    (size : Nat) (type : AllocType) (hinv : r.counters_invariant) :
    (allocate mra r size type).2.counters_invariant ∧
    ((allocate mra r size type).1 ≠ none →
      (allocate mra r size type).2.counter_of type = r.counter_of type + size ∧
      (allocate mra r size type).2.alloc_total = r.alloc_total + size) ∧
    ((allocate mra r size type).1 = none → (allocate mra r size type).2 = r) := by
  obtain ⟨htop, hle, hend⟩ := hinv
  obtain ⟨hs, hf⟩ := allocate_top mra r size type hend hle
  by_cases h : size ≤ (r._end - r._top) / HeapWordSize
  · rw [hs h]
    refine ⟨?_, fun _ => ?_, fun hn => absurd hn (by simp)⟩
    · cases type <;>
        simp only [adjust_alloc_metadata, counters_invariant, alloc_total, HeapWordSize,
          WORD_MOD] at htop hend h ⊢ <;>
        omega
    · cases type <;>
        simp only [adjust_alloc_metadata, counter_of, alloc_total, HeapWordSize,
          WORD_MOD] at htop hend h ⊢ <;>
        omega
  · rw [hf h]
    exact ⟨⟨htop, hle, hend⟩, fun hn => absurd rfl hn, fun _ => rfl⟩

theorem allocate_all_counters (mra : RegionState → RegionState)
    (reqs : List (Nat × AllocType)) :
    ∀ r : ShenandoahHeapRegion, r.counters_invariant →
      (allocate_all mra r reqs).counters_invariant ∧
      (allocate_all mra r reqs)._bottom = r._bottom := by
  induction reqs with
  | nil => exact fun r h => ⟨h, rfl⟩
  | cons q rest ih =>
    intro r hinv
    obtain ⟨size, type⟩ := q
    obtain ⟨h1, h2⟩ := ih _ (allocate_counters mra r size type hinv).1
    exact ⟨h1, h2.trans (allocate_frame mra r size type).1⟩

end CounterLemmas

section IterationLemmas

open RegionIteration

/-- What the loop of `heap_region_iterate` adds to the trace when `n` regions remain from
`i` on. -/
theorem iterate_loop_calls {σ : Type} (env : RegionIteration σ) (skip_cset skip_hc : Bool) :
    ∀ (n i : Nat) (s : σ) (calls : List RegionVisit),
      ∃ new, (iterate_loop env skip_cset skip_hc n i (s, calls)).2 = calls ++ new ∧
        (new.map RegionVisit.index).Pairwise (fun a b => a < b) ∧
        (∀ e ∈ new, i ≤ e.index ∧ e.index < i + n) ∧
        (∀ e ∈ new, (skip_hc = true → e.humongous_continuation = false) ∧
          (skip_cset = true → e.in_cset = false)) ∧
        (∀ pre e post, new = pre ++ e :: post → e.stop = true → post = []) := by
  intro n
  induction n with
  | zero =>
    intro i s calls
    refine ⟨[], by simp [iterate_loop], List.Pairwise.nil, ?_, ?_, ?_⟩
    · intro e he
      exact absurd he (List.not_mem_nil e)
    · intro e he
      exact absurd he (List.not_mem_nil e)
    · intro pre e post h
      exact absurd h (by simp)
  | succ n ih =>
    intro i s calls
    have hskip : ∀ st : σ × List RegionVisit, st.2 = calls →
        ∃ new, (iterate_loop env skip_cset skip_hc n (i + 1) st).2 = calls ++ new ∧
          (new.map RegionVisit.index).Pairwise (fun a b => a < b) ∧
          (∀ e ∈ new, i ≤ e.index ∧ e.index < i + (n + 1)) ∧
          (∀ e ∈ new, (skip_hc = true → e.humongous_continuation = false) ∧
            (skip_cset = true → e.in_cset = false)) ∧
          (∀ pre e post, new = pre ++ e :: post → e.stop = true → post = []) := by
      rintro ⟨s', c'⟩ hc
      simp only at hc
      subst hc
      obtain ⟨new, h1, h2, h3, h4, h5⟩ := ih (i + 1) s' c'
      exact ⟨new, h1, h2, fun e he => ⟨by have := h3 e he; omega, by have := h3 e he; omega⟩,
        h4, h5⟩
    by_cases hhc : (skip_hc && env.is_humongous_continuation s i) = true
    · have hstep : iterate_loop env skip_cset skip_hc (n + 1) i (s, calls) =
          iterate_loop env skip_cset skip_hc n (i + 1) (s, calls) := by
        simp [iterate_loop, hhc]
      rw [hstep]
      exact hskip (s, calls) rfl
    · by_cases hcs : (skip_cset && env.in_collection_set s i) = true
      · have hstep : iterate_loop env skip_cset skip_hc (n + 1) i (s, calls) =
            iterate_loop env skip_cset skip_hc n (i + 1) (s, calls) := by
          simp [iterate_loop, hhc, hcs]
        rw [hstep]
        exact hskip (s, calls) rfl
      · have hflags : (skip_hc = true → env.is_humongous_continuation s i = false) ∧
            (skip_cset = true → env.in_collection_set s i = false) := by
          constructor
          · intro h
            rw [h] at hhc
            simpa using hhc
          · intro h
            rw [h] at hcs
            simpa using hcs
        by_cases hstop : (env.heap_region_do s i).1 = true
        · have hstep : iterate_loop env skip_cset skip_hc (n + 1) i (s, calls) =
              ((env.heap_region_do s i).2, calls ++
                [{ index := i, humongous_continuation := env.is_humongous_continuation s i,
                   in_cset := env.in_collection_set s i, committed := env.is_committed s i,
                   stop := (env.heap_region_do s i).1 }]) := by
            simp [iterate_loop, hhc, hcs, hstop]
          rw [hstep]
          refine ⟨_, rfl, by simp, ?_, ?_, ?_⟩
          · intro e he
            rw [List.mem_singleton] at he
            subst he
            exact ⟨Nat.le_refl _, by simp only; omega⟩
          · intro e he
            rw [List.mem_singleton] at he
            subst he
            exact hflags
          · intro pre e post h _
            cases pre with
            | nil =>
              simp only [List.nil_append, List.cons.injEq] at h
              exact h.2.symm
            | cons a pre' =>
              simp only [List.cons_append, List.cons.injEq] at h
              exact absurd h.2 (by simp)
        · have hstep : iterate_loop env skip_cset skip_hc (n + 1) i (s, calls) =
              iterate_loop env skip_cset skip_hc n (i + 1)
                ((env.heap_region_do s i).2, calls ++
                  [{ index := i, humongous_continuation := env.is_humongous_continuation s i,
                     in_cset := env.in_collection_set s i, committed := env.is_committed s i,
                     stop := (env.heap_region_do s i).1 }]) := by
            simp [iterate_loop, hhc, hcs, hstop]
          rw [hstep]
          obtain ⟨new, h1, h2, h3, h4, h5⟩ := ih (i + 1) (env.heap_region_do s i).2
            (calls ++
              [{ index := i, humongous_continuation := env.is_humongous_continuation s i,
                 in_cset := env.in_collection_set s i, committed := env.is_committed s i,
                 stop := (env.heap_region_do s i).1 }])
          refine ⟨_ :: new, by rw [h1, List.append_assoc]; rfl, ?_, ?_, ?_, ?_⟩
          · rw [List.map_cons, List.pairwise_cons]
            refine ⟨?_, h2⟩
            intro b hb
            obtain ⟨e, he, rfl⟩ := List.mem_map.1 hb
            have := h3 e he
            simp only
            omega
          · intro e he
            rcases List.mem_cons.1 he with he | he
            · subst he
              exact ⟨Nat.le_refl _, by simp only; omega⟩
            · have := h3 e he
              omega
          · intro e he
            rcases List.mem_cons.1 he with he | he
            · subst he
              exact hflags
            · exact h4 e he
          · intro pre e post h hs
            cases pre with
            | nil =>
              simp only [List.nil_append, List.cons.injEq] at h
              rw [← h.1] at hs
              exact absurd hs hstop
            | cons a pre' =>
              simp only [List.cons_append, List.cons.injEq] at h
              exact h5 pre' e post h.2 hs

/-- With no skipping and a closure that never answers true, the loop calls the closure
on every remaining region, whatever its state. -/
theorem iterate_loop_all {σ : Type} (env : RegionIteration σ)
    (hnever : ∀ s i, (env.heap_region_do s i).1 = false) :
    ∀ (n i : Nat) (s : σ) (calls : List RegionVisit),
      ∃ new, (iterate_loop env false false n i (s, calls)).2 = calls ++ new ∧
        new.map RegionVisit.index = List.range' i n := by
  intro n
  induction n with
  | zero =>
    intro i s calls
    exact ⟨[], by simp [iterate_loop], rfl⟩
  | succ n ih =>
    intro i s calls
    obtain ⟨new, h1, h2⟩ := ih (i + 1) (env.heap_region_do s i).2
      (calls ++
        [{ index := i, humongous_continuation := env.is_humongous_continuation s i,
           in_cset := env.in_collection_set s i, committed := env.is_committed s i,
           stop := (env.heap_region_do s i).1 }])
    refine ⟨{ index := i, humongous_continuation := env.is_humongous_continuation s i,
              in_cset := env.in_collection_set s i, committed := env.is_committed s i,
              stop := (env.heap_region_do s i).1 } :: new, ?_, ?_⟩
    · have hstep : iterate_loop env false false (n + 1) i (s, calls) =
          iterate_loop env false false n (i + 1)
            ((env.heap_region_do s i).2, calls ++
              [{ index := i, humongous_continuation := env.is_humongous_continuation s i,
                 in_cset := env.in_collection_set s i, committed := env.is_committed s i,
                 stop := (env.heap_region_do s i).1 }]) := by
        simp [iterate_loop, hnever]
      rw [hstep, h1, List.append_assoc]
      rfl
    · rw [List.map_cons, h2]
      rfl

/-- The loop of `heap_region_iterate` leaves no region out: with `state_at j` the state
in which the loop reaches region `j`, every region from `i` on that is reached before a
call has answered true is passed over when a set flag excludes it, and is called
otherwise, the call leaving the state for the next region. -/
theorem iterate_loop_complete {σ : Type} (env : RegionIteration σ) (skip_cset skip_hc : Bool) :
    ∀ (n i : Nat) (s : σ) (calls : List RegionVisit),
      ∃ (new : List RegionVisit) (state_at : Nat → σ),
        (iterate_loop env skip_cset skip_hc n i (s, calls)).2 = calls ++ new ∧
        state_at i = s ∧
        (∀ e ∈ new, i ≤ e.index) ∧
        (∀ j, i ≤ j → j < i + n → (∀ e ∈ new, e.index < j → e.stop = false) →
          (env.excluded skip_cset skip_hc (state_at j) j = true →
            (∀ e ∈ new, e.index ≠ j) ∧ state_at (j + 1) = state_at j) ∧
          (env.excluded skip_cset skip_hc (state_at j) j = false →
            env.visit (state_at j) j ∈ new ∧
            state_at (j + 1) = (env.heap_region_do (state_at j) j).2)) := by
  intro n
  induction n with
  | zero =>
    intro i s calls
    refine ⟨[], fun _ => s, by simp [iterate_loop], rfl, ?_, ?_⟩
    · intro e he
      exact absurd he (List.not_mem_nil e)
    · intro j h1 h2
      omega
  | succ n ih =>
    intro i s calls
    by_cases hex : env.excluded skip_cset skip_hc s i = true
    · have hstep : iterate_loop env skip_cset skip_hc (n + 1) i (s, calls) =
          iterate_loop env skip_cset skip_hc n (i + 1) (s, calls) := by
        simp only [excluded, Bool.or_eq_true] at hex
        rcases hex with hhc | hcs
        · simp [iterate_loop, hhc]
        · by_cases hhc : (skip_hc && env.is_humongous_continuation s i) = true
          · simp [iterate_loop, hhc]
          · simp [iterate_loop, hhc, hcs]
      obtain ⟨new, st, h1, h2, h3, h4⟩ := ih (i + 1) s calls
      refine ⟨new, fun j => if j ≤ i then s else st j, hstep ▸ h1, by simp, ?_, ?_⟩
      · intro e he
        have := h3 e he
        omega
      · intro j hj1 hj2 hns
        by_cases hji : j = i
        · subst hji
          simp only [Nat.le_refl, if_true, Nat.not_succ_le_self, if_false]
          constructor
          · intro _
            refine ⟨?_, h2⟩
            intro e he
            have := h3 e he
            omega
          · intro hne
            rw [hex] at hne
            exact Bool.noConfusion hne
        · have hgt : ¬ j ≤ i := by omega
          have hgt' : ¬ j + 1 ≤ i := by omega
          simp only [hgt, hgt', if_false]
          exact h4 j (by omega) (by omega) hns
    · have hhc : ¬ (skip_hc && env.is_humongous_continuation s i) = true := by
        intro h
        exact hex (by simp only [excluded, h, Bool.true_or])
      have hcs : ¬ (skip_cset && env.in_collection_set s i) = true := by
        intro h
        exact hex (by simp only [excluded, h, Bool.or_true])
      have hexf : env.excluded skip_cset skip_hc s i = false := by
        cases h : env.excluded skip_cset skip_hc s i
        · rfl
        · exact absurd h hex
      by_cases hstop : (env.heap_region_do s i).1 = true
      · have hstep : iterate_loop env skip_cset skip_hc (n + 1) i (s, calls) =
            ((env.heap_region_do s i).2, calls ++ [env.visit s i]) := by
          simp [iterate_loop, hhc, hcs, hstop, visit]
        refine ⟨[env.visit s i], fun j => if j ≤ i then s else (env.heap_region_do s i).2,
          by rw [hstep], by simp, ?_, ?_⟩
        · intro e he
          rw [List.mem_singleton] at he
          rw [he]
          exact Nat.le_refl _
        · intro j hj1 hj2 hns
          by_cases hji : j = i
          · subst hji
            simp only [Nat.le_refl, if_true, Nat.not_succ_le_self, if_false]
            constructor
            · intro h
              rw [hexf] at h
              exact Bool.noConfusion h
            · intro _
              exact ⟨List.mem_singleton_self _, trivial⟩
          · exfalso
            have := hns (env.visit s i) (List.mem_singleton_self _)
              (by simp only [visit]; omega)
            simp only [visit] at this
            rw [hstop] at this
            exact Bool.noConfusion this
      · have hstep : iterate_loop env skip_cset skip_hc (n + 1) i (s, calls) =
            iterate_loop env skip_cset skip_hc n (i + 1)
              ((env.heap_region_do s i).2, calls ++ [env.visit s i]) := by
          simp [iterate_loop, hhc, hcs, hstop, visit]
        obtain ⟨new, st, h1, h2, h3, h4⟩ := ih (i + 1) (env.heap_region_do s i).2
          (calls ++ [env.visit s i])
        refine ⟨env.visit s i :: new, fun j => if j ≤ i then s else st j, ?_, by simp, ?_, ?_⟩
        · rw [hstep, h1, List.append_assoc]
          rfl
        · intro e he
          rcases List.mem_cons.1 he with he | he
          · rw [he]
            exact Nat.le_refl _
          · have := h3 e he
            omega
        · intro j hj1 hj2 hns
          by_cases hji : j = i
          · subst hji
            simp only [Nat.le_refl, if_true, Nat.not_succ_le_self, if_false]
            constructor
            · intro h
              rw [hexf] at h
              exact Bool.noConfusion h
            · intro _
              exact ⟨List.mem_cons_self _ _, h2⟩
          · have hgt : ¬ j ≤ i := by omega
            have hgt' : ¬ j + 1 ≤ i := by omega
            simp only [hgt, hgt', if_false]
            obtain ⟨k1, k2⟩ := h4 j (by omega) (by omega)
              (fun e he => hns e (List.mem_cons_of_mem _ he))
            refine ⟨fun hx => ⟨?_, (k1 hx).2⟩, fun hx => ⟨List.mem_cons_of_mem _ (k2 hx).1,
              (k2 hx).2⟩⟩
            intro e he
            rcases List.mem_cons.1 he with he | he
            · rw [he]
              simp only [visit]
              omega
            · exact (k1 hx).1 e he

end IterationLemmas

section LivenessLemmas

open RegionLiveness

/-- The completion of liveness for one region of the assumption. -/
theorem complete_liveness_of_ok (tams : Nat) (r : RegionLiveness)
    (h : marked_below_tams tams r) :
    ∃ r', r.complete_liveness_of tams = Except.ok r' ∧ r'.region = r.region ∧
      r'._live_data =
        (if r.is_active = true ∧ tams < r.region._top then
          r._live_data + (((r.region._top - tams) / HeapWordSize : Nat) : Int)
        else r._live_data) ∧
      0 ≤ r'._live_data ∧
      (tams ≤ r.region._top →
        r'._live_data * 8 ≤ ((r.region._top - r.region._bottom : Nat) : Int)) := by
  obtain ⟨h1, h2, h3, h4, h5, h6⟩ := h
  unfold max_jint HeapWordSize at h4
  unfold WORD_MOD at h2 h3
  by_cases ha : r.is_active = true
  · by_cases ht : tams < r.region._top
    · have hpd : pointer_delta r.region._top tams = (r.region._top - tams) / HeapWordSize :=
        pointer_delta_eq _ _ h3 (Nat.le_of_lt ht)
      have hs : (r.region._top - tams) / HeapWordSize < max_jint := by
        unfold max_jint HeapWordSize
        omega
      have hupd : jint_wrap (r._live_data +
          jint_wrap (((r.region._top - tams) / HeapWordSize : Nat) : Int)) =
          r._live_data + (((r.region._top - tams) / HeapWordSize : Nat) : Int) := by
        unfold jint_wrap HeapWordSize
        omega
      have hassert : ((r._live_data + (((r.region._top - tams) / HeapWordSize : Nat) : Int))
          % 2 ^ 64).toNat * HeapWordSize % WORD_MOD ≤ r.used := by
        unfold used HeapWordSize WORD_MOD
        omega
      refine ⟨{ r with _live_data :=
          r._live_data + (((r.region._top - tams) / HeapWordSize : Nat) : Int) }, ?_, rfl, ?_,
        ?_, ?_⟩
      · simp only [complete_liveness_of, ha, ht, increase_live_data_alloc_words,
          internal_increase_live_data, hpd, hs, hupd, hassert, Bool.not_true,
          Bool.false_eq_true, if_false, if_true, gt_iff_lt, not_true_eq_false]
      · rw [if_pos ⟨ha, ht⟩]
      · show 0 ≤ r._live_data + _
        omega
      · intro _
        show (r._live_data + _) * 8 ≤ _
        unfold HeapWordSize
        omega
    · refine ⟨r, ?_, rfl, ?_, h5, ?_⟩
      · simp only [complete_liveness_of, ha, ht, Bool.not_true, Bool.false_eq_true, if_false,
          gt_iff_lt]
      · rw [if_neg (fun hh => ht hh.2)]
      · intro hle
        have : tams = r.region._top := by omega
        rw [← this]
        exact h6
  · refine ⟨r, ?_, rfl, ?_, h5, ?_⟩
    · simp only [complete_liveness_of, ha, Bool.not_eq_true, Bool.not_false, if_true]
    · rw [if_neg (fun hh => ha hh.1)]
    · intro hle
      have : ((tams - r.region._bottom : Nat) : Int) ≤
          ((r.region._top - r.region._bottom : Nat) : Int) := by omega
      omega

end LivenessLemmas

section SliceLemmas

open BitmapSlices

/-- The loop of `is_bitmap_slice_committed` over `n` regions of the heap from `g` on. -/
theorem slice_loop_spec (h : BitmapSlices) (r : Nat) (skip_self : Bool) :
    ∀ (n g : Nat), g + n ≤ h.num_regions →
      ∃ b, slice_loop h r skip_self n g = some b ∧
        (b = true ↔ ∃ k, g ≤ k ∧ k < g + n ∧ ¬ (skip_self = true ∧ k = r) ∧
          h.region_committed k = true) := by
  intro n
  induction n with
  | zero =>
    intro g _
    refine ⟨false, rfl, ?_⟩
    constructor
    · intro hb
      exact Bool.noConfusion hb
    · rintro ⟨k, h1, h2, _⟩
      omega
  | succ n ih =>
    intro g hfit
    obtain ⟨b, hb, hiff⟩ := ih (g + 1) (by omega)
    have hlt : g < h._regions.length := by
      unfold num_regions at hfit
      omega
    have hget : h._regions[g]? = some (h._regions[g]) := List.getElem?_eq_getElem hlt
    have hcom : h.region_committed g = (h._regions[g]).is_committed := by
      unfold region_committed
      rw [hget]
    by_cases hskip : (skip_self && g == r) = true
    · refine ⟨b, ?_, ?_⟩
      · simp only [slice_loop, hskip, if_true]
        exact hb
      · rw [hiff]
        simp only [Bool.and_eq_true, beq_iff_eq] at hskip
        constructor
        · rintro ⟨k, h1, h2, h3, h4⟩
          exact ⟨k, by omega, by omega, h3, h4⟩
        · rintro ⟨k, h1, h2, h3, h4⟩
          have hne : k ≠ g := fun hk => h3 ⟨hskip.1, hk.trans hskip.2⟩
          exact ⟨k, by omega, by omega, h3, h4⟩
    · have hnot : ¬ (skip_self = true ∧ g = r) := by
        simpa [Bool.and_eq_true, beq_iff_eq] using hskip
      by_cases hc : (h._regions[g]).is_committed = true
      · refine ⟨true, ?_, ?_⟩
        · simp [slice_loop, hskip, hget, hc]
        · constructor
          · intro _
            exact ⟨g, Nat.le_refl _, by omega, hnot, hcom.trans hc⟩
          · intro _
            rfl
      · refine ⟨b, ?_, ?_⟩
        · simp only [slice_loop, hskip, hget, hc, if_false, Bool.false_eq_true]
          exact hb
        · rw [hiff]
          constructor
          · rintro ⟨k, h1, h2, h3, h4⟩
            exact ⟨k, by omega, by omega, h3, h4⟩
          · rintro ⟨k, h1, h2, h3, h4⟩
            have hne : k ≠ g := by
              intro hk
              rw [hk, hcom] at h4
              exact hc h4
            exact ⟨k, by omega, by omega, h3, h4⟩

/-- The numbers with a given quotient by the regions per slice form the interval that
`is_bitmap_slice_committed` walks. -/
theorem quotient_interval (rps slice k : Nat) (hrps : 0 < rps) :
    k / rps = slice ↔ rps * slice ≤ k ∧ k < rps * (slice + 1) := by
  constructor
  · intro h
    subst h
    exact ⟨Nat.mul_div_le k rps, Nat.lt_mul_div_succ k hrps⟩
  · rintro ⟨h1, h2⟩
    apply Nat.le_antisymm
    · exact Nat.le_of_lt_succ ((Nat.div_lt_iff_lt_mul hrps).2 (by rw [Nat.mul_comm]; exact h2))
    · exact (Nat.le_div_iff_mul_le hrps).2 (by rw [Nat.mul_comm]; exact h1)

/-- The answer of `is_bitmap_slice_committed` for a region of the heap. -/
theorem is_bitmap_slice_committed_spec (h : BitmapSlices) (r : Nat) (skip_self : Bool)
    (hrps : 0 < h._bitmap_regions_per_slice) (hr : r < h.num_regions)
    (hsize : h.num_regions + h._bitmap_regions_per_slice < WORD_MOD) :
    ∃ b, h.is_bitmap_slice_committed r skip_self = some b ∧
      (b = true ↔ h.group_committed r skip_self) := by
  have hq := (quotient_interval h._bitmap_regions_per_slice
    (r / h._bitmap_regions_per_slice) r hrps).1 rfl
  have hsucc : h._bitmap_regions_per_slice * (r / h._bitmap_regions_per_slice + 1) =
      h._bitmap_regions_per_slice * (r / h._bitmap_regions_per_slice) +
        h._bitmap_regions_per_slice := Nat.mul_succ _ _
  have hfrom : (h._bitmap_regions_per_slice * (r / h._bitmap_regions_per_slice)) % WORD_MOD =
      h._bitmap_regions_per_slice * (r / h._bitmap_regions_per_slice) :=
    Nat.mod_eq_of_lt (by omega)
  have hto : (h._bitmap_regions_per_slice * (r / h._bitmap_regions_per_slice + 1)) % WORD_MOD =
      h._bitmap_regions_per_slice * (r / h._bitmap_regions_per_slice + 1) :=
    Nat.mod_eq_of_lt (by omega)
  obtain ⟨b, hb, hiff⟩ := slice_loop_spec h r skip_self
    (min h.num_regions (h._bitmap_regions_per_slice * (r / h._bitmap_regions_per_slice + 1)) -
      h._bitmap_regions_per_slice * (r / h._bitmap_regions_per_slice))
    (h._bitmap_regions_per_slice * (r / h._bitmap_regions_per_slice)) (by omega)
  refine ⟨b, ?_, ?_⟩
  · simp only [is_bitmap_slice_committed, hfrom, hto]
    exact hb
  · rw [hiff]
    unfold group_committed
    constructor
    · rintro ⟨k, h1, h2, h3, h4⟩
      refine ⟨k, by omega, ?_, h3, h4⟩
      exact (quotient_interval _ _ k hrps).2 ⟨h1, by omega⟩
    · rintro ⟨k, h1, h2, h3, h4⟩
      have := (quotient_interval _ _ k hrps).1 h2
      exact ⟨k, this.1, by omega, h3, h4⟩

end SliceLemmas

section DedupLemmas

open ShenandoahStrDedupThread

/-- The method `claim()` on a counter that has not reached `max_jint`: the index handed
out is the counter, which grows by one. -/
theorem claim_spec (t : ShenandoahStrDedupThread) (c : Nat) (hc : t._claimed = (c : Int))
    (hlt : c < max_jint) :
    t.claim = (c, { t with _claimed := ((c + 1 : Nat) : Int) }) := by
  unfold max_jint at hlt
  have h1 : jint_wrap (t._claimed + 1) = ((c + 1 : Nat) : Int) := by
    rw [hc]
    unfold jint_wrap
    push_cast
    omega
  have h2 : ((((c + 1 : Nat) : Int) % 2 ^ 64).toNat + WORD_MOD - 1) % WORD_MOD = c := by
    unfold WORD_MOD
    omega
  simp only [claim, h1, h2]

theorem walk_queue_fields (t : ShenandoahStrDedupThread) (index : Nat) :
    (t.walk_queue index)._claimed = t._claimed ∧
    (t.walk_queue index)._work_list = t._work_list ∧
    (t.walk_queue index).num_queues = t.num_queues :=
  ⟨rfl, rfl, rfl⟩

/-- The loop of `oops_do_slow` does not touch the claim counter and the work lists. -/
theorem oops_do_slow_loop_fields (n : Nat) :
    ∀ (i : Nat) (t : ShenandoahStrDedupThread),
      (oops_do_slow_loop n i t)._claimed = t._claimed ∧
      (oops_do_slow_loop n i t)._work_list = t._work_list ∧
      (oops_do_slow_loop n i t).queues_done = t.queues_done ++ List.range' i n := by
  induction n with
  | zero =>
    intro i t
    exact ⟨rfl, rfl, by simp [oops_do_slow_loop]⟩
  | succ n ih =>
    intro i t
    obtain ⟨h1, h2, h3⟩ := ih (i + 1) (t.walk_queue i)
    refine ⟨h1, h2, ?_⟩
    show (oops_do_slow_loop n (i + 1) (t.walk_queue i)).queues_done = _
    rw [h3]
    simp [walk_queue, List.range'_succ]

/-- A call of `parallel_oops_do` with the counter at `c`: the queues from `c` on are
walked as by the loop of `oops_do_slow`, and the counter ends one past the larger of
`c` and the number of queues. -/
theorem parallel_oops_do_from (n : Nat) :
    ∀ (c fuel : Nat) (t : ShenandoahStrDedupThread), t._claimed = (c : Int) →
      c + n = max c t.num_queues → max c t.num_queues < max_jint → n < fuel →
      parallel_oops_do fuel t =
        some { oops_do_slow_loop n c t with
          _claimed := ((max c t.num_queues + 1 : Nat) : Int) } := by
  induction n with
  | zero =>
    intro c fuel t hc hn hmax hfuel
    obtain ⟨f, rfl⟩ := Nat.exists_eq_succ_of_ne_zero (Nat.pos_iff_ne_zero.1 hfuel)
    have hcl := claim_spec t c hc (by omega)
    have hge : ¬ c < t.num_queues := by omega
    have hm : max c t.num_queues = c := by omega
    simp only [parallel_oops_do, hcl]
    have hnq : ({ t with _claimed := ((c + 1 : Nat) : Int) } : ShenandoahStrDedupThread).num_queues
        = t.num_queues := rfl
    rw [hnq, if_neg hge, hm]
    rfl
  | succ n ih =>
    intro c fuel t hc hn hmax hfuel
    obtain ⟨f, rfl⟩ := Nat.exists_eq_succ_of_ne_zero (Nat.pos_iff_ne_zero.1 (by omega : 0 < fuel))
    have hcl := claim_spec t c hc (by omega)
    have hlt : c < t.num_queues := by omega
    have hm : max c t.num_queues = t.num_queues := by omega
    simp only [parallel_oops_do, hcl]
    have hnq : ({ t with _claimed := ((c + 1 : Nat) : Int) } : ShenandoahStrDedupThread).num_queues
        = t.num_queues := rfl
    rw [hnq, if_pos hlt]
    have hrec := ih (c + 1) f
      (({ t with _claimed := ((c + 1 : Nat) : Int) } : ShenandoahStrDedupThread).walk_queue c)
      rfl (by rw [(walk_queue_fields _ c).2.2, hnq]; omega)
      (by rw [(walk_queue_fields _ c).2.2, hnq]; omega) (by omega)
    rw [hrec, (walk_queue_fields _ c).2.2, hnq]
    have hm' : max (c + 1) t.num_queues = max c t.num_queues := by omega
    rw [hm']
    have hloop : ∀ (m i : Nat) (a b : ShenandoahStrDedupThread),
        a._work_list = b._work_list → a.queues_done = b.queues_done →
        a.oops_done = b.oops_done →
        (oops_do_slow_loop m i a)._work_list = (oops_do_slow_loop m i b)._work_list ∧
        (oops_do_slow_loop m i a).queues_done = (oops_do_slow_loop m i b).queues_done ∧
        (oops_do_slow_loop m i a).oops_done = (oops_do_slow_loop m i b).oops_done := by
      intro m
      induction m with
      | zero => exact fun i a b h1 h2 h3 => ⟨h1, h2, h3⟩
      | succ m ihm =>
        intro i a b h1 h2 h3
        exact ihm (i + 1) (a.walk_queue i) (b.walk_queue i) h1
          (by simp [walk_queue, h2]) (by simp [walk_queue, h1, h3])
    obtain ⟨l1, l2, l3⟩ := hloop n (c + 1)
      (({ t with _claimed := ((c + 1 : Nat) : Int) } : ShenandoahStrDedupThread).walk_queue c)
      (t.walk_queue c) rfl rfl rfl
    show some (ShenandoahStrDedupThread.mk _ _ _ _) = some (ShenandoahStrDedupThread.mk _ _ _ _)
    simp only [oops_do_slow_loop] at l1 l2 l3 ⊢
    rw [l1, l2, l3]

/-- Callers that find the counter at or past the number of queues walk nothing; each
moves the counter by one. -/
theorem successive_callers_late (fuel : Nat) (hfuel : 0 < fuel) (k : Nat) :
    ∀ (c : Nat) (t : ShenandoahStrDedupThread), t._claimed = (c : Int) →
      t.num_queues ≤ c → c + k ≤ max_jint →
      successive_callers fuel k t = some { t with _claimed := ((c + k : Nat) : Int) } := by
  induction k with
  | zero =>
    intro c t hc _ _
    show some t = some { t with _claimed := ((c : Nat) : Int) }
    rw [← hc]
  | succ k ih =>
    intro c t hc hge hk
    have hm : max c t.num_queues = c := by omega
    have h1 := parallel_oops_do_from 0 c fuel t hc (by omega) (by omega) hfuel
    rw [hm] at h1
    simp only [successive_callers, h1]
    have h2 := ih (c + 1)
      { oops_do_slow_loop 0 c t with _claimed := ((c + 1 : Nat) : Int) } rfl
      (Nat.le_succ_of_le hge) (by omega)
    rw [h2]
    have : c + 1 + k = c + (k + 1) := by omega
    rw [this]
    rfl

end DedupLemmas

section RootTaskLemmas

open ShenandoahRootProcessor

theorem scanning_set_other (s s' : ShenandoahRootProcessor) (w w' : Nat) (t : RootTask)
    (pc : VmRootsPc) (hs : s'.workers = s.workers.set w pc) (hne : w ≠ w') :
    s'.scanning_at w' t ↔ s.scanning_at w' t := by
  unfold scanning_at
  rw [hs, List.getElem?_set_ne hne]

theorem scanning_set_self (s s' : ShenandoahRootProcessor) (w : Nat) (t : RootTask)
    (pc old : VmRootsPc) (hs : s'.workers = s.workers.set w pc)
    (hw : s.workers[w]? = some old) :
    s'.scanning_at w t ↔ ∃ rest, pc = VmRootsPc.scanning t rest := by
  unfold scanning_at
  rw [hs, List.getElem?_set_self (lt_length_of_getElem? _ _ _ hw)]
  constructor
  · rintro ⟨rest, h⟩
    exact ⟨rest, Option.some.inj h⟩
  · rintro ⟨rest, h⟩
    exact ⟨rest, congrArg some h⟩

theorem vm_root_tasks_subset (b : Bool) : ∀ t ∈ vm_root_tasks false, t ∈ vm_root_tasks b := by
  intro t ht
  unfold vm_root_tasks at ht ⊢
  simp only [Bool.false_eq_true, if_false, List.append_nil] at ht
  exact List.mem_append_left _ ht

theorem fresh_tasks_invariant (calls : List Bool) : (fresh calls).tasks_invariant := by
  have hget : ∀ (w : Nat) (pc : VmRootsPc), (fresh calls).workers[w]? = some pc →
      ∃ b, pc = VmRootsPc.testing (vm_root_tasks b) := by
    intro w pc h
    simp only [fresh, List.getElem?_map] at h
    cases hb : calls[w]? with
    | none => rw [hb] at h; exact Option.noConfusion h
    | some b =>
      rw [hb] at h
      exact ⟨b, (Option.some.inj h).symm⟩
  have hno : ∀ (w : Nat) (t : RootTask), ¬ (fresh calls).scanning_at w t := by
    rintro w t ⟨rest, h⟩
    obtain ⟨b, hb⟩ := hget w _ h
    exact VmRootsPc.noConfusion hb
  refine ⟨List.nodup_nil, ?_, ?_, ?_, ?_, ?_⟩
  · intro t ht
    exact absurd ht (List.not_mem_nil t)
  · intro w t h
    exact absurd h (hno w t)
  · intro w w' t h
    exact absurd h (hno w t)
  · intro t ht
    exact absurd ht (List.not_mem_nil t)
  · intro w pc h t ht
    obtain ⟨b, hb⟩ := hget w pc h
    rw [hb]
    exact Or.inl (vm_root_tasks_subset b t ht)

/-- Every step of every worker keeps the invariant, and lowers the bound on the steps
of the worker that takes it unless that worker has finished. -/
theorem step_tasks_invariant (w : Nat) (s : ShenandoahRootProcessor)
    (hinv : s.tasks_invariant) :
    (step w s).tasks_invariant ∧
    ∀ pc, s.workers[w]? = some pc → pc ≠ VmRootsPc.testing [] →
      ∃ pc', (step w s).workers[w]? = some pc' ∧ pc'.steps_left < pc.steps_left := by
  obtain ⟨i1, i2, i3, i4, i5, i6⟩ := hinv
  have hcases : s.workers[w]? = none ∨ ∃ pc, s.workers[w]? = some pc := by
    cases s.workers[w]?
    · exact Or.inl rfl
    · exact Or.inr ⟨_, rfl⟩
  rcases hcases with hw | ⟨pc, hw⟩
  · have hstep : step w s = s := by simp only [step, hw]
    rw [hstep]
    exact ⟨⟨i1, i2, i3, i4, i5, i6⟩, fun pc hpc _ => Option.noConfusion (hw ▸ hpc)⟩
  · have hlt := lt_length_of_getElem? _ _ _ hw
    cases pc with
    | testing rest =>
      have hold : ∀ t, ¬ s.scanning_at w t := by
        rintro t ⟨r, h⟩
        rw [hw] at h
        exact VmRootsPc.noConfusion (Option.some.inj h)
      cases rest with
      | nil =>
        have hstep : step w s = s := by simp only [step, hw]
        rw [hstep]
        exact ⟨⟨i1, i2, i3, i4, i5, i6⟩,
          fun pc hpc hne => absurd (Option.some.inj (hw ▸ hpc)).symm hne⟩
      | cons t rest =>
        by_cases hc : t ∈ s._process_strong_tasks
        · have hcl : is_task_claimed s._process_strong_tasks t =
              (true, s._process_strong_tasks) := by
            simp [is_task_claimed, hc]
          have hwk : (step w s).workers = s.workers.set w (VmRootsPc.testing rest) := by
            simp only [step, hw, hcl, if_true]
          have htk : (step w s)._process_strong_tasks = s._process_strong_tasks := by
            simp only [step, hw, hcl, if_true]
          have hcat : (step w s).categories = s.categories := by
            simp only [categories, step, hw, hcl, if_true]
          have hself : ∀ t', ¬ (step w s).scanning_at w t' := by
            intro t' h
            obtain ⟨r, hr⟩ := (scanning_set_self s _ w t' _ _ hwk hw).1 h
            exact VmRootsPc.noConfusion hr
          have hback : ∀ w' t', (step w s).scanning_at w' t' →
              w ≠ w' ∧ s.scanning_at w' t' := by
            intro w' t' h
            by_cases hne : w = w'
            · subst hne
              exact absurd h (hself t')
            · exact ⟨hne, (scanning_set_other s _ w w' t' _ hwk hne).1 h⟩
          refine ⟨⟨?_, ?_, ?_, ?_, ?_, ?_⟩, ?_⟩
          · rw [hcat]
            exact i1
          · rw [hcat, htk]
            exact i2
          · intro w' t' h
            rw [hcat, htk]
            exact i3 w' t' (hback w' t' h).2
          · intro w1 w2 t' h1 h2
            exact i4 w1 w2 t' (hback w1 t' h1).2 (hback w2 t' h2).2
          · intro t' ht'
            rw [htk] at ht'
            rw [hcat]
            rcases i5 t' ht' with h | ⟨w0, h⟩
            · exact Or.inl h
            · have hne : w ≠ w0 := fun he => hold t' (he ▸ h)
              exact Or.inr ⟨w0, (scanning_set_other s _ w w0 t' _ hwk hne).2 h⟩
          · intro w' pc' hpc' t' ht'
            rw [htk]
            rw [hwk] at hpc'
            simp only [List.getElem?_set] at hpc'
            by_cases hne : w = w'
            · rw [if_pos hne, if_pos hlt] at hpc'
              rw [← Option.some.inj hpc']
              rcases i6 w _ hw t' ht' with h | h
              · rcases List.mem_cons.1 h with h | h
                · exact Or.inr (h ▸ hc)
                · exact Or.inl h
              · exact Or.inr h
            · rw [if_neg hne] at hpc'
              exact i6 w' pc' hpc' t' ht'
          · intro pc hpc _
            rw [hw] at hpc
            rw [← Option.some.inj hpc, hwk]
            refine ⟨_, List.getElem?_set_self hlt, ?_⟩
            simp only [VmRootsPc.steps_left, List.length_cons]
            omega
        · have hcl : is_task_claimed s._process_strong_tasks t =
              (false, t :: s._process_strong_tasks) := by
            simp [is_task_claimed, hc]
          have hwk : (step w s).workers = s.workers.set w (VmRootsPc.scanning t rest) := by
            simp only [step, hw, hcl, Bool.false_eq_true, if_false]
          have htk : (step w s)._process_strong_tasks = t :: s._process_strong_tasks := by
            simp only [step, hw, hcl, Bool.false_eq_true, if_false]
          have hcat : (step w s).categories = s.categories := by
            simp only [categories, step, hw, hcl, Bool.false_eq_true, if_false]
          have hself : ∀ t', (step w s).scanning_at w t' ↔ t' = t := by
            intro t'
            rw [scanning_set_self s _ w t' _ _ hwk hw]
            constructor
            · rintro ⟨r, hr⟩
              injection hr with h1 _
              exact h1.symm
            · intro h
              exact ⟨rest, by rw [h]⟩
          have hother : ∀ w' t', w ≠ w' →
              ((step w s).scanning_at w' t' ↔ s.scanning_at w' t') :=
            fun w' t' hne => scanning_set_other s _ w w' t' _ hwk hne
          have hnotscanned : t ∉ s.categories := fun h => hc (i2 t h)
          refine ⟨⟨?_, ?_, ?_, ?_, ?_, ?_⟩, ?_⟩
          · rw [hcat]
            exact i1
          · intro t' ht'
            rw [hcat] at ht'
            rw [htk]
            exact List.mem_cons_of_mem _ (i2 t' ht')
          · intro w' t' h
            rw [hcat, htk]
            by_cases hne : w = w'
            · subst hne
              rw [(hself t').1 h]
              exact ⟨List.mem_cons_self _ _, hnotscanned⟩
            · obtain ⟨h1, h2⟩ := i3 w' t' ((hother w' t' hne).1 h)
              exact ⟨List.mem_cons_of_mem _ h1, h2⟩
          · intro w1 w2 t' h1 h2
            by_cases hn1 : w = w1 <;> by_cases hn2 : w = w2
            · exact hn1.symm.trans hn2
            · subst hn1
              have ht := (hself t').1 h1
              subst ht
              exact absurd (i3 w2 t' ((hother w2 t' hn2).1 h2)).1 hc
            · subst hn2
              have ht := (hself t').1 h2
              subst ht
              exact absurd (i3 w1 t' ((hother w1 t' hn1).1 h1)).1 hc
            · exact i4 w1 w2 t' ((hother w1 t' hn1).1 h1) ((hother w2 t' hn2).1 h2)
          · intro t' ht'
            rw [htk] at ht'
            rw [hcat]
            rcases List.mem_cons.1 ht' with h | h
            · exact Or.inr ⟨w, (hself t').2 h⟩
            · rcases i5 t' h with h' | ⟨w0, h'⟩
              · exact Or.inl h'
              · have hne : w ≠ w0 := fun he => hold t' (he ▸ h')
                exact Or.inr ⟨w0, (hother w0 t' hne).2 h'⟩
          · intro w' pc' hpc' t' ht'
            rw [htk]
            rw [hwk] at hpc'
            simp only [List.getElem?_set] at hpc'
            by_cases hne : w = w'
            · rw [if_pos hne, if_pos hlt] at hpc'
              rw [← Option.some.inj hpc']
              rcases i6 w _ hw t' ht' with h | h
              · rcases List.mem_cons.1 h with h | h
                · exact Or.inr (h ▸ List.mem_cons_self _ _)
                · exact Or.inl h
              · exact Or.inr (List.mem_cons_of_mem _ h)
            · rw [if_neg hne] at hpc'
              rcases i6 w' pc' hpc' t' ht' with h | h
              · exact Or.inl h
              · exact Or.inr (List.mem_cons_of_mem _ h)
          · intro pc hpc _
            rw [hw] at hpc
            rw [← Option.some.inj hpc, hwk]
            refine ⟨_, List.getElem?_set_self hlt, ?_⟩
            simp only [VmRootsPc.steps_left, List.length_cons]
            omega
    | scanning t rest =>
      have hwk : (step w s).workers = s.workers.set w (VmRootsPc.testing rest) := by
        simp only [step, hw]
      have htk : (step w s)._process_strong_tasks = s._process_strong_tasks := by
        simp only [step, hw]
      have hcat : (step w s).categories = s.categories ++ [t] := by
        simp [categories, step, hw]
      have hme : s.scanning_at w t := ⟨rest, hw⟩
      have hself : ∀ t', ¬ (step w s).scanning_at w t' := by
        intro t' h
        obtain ⟨r, hr⟩ := (scanning_set_self s _ w t' _ _ hwk hw).1 h
        exact VmRootsPc.noConfusion hr
      have hback : ∀ w' t', (step w s).scanning_at w' t' →
          w ≠ w' ∧ s.scanning_at w' t' := by
        intro w' t' h
        by_cases hne : w = w'
        · subst hne
          exact absurd h (hself t')
        · exact ⟨hne, (scanning_set_other s _ w w' t' _ hwk hne).1 h⟩
      refine ⟨⟨?_, ?_, ?_, ?_, ?_, ?_⟩, ?_⟩
      · rw [hcat]
        refine List.Nodup.append i1 (List.nodup_singleton t) ?_
        intro a ha hb
        rw [List.mem_singleton] at hb
        subst hb
        exact (i3 w a hme).2 ha
      · intro t' ht'
        rw [htk]
        rw [hcat, List.mem_append, List.mem_singleton] at ht'
        rcases ht' with h | h
        · exact i2 t' h
        · exact h ▸ (i3 w t hme).1
      · intro w' t' h
        obtain ⟨hne, hold⟩ := hback w' t' h
        rw [htk]
        refine ⟨(i3 w' t' hold).1, ?_⟩
        rw [hcat, List.mem_append, List.mem_singleton]
        rintro (hm | hm)
        · exact (i3 w' t' hold).2 hm
        · subst hm
          exact hne (i4 w w' t' hme hold)
      · intro w1 w2 t' h1 h2
        exact i4 w1 w2 t' (hback w1 t' h1).2 (hback w2 t' h2).2
      · intro t' ht'
        rw [htk] at ht'
        rw [hcat]
        rcases i5 t' ht' with h | ⟨w0, h⟩
        · exact Or.inl (List.mem_append_left _ h)
        · by_cases hne : w = w0
          · subst hne
            obtain ⟨r, hr⟩ := h
            rw [hw] at hr
            injection (Option.some.inj hr) with h1 _
            exact Or.inl (List.mem_append_right _ (by rw [h1]; exact List.mem_singleton_self _))
          · exact Or.inr ⟨w0, (scanning_set_other s _ w w0 t' _ hwk hne).2 h⟩
      · intro w' pc' hpc' t' ht'
        rw [htk]
        rw [hwk] at hpc'
        simp only [List.getElem?_set] at hpc'
        by_cases hne : w = w'
        · rw [if_pos hne, if_pos hlt] at hpc'
          rw [← Option.some.inj hpc']
          exact i6 w _ hw t' ht'
        · rw [if_neg hne] at hpc'
          exact i6 w' pc' hpc' t' ht'
      · intro pc hpc _
        rw [hw] at hpc
        rw [← Option.some.inj hpc, hwk]
        refine ⟨_, List.getElem?_set_self hlt, ?_⟩
        simp only [VmRootsPc.steps_left]
        omega

theorem roots_run_append (a b : List Nat) (s : ShenandoahRootProcessor) :
    run (a ++ b) s = run b (run a s) := by
  unfold run
  rw [List.foldl_append]

/-- Every schedule keeps the invariant. -/
theorem run_tasks_invariant (schedule : List Nat) :
    ∀ s : ShenandoahRootProcessor, s.tasks_invariant → (run schedule s).tasks_invariant := by
  induction schedule with
  | nil => exact fun _ h => h
  | cons w rest ih => exact fun s h => ih _ (step_tasks_invariant w s h).1

/-- No step changes the number of workers. -/
theorem step_workers_length (w : Nat) (s : ShenandoahRootProcessor) :
    (step w s).workers.length = s.workers.length := by
  unfold step
  split
  · rfl
  · rfl
  · split <;> simp only [List.length_set]
  · simp only [List.length_set]

theorem run_workers_length (schedule : List Nat) :
    ∀ s : ShenandoahRootProcessor, (run schedule s).workers.length = s.workers.length := by
  induction schedule with
  | nil => exact fun _ => rfl
  | cons w rest ih => exact fun s => (ih _).trans (step_workers_length w s)

/-- A worker that has finished stays so, whoever steps. -/
theorem step_finished (w w' : Nat) (s : ShenandoahRootProcessor)
    (hr : s.workers[w]? = some (VmRootsPc.testing [])) :
    (step w' s).workers[w]? = some (VmRootsPc.testing []) := by
  by_cases hne : w' = w
  · subst hne
    have hstep : step w' s = s := by simp only [step, hr]
    rw [hstep]
    exact hr
  · unfold step
    split
    · exact hr
    · exact hr
    · split <;> (simp only [List.getElem?_set_ne hne]; exact hr)
    · simp only [List.getElem?_set_ne hne]
      exact hr

theorem run_finished (w : Nat) (schedule : List Nat) :
    ∀ s : ShenandoahRootProcessor, s.workers[w]? = some (VmRootsPc.testing []) →
      (run schedule s).workers[w]? = some (VmRootsPc.testing []) := by
  induction schedule with
  | nil => exact fun _ h => h
  | cons w' rest ih => exact fun s h => ih _ (step_finished w w' s h)

/-- A worker that steps alone finishes, within the number of steps given by its
bound. -/
theorem solo_finishes (w : Nat) (m : Nat) :
    ∀ (s : ShenandoahRootProcessor) (pc : VmRootsPc),
      s.tasks_invariant → s.workers[w]? = some pc → pc.steps_left ≤ m →
      (run (List.replicate m w) s).workers[w]? = some (VmRootsPc.testing []) := by
  induction m with
  | zero =>
    intro s pc _ hw hm
    cases pc with
    | testing rest =>
      cases rest with
      | nil => exact hw
      | cons t rest => simp only [VmRootsPc.steps_left, List.length_cons] at hm; omega
    | scanning t rest => simp only [VmRootsPc.steps_left] at hm; omega
  | succ m ih =>
    intro s pc hinv hw hm
    by_cases hr : pc = VmRootsPc.testing []
    · exact run_finished w _ s (hr ▸ hw)
    · obtain ⟨hinv1, hprog⟩ := step_tasks_invariant w s hinv
      obtain ⟨pc1, hw1, hlt⟩ := hprog pc hw hr
      exact ih _ pc1 hinv1 hw1 (by omega)

/-- From every state of the invariant there is a continuation after which the first `k`
workers have finished. -/
theorem workers_can_finish (k : Nat) :
    ∀ s : ShenandoahRootProcessor, s.tasks_invariant → k ≤ s.workers.length →
      ∃ rest, ∀ w, w < k →
        (run rest s).workers[w]? = some (VmRootsPc.testing []) := by
  induction k with
  | zero =>
    intro s _ _
    exact ⟨[], fun w hw => absurd hw (Nat.not_lt_zero w)⟩
  | succ k ih =>
    intro s hinv hk
    obtain ⟨rest, hrest⟩ := ih s hinv (Nat.le_of_succ_le hk)
    have hinv1 := run_tasks_invariant rest s hinv
    have hlen : k < (run rest s).workers.length := by
      rw [run_workers_length]
      exact hk
    have hget := List.getElem?_eq_getElem hlen
    refine ⟨rest ++ List.replicate ((run rest s).workers[k]).steps_left k, ?_⟩
    intro w hw
    rw [roots_run_append]
    by_cases hwk : w = k
    · subst hwk
      exact solo_finishes w _ _ _ hinv1 hget (Nat.le_refl _)
    · exact run_finished w _ _ (hrest w (by omega))

/-- When every one of at least one worker has finished, each of the six tasks that
every worker tries to claim has been scanned. -/
theorem scanned_of_all_finished (s : ShenandoahRootProcessor) (hinv : s.tasks_invariant)
    (hpos : 0 < s.workers.length) (hall : s.all_finished) :
    ∀ t ∈ vm_root_tasks false, t ∈ s.categories := by
  obtain ⟨_, _, _, _, i5, i6⟩ := hinv
  have hmem : ∀ (w : Nat) (pc : VmRootsPc), s.workers[w]? = some pc →
      pc = VmRootsPc.testing [] :=
    fun w pc h => hall pc (List.mem_iff_getElem?.2 ⟨w, h⟩)
  intro t ht
  have hget := List.getElem?_eq_getElem hpos
  have h0 := hmem 0 _ hget
  rcases i6 0 _ hget t ht with h | h
  · rw [h0] at h
    exact absurd h (List.not_mem_nil t)
  · rcases i5 t h with h' | ⟨w, rest, h'⟩
    · exact h'
    · exact VmRootsPc.noConfusion (hmem w _ h')

end RootTaskLemmas

section IterateLemmas

open ObjectGraph

/-- An object that the traversal comes to is reachable and was not marked at the
start. -/
theorem reachable_of_unmarked (g : ObjectGraph) (marks : List Nat) :
    ∀ obj, g.ReachableUnmarked marks obj → g.Reachable obj ∧ obj ∉ marks := by
  intro obj h
  induction h with
  | root p obj hp ht hm => exact ⟨Reachable.root p obj hp ht, hm⟩
  | field from_ p obj _ hp ht hm ih => exact ⟨Reachable.field from_ p obj ih.1 hp ht, hm⟩

/-- Starting with a clear bitmap, the traversal comes to every reachable object. -/
theorem unmarked_of_reachable (g : ObjectGraph) :
    ∀ obj, g.Reachable obj → g.ReachableUnmarked [] obj := by
  intro obj h
  induction h with
  | root p obj hp ht => exact ReachableUnmarked.root p obj hp ht (List.not_mem_nil obj)
  | field from_ p obj _ hp ht ih =>
    exact ReachableUnmarked.field from_ p obj ih hp ht (List.not_mem_nil obj)

/-- One application of the closure to a slot whose target, if unmarked at the start, is
one that the traversal comes to: the invariant is kept, nothing is reported, no mark is
lost, and the target of the slot is marked. -/
theorem do_oop_work_spec (g : ObjectGraph) (marks : List Nat) (st : ObjectIteration) (p : Nat)
    (hinv : g.marks_invariant marks st)
    (hreach : ∀ obj, g.target p = some obj → obj ∉ marks → g.ReachableUnmarked marks obj) :
    g.marks_invariant marks (g.do_oop_work st p) ∧
    (g.do_oop_work st p).reported = st.reported ∧
    (∀ x ∈ st._aux_bit_map, x ∈ (g.do_oop_work st p)._aux_bit_map) ∧
    (∀ obj, g.target p = some obj → obj ∈ (g.do_oop_work st p)._aux_bit_map) := by
  obtain ⟨i1, i2, i3⟩ := hinv
  by_cases ho : g.mem p = 0
  · have hstep : g.do_oop_work st p = st := by simp [do_oop_work, ho]
    rw [hstep]
    refine ⟨⟨i1, i2, i3⟩, rfl, fun x hx => hx, ?_⟩
    intro obj h
    simp [target, ho] at h
  · have htarget : g.target p = some (resolve_forwarded_not_null g.mem (g.mem p)) := by
      simp [target, ho]
    by_cases hm : resolve_forwarded_not_null g.mem (g.mem p) ∈ st._aux_bit_map
    · have hstep : g.do_oop_work st p = st := by simp [do_oop_work, ho, hm]
      rw [hstep]
      refine ⟨⟨i1, i2, i3⟩, rfl, fun x hx => hx, ?_⟩
      intro obj h
      rw [htarget] at h
      exact Option.some.inj h ▸ hm
    · have hstep : g.do_oop_work st p =
          { st with
            _aux_bit_map := resolve_forwarded_not_null g.mem (g.mem p) :: st._aux_bit_map,
            oop_stack := resolve_forwarded_not_null g.mem (g.mem p) :: st.oop_stack } := by
        simp [do_oop_work, ho, hm]
      rw [hstep]
      have hnew : resolve_forwarded_not_null g.mem (g.mem p) ∉ st.oop_stack ++ st.reported := by
        intro h
        exact hm ((i2 _).2 (Or.inr (List.mem_append.1 h)))
      have hfresh : resolve_forwarded_not_null g.mem (g.mem p) ∉ marks :=
        fun h => hm ((i2 _).2 (Or.inl h))
      refine ⟨⟨?_, ?_, ?_⟩, rfl, ?_, ?_⟩
      · exact List.nodup_cons.2 ⟨hnew, i1⟩
      · intro x
        simp only [List.mem_cons, i2 x]
        tauto
      · intro x hx
        simp only [List.mem_cons] at hx
        rcases hx with (h | h) | h
        · exact h ▸ hreach _ htarget hfresh
        · exact i3 x (Or.inl h)
        · exact i3 x (Or.inr h)
      · intro x hx
        exact List.mem_cons_of_mem _ hx
      · intro obj h
        rw [htarget] at h
        exact Option.some.inj h ▸ List.mem_cons_self _ _

/-- The closure applied to slots whose targets, if unmarked at the start, are objects
that the traversal comes to: the invariant is kept, nothing is reported, no mark is
lost, and the targets of the slots are marked. -/
theorem do_oops_spec (g : ObjectGraph) (marks : List Nat) (ps : List Nat) :
    ∀ st : ObjectIteration, g.marks_invariant marks st →
      (∀ p ∈ ps, ∀ obj, g.target p = some obj → obj ∉ marks →
        g.ReachableUnmarked marks obj) →
      g.marks_invariant marks (g.do_oops st ps) ∧
      (g.do_oops st ps).reported = st.reported ∧
      (∀ x ∈ st._aux_bit_map, x ∈ (g.do_oops st ps)._aux_bit_map) ∧
      g.targets_marked (g.do_oops st ps) ps := by
  induction ps with
  | nil =>
    intro st hinv _
    exact ⟨hinv, rfl, fun x hx => hx, fun p hp => absurd hp (List.not_mem_nil p)⟩
  | cons p ps ih =>
    intro st hinv hreach
    obtain ⟨h1, h2, h3, h4⟩ :=
      do_oop_work_spec g marks st p hinv (hreach p (List.mem_cons_self _ _))
    obtain ⟨k1, k2, k3, k4⟩ := ih (g.do_oop_work st p) h1
      (fun q hq => hreach q (List.mem_cons_of_mem _ hq))
    have hfold : g.do_oops st (p :: ps) = g.do_oops (g.do_oop_work st p) ps := rfl
    rw [hfold]
    refine ⟨k1, k2.trans h2, fun x hx => k3 x (h3 x hx), ?_⟩
    intro q hq obj hobj
    rcases List.mem_cons.1 hq with h | h
    · exact k3 obj (h4 obj (h ▸ hobj))
    · exact k4 q h obj hobj

/-- A list without repetition whose members all lie in `U` is no longer than `U`. -/
theorem length_le_of_nodup_subset (l U : List Nat) (hn : l.Nodup) (hs : ∀ x ∈ l, x ∈ U) :
    l.length ≤ U.length :=
  (List.subperm_of_subset hn hs).length_le

/-- The loop of `object_iterate` ends within as many iterations as there are reachable
objects not yet reported, with an empty stack, and then the targets of the roots and of
the reported objects are marked. -/
theorem drain_spec (g : ObjectGraph) (marks U : List Nat)
    (hU : ∀ x, g.Reachable x → x ∈ U) (fuel : Nat) :
    ∀ st : ObjectIteration, g.marks_invariant marks st →
      (∀ obj ∈ st.reported, g.targets_marked st (g.oop_iterate obj)) →
      g.targets_marked st g.roots →
      U.length ≤ fuel + st.reported.length →
      ∃ st', g.drain fuel st = some st' ∧ g.marks_invariant marks st' ∧
        (∀ obj ∈ st'.reported, g.targets_marked st' (g.oop_iterate obj)) ∧
        g.targets_marked st' g.roots ∧ st'.oop_stack = [] := by
  induction fuel with
  | zero =>
    intro st hinv hf hr hlen
    have hle := length_le_of_nodup_subset _ U hinv.1 (fun x hx =>
      hU x (reachable_of_unmarked g marks x (hinv.2.2 x (List.mem_append.1 hx))).1)
    have hempty : st.oop_stack = [] := by
      rw [List.length_append] at hle
      exact List.length_eq_zero.1 (by omega)
    exact ⟨st, by simp [drain, hempty], hinv, hf, hr, hempty⟩
  | succ fuel ih =>
    intro st hinv hf hr hlen
    cases hs : st.oop_stack with
    | nil => exact ⟨st, by simp [drain, hs], hinv, hf, hr, hs⟩
    | cons obj rest =>
      obtain ⟨i1, i2, i3⟩ := hinv
      rw [hs] at i1 i2 i3
      have hobj : g.ReachableUnmarked marks obj := i3 obj (Or.inl (List.mem_cons_self _ _))
      have hpop : g.marks_invariant marks
          { st with oop_stack := rest, reported := st.reported ++ [obj] } := by
        refine ⟨?_, ?_, ?_⟩
        · have hperm : (rest ++ (st.reported ++ [obj])).Perm (obj :: rest ++ st.reported) := by
            rw [← List.append_assoc]
            exact List.perm_append_singleton obj (rest ++ st.reported)
          exact hperm.nodup_iff.2 i1
        · intro x
          simp only [i2 x, List.mem_cons, List.mem_append, List.mem_singleton]
          tauto
        · intro x hx
          simp only [List.mem_append, List.mem_singleton] at hx
          rcases hx with h | h | h
          · exact i3 x (Or.inl (List.mem_cons_of_mem _ h))
          · exact i3 x (Or.inr h)
          · exact h ▸ hobj
      obtain ⟨k1, k2, k3, k4⟩ := do_oops_spec g marks (g.oop_iterate obj) _ hpop
        (fun p hp o ho hm => ReachableUnmarked.field obj p o hobj hp ho hm)
      have hdrain : g.drain (fuel + 1) st = g.drain fuel
          (g.do_oops { st with oop_stack := rest, reported := st.reported ++ [obj] }
            (g.oop_iterate obj)) := by
        simp only [drain, hs]
      rw [hdrain]
      refine ih _ k1 ?_ ?_ ?_
      · intro o ho
        rw [k2] at ho
        rcases List.mem_append.1 ho with h | h
        · exact fun p hp x hx => k3 x (hf o h p hp x hx)
        · rw [List.mem_singleton.1 h]
          exact k4
      · exact fun p hp x hx => k3 x (hr p hp x hx)
      · rw [k2, List.length_append, List.length_singleton]
        omega

/-- With an empty stack, the targets of the roots and of the reported objects marked,
every object that the traversal comes to has been reported. -/
theorem reported_of_reachable (g : ObjectGraph) (marks : List Nat) (st : ObjectIteration)
    (hinv : g.marks_invariant marks st)
    (hf : ∀ obj ∈ st.reported, g.targets_marked st (g.oop_iterate obj))
    (hr : g.targets_marked st g.roots) (hempty : st.oop_stack = []) :
    ∀ obj, g.ReachableUnmarked marks obj → obj ∈ st.reported := by
  have hmark : ∀ x, x ∈ st._aux_bit_map → x ∉ marks → x ∈ st.reported := by
    intro x hx hm
    rcases (hinv.2.1 x).1 hx with h | h | h
    · exact absurd h hm
    · rw [hempty] at h
      exact absurd h (List.not_mem_nil x)
    · exact h
  intro obj hobj
  induction hobj with
  | root p obj hp ht hm => exact hmark obj (hr p hp obj ht) hm
  | field from_ p obj _ hp ht hm ih => exact hmark obj (hf from_ ih p hp obj ht) hm

/-- The objects of the sample heap that are reachable from its roots lie among 16
and 48. -/
theorem sample_graph_reachable : ∀ x, sample_graph.Reachable x → x ∈ [16, 48] := by
  have e1 : sample_graph.target 1000 = some 16 := by decide
  have e2 : sample_graph.target 1008 = none := by decide
  have e3 : sample_graph.target 2000 = some 48 := by decide
  have e4 : sample_graph.target 2008 = some 16 := by decide
  have e5 : sample_graph.target 2016 = some 16 := by decide
  intro x h
  induction h with
  | root p obj hp ht =>
    have hp' : p = 1000 ∨ p = 1008 := by simpa [sample_graph] using hp
    rcases hp' with rfl | rfl
    · rw [e1] at ht
      simp [← Option.some.inj ht]
    · rw [e2] at ht
      exact Option.noConfusion ht
  | field from_ p obj _ hp ht ih =>
    have hf : from_ = 16 ∨ from_ = 48 := by simpa using ih
    rcases hf with rfl | rfl
    · have hp' : p = 2000 ∨ p = 2008 := by simpa [sample_graph] using hp
      rcases hp' with rfl | rfl
      · rw [e3] at ht
        simp [← Option.some.inj ht]
      · rw [e4] at ht
        simp [← Option.some.inj ht]
    · have hp' : p = 2016 := by simpa [sample_graph] using hp
      subst hp'
      rw [e5] at ht
      simp [← Option.some.inj ht]

end IterateLemmas

section DominanceLemmas

open ShenandoahBarrierNode

/-- The inner loop over the stack of phis ends within its bound. -/
theorem unwind_returns (phase : PhaseTransform) (fuel : Nat) :
    ∀ phis : List (Nat × Nat), unwind_bound phase phis ≤ fuel →
      ∃ r, unwind phase fuel phis = some r := by
  induction fuel with
  | zero =>
    intro phis h
    cases phis with
    | nil => exact ⟨_, rfl⟩
    | cons e rest =>
      obtain ⟨phi, idx⟩ := e
      simp only [unwind_bound] at h
      omega
  | succ fuel ih =>
    intro phis h
    cases phis with
    | nil => exact ⟨_, rfl⟩
    | cons e rest =>
      obtain ⟨phi, idx⟩ := e
      simp only [unwind_bound] at h
      by_cases hge : idx ≥ (phase.node phi).req
      · obtain ⟨r, hr⟩ := ih rest (by omega)
        exact ⟨r, by simp only [unwind, if_pos hge, hr]⟩
      · cases hin : (phase.node phi).input idx with
        | none =>
          obtain ⟨r, hr⟩ := ih ((phi, idx + 1) :: rest) (by simp only [unwind_bound]; omega)
          exact ⟨r, by simp only [unwind, if_neg hge, hin, hr]⟩
        | some current =>
          exact ⟨(some current, (phi, idx + 1) :: rest), by simp only [unwind, if_neg hge, hin]⟩

end DominanceLemmas

section RegionClaims

open ShenandoahHeapRegion

/-- C1: on a region with `top <= end` (addresses being 64-bit pointers),
`allocate(size, type)` succeeds exactly when `end - top >= size` counted in words.
On success it returns the old `top` and sets `top` to the old `top` plus `size` words;
otherwise it returns `NULL` and leaves the region, so also `top`, unchanged. -/
theorem allocate_succeeds_iff_fits (mra : RegionState → RegionState)
    (r : ShenandoahHeapRegion) (size : Nat) (type : AllocType)
    (hend : r._end < 2 ^ 64) (hle : r._top ≤ r._end) :
    ((allocate mra r size type).1 ≠ none ↔ size ≤ (r._end - r._top) / HeapWordSize) ∧
    (size ≤ (r._end - r._top) / HeapWordSize →
      (allocate mra r size type).1 = some r._top ∧
      (allocate mra r size type).2._top = r._top + size * HeapWordSize) ∧
    (¬ size ≤ (r._end - r._top) / HeapWordSize →
      (allocate mra r size type).1 = none ∧ (allocate mra r size type).2 = r) := by
  obtain ⟨hs, hf⟩ := allocate_top mra r size type hend hle
  refine ⟨?_, ?_, ?_⟩
  · by_cases h : size ≤ (r._end - r._top) / HeapWordSize
    · simp [hs h, h]
    · simp [hf h, h]
  · intro h
    simp [hs h]
  · intro h
    simp [hf h]

/-- Witness of C1 on `sample_region`: a request of three words fits and returns the old
`top`, 72, moving `top` to 96. -/
theorem allocate_succeeds_iff_fits_witness :
    (allocate id sample_region 3 AllocType._alloc_tlab).1 = some 72 ∧
    (allocate id sample_region 3 AllocType._alloc_tlab).2._top = 96 :=
  (allocate_succeeds_iff_fits id sample_region 3 AllocType._alloc_tlab
    (by decide) (by decide)).2.1 (by decide)

/-- C2: `allocate` preserves the region invariant `bottom <= top <= end`, for every
size and allocation kind, whether the call succeeds or fails. -/
theorem allocate_preserves_invariant (mra : RegionState → RegionState)
    (r : ShenandoahHeapRegion) (size : Nat) (type : AllocType)
    (hend : r._end < 2 ^ 64) (hinv : r.invariant) :
    (allocate mra r size type).2.invariant := by
  obtain ⟨hb, ht⟩ := hinv
  have hbd := allocate_top_bounds mra r size type hend ht
  have hfr := allocate_frame mra r size type
  refine ⟨?_, ?_⟩
  · rw [hfr.1]
    exact Nat.le_trans hb hbd.1
  · rw [hfr.2]
    exact hbd.2

/-- Witness of C2 on `sample_region`, for a failing request of eight words. -/
theorem allocate_preserves_invariant_witness :
    sample_region.invariant ∧
    (allocate id sample_region 8 AllocType._alloc_shared).2.invariant :=
  ⟨by decide,
    allocate_preserves_invariant id sample_region 8 AllocType._alloc_shared
      (by decide) (by decide)⟩

/-- C3, counterexample: `allocate(0, shared)` on `sample_region` succeeds, returning
`top` = 72, and leaves `top` at 72: a successful call that does not strictly advance
`top`. -/
theorem allocate_zero_succeeds_without_advance :
    sample_region.invariant ∧ sample_region._top = 72 ∧
    (allocate id sample_region 0 AllocType._alloc_shared).1 = some 72 ∧
    ¬ (sample_region._top < (allocate id sample_region 0 AllocType._alloc_shared).2._top) := by
  decide

/-- C3, amended: on a region with `bottom <= top <= end`, `top` is non-decreasing over
any sequence of `allocate` calls and stays at most `end`; every successful
`allocate(size)` advances `top` by exactly `size` words, hence strictly when
`size > 0`, and never beyond `end`. -/
theorem allocate_top_monotone (mra : RegionState → RegionState)
    (r : ShenandoahHeapRegion) (hend : r._end < 2 ^ 64) (hinv : r.invariant) :
    (∀ reqs : List (Nat × AllocType),
      r._top ≤ (allocate_all mra r reqs)._top ∧ (allocate_all mra r reqs)._top ≤ r._end) ∧
    (∀ (size : Nat) (type : AllocType), (allocate mra r size type).1 ≠ none →
      (allocate mra r size type).2._top = r._top + size * HeapWordSize ∧
      (allocate mra r size type).2._top ≤ r._end ∧
      (0 < size → r._top < (allocate mra r size type).2._top)) := by
  refine ⟨fun reqs => allocate_all_top_bounds mra reqs r hend hinv.2, ?_⟩
  intro size type hsome
  obtain ⟨hs, hf⟩ := allocate_top mra r size type hend hinv.2
  have hfit : size ≤ (r._end - r._top) / HeapWordSize := by
    by_contra hno
    rw [hf hno] at hsome
    exact hsome rfl
  have htop : (allocate mra r size type).2._top = r._top + size * HeapWordSize := by
    rw [hs hfit]
  have hbd := allocate_top_bounds mra r size type hend hinv.2
  refine ⟨htop, hbd.2, ?_⟩
  intro hpos
  rw [htop]
  unfold HeapWordSize
  omega

/-- Witness of the amended C3 on `sample_region`: three successive requests, the
second of which fails, move `top` from 72 to 112. -/
theorem allocate_top_monotone_witness :
    sample_region._top ≤
      (allocate_all id sample_region
        [(3, AllocType._alloc_tlab), (9, AllocType._alloc_shared),
          (2, AllocType._alloc_gclab)])._top ∧
    (allocate_all id sample_region
        [(3, AllocType._alloc_tlab), (9, AllocType._alloc_shared),
          (2, AllocType._alloc_gclab)])._top ≤ sample_region._end :=
  (allocate_top_monotone id sample_region (by decide) (by decide)).1 _

end RegionClaims

section BarrierClaims

open BrooksPointer ObjectHeap

/-- C4: in every heap reached by allocations and evacuations, for every object `o`
(and for the null pointer) `resolve_forwarded(resolve_forwarded(o)) ==
resolve_forwarded(o)`.  Resolution follows the forwarding word of a non-null `o`
exactly once, as the interpreter read barriers do, and its result is an object whose
forwarding word points to itself; when it differs from `o` it lies outside the
collection set while `o` lies inside, so there are no forwarding chains. -/
theorem resolve_forwarded_idempotent (h : ObjectHeap) (hr : h.Reachable) (o : Nat)
    (ho : o ∈ h.objects ∨ o = 0) :
    resolve_forwarded h.mem (resolve_forwarded h.mem o) = resolve_forwarded h.mem o ∧
    (o ≠ 0 → resolve_forwarded h.mem o = forwardee h.mem o ∧
      resolve_forwarded h.mem o ∈ h.objects ∧
      forwardee h.mem (resolve_forwarded h.mem o) = resolve_forwarded h.mem o ∧
      (resolve_forwarded h.mem o ≠ o →
        h.in_cset o = true ∧ h.in_cset (resolve_forwarded h.mem o) = false)) ∧
    (∀ c : BarrierContext, c.ShenandoahReadBarrier = true → c.mem = h.mem →
      x86.interpreter_read_barrier c o = resolve_forwarded h.mem o ∧
      aarch64.interpreter_read_barrier c o = resolve_forwarded h.mem o) := by
  have hinv := reachable_no_chains h hr
  have hbar : ∀ c : BarrierContext, c.ShenandoahReadBarrier = true → c.mem = h.mem →
      x86.interpreter_read_barrier c o = resolve_forwarded h.mem o ∧
      aarch64.interpreter_read_barrier c o = resolve_forwarded h.mem o := by
    intro c hrb hmem
    rw [← hmem]
    exact read_barrier_eq_resolve c o hrb
  rcases ho with ho | ho
  · obtain ⟨ho0, _, hmem, hidem, hcs⟩ := hinv o ho
    have hres : resolve_forwarded h.mem o = forwardee h.mem o := by
      simp [resolve_forwarded, resolve_forwarded_not_null, ho0]
    have hf0 : forwardee h.mem o ≠ 0 := (hinv _ hmem).1
    have hres2 : resolve_forwarded h.mem (forwardee h.mem o) = forwardee h.mem o := by
      simp [resolve_forwarded, resolve_forwarded_not_null, hf0, hidem]
    refine ⟨?_, ?_, hbar⟩
    · rw [hres, hres2]
    · intro _
      rw [hres]
      exact ⟨rfl, hmem, hidem, hcs⟩
  · subst ho
    refine ⟨?_, ?_, hbar⟩
    · simp [resolve_forwarded]
    · intro hne
      exact absurd rfl hne

/-- Witness of C4 on `ObjectHeap.sample`, where the object 16 has been evacuated to
128. -/
theorem resolve_forwarded_idempotent_witness :
    resolve_forwarded ObjectHeap.sample.mem (resolve_forwarded ObjectHeap.sample.mem 16) =
      resolve_forwarded ObjectHeap.sample.mem 16 ∧
    resolve_forwarded ObjectHeap.sample.mem 16 = 128 :=
  ⟨(resolve_forwarded_idempotent ObjectHeap.sample
      (Reachable.evac _ 16 128
        (Reachable.choose _ _ (Reachable.alloc _ 16 (Reachable.empty _ _) (by decide))
          (by decide))
        (by decide) (by decide) (by decide))
      16 (by decide)).1, by decide⟩

/-- C5: every allocation path initialises the forwarding word to the object itself.
`mem_allocate(size)` passes to the allocator a shared request of `size` plus the
forwarding word; on success it returns the address one forwarding word past the start
of the block, whose forwarding word then holds that address (and `NULL`, with memory
untouched, when the allocation fails).  `tlab_post_allocation_setup` and both
`compile_prepare_oop` do the same, so resolving a freshly allocated object, as the read
barrier does, returns that object. -/
theorem allocation_paths_init_forwarding
    (allocate_memory : ShenandoahAllocationRequest → Option Nat) (mem : Memory)
    (size obj : Nat) :
    (mem_allocate allocate_memory mem size =
      match allocate_memory
        (ShenandoahAllocationRequest.for_shared ((size + word_size) % WORD_MOD)) with
      | some filler =>
        (some (heapword_plus filler word_size), init mem (heapword_plus filler word_size))
      | none => (none, mem)) ∧
    (∀ result, (mem_allocate allocate_memory mem size).1 = some result →
      forwardee (mem_allocate allocate_memory mem size).2 result = result ∧
      resolve_forwarded (mem_allocate allocate_memory mem size).2 result = result) ∧
    ((tlab_post_allocation_setup mem obj).1 = heapword_plus obj word_size ∧
      forwardee (tlab_post_allocation_setup mem obj).2 (tlab_post_allocation_setup mem obj).1 =
        (tlab_post_allocation_setup mem obj).1 ∧
      resolve_forwarded (tlab_post_allocation_setup mem obj).2
        (tlab_post_allocation_setup mem obj).1 = (tlab_post_allocation_setup mem obj).1) ∧
    ((x86.compile_prepare_oop mem obj).1 = (obj + byte_size) % WORD_MOD ∧
      forwardee (x86.compile_prepare_oop mem obj).2 (x86.compile_prepare_oop mem obj).1 =
        (x86.compile_prepare_oop mem obj).1 ∧
      resolve_forwarded (x86.compile_prepare_oop mem obj).2
        (x86.compile_prepare_oop mem obj).1 = (x86.compile_prepare_oop mem obj).1) ∧
    ((aarch64.compile_prepare_oop mem obj).1 = (obj + byte_size) % WORD_MOD ∧
      forwardee (aarch64.compile_prepare_oop mem obj).2
        (aarch64.compile_prepare_oop mem obj).1 = (aarch64.compile_prepare_oop mem obj).1 ∧
      resolve_forwarded (aarch64.compile_prepare_oop mem obj).2
        (aarch64.compile_prepare_oop mem obj).1 = (aarch64.compile_prepare_oop mem obj).1) := by
  have hx : ∀ r : Nat, x86.compile_prepare_oop mem obj = (r, init mem r) →
      forwardee (init mem r) r = r ∧ resolve_forwarded (init mem r) r = r :=
    fun r _ => ⟨forwardee_init_self mem r, resolve_forwarded_init_self mem r⟩
  refine ⟨?_, ?_, ?_, ?_, ?_⟩
  · rfl
  · intro result hres
    simp only [mem_allocate] at hres ⊢
    cases hr : allocate_memory
      (ShenandoahAllocationRequest.for_shared ((size + word_size) % WORD_MOD)) with
    | none => rw [hr] at hres; exact Option.noConfusion hres
    | some filler =>
      rw [hr] at hres
      simp only [Option.some.injEq] at hres
      subst hres
      exact ⟨forwardee_init_self mem _, resolve_forwarded_init_self mem _⟩
  · exact ⟨rfl, forwardee_init_self mem _, resolve_forwarded_init_self mem _⟩
  · exact ⟨rfl, forwardee_init_self mem _, resolve_forwarded_init_self mem _⟩
  · exact ⟨rfl, forwardee_init_self mem _, resolve_forwarded_init_self mem _⟩

/-- Evaluation of C5: with an allocator granting the block at 64, `mem_allocate(3)`
returns 72 and a read barrier on 72 yields 72. -/
theorem allocation_paths_init_forwarding_witness :
    (mem_allocate (fun _ => some 64) (fun _ => 0) 3).1 = some 72 ∧
    resolve_forwarded (mem_allocate (fun _ => some 64) (fun _ => 0) 3).2 72 = 72 :=
  ⟨by decide,
    ((allocation_paths_init_forwarding (fun _ => some 64) (fun _ => 0) 3 0).2.1 72
      (by decide)).2⟩

/-- C6, counterexample: on x86 with `ShenandoahWriteBarrier` on and
`ShenandoahReadBarrier` off, in GC state `HAS_FORWARDED`, the write barrier leaves the
reference 16 as it is although its forwarding word holds 32; the aarch64 barrier
yields 32. -/
theorem x86_write_barrier_skips_resolution :
    sample_context.ShenandoahWriteBarrier = true ∧
    is_set sample_context.gc_state HAS_FORWARDED = true ∧
    forwardee sample_context.mem 16 = 32 ∧
    x86.interpreter_write_barrier sample_context 16 = { dst := 16, irt_calls := [] } ∧
    aarch64.interpreter_write_barrier sample_context 16 = { dst := 32, irt_calls := [] } := by
  decide

/-- C6, amended: with `ShenandoahWriteBarrier` enabled, the interpreter write barrier
leaves the reference unchanged and calls nothing when neither `HAS_FORWARDED` nor
`EVACUATION` is set.  When either bit is set, the aarch64 barrier always replaces the
reference by its forwarding word, and the x86 barrier does so when
`ShenandoahReadBarrier` is enabled (it keeps the reference otherwise); the barrier then
calls `write_barrier_IRT` on the reference so obtained exactly when `EVACUATION` is set
and the in-collection-set table marks its region. -/
theorem interpreter_write_barrier_cases (c : BarrierContext) (dst : Nat)
    (hwb : c.ShenandoahWriteBarrier = true) :
    ((is_set c.gc_state HAS_FORWARDED = false ∧ is_set c.gc_state EVACUATION = false) →
      x86.interpreter_write_barrier c dst = { dst := dst, irt_calls := [] } ∧
      aarch64.interpreter_write_barrier c dst = { dst := dst, irt_calls := [] }) ∧
    (¬ (is_set c.gc_state HAS_FORWARDED = false ∧ is_set c.gc_state EVACUATION = false) →
      aarch64.interpreter_write_barrier c dst =
        evacuate_if_in_cset c (forwardee c.mem dst) ∧
      (c.ShenandoahReadBarrier = true →
        x86.interpreter_write_barrier c dst =
          evacuate_if_in_cset c (forwardee c.mem dst)) ∧
      (c.ShenandoahReadBarrier = false →
        x86.interpreter_write_barrier c dst = evacuate_if_in_cset c dst)) := by
  constructor
  · intro hst
    have ht := (stable_test_iff c.gc_state).mpr hst
    simp only [x86.interpreter_write_barrier, aarch64.interpreter_write_barrier, hwb, ht]
    simp
  · intro hst
    have ht : ¬ c.gc_state &&& (HAS_FORWARDED ||| EVACUATION) = 0 :=
      fun h0 => hst ((stable_test_iff c.gc_state).mp h0)
    refine ⟨?_, ?_, ?_⟩
    · simp only [aarch64.interpreter_write_barrier, hwb, Bool.not_true, if_neg ht]
      exact write_barrier_slow_path c _
    · intro hrb
      simp only [x86.interpreter_write_barrier, x86.interpreter_read_barrier_not_null, hwb,
        hrb, Bool.not_true, if_neg ht, if_true]
      exact write_barrier_slow_path c _
    · intro hrb
      simp only [x86.interpreter_write_barrier, x86.interpreter_read_barrier_not_null, hwb,
        hrb, Bool.not_true, if_neg ht]
      exact write_barrier_slow_path c dst

/-- Witness of the amended C6 on `sample_context` (GC state `HAS_FORWARDED`, read
barriers off): aarch64 resolves 16 to 32. -/
theorem interpreter_write_barrier_cases_witness :
    aarch64.interpreter_write_barrier sample_context 16 =
      evacuate_if_in_cset sample_context (forwardee sample_context.mem 16) :=
  ((interpreter_write_barrier_cases sample_context 16 (by decide)).2 (by decide)).1

/-- C7 (counterexample): in `sample_context` the acmp barrier is emitted and read barriers
are switched off; the references 16 and 32 resolve to the same object 32 through their
forwarding pointers, yet the comparison of `asm_acmp_barrier` reports them unequal, on
x86 and on aarch64. -/
theorem asm_acmp_barrier_without_read_barrier :
    sample_context.ShenandoahAcmpBarrier = true ∧
    sample_context.ShenandoahReadBarrier = false ∧
    resolve_forwarded sample_context.mem 16 = 32 ∧
    resolve_forwarded sample_context.mem 32 = 32 ∧
    (x86.asm_acmp_barrier sample_context (decide (16 = 32)) 16 32).equal = false ∧
    (aarch64.asm_acmp_barrier sample_context (decide (16 = 32)) 16 32).equal = false := by
  decide

/-- C7 (amended): when `ShenandoahAcmpBarrier` is enabled, so that the barrier is
emitted, the comparison of `asm_acmp_barrier`, entered with the flag of the raw
comparison of the two references, reports them equal if and only if they are equal as
raw pointers or the results of `interpreter_read_barrier` on them are equal, on x86 and
on aarch64; the barrier leaves a null reference null, and when the raw pointers differ
it is applied to both operands, which are compared again. With `ShenandoahReadBarrier`
enabled the results are the forwarding resolutions, so the references are reported
equal if and only if they are equal as raw pointers or resolve to the same object; with
`ShenandoahReadBarrier` disabled the barrier emits no load, and the references are
reported equal if and only if they are equal as raw pointers. -/
theorem asm_acmp_barrier_equal_iff (c : BarrierContext) (op1 op2 : Nat)
    (hacmp : c.ShenandoahAcmpBarrier = true) :
    ((x86.asm_acmp_barrier c (decide (op1 = op2)) op1 op2).equal = true ↔
      (op1 = op2 ∨ x86.interpreter_read_barrier c op1 = x86.interpreter_read_barrier c op2)) ∧
    ((aarch64.asm_acmp_barrier c (decide (op1 = op2)) op1 op2).equal = true ↔
      (op1 = op2 ∨
        aarch64.interpreter_read_barrier c op1 = aarch64.interpreter_read_barrier c op2)) ∧
    (x86.interpreter_read_barrier c 0 = 0 ∧ aarch64.interpreter_read_barrier c 0 = 0) ∧
    (op1 ≠ op2 →
      x86.asm_acmp_barrier c (decide (op1 = op2)) op1 op2 =
        { equal := decide (x86.interpreter_read_barrier c op1 =
            x86.interpreter_read_barrier c op2),
          op1 := x86.interpreter_read_barrier c op1,
          op2 := x86.interpreter_read_barrier c op2 } ∧
      aarch64.asm_acmp_barrier c (decide (op1 = op2)) op1 op2 =
        { equal := decide (aarch64.interpreter_read_barrier c op1 =
            aarch64.interpreter_read_barrier c op2),
          op1 := aarch64.interpreter_read_barrier c op1,
          op2 := aarch64.interpreter_read_barrier c op2 }) ∧
    (c.ShenandoahReadBarrier = true →
      ((x86.asm_acmp_barrier c (decide (op1 = op2)) op1 op2).equal = true ↔
        (op1 = op2 ∨ resolve_forwarded c.mem op1 = resolve_forwarded c.mem op2)) ∧
      ((aarch64.asm_acmp_barrier c (decide (op1 = op2)) op1 op2).equal = true ↔
        (op1 = op2 ∨ resolve_forwarded c.mem op1 = resolve_forwarded c.mem op2))) ∧
    (c.ShenandoahReadBarrier = false →
      ((x86.asm_acmp_barrier c (decide (op1 = op2)) op1 op2).equal = true ↔ op1 = op2) ∧
      ((aarch64.asm_acmp_barrier c (decide (op1 = op2)) op1 op2).equal = true ↔
        op1 = op2)) := by
  have hx : (x86.asm_acmp_barrier c (decide (op1 = op2)) op1 op2).equal = true ↔
      (op1 = op2 ∨
        x86.interpreter_read_barrier c op1 = x86.interpreter_read_barrier c op2) := by
    by_cases he : op1 = op2
    · simp [x86.asm_acmp_barrier, hacmp, he]
    · simp [x86.asm_acmp_barrier, hacmp, he]
  have ha : (aarch64.asm_acmp_barrier c (decide (op1 = op2)) op1 op2).equal = true ↔
      (op1 = op2 ∨
        aarch64.interpreter_read_barrier c op1 = aarch64.interpreter_read_barrier c op2) := by
    by_cases he : op1 = op2
    · simp [aarch64.asm_acmp_barrier, hacmp, he]
    · simp [aarch64.asm_acmp_barrier, hacmp, he]
  refine ⟨hx, ha, ?_, ?_, ?_, ?_⟩
  · simp [x86.interpreter_read_barrier, aarch64.interpreter_read_barrier]
  · intro hne
    simp [x86.asm_acmp_barrier, aarch64.asm_acmp_barrier, hacmp, hne]
  · intro hrb
    rw [hx, ha, (read_barrier_eq_resolve c op1 hrb).1, (read_barrier_eq_resolve c op2 hrb).1,
      (read_barrier_eq_resolve c op1 hrb).2, (read_barrier_eq_resolve c op2 hrb).2]
    exact ⟨Iff.rfl, Iff.rfl⟩
  · intro hrb
    rw [hx, ha, (read_barrier_off c op1 hrb).1, (read_barrier_off c op2 hrb).1,
      (read_barrier_off c op1 hrb).2, (read_barrier_off c op2 hrb).2]
    exact ⟨or_self_iff, or_self_iff⟩

/-- Witness of C7 (amended): in `resolving_context`, with read barriers on, the
references 16 and 32 differ as raw pointers, both resolve to 32, and are reported equal
on both architectures, both operands holding 32 afterwards; in `sample_context`, with read barriers off, they are reported
equal if and only if they are equal as raw pointers. -/
theorem asm_acmp_barrier_equal_iff_witness :
    resolving_context.ShenandoahAcmpBarrier = true ∧
    resolving_context.ShenandoahReadBarrier = true ∧
    (x86.asm_acmp_barrier resolving_context (decide (16 = 32)) 16 32).equal = true ∧
    (aarch64.asm_acmp_barrier resolving_context (decide (16 = 32)) 16 32).equal = true ∧
    x86.asm_acmp_barrier resolving_context (decide (16 = 32)) 16 32 =
      { equal := true, op1 := 32, op2 := 32 } ∧
    ((x86.asm_acmp_barrier sample_context (decide (16 = 32)) 16 32).equal = true ↔
      (16 : Nat) = 32) :=
  ⟨by decide, by decide,
    ((asm_acmp_barrier_equal_iff resolving_context 16 32 (by decide)).2.2.2.2.1
      (by decide)).1.2 (Or.inr (by decide)),
    ((asm_acmp_barrier_equal_iff resolving_context 16 32 (by decide)).2.2.2.2.1
      (by decide)).2.2 (Or.inr (by decide)),
    ((asm_acmp_barrier_equal_iff resolving_context 16 32 (by decide)).2.2.2.1
      (by decide)).1,
    ((asm_acmp_barrier_equal_iff sample_context 16 32 (by decide)).2.2.2.2.2
      (by decide)).1⟩

end BarrierClaims

section CycleClaims

open ShenandoahHeap

/-- C8: `op_degenerated(point)` first clears the cancellation flag and runs its `switch`
from the state so obtained.  As long as no operation leaves the flag set, the `switch`
runs exactly the remaining stop-the-world sequence: init mark, final mark, cleanup, then
the sequence of entry `evac` (entry `outside_cycle`); final mark, cleanup, then the
sequence of entry `evac` (entry `mark`); evacuation if evacuation is in progress, init
update-refs if the heap has forwarded objects, then the sequence of entry `updaterefs`
(entry `evac`); final update-refs if the heap has forwarded objects, then cleanup with
bitmap reset (entry `updaterefs`).  The operations run from a later entry point, in the
state that the cycle has reached there, are a suffix of those run from an earlier
one. -/
theorem op_degenerated_runs_remaining_sequence (env : GCEnvironment) (h : ShenandoahHeap) :
    (h.clear_cancelled_gc._cancelled_gc = false ∧
      ∀ point, op_degenerated env point h =
        match degenerated_switch env point h.clear_cancelled_gc with
        | (SwitchExit.fail_return, r) => some r
        | (SwitchExit.break_out, r) => some (degenerated_progress_check env r)
        | (SwitchExit.should_not_reach_here, _) => none) ∧
    ∀ x : ShenandoahHeap, x._cancelled_gc = false →
      (no_phase_leaves_flag_set env ShenandoahDegenPoint._degenerated_outside_cycle x →
        phases_run env ShenandoahDegenPoint._degenerated_outside_cycle x =
          [GCPhase.init_mark, GCPhase.final_mark, GCPhase.cleanup] ++
            phases_run env ShenandoahDegenPoint._degenerated_evac
              (after_final_mark env (after_init_mark env x)) ∧
        (after_final_mark env (after_init_mark env x))._cancelled_gc = false ∧
        no_phase_leaves_flag_set env ShenandoahDegenPoint._degenerated_evac
          (after_final_mark env (after_init_mark env x)) ∧
        phases_run env ShenandoahDegenPoint._degenerated_mark (after_init_mark env x) <:+
          phases_run env ShenandoahDegenPoint._degenerated_outside_cycle x) ∧
      (no_phase_leaves_flag_set env ShenandoahDegenPoint._degenerated_mark x →
        phases_run env ShenandoahDegenPoint._degenerated_mark x =
          [GCPhase.final_mark, GCPhase.cleanup] ++
            phases_run env ShenandoahDegenPoint._degenerated_evac (after_final_mark env x) ∧
        (after_final_mark env x)._cancelled_gc = false ∧
        no_phase_leaves_flag_set env ShenandoahDegenPoint._degenerated_evac
          (after_final_mark env x) ∧
        phases_run env ShenandoahDegenPoint._degenerated_evac (after_final_mark env x) <:+
          phases_run env ShenandoahDegenPoint._degenerated_mark x) ∧
      (no_phase_leaves_flag_set env ShenandoahDegenPoint._degenerated_evac x →
        phases_run env ShenandoahDegenPoint._degenerated_evac x =
          (if x.is_evacuation_in_progress then [GCPhase.evac] else []) ++
            ((if (after_evac env x).has_forwarded_objects then [GCPhase.init_updaterefs]
              else []) ++
              phases_run env ShenandoahDegenPoint._degenerated_updaterefs
                (after_init_updaterefs env (after_evac env x))) ∧
        (after_init_updaterefs env (after_evac env x))._cancelled_gc = false ∧
        no_phase_leaves_flag_set env ShenandoahDegenPoint._degenerated_updaterefs
          (after_init_updaterefs env (after_evac env x)) ∧
        phases_run env ShenandoahDegenPoint._degenerated_updaterefs
            (after_init_updaterefs env (after_evac env x)) <:+
          phases_run env ShenandoahDegenPoint._degenerated_evac x) ∧
      (no_phase_leaves_flag_set env ShenandoahDegenPoint._degenerated_updaterefs x →
        phases_run env ShenandoahDegenPoint._degenerated_updaterefs x =
          (if x.has_forwarded_objects then [GCPhase.final_updaterefs] else []) ++
            [GCPhase.cleanup_bitmaps] ∧
        (degenerated_switch env ShenandoahDegenPoint._degenerated_updaterefs x).1 =
          SwitchExit.break_out) := by
  refine ⟨⟨rfl, fun point => ?_⟩, fun x hx => ⟨?_, ?_, ?_, ?_⟩⟩
  · rfl
  · intro H
    obtain ⟨heq, hc1, hps⟩ := degenerated_outside_cycle_clear env x H
    have H1 : ∀ r ∈ phases_since (after_init_mark env x)
        (degenerated_mark env (after_init_mark env x)).2, r.cancelled_at_exit = false :=
      forall_mem_of_append _ _ [_] _ hps H
    obtain ⟨_, _, hc2, hps1⟩ := degenerated_mark_clear env (after_init_mark env x) H1
    have H2 := forall_mem_of_append _ _ _ _ hps1 H1
    have hm : phases_run env ShenandoahDegenPoint._degenerated_mark (after_init_mark env x) =
        [GCPhase.final_mark, GCPhase.cleanup] ++
          phases_run env ShenandoahDegenPoint._degenerated_evac
            (after_final_mark env (after_init_mark env x)) := by
      show List.map _ (phases_since _ (degenerated_mark env _).2) = _
      rw [hps1]
      rfl
    have ho : phases_run env ShenandoahDegenPoint._degenerated_outside_cycle x =
        GCPhase.init_mark ::
          phases_run env ShenandoahDegenPoint._degenerated_mark (after_init_mark env x) := by
      show List.map _ (phases_since _ (degenerated_outside_cycle env _).2) = _
      rw [hps]
      rfl
    refine ⟨by rw [ho, hm]; rfl, hc2, H2, ?_⟩
    rw [ho]
    exact List.suffix_cons _ _
  · intro H
    obtain ⟨_, _, hc2, hps1⟩ := degenerated_mark_clear env x H
    have H2 := forall_mem_of_append _ _ _ _ hps1 H
    have hm : phases_run env ShenandoahDegenPoint._degenerated_mark x =
        [GCPhase.final_mark, GCPhase.cleanup] ++
          phases_run env ShenandoahDegenPoint._degenerated_evac (after_final_mark env x) := by
      show List.map _ (phases_since _ (degenerated_mark env _).2) = _
      rw [hps1]
      rfl
    refine ⟨hm, hc2, H2, ?_⟩
    rw [hm]
    exact List.suffix_append _ _
  · intro H
    obtain ⟨_, hc, hps⟩ := degenerated_evac_clear env x hx H
    have H1 : ∀ r ∈ phases_since (after_evac env x)
        (degenerated_init_updaterefs env (after_evac env x)).2, r.cancelled_at_exit = false :=
      forall_mem_of_append _ _ _ _ hps H
    obtain ⟨_, hc1, hps1⟩ := degenerated_init_updaterefs_clear env (after_evac env x) hc H1
    have H2 := forall_mem_of_append _ _ _ _ hps1 H1
    have he : phases_run env ShenandoahDegenPoint._degenerated_evac x =
        (if x.is_evacuation_in_progress then [GCPhase.evac] else []) ++
          ((if (after_evac env x).has_forwarded_objects then [GCPhase.init_updaterefs]
            else []) ++
            phases_run env ShenandoahDegenPoint._degenerated_updaterefs
              (after_init_updaterefs env (after_evac env x))) := by
      show List.map _ (phases_since _ (degenerated_evac env _).2) = _
      rw [hps, hps1]
      cases x.is_evacuation_in_progress <;> cases (after_evac env x).has_forwarded_objects <;>
        rfl
    refine ⟨he, hc1, H2, ?_⟩
    rw [he, ← List.append_assoc]
    exact List.suffix_append _ _
  · intro H
    obtain ⟨heq, _, hps⟩ := degenerated_updaterefs_clear env x hx H
    refine ⟨hps, ?_⟩
    show (degenerated_updaterefs env x).1 = _
    rw [heq]

/-- Witness of C8 on `sample_heap`, cancelled out of concurrent evacuation, in
`quiet_environment`: entered at `evac`, the cycle runs evacuation, init update-refs,
final update-refs and cleanup with bitmap reset. -/
theorem op_degenerated_runs_remaining_sequence_witness :
    phases_run quiet_environment ShenandoahDegenPoint._degenerated_evac
        sample_heap.clear_cancelled_gc =
      (if sample_heap.clear_cancelled_gc.is_evacuation_in_progress then [GCPhase.evac]
        else []) ++
      ((if (after_evac quiet_environment
            sample_heap.clear_cancelled_gc).has_forwarded_objects then
          [GCPhase.init_updaterefs] else []) ++
        phases_run quiet_environment ShenandoahDegenPoint._degenerated_updaterefs
          (after_init_updaterefs quiet_environment
            (after_evac quiet_environment sample_heap.clear_cancelled_gc))) :=
  (((op_degenerated_runs_remaining_sequence quiet_environment sample_heap).2
    sample_heap.clear_cancelled_gc rfl).2.2.1 (by decide)).1

/-- C9: for each degeneration point, if `op_degenerated` starts in the GC state that the
cycle has at that point (stable for `outside_cycle`; `MARKING`, with or without
`HAS_FORWARDED`, for `mark`; `EVACUATION|HAS_FORWARDED` for `evac`;
`UPDATEREFS|HAS_FORWARDED` for `updaterefs`) and no operation leaves the cancellation
flag set, then when the operations of the `switch` have run the GC state is 0, so none
of the four bits is set, the cancellation flag is clear and the collection set is
empty; this is still so when `op_degenerated` returns after a good progress check. -/
theorem degenerated_cycle_ends_stable (env : GCEnvironment) (h : ShenandoahHeap)
    (point : ShenandoahDegenPoint)
    (hstate :
      (point = ShenandoahDegenPoint._degenerated_outside_cycle ∧ h._gc_state = STABLE) ∨
      (point = ShenandoahDegenPoint._degenerated_mark ∧
        (h._gc_state = MARKING ∨ h._gc_state = MARKING ||| HAS_FORWARDED)) ∨
      (point = ShenandoahDegenPoint._degenerated_evac ∧
        h._gc_state = EVACUATION ||| HAS_FORWARDED) ∨
      (point = ShenandoahDegenPoint._degenerated_updaterefs ∧
        h._gc_state = UPDATEREFS ||| HAS_FORWARDED))
    (H : no_phase_leaves_flag_set env point h.clear_cancelled_gc) :
    ((degenerated_switch env point h.clear_cancelled_gc).1 = SwitchExit.break_out ∧
      (degenerated_switch env point h.clear_cancelled_gc).2._gc_state = 0 ∧
      (degenerated_switch env point h.clear_cancelled_gc).2._cancelled_gc = false ∧
      (degenerated_switch env point h.clear_cancelled_gc).2._collection_set = []) ∧
    (∀ mask ∈ [HAS_FORWARDED, MARKING, EVACUATION, UPDATEREFS],
      is_set (degenerated_switch env point h.clear_cancelled_gc).2._gc_state mask = false) ∧
    (env.is_good_progress_degenerated = true →
      ∃ r, op_degenerated env point h = some r ∧ r._gc_state = 0 ∧
        r._cancelled_gc = false ∧ r._collection_set = [] ∧ r._progress_last_gc = true) := by
  have hx : h.clear_cancelled_gc._cancelled_gc = false := rfl
  have hgs : h.clear_cancelled_gc._gc_state = h._gc_state := rfl
  have key : (degenerated_switch env point h.clear_cancelled_gc).1 = SwitchExit.break_out ∧
      (degenerated_switch env point h.clear_cancelled_gc).2._gc_state = 0 ∧
      (degenerated_switch env point h.clear_cancelled_gc).2._cancelled_gc = false ∧
      (degenerated_switch env point h.clear_cancelled_gc).2._collection_set = [] := by
    rcases hstate with ⟨hp, hg⟩ | ⟨hp, hg⟩ | ⟨hp, hg⟩ | ⟨hp, hg⟩
    · subst hp
      exact outside_cycle_tail_stable env _ H (hgs.trans hg)
    · subst hp
      exact mark_tail_stable env _ hx H (by rw [hgs]; exact hg)
    · subst hp
      exact evac_tail_stable env _ hx H (Or.inl (hgs.trans hg))
    · subst hp
      exact updaterefs_tail_stable env _ hx H (Or.inl (hgs.trans hg))
  refine ⟨key, ?_, ?_⟩
  · intro mask hmask
    rw [key.2.1]
    simp only [List.mem_cons, List.mem_singleton, List.not_mem_nil, or_false] at hmask
    rcases hmask with rfl | rfl | rfl | rfl <;> decide
  · intro hgood
    obtain ⟨k1, k2, k3, k4⟩ := key
    refine ⟨degenerated_progress_check env
      (degenerated_switch env point h.clear_cancelled_gc).2, ?_, ?_, ?_, ?_, ?_⟩
    · exact op_degenerated_of_break env point h k1
    · simp [degenerated_progress_check, hgood, record, k2]
    · simp [degenerated_progress_check, hgood, record, k3]
    · simp [degenerated_progress_check, hgood, record, k4]
    · simp [degenerated_progress_check, hgood, record]

/-- Witness of C9 on `sample_heap` (GC state `EVACUATION|HAS_FORWARDED`) entered at
`evac` in `quiet_environment`. -/
theorem degenerated_cycle_ends_stable_witness :
    (degenerated_switch quiet_environment ShenandoahDegenPoint._degenerated_evac
      sample_heap.clear_cancelled_gc).1 = SwitchExit.break_out ∧
    (degenerated_switch quiet_environment ShenandoahDegenPoint._degenerated_evac
      sample_heap.clear_cancelled_gc).2._gc_state = 0 ∧
    (degenerated_switch quiet_environment ShenandoahDegenPoint._degenerated_evac
      sample_heap.clear_cancelled_gc).2._cancelled_gc = false ∧
    (degenerated_switch quiet_environment ShenandoahDegenPoint._degenerated_evac
      sample_heap.clear_cancelled_gc).2._collection_set = [] :=
  (degenerated_cycle_ends_stable quiet_environment sample_heap
    ShenandoahDegenPoint._degenerated_evac
    (Or.inr (Or.inr (Or.inl ⟨rfl, rfl⟩))) (by decide)).1

/-- C10: if the cancellation flag is set when `op_degenerated` checks it after an
operation (init mark, final mark, evacuation, init update-refs or final update-refs),
then `op_degenerated` records one degenerated-to-full upgrade, runs Full GC exactly
once and returns: the trace consists of operations of the degenerated cycle that left
the flag clear, the checked operation that left it set, and Full GC as the last record,
with no later operation of the degenerated cycle and no progress check. -/
theorem op_degenerated_upgrades_on_cancel (env : GCEnvironment) (h : ShenandoahHeap)
    (point : ShenandoahDegenPoint)
    (hset : checked_phase_leaves_flag_set env point h.clear_cancelled_gc) :
    ∃ r pre p,
      op_degenerated env point h = some r ∧
      r.degenerated_upgrade_to_full = h.degenerated_upgrade_to_full + 1 ∧
      r.full_gc_count = h.full_gc_count + 1 ∧
      phases_since h r =
        pre ++ [{ phase := p, cancelled_at_exit := true },
          { phase := GCPhase.full_gc, cancelled_at_exit := true }] ∧
      p ∈ checked_phases ∧
      (∀ q ∈ pre, q.cancelled_at_exit = false ∧ q.phase ∈ degenerated_phases) ∧
      (phases_since h r).count { phase := GCPhase.full_gc, cancelled_at_exit := true } = 1 ∧
      (∀ q ∈ phases_since h r, q.phase ≠ GCPhase.progress_check) := by
  have hx : h.clear_cancelled_gc._cancelled_gc = false := rfl
  obtain ⟨q0, hq0, hq0c, _⟩ := hset
  rcases switch_outcome env point h.clear_cancelled_gc hx with (hc | hf) | hn
  · exfalso
    obtain ⟨_, _, _, _, l, hl, hgood⟩ := hc
    have hps : phases_since h.clear_cancelled_gc
        (degenerated_switch env point h.clear_cancelled_gc).2 = l := by
      unfold phases_since
      rw [hl, List.drop_left]
    rw [hps] at hq0
    rw [(hgood q0 hq0).1] at hq0c
    exact Bool.noConfusion hq0c
  · obtain ⟨he, hu, hfc, pre, p, hl, hp, hpre⟩ := hf
    have hps : phases_since h (degenerated_switch env point h.clear_cancelled_gc).2 =
        pre ++ [{ phase := p, cancelled_at_exit := true },
          { phase := GCPhase.full_gc, cancelled_at_exit := true }] := by
      unfold phases_since
      have : h.log = h.clear_cancelled_gc.log := rfl
      rw [hl, this, List.drop_left]
    have hpne : p ≠ GCPhase.full_gc := by
      intro e
      rw [e] at hp
      revert hp
      decide
    have hpre_ne : ∀ q ∈ pre, q.phase ≠ GCPhase.full_gc ∧ q.phase ≠ GCPhase.progress_check := by
      intro q hq
      have hm := (hpre q hq).2
      constructor <;> intro e <;> rw [e] at hm <;> revert hm <;> decide
    refine ⟨(degenerated_switch env point h.clear_cancelled_gc).2, pre, p, ?_, hu, hfc, hps,
      hp, hpre, ?_, ?_⟩
    · exact op_degenerated_of_fail env point h he
    · rw [hps, List.count_append]
      have h0 : pre.count { phase := GCPhase.full_gc, cancelled_at_exit := true } = 0 := by
        rw [List.count_eq_zero]
        intro hmem
        exact (hpre_ne _ hmem).1 rfl
      rw [h0]
      have hne : ({ phase := p, cancelled_at_exit := true } : PhaseRecord) ≠
          { phase := GCPhase.full_gc, cancelled_at_exit := true } := by
        intro e
        exact hpne (congrArg PhaseRecord.phase e)
      simp [List.count_cons, hne]
    · intro q hq
      rw [hps] at hq
      simp only [List.mem_append, List.mem_cons, List.mem_singleton, List.not_mem_nil,
        or_false] at hq
      rcases hq with hq | rfl | rfl
      · exact (hpre_ne q hq).2
      · intro e
        simp only at e
        rw [e] at hp
        revert hp
        decide
      · intro e
        exact GCPhase.noConfusion e
  · exfalso
    rw [hn] at hq0
    simp only [phases_since_self] at hq0
    exact absurd hq0 (List.not_mem_nil q0)

/-- Witness of C10 on `sample_heap` entered at `evac` in `failing_environment`, where
the evacuation is cancelled: one upgrade is recorded and Full GC runs once. -/
theorem op_degenerated_upgrades_on_cancel_witness :
    ∃ r pre p,
      op_degenerated failing_environment ShenandoahDegenPoint._degenerated_evac sample_heap =
        some r ∧
      r.degenerated_upgrade_to_full = sample_heap.degenerated_upgrade_to_full + 1 ∧
      r.full_gc_count = sample_heap.full_gc_count + 1 ∧
      phases_since sample_heap r =
        pre ++ [{ phase := p, cancelled_at_exit := true },
          { phase := GCPhase.full_gc, cancelled_at_exit := true }] ∧
      p ∈ checked_phases ∧
      (∀ q ∈ pre, q.cancelled_at_exit = false ∧ q.phase ∈ degenerated_phases) ∧
      (phases_since sample_heap r).count
        { phase := GCPhase.full_gc, cancelled_at_exit := true } = 1 ∧
      (∀ q ∈ phases_since sample_heap r, q.phase ≠ GCPhase.progress_check) :=
  op_degenerated_upgrades_on_cancel failing_environment sample_heap
    ShenandoahDegenPoint._degenerated_evac (by decide)

end CycleClaims

section AllocationClaims

open AllocFrame ShenandoahAllocationRequest

/-- C12: for a mutator request, whenever `allocate_memory` returns NULL it has asked the
control thread to handle the allocation failure more than `ShenandoahFullGCThreshold`
times, and what it did is exactly: the optional first attempt (failed), then that many
rounds of "handle the failure, retry the allocation, which failed again", then at most a
heap-changed notification. For a GC request it always returns after exactly one attempt
and no request to the control thread. -/
theorem allocate_memory_null_after_retries (env : AllocEnvironment) (fuel : Nat)
    (c : AllocCounters) (req : ShenandoahAllocationRequest) :
    (req.is_mutator_alloc = true → ∀ out, allocate_memory env fuel c req = some out →
      out.result = none →
      env.ShenandoahFullGCThreshold < out.handled ∧
      ∃ first last : List AllocEvent,
        (first = [] ∨ first = [AllocEvent.attempt false]) ∧
        (last = [] ∨ last = [AllocEvent.notify_heap_changed]) ∧
        out.events = first ++ failed_retries req.size out.handled ++ last) ∧
    (req.is_gc_alloc = true →
      ∃ out, allocate_memory env fuel c req = some out ∧
        out.attempts = 1 ∧ out.handled = 0 ∧
        ∃ last : List AllocEvent, (last = [] ∨ last = [AllocEvent.notify_heap_changed]) ∧
          out.events = [AllocEvent.attempt out.result.isSome] ++ last) := by
  constructor
  · intro hmut out hrun hnull
    obtain ⟨first, f, hfirst, hinv, hthr, hout⟩ :=
      allocate_memory_mutator_run env fuel c req out hmut hrun
    obtain ⟨a1, _, a3, _, a5, _⟩ := account_fields f
    subst hout
    have hres : f.result = none := a1 ▸ hnull
    refine ⟨?_, first, (if f.in_new_region then [AllocEvent.notify_heap_changed] else []),
      hfirst, ?_, ?_⟩
    · rw [a3]
      exact Nat.lt_of_lt_of_le (hthr hres) hinv.2.2.2.1
    · cases f.in_new_region
      · exact Or.inl rfl
      · exact Or.inr rfl
    · rw [a5, a3, hinv.2.2.2.2 hres]
  · intro hgc
    have hmut : req.is_mutator_alloc = false := by
      have h := is_gc_alloc_eq_not req
      rw [hgc] at h
      cases hm : req.is_mutator_alloc
      · rfl
      · rw [hm] at h
        exact Bool.noConfusion h
    obtain ⟨_, _, _, _, t5, t6, _, t8⟩ := try_allocate_fields env (AllocFrame.start c req)
    obtain ⟨a1, _, a3, a4, a5, _⟩ := account_fields ((AllocFrame.start c req).try_allocate env)
    refine ⟨_, allocate_memory_gc_run env fuel c req hmut, ?_, ?_,
      (if ((AllocFrame.start c req).try_allocate env).in_new_region then
        [AllocEvent.notify_heap_changed] else []), ?_, ?_⟩
    · rw [a4, t6]
      rfl
    · rw [a3, t5]
      rfl
    · cases ((AllocFrame.start c req).try_allocate env).in_new_region
      · exact Or.inl rfl
      · exact Or.inr rfl
    · rw [a5, a1, t8]
      rfl

/-- Witness for C12: the starving mutator request returns NULL after ten handled
failures (threshold three), and a GC request against the same allocator makes one
attempt. -/
theorem allocate_memory_null_after_retries_witness :
    (∀ out, allocate_memory starving_environment 20 ⟨0, 0⟩ (for_tlab 7) = some out →
      out.result = none →
      starving_environment.ShenandoahFullGCThreshold < out.handled ∧
      ∃ first last : List AllocEvent,
        (first = [] ∨ first = [AllocEvent.attempt false]) ∧
        (last = [] ∨ last = [AllocEvent.notify_heap_changed]) ∧
        out.events = first ++ failed_retries (for_tlab 7).size out.handled ++ last) ∧
    (allocate_memory starving_environment 20 ⟨0, 0⟩ (for_tlab 7)).map
      (fun f => (f.result, f.handled)) = some (none, 10) :=
  ⟨(allocate_memory_null_after_retries starving_environment 20 ⟨0, 0⟩ (for_tlab 7)).1
    (by decide), by decide⟩

/-- C13 (counterexample): with a retry budget of three, an allocator that never grants
and a control thread that reports progress ten times, the mutator request is retried ten
times before `allocate_memory` returns NULL; nine rounds of fuel are not enough for it
to return. -/
theorem allocate_memory_retries_exceed_budget :
    (∀ n r b, (starving_environment.allocate_memory_under_lock n r b).result = none) ∧
    (for_tlab 7).is_mutator_alloc = true ∧
    starving_environment.ShenandoahFullGCThreshold = 3 ∧
    (allocate_memory starving_environment 20 ⟨0, 0⟩ (for_tlab 7)).map
      (fun f => (f.result, f.handled)) = some (none, 10) ∧
    allocate_memory starving_environment 9 ⟨0, 0⟩ (for_tlab 7) = none :=
  ⟨fun _ _ _ => rfl, by decide, rfl, by decide, by decide⟩

/-- C13 (amended): a mutator allocation whose every attempt fails is retried for as long
as the control thread reports that the last GC made progress, and more than
`ShenandoahFullGCThreshold` times in any case. If progress is reported at the first `k`
checks and not at the next, `allocate_memory` returns NULL after exactly
`max k (ShenandoahFullGCThreshold + 1)` retries; if progress is reported at every
check, it never returns. -/
theorem allocate_memory_retries_follow_progress (env : AllocEnvironment) (c : AllocCounters)
    (req : ShenandoahAllocationRequest) (hmut : req.is_mutator_alloc = true)
    (hfail : ∀ n r b, (env.allocate_memory_under_lock n r b).result = none) :
    (∀ k, (∀ j, j < k → env.last_gc_made_progress j = true) →
      env.last_gc_made_progress k = false → k < WORD_MOD →
      env.ShenandoahFullGCThreshold + 1 < WORD_MOD →
      ∀ fuel, max k (env.ShenandoahFullGCThreshold + 1) ≤ fuel →
        ∃ out, allocate_memory env fuel c req = some out ∧ out.result = none ∧
          out.handled = max k (env.ShenandoahFullGCThreshold + 1)) ∧
    ((∀ j, env.last_gc_made_progress j = true) →
      ∀ fuel, allocate_memory env fuel c req = none) := by
  obtain ⟨f0, hf0, hres0, hh0, ht0, _⟩ := first_attempt_of_failing env c req hfail
  constructor
  · intro k hprog hstop hk hT fuel hfuel
    obtain ⟨f1, h1, hres1, hh1, ht1, _⟩ :=
      retry_while_progress_of_failing env k hfail hprog hstop hk fuel f0 hres0
        (by omega) (ht0.trans hh0.symm) (by omega)
    obtain ⟨f2, h2, hres2, hh2, _⟩ :=
      retry_up_to_threshold_of_failing env hfail hT fuel f1 hres1 (ht1.trans hh1.symm)
        (by omega)
    obtain ⟨a1, _, a3, _⟩ := account_fields f2
    refine ⟨f2.account, ?_, a1.trans hres2, ?_⟩
    · simp only [allocate_memory, hmut, if_true]
      rw [hf0, h1]
      simp only
      rw [h2]
    · rw [a3, hh2, hh1]
  · intro hforever fuel
    simp only [allocate_memory, hmut, if_true]
    rw [hf0, retry_while_progress_diverges env hfail hforever fuel f0 hres0]

/-- Witness for C13 (amended): the starving allocator, progress reported ten times. -/
theorem allocate_memory_retries_follow_progress_witness :
    ∃ out, allocate_memory starving_environment 20 ⟨0, 0⟩ (for_tlab 7) = some out ∧
      out.result = none ∧ out.handled = max 10 (3 + 1) :=
  (allocate_memory_retries_follow_progress starving_environment ⟨0, 0⟩ (for_tlab 7)
    (by decide) (fun _ _ _ => rfl)).1 10
    (fun j hj => by simp [starving_environment, hj]) (by decide) (by decide) (by decide)
    20 (by decide)

/-- C14: when `allocate_memory` succeeds, `used()` grows by `actual_size * HeapWordSize`
(in 64-bit arithmetic, and exactly when the sum fits) for every kind of request, and
bytes-allocated-since-GC-start grows by the same amount for a mutator request and stays
as it was for a GC request, where `actual_size` is the granted size recorded in the
request, whose requested size is untouched; when it returns NULL both counters are as
they were. -/
theorem allocate_memory_accounting (env : AllocEnvironment) (fuel : Nat) (c : AllocCounters)
    (req : ShenandoahAllocationRequest) (out : AllocFrame)
    (hrun : allocate_memory env fuel c req = some out) :
    out.req.size = req.size ∧
    (out.result ≠ none →
      out.counters._used =
        (c._used + out.req.actual_size * HeapWordSize % WORD_MOD) % WORD_MOD ∧
      (c._used + out.req.actual_size * HeapWordSize < WORD_MOD →
        out.counters._used = c._used + out.req.actual_size * HeapWordSize) ∧
      (req.is_mutator_alloc = true →
        out.counters._bytes_allocated_since_gc_start =
          (c._bytes_allocated_since_gc_start +
            out.req.actual_size * HeapWordSize % WORD_MOD) % WORD_MOD ∧
        (c._bytes_allocated_since_gc_start + out.req.actual_size * HeapWordSize < WORD_MOD →
          out.counters._bytes_allocated_since_gc_start =
            c._bytes_allocated_since_gc_start + out.req.actual_size * HeapWordSize)) ∧
      (req.is_gc_alloc = true →
        out.counters._bytes_allocated_since_gc_start = c._bytes_allocated_since_gc_start)) ∧
    (out.result = none → out.counters = c) := by
  obtain ⟨f, hout, hc, hty, hsz⟩ := allocate_memory_run env fuel c req out hrun
  obtain ⟨a1, a2, _, _, _, a6, a7, a8⟩ := account_fields f
  subst hout
  have hkind : f.req.is_mutator_alloc = req.is_mutator_alloc :=
    is_mutator_alloc_congr _ _ hty
  refine ⟨by rw [a2]; exact hsz, ?_, ?_⟩
  · intro hsome
    have hsome' : f.result ≠ none := a1 ▸ hsome
    rw [a2]
    cases hm : req.is_mutator_alloc with
    | true =>
      rw [a7 hsome' (hkind.trans hm), hc]
      have hgc : req.is_gc_alloc = false := by rw [is_gc_alloc_eq_not, hm]; rfl
      refine ⟨rfl, ?_, fun _ => ⟨rfl, ?_⟩, ?_⟩
      · intro hfit
        show (c._used + f.req.actual_size * HeapWordSize % WORD_MOD) % WORD_MOD = _
        unfold WORD_MOD at hfit ⊢
        omega
      · intro hfit
        show (c._bytes_allocated_since_gc_start +
          f.req.actual_size * HeapWordSize % WORD_MOD) % WORD_MOD = _
        unfold WORD_MOD at hfit ⊢
        omega
      · intro h
        rw [hgc] at h
        exact Bool.noConfusion h
    | false =>
      rw [a8 hsome' (hkind.trans hm), hc]
      refine ⟨rfl, ?_, fun h => Bool.noConfusion h, fun _ => rfl⟩
      intro hfit
      show (c._used + f.req.actual_size * HeapWordSize % WORD_MOD) % WORD_MOD = _
      unfold WORD_MOD at hfit ⊢
      omega
  · intro hnone
    rw [a6 (a1 ▸ hnone), hc]

/-- Witness for C14: a TLAB request for seven words is granted five on the second
attempt; both counters grow by forty bytes. -/
theorem allocate_memory_accounting_witness :
    allocate_memory granting_environment 5 ⟨100, 50⟩ (for_tlab 7) =
      some { counters := ⟨140, 90⟩, req := (for_tlab 7).set_actual_size 5,
             in_new_region := true, result := some 4096, tries := 1, attempts := 2,
             handled := 1,
             events := [AllocEvent.attempt false, AllocEvent.handle_alloc_failure 7,
               AllocEvent.attempt true, AllocEvent.notify_heap_changed] } ∧
    ((for_tlab 7).set_actual_size 5).size = (for_tlab 7).size :=
  ⟨by decide,
    (allocate_memory_accounting granting_environment 5 ⟨100, 50⟩ (for_tlab 7)
      { counters := ⟨140, 90⟩, req := (for_tlab 7).set_actual_size 5,
        in_new_region := true, result := some 4096, tries := 1, attempts := 2,
        handled := 1,
        events := [AllocEvent.attempt false, AllocEvent.handle_alloc_failure 7,
          AllocEvent.attempt true, AllocEvent.notify_heap_changed] }
      (by decide)).1⟩

/-- C15: of `is_mutator_alloc` and `is_gc_alloc` exactly one holds for each kind, the
first for shared and tlab requests and the second for shared-gc and gclab requests;
`is_lab_alloc` holds exactly for tlab and gclab requests; and each factory builds a
request of its kind whose `size()` is the requested size. -/
theorem allocation_kinds_partition (req : ShenandoahAllocationRequest)
    (min_size requested_size : Nat) :
    req.is_gc_alloc = (!req.is_mutator_alloc) ∧
    (req.is_mutator_alloc = true ↔
      req.type = AllocType._alloc_shared ∨ req.type = AllocType._alloc_tlab) ∧
    (req.is_gc_alloc = true ↔
      req.type = AllocType._alloc_shared_gc ∨ req.type = AllocType._alloc_gclab) ∧
    (req.is_lab_alloc = true ↔
      req.type = AllocType._alloc_tlab ∨ req.type = AllocType._alloc_gclab) ∧
    ((for_shared requested_size).type = AllocType._alloc_shared ∧
      (for_shared requested_size).size = requested_size) ∧
    ((for_shared_gc requested_size).type = AllocType._alloc_shared_gc ∧
      (for_shared_gc requested_size).size = requested_size) ∧
    ((for_tlab requested_size).type = AllocType._alloc_tlab ∧
      (for_tlab requested_size).size = requested_size) ∧
    ((for_gclab min_size requested_size).type = AllocType._alloc_gclab ∧
      (for_gclab min_size requested_size).size = requested_size) := by
  refine ⟨is_gc_alloc_eq_not req, ?_, ?_, ?_, ⟨rfl, rfl⟩, ⟨rfl, rfl⟩, ⟨rfl, rfl⟩, ⟨rfl, rfl⟩⟩ <;>
    (simp only [is_mutator_alloc, is_gc_alloc, is_lab_alloc, ShenandoahAllocationRequest.type]
     cases req._alloc_type <;> simp)

end AllocationClaims

section StateClaims

open ShenandoahHeap

/-- C18: the four masks are the distinct one-bit values 1, 2, 4 and 8 and `STABLE` is 0;
after each of the four setters the test of the setter's own mask gives the value just
set and the tests of the other three masks give what they gave before; a state made of
these four bits only stays so under the setters, and such a state equals `STABLE`
exactly when none of the four masks is set in it. -/
theorem gc_state_bits_independent (h : ShenandoahHeap) (b : Bool) :
    (gc_state_masks = [2 ^ 0, 2 ^ 1, 2 ^ 2, 2 ^ 3] ∧ gc_state_masks.Nodup ∧ STABLE = 0) ∧
    (∀ mask ∈ gc_state_masks,
      is_set (h.set_has_forwarded_objects b)._gc_state mask =
        if mask = HAS_FORWARDED then b else is_set h._gc_state mask) ∧
    (∀ mask ∈ gc_state_masks,
      is_set (h.set_concurrent_mark_in_progress b)._gc_state mask =
        if mask = MARKING then b else is_set h._gc_state mask) ∧
    (∀ mask ∈ gc_state_masks,
      is_set (h.set_evacuation_in_progress b)._gc_state mask =
        if mask = EVACUATION then b else is_set h._gc_state mask) ∧
    (∀ mask ∈ gc_state_masks,
      is_set (h.set_update_refs_in_progress b)._gc_state mask =
        if mask = UPDATEREFS then b else is_set h._gc_state mask) ∧
    (h._gc_state < 16 →
      (h.set_has_forwarded_objects b)._gc_state < 16 ∧
      (h.set_concurrent_mark_in_progress b)._gc_state < 16 ∧
      (h.set_evacuation_in_progress b)._gc_state < 16 ∧
      (h.set_update_refs_in_progress b)._gc_state < 16 ∧
      (h._gc_state = STABLE ↔ ∀ mask ∈ gc_state_masks, is_set h._gc_state mask = false)) := by
  refine ⟨⟨by decide, by decide, rfl⟩, ?_, ?_, ?_, ?_, ?_⟩
  · exact is_set_masks_set_cond h._gc_state 0 b
  · exact is_set_masks_set_cond h._gc_state 1 b
  · exact is_set_masks_set_cond h._gc_state 2 b
  · exact is_set_masks_set_cond h._gc_state 3 b
  · intro hg
    exact ⟨set_cond_lt _ 0 (by norm_num) b hg, set_cond_lt _ 1 (by norm_num) b hg,
      set_cond_lt _ 2 (by norm_num) b hg, set_cond_lt _ 3 (by norm_num) b hg,
      stable_iff_no_bit _ hg⟩

/-- Witness for C18: in `sample_heap` (state `EVACUATION|HAS_FORWARDED`), clearing the
evacuation bit leaves a state below 16 that is not `STABLE`. -/
theorem gc_state_bits_independent_witness :
    (sample_heap.set_evacuation_in_progress false)._gc_state < 16 ∧
    (sample_heap.set_evacuation_in_progress false)._gc_state = 1 :=
  ⟨((gc_state_bits_independent sample_heap false).2.2.2.2.2 (by decide)).2.2.1, by decide⟩

/-- C16: when `op_final_mark` is entered with the cancellation flag clear and no
evacuation in progress and returns with the flag still clear, the collection set is
the one the heuristics chose, `MARKING` is clear, and `EVACUATION` and `HAS_FORWARDED`
are both set if that collection set is non-empty and both clear if it is empty. -/
theorem op_final_mark_state_bits (env : GCEnvironment) (h : ShenandoahHeap)
    (hentry : h.cancelled_gc = false) (hexit : (op_final_mark env h).cancelled_gc = false)
    (hevac : h.is_evacuation_in_progress = false) :
    (op_final_mark env h)._collection_set = env.choose_collection_set ∧
    is_set (op_final_mark env h)._gc_state MARKING = false ∧
    (env.choose_collection_set ≠ [] →
      is_set (op_final_mark env h)._gc_state EVACUATION = true ∧
      is_set (op_final_mark env h)._gc_state HAS_FORWARDED = true) ∧
    (env.choose_collection_set = [] →
      is_set (op_final_mark env h)._gc_state EVACUATION = false ∧
      is_set (op_final_mark env h)._gc_state HAS_FORWARDED = false) := by
  have hf := finish_mark_quiet_of_exit_clear env h hentry hexit
  obtain ⟨hcs, _, _, hg⟩ := op_final_mark_of_quiet env h hentry hf
  obtain ⟨m0, m1, m2, _⟩ := masks_two_pow
  have hev : is_set h._gc_state (2 ^ 2) = false := m2 ▸ hevac
  refine ⟨hcs, ?_, ?_, ?_⟩
  · rw [hg, m0, m1, m2]
    split
    · rw [is_set_set_cond _ 1 1 (by norm_num)]
      rfl
    · rw [is_set_set_cond _ 0 1 (by norm_num), is_set_set_cond _ 2 1 (by norm_num),
        is_set_set_cond _ 1 1 (by norm_num)]
      rfl
  · intro hne
    have he : env.choose_collection_set.isEmpty = false := by
      cases hl : env.choose_collection_set
      · exact absurd hl hne
      · rfl
    rw [hg, he, m0, m1, m2, if_neg Bool.false_ne_true]
    constructor
    · rw [is_set_set_cond _ 0 2 (by norm_num), is_set_set_cond _ 2 2 (by norm_num)]
      rfl
    · rw [is_set_set_cond _ 0 0 (by norm_num)]
      rfl
  · intro hnil
    have he : env.choose_collection_set.isEmpty = true := by rw [hnil]; rfl
    rw [hg, he, m0, m1, m2, if_pos rfl]
    constructor
    · rw [is_set_set_cond _ 1 2 (by norm_num), is_set_set_cond _ 0 2 (by norm_num)]
      exact hev
    · rw [is_set_set_cond _ 1 0 (by norm_num), is_set_set_cond _ 0 0 (by norm_num)]
      rfl

/-- Witness for C16: from `marking_heap`, final mark with the collection set `[2]` ends
in `EVACUATION|HAS_FORWARDED`, and with an empty one in `STABLE`. -/
theorem op_final_mark_state_bits_witness :
    (op_final_mark quiet_environment marking_heap)._collection_set = [2] ∧
    (op_final_mark quiet_environment marking_heap)._gc_state = EVACUATION ||| HAS_FORWARDED ∧
    (op_final_mark empty_cset_environment marking_heap)._gc_state = STABLE :=
  ⟨(op_final_mark_state_bits quiet_environment marking_heap (by decide) (by decide)
    (by decide)).1, by decide, by decide⟩

/-- C17 (counterexample): `marking_heap` has the cancellation flag clear and two distinct
marking contexts; when a cancellation request arrives while marking is finished,
`op_final_mark` does not swap the contexts: `stop_concurrent_marking` finds the flag
set. -/
theorem op_final_mark_cancelled_during_marking :
    marking_heap.cancelled_gc = false ∧
    marking_heap._complete_marking_context ≠ marking_heap._next_marking_context ∧
    (op_final_mark late_cancel_environment marking_heap)._complete_marking_context =
      marking_heap._complete_marking_context ∧
    (op_final_mark late_cancel_environment marking_heap)._next_marking_context =
      marking_heap._next_marking_context := by
  decide

/-- C17 (amended): entered with the cancellation flag set, `op_final_mark` returns the
heap as it was except for the GC state, in which only `MARKING` has been cleared: the
complete and the next marking context, the has-forwarded-objects, evacuation and
update-refs bits, the collection set, the free set and the trash are what they were.
Entered with the flag clear, it swaps the two contexts exactly once if no cancellation
request arrives while marking is finished: the complete context is the former next one
and conversely. If a request arrives then, `stop_concurrent_marking` finds the flag set:
the contexts are not swapped, the collection set, the free set and the trash are what
they were, and with an empty collection set the heap is as it was except for the flag,
now set, and `MARKING`, now clear. -/
theorem op_final_mark_cancelled_frame (env : GCEnvironment) (h : ShenandoahHeap) :
    (h.cancelled_gc = true →
      op_final_mark env h = { h with _gc_state := set_cond h._gc_state MARKING false } ∧
      (op_final_mark env h)._complete_marking_context = h._complete_marking_context ∧
      (op_final_mark env h)._next_marking_context = h._next_marking_context ∧
      (op_final_mark env h).has_forwarded_objects = h.has_forwarded_objects ∧
      (op_final_mark env h).is_evacuation_in_progress = h.is_evacuation_in_progress ∧
      is_set (op_final_mark env h)._gc_state UPDATEREFS = is_set h._gc_state UPDATEREFS ∧
      is_set (op_final_mark env h)._gc_state MARKING = false ∧
      (op_final_mark env h)._collection_set = h._collection_set ∧
      (op_final_mark env h)._free_set = h._free_set ∧
      (op_final_mark env h).trash = h.trash) ∧
    (h.cancelled_gc = false → env.cancel_during GCStep.finish_mark_from_roots = false →
      (op_final_mark env h)._complete_marking_context = h._next_marking_context ∧
      (op_final_mark env h)._next_marking_context = h._complete_marking_context ∧
      (op_final_mark env h)._complete_marking_context =
        h.swap_mark_contexts._complete_marking_context ∧
      (op_final_mark env h)._next_marking_context =
        h.swap_mark_contexts._next_marking_context) ∧
    (h.cancelled_gc = false → env.cancel_during GCStep.finish_mark_from_roots = true →
      (op_final_mark env h)._complete_marking_context = h._complete_marking_context ∧
      (op_final_mark env h)._next_marking_context = h._next_marking_context ∧
      (op_final_mark env h)._collection_set = h._collection_set ∧
      (op_final_mark env h)._free_set = h._free_set ∧
      (op_final_mark env h).trash = h.trash ∧
      (op_final_mark env h)._cancelled_gc = true ∧
      (h._collection_set = [] →
        op_final_mark env h =
          { h with _cancelled_gc := true,
                   _gc_state := set_cond h._gc_state MARKING false })) := by
  refine ⟨?_, ?_, ?_⟩
  · intro hc
    have hop := op_final_mark_of_cancelled env h hc
    have hbits := is_set_masks_set_cond h._gc_state 1 false
    obtain ⟨_, m1, _, _⟩ := masks_two_pow
    rw [← m1] at hbits
    refine ⟨hop, ?_, ?_, ?_, ?_, ?_, ?_, ?_, ?_, ?_⟩
    · rw [hop]
    · rw [hop]
    · rw [hop]
      exact (hbits HAS_FORWARDED (by decide)).trans (if_neg (by decide))
    · rw [hop]
      exact (hbits EVACUATION (by decide)).trans (if_neg (by decide))
    · rw [hop]
      exact (hbits UPDATEREFS (by decide)).trans (if_neg (by decide))
    · rw [hop]
      exact (hbits MARKING (by decide)).trans (if_pos rfl)
    · rw [hop]
    · rw [hop]
    · rw [hop]
  · intro hc hf
    obtain ⟨_, h1, h2, _⟩ := op_final_mark_of_quiet env h hc hf
    exact ⟨h1, h2, h1, h2⟩
  · intro hc hf
    exact op_final_mark_of_late_cancel env h hc hf

/-- Witness for C17 (amended): `cancelled_marking_heap` is marking with the flag set, and
final mark clears `MARKING` in it, leaving has-forwarded-objects set; `marking_heap` has
the flag clear, and its contexts are swapped when no request arrives and kept when one
arrives while marking is finished. -/
theorem op_final_mark_cancelled_frame_witness :
    is_set cancelled_marking_heap._gc_state MARKING = true ∧
    (op_final_mark quiet_environment cancelled_marking_heap)._gc_state = HAS_FORWARDED ∧
    op_final_mark quiet_environment cancelled_marking_heap =
      { cancelled_marking_heap with
        _gc_state := set_cond cancelled_marking_heap._gc_state MARKING false } ∧
    (op_final_mark quiet_environment marking_heap)._complete_marking_context =
      marking_heap._next_marking_context ∧
    (op_final_mark late_cancel_environment marking_heap)._complete_marking_context =
      marking_heap._complete_marking_context :=
  ⟨by decide, by decide,
    ((op_final_mark_cancelled_frame quiet_environment cancelled_marking_heap).1
      (by decide)).1,
    ((op_final_mark_cancelled_frame quiet_environment marking_heap).2.1 (by decide)
      (by decide)).1,
    ((op_final_mark_cancelled_frame late_cancel_environment marking_heap).2.2 (by decide)
      (by decide)).1⟩

/-- C11: when `op_degenerated` is entered at one of its four degeneration points and no
operation it runs leaves the cancellation flag set, it reaches the progress check with
the flag clear and no Full GC run, it returns, and it has run Full GC (exactly once) if
and only if the metrics snapshot reports no good progress. In that case it has cleared
the progress flag and set the cancellation flag, recorded one upgrade and run
`op_degenerated_futile` on that state, so the progress flag at return is the verdict of
Full GC; otherwise it returns with the progress flag set, the cancellation flag clear
and no Full GC run. -/
theorem op_degenerated_escalates_iff_no_progress (env : GCEnvironment) (h : ShenandoahHeap)
    (point : ShenandoahDegenPoint)
    (hpoint : point ∈ [ShenandoahDegenPoint._degenerated_outside_cycle,
      ShenandoahDegenPoint._degenerated_mark, ShenandoahDegenPoint._degenerated_evac,
      ShenandoahDegenPoint._degenerated_updaterefs])
    (H : no_phase_leaves_flag_set env point h.clear_cancelled_gc) :
    ∃ x r, x = (degenerated_switch env point h.clear_cancelled_gc).2 ∧
      x._cancelled_gc = false ∧ x.full_gc_count = h.full_gc_count ∧
      op_degenerated env point h = some r ∧
      (r.full_gc_count = h.full_gc_count + 1 ↔ env.is_good_progress_degenerated = false) ∧
      (env.is_good_progress_degenerated = false →
        ∃ y, y._progress_last_gc = false ∧ y._cancelled_gc = true ∧
          y.full_gc_count = h.full_gc_count ∧ r = op_degenerated_futile env y ∧
          r.full_gc_count = h.full_gc_count + 1 ∧
          r.degenerated_upgrade_to_full = h.degenerated_upgrade_to_full + 1 ∧
          r._cancelled_gc = true ∧ r._progress_last_gc = env.is_good_progress_full ∧
          phases_since x r =
            [{ phase := GCPhase.progress_check, cancelled_at_exit := false },
              { phase := GCPhase.full_gc, cancelled_at_exit := true }]) ∧
      (env.is_good_progress_degenerated = true →
        r._progress_last_gc = true ∧ r._cancelled_gc = false ∧
        r.full_gc_count = h.full_gc_count ∧
        r.degenerated_upgrade_to_full = h.degenerated_upgrade_to_full ∧
        phases_since x r =
          [{ phase := GCPhase.progress_check, cancelled_at_exit := false }]) := by
  have hx : h.clear_cancelled_gc._cancelled_gc = false := rfl
  have hout : switch_completed h.clear_cancelled_gc
      (degenerated_switch env point h.clear_cancelled_gc) := by
    exact no_cancel_completed _ _ H (switch_outcome_of_valid env point _ hx hpoint)
  obtain ⟨hbreak, hclear, hup, hfull, _⟩ := hout
  have hfull' : (degenerated_switch env point h.clear_cancelled_gc).2.full_gc_count =
      h.full_gc_count := hfull
  have hup' : (degenerated_switch env point h.clear_cancelled_gc).2.degenerated_upgrade_to_full
      = h.degenerated_upgrade_to_full := hup
  refine ⟨_, _, rfl, hclear, hfull', op_degenerated_of_break env point h hbreak, ?_, ?_, ?_⟩
  · cases hg : env.is_good_progress_degenerated <;>
      cases hg2 : env.is_good_progress_full <;>
      simp [degenerated_progress_check, hg, hg2, op_degenerated_futile, op_full, record,
        cancel_gc, hfull']
  · intro hg
    refine ⟨(({ (record GCPhase.progress_check
        (degenerated_switch env point h.clear_cancelled_gc).2) with
        _progress_last_gc := false } : ShenandoahHeap)).cancel_gc, rfl, rfl, hfull', ?_⟩
    cases hg2 : env.is_good_progress_full <;>
      simp [degenerated_progress_check, hg, hg2, op_degenerated_futile, op_full, record,
        cancel_gc, hfull', hup', hclear, phases_since]
  · intro hg
    simp [degenerated_progress_check, hg, record, hfull', hup', hclear, phases_since]

/-- Witness for C11: `sample_heap` entered at `evac` completes without cancellation; with
no good progress reported, `op_degenerated` returns after one Full GC. -/
theorem op_degenerated_escalates_iff_no_progress_witness :
    ∃ r, op_degenerated futile_environment ShenandoahDegenPoint._degenerated_evac
        sample_heap = some r ∧
      r.full_gc_count = sample_heap.full_gc_count + 1 ∧ r._cancelled_gc = true := by
  obtain ⟨_, r, _, _, _, hr, hiff, hno, _⟩ :=
    op_degenerated_escalates_iff_no_progress futile_environment sample_heap
      ShenandoahDegenPoint._degenerated_evac (by decide) (by decide)
  obtain ⟨_, _, _, _, _, _, _, hc, _⟩ := hno rfl
  exact ⟨r, hr, hiff.2 rfl, hc⟩

end StateClaims

section HumongousClaims

open RegionTable

/-- C19: for a region `start` of the table whose humongous object needs `N` regions, all
of them in the table, `trash_humongous_region_at(start)` returns after calling
`make_trash` on the regions `start + N - 1, ..., start + 1, start`, in this order: the
numbers are strictly descending, each region from `start` to `start + N - 1` occurs
exactly once and no other region occurs, the last call is on `start`, and the table
afterwards differs from the one before by `make_trash` on exactly these regions. -/
theorem trash_humongous_region_at_tail_to_head (env : HumongousEnvironment) (t : RegionTable)
    (start : Nat) (region : ShenandoahHeapRegion)
    (hstart : t.get_region start = some region)
    (hfit : start + humongous_required_regions env region ≤ t.num_regions)
    (hlen : t.num_regions < WORD_MOD) :
    ∃ t', trash_humongous_region_at env t start = some t' ∧
      t'.make_trash_calls =
        t.make_trash_calls ++ descending_from start (humongous_required_regions env region) ∧
      (descending_from start (humongous_required_regions env region)).Pairwise
        (fun a b => b < a) ∧
      (∀ i, (descending_from start (humongous_required_regions env region)).count i =
        if start ≤ i ∧ i < start + humongous_required_regions env region then 1 else 0) ∧
      (0 < humongous_required_regions env region →
        (descending_from start (humongous_required_regions env region)).getLast? =
          some start) ∧
      t'.num_regions = t.num_regions ∧
      ∀ i, t'.get_region i =
        if start ≤ i ∧ i < start + humongous_required_regions env region then
          (t.get_region i).map (fun r => { r with _state := env.make_trash r._state })
        else t.get_region i := by
  obtain ⟨t', h1, h2, h3, h4⟩ :=
    trash_loop_descending env start (humongous_required_regions env region) t hfit hlen
  have hidx : ((start + humongous_required_regions env region) % WORD_MOD + WORD_MOD - 1) %
      WORD_MOD = (start + humongous_required_regions env region + WORD_MOD - 1) % WORD_MOD := by
    have hlt : start + humongous_required_regions env region < WORD_MOD :=
      Nat.lt_of_le_of_lt hfit hlen
    rw [Nat.mod_eq_of_lt hlt]
  have hpw := descending_from_pairwise start (humongous_required_regions env region)
  refine ⟨t', ?_, h2, hpw, ?_, ?_, h3, h4⟩
  · simp only [trash_humongous_region_at, hstart]
    rw [hidx]
    exact h1
  · intro i
    have hnd : (descending_from start (humongous_required_regions env region)).Nodup :=
      hpw.imp (fun hab => (Nat.ne_of_lt hab).symm)
    by_cases hi : start ≤ i ∧ i < start + humongous_required_regions env region
    · rw [if_pos hi]
      exact List.count_eq_one_of_mem hnd ((mem_descending_from _ _ _).2 hi)
    · rw [if_neg hi]
      exact List.count_eq_zero_of_not_mem (fun hm => hi ((mem_descending_from _ _ _).1 hm))
  · intro hpos
    obtain ⟨n, hn⟩ := Nat.exists_eq_succ_of_ne_zero (Nat.pos_iff_ne_zero.1 hpos)
    rw [hn]
    exact descending_from_getLast start n

/-- Witness for C19: the object of 300 words at region 1 of `sample_table` takes three
regions; they are trashed in the order 3, 2, 1. -/
theorem trash_humongous_region_at_tail_to_head_witness :
    ∃ t', trash_humongous_region_at sample_humongous_environment sample_table 1 = some t' ∧
      t'.make_trash_calls = [3, 2, 1] := by
  obtain ⟨t', h1, h2, _⟩ :=
    trash_humongous_region_at_tail_to_head sample_humongous_environment sample_table 1
      { _bottom := 1024, _top := 2048, _end := 2048, _tlab_allocs := 0, _gclab_allocs := 0,
        _shared_allocs := 128, _state := RegionState._humongous_start }
      (by decide) (by decide) (by decide)
  exact ⟨t', h1, h2.trans (by decide)⟩

end HumongousClaims

section CodeRootsClaims

open ShenandoahCodeRootsIterator

/-- C20: let any number of workers (at least one, and few enough for the 64-bit cursor)
run `fast_parallel_blobs_do` without the collection-set filter on a fresh iterator over
any list of recorded nmethods, their steps interleaved in any order. Then at every
moment no index has been passed to the closure twice, the indices that two workers have
still to visit are disjoint, lie in the list and have not been passed yet; an
`Atomic::add` moves the cursor by 256 and grants its worker the indices from the old
cursor up to 256 further that lie in the list; once every worker has returned, each
index from 0 to length - 1 has been passed to the closure exactly once and nothing else
has; and from every such moment the workers can run on until all have returned. -/
theorem fast_parallel_blobs_do_each_once (list : List ShenandoahNMethod)
    (workers : Nat) (schedule : List Nat)
    (hpos : 0 < workers) (hbound : list.length + stride * workers < 2 ^ 63) :
    ∀ s, s = run false list schedule (fresh workers) →
      s.blobs_done.Nodup ∧
      (∀ w w' i : Nat, s.pending w i → s.pending w' i → w = w') ∧
      (∀ w i : Nat, s.pending w i → i < list.length ∧ i ∉ s.blobs_done) ∧
      (∀ w : Nat, s.workers[w]? = some BlobsPc.claim →
        ∃ c : Nat, s._claimed = (c : Int) ∧
          (step false list w s)._claimed = ((c + 256 : Nat) : Int) ∧
          ∀ i, (step false list w s).pending w i ↔ c ≤ i ∧ i < c + 256 ∧ i < list.length) ∧
      (s.all_returned →
        (∀ i, s.blobs_done.count i = if i < list.length then 1 else 0) ∧
        s.blobs_done.Perm (List.range list.length)) ∧
      ∃ rest, (run false list (schedule ++ rest) (fresh workers)).all_returned := by
  intro s hs
  obtain ⟨c, _, hinv⟩ := run_invariant list workers hbound schedule 0 (fresh workers)
    (fresh_invariant list.length workers)
  rw [← hs] at hinv
  have hinv' := hinv
  obtain ⟨_, i2, _, i4, _, i6, i7, _, _⟩ := hinv'
  refine ⟨i4, i7, fun w i hp => ⟨(i6 w i hp).2.1, (i6 w i hp).2.2⟩, ?_, ?_, ?_⟩
  · intro w hw
    exact ⟨c, claim_step_effect list workers c w s hbound hinv hw⟩
  · intro hall
    have hcount := count_of_all_returned list.length workers c s hinv hpos hall
    refine ⟨hcount, ?_⟩
    rw [List.perm_iff_count]
    intro i
    rw [hcount i]
    by_cases hi : i < list.length
    · rw [if_pos hi]
      exact (List.count_eq_one_of_mem (List.nodup_range _) (List.mem_range.2 hi)).symm
    · rw [if_neg hi]
      exact (List.count_eq_zero_of_not_mem (fun h => hi (List.mem_range.1 h))).symm
  · obtain ⟨rest, hrest⟩ := workers_can_return list workers hbound workers (Nat.le_refl _) c s hinv
    refine ⟨rest, ?_⟩
    rw [run_append, ← hs]
    intro pc hpc
    obtain ⟨w, hw⟩ := List.mem_iff_getElem?.1 hpc
    obtain ⟨c2, _, hinv2⟩ := run_invariant list workers hbound rest c s hinv
    have hlt : w < workers := by
      rw [← hinv2.2.1]
      exact lt_length_of_getElem? _ _ _ hw
    exact Option.some.inj (hw.symm.trans (hrest w hlt))

set_option maxRecDepth 8192 in
/-- Witness for C20: two workers over three nmethods; worker 0 tests and commits to the
addition, worker 1 does the same and claims first, visits two entries, then worker 0
claims past the end and returns, and worker 1 finishes. -/
theorem fast_parallel_blobs_do_each_once_witness :
    (run false sample_nmethods [0, 1, 1, 1, 1, 0, 1, 1, 1] (fresh 2)).all_returned ∧
    (run false sample_nmethods [0, 1, 1, 1, 1, 0, 1, 1, 1] (fresh 2)).blobs_done.Perm
      (List.range sample_nmethods.length) ∧
    (run false sample_nmethods [0, 1, 1, 1, 1, 0, 1, 1, 1] (fresh 2))._claimed = 512 :=
  ⟨by decide,
    ((fast_parallel_blobs_do_each_once sample_nmethods 2 [0, 1, 1, 1, 1, 0, 1, 1, 1]
      (by decide) (by decide) _ rfl).2.2.2.2.1 (by decide)).2,
    by decide⟩

end CodeRootsClaims

section CounterClaims

open ShenandoahHeapRegion

end CounterClaims

section IterationClaims

open RegionIteration

/-- C23: the calls that `heap_region_iterate` makes are on regions of the heap in
strictly ascending order of their number; when a skip flag is set, no call is on a region
that the flag excludes (a humongous continuation, a region of the collection set) at the
time of the call; a call that returns true is the last call, so that no later region is
visited; and no region is left out before that: with `state_at j` the state in which
the loop reaches region `j`, starting from the initial state, every region that is
reached before a call has returned true is passed over without a call when a set flag
excludes it, and is otherwise called, in that state, the call leaving the state for the
next region. -/
theorem heap_region_iterate_order {σ : Type} (env : RegionIteration σ) (s : σ)
    (skip_cset_regions skip_humongous_continuation : Bool) :
    ((heap_region_iterate env s skip_cset_regions skip_humongous_continuation).2.map
      RegionVisit.index).Pairwise (fun a b => a < b) ∧
    (∀ e ∈ (heap_region_iterate env s skip_cset_regions skip_humongous_continuation).2,
      e.index < env.num_regions ∧
      (skip_humongous_continuation = true → e.humongous_continuation = false) ∧
      (skip_cset_regions = true → e.in_cset = false)) ∧
    (∀ pre e post,
      (heap_region_iterate env s skip_cset_regions skip_humongous_continuation).2 =
        pre ++ e :: post →
      e.stop = true → post = []) ∧
    (∀ e ∈ (heap_region_iterate env s skip_cset_regions skip_humongous_continuation).2,
      e.stop = true →
      ∀ e' ∈ (heap_region_iterate env s skip_cset_regions skip_humongous_continuation).2,
        e'.index ≤ e.index) ∧
    ∃ state_at : Nat → σ, state_at 0 = s ∧
      ∀ j, j < env.num_regions →
        (∀ e ∈ (heap_region_iterate env s skip_cset_regions skip_humongous_continuation).2,
          e.index < j → e.stop = false) →
        (env.excluded skip_cset_regions skip_humongous_continuation (state_at j) j = true →
          (∀ e ∈ (heap_region_iterate env s skip_cset_regions skip_humongous_continuation).2,
            e.index ≠ j) ∧
          state_at (j + 1) = state_at j) ∧
        (env.excluded skip_cset_regions skip_humongous_continuation (state_at j) j = false →
          env.visit (state_at j) j ∈
            (heap_region_iterate env s skip_cset_regions skip_humongous_continuation).2 ∧
          state_at (j + 1) = (env.heap_region_do (state_at j) j).2) := by
  obtain ⟨new, h1, h2, h3, h4, h5⟩ :=
    iterate_loop_calls env skip_cset_regions skip_humongous_continuation env.num_regions 0 s []
  obtain ⟨new', state_at, k1, k2, _, k4⟩ :=
    iterate_loop_complete env skip_cset_regions skip_humongous_continuation env.num_regions 0
      s []
  have hnew : (heap_region_iterate env s skip_cset_regions skip_humongous_continuation).2 =
      new := by
    unfold heap_region_iterate
    rw [h1]
    rfl
  have hnew' : new' = new := by
    rw [h1] at k1
    exact (List.append_cancel_left k1).symm
  rw [hnew]
  rw [hnew'] at k4
  refine ⟨h2, fun e he => ⟨?_, h4 e he⟩, h5, ?_, state_at, k2, ?_⟩
  · have := (h3 e he).2
    omega
  · intro e he hstop e' he'
    obtain ⟨pre, post, hsplit⟩ := List.append_of_mem he
    have hpost := h5 pre e post hsplit hstop
    rw [hpost] at hsplit
    rw [hsplit, List.mem_append, List.mem_singleton] at he'
    rcases he' with hp | hp
    · rw [hsplit, List.map_append, List.pairwise_append] at h2
      exact Nat.le_of_lt (h2.2.2 e'.index (List.mem_map_of_mem _ hp) e.index (by simp))
    · rw [hp]
  · intro j hj hns
    exact k4 j (Nat.zero_le j) (by omega) hns

/-- Witness for C23: over `sample_regions` with region 0 in the collection set and both
flags set, a closure that stops at region 3 is called on region 1, answers false, is not
called on the humongous continuation 2, and is called on region 3; a closure that stops
at region 1 is called on region 1 only. -/
theorem heap_region_iterate_order_witness :
    ((heap_region_iterate (counting_iteration sample_regions [0] (fun i => decide (i = 3)))
      0 true true).2.map RegionVisit.index).Pairwise (fun a b => a < b) ∧
    (heap_region_iterate (counting_iteration sample_regions [0] (fun i => decide (i = 3)))
      0 true true).2.map (fun e => (e.index, e.stop)) = [(1, false), (3, true)] ∧
    (heap_region_iterate (counting_iteration sample_regions [0] (fun i => decide (i = 1)))
      0 true true).2.map RegionVisit.index = [1] :=
  ⟨(heap_region_iterate_order
      (counting_iteration sample_regions [0] (fun i => decide (i = 3))) 0 true true).1,
    by decide, by decide⟩

/-- C24 (counterexample): over `sample_regions`, whose region 3 is empty-uncommitted, with
both flags false and a closure that always returns false, `heap_region_do` is called on
region 3 as well. -/
theorem heap_region_iterate_visits_uncommitted :
    (heap_region_iterate (counting_iteration sample_regions [] (fun _ => false))
      0 false false).2.map (fun e => (e.index, e.committed)) =
      [(0, true), (1, true), (2, true), (3, false)] := by
  decide

/-- C24 (amended): with both skip flags false and a closure that always returns false,
`heap_region_iterate` calls `heap_region_do` on every region of the heap, from 0 to
`num_regions() - 1` in this order, each once, whether it is committed or not. -/
theorem heap_region_iterate_all_regions {σ : Type} (env : RegionIteration σ) (s : σ)
    (hnever : ∀ s i, (env.heap_region_do s i).1 = false) :
    (heap_region_iterate env s false false).2.map RegionVisit.index =
      List.range env.num_regions := by
  obtain ⟨new, h1, h2⟩ := iterate_loop_all env hnever env.num_regions 0 s []
  unfold heap_region_iterate
  rw [h1, List.nil_append, h2, List.range_eq_range']

/-- Witness for C24 (amended), over `sample_regions`. -/
theorem heap_region_iterate_all_regions_witness :
    (heap_region_iterate (counting_iteration sample_regions [] (fun _ => false))
      0 false false).2.map RegionVisit.index = List.range 4 :=
  heap_region_iterate_all_regions (counting_iteration sample_regions [] (fun _ => false)) 0
    (fun _ _ => rfl)

end IterationClaims

section PoolClaims

open RegionLiveness

/-- C25 (failing input): with `initial = 0`, `max = 4`, `used = 2` and `committed = 1`,
values that do not exceed `max`, the fourth assertion of `get_memory_usage`,
`used <= committed`, fails: it is evaluated before `committed` is raised to `used`.  With
`used <= committed` the same values pass. -/
theorem get_memory_usage_assert_before_adjust :
    get_memory_usage 0 4 2 1 = Except.error PoolAssertion.used_le_committed ∧
    get_memory_usage 0 4 1 2 =
      Except.ok { initSize := 0, used := 1, committed := 2, maxSize := 4 } :=
  ⟨rfl, rfl⟩

/-- C26: let every region of the list satisfy the assumption for its top-at-mark-start:
its marked live words are at most the words from `bottom` to TAMS. Then the loop of
`op_final_mark` that completes liveness runs through without a failed assertion; it
leaves the regions themselves as they were; the live words of an active region with
`top > TAMS` have grown by the `top - TAMS` words allocated past TAMS and those of every
other region are unchanged; and afterwards the live words of every region with
`TAMS <= top` are at most its `top - bottom` in words. -/
theorem complete_liveness_within_used (top_at_mark_start : Nat → Nat)
    (regions : List RegionLiveness) (first : Nat)
    (h : ∀ k (hk : k < regions.length),
      marked_below_tams (top_at_mark_start (first + k)) (regions.get ⟨k, hk⟩)) :
    ∃ out, complete_liveness top_at_mark_start first regions = Except.ok out ∧
      out.length = regions.length ∧
      ∀ k (hk : k < regions.length) (hk' : k < out.length),
        (out.get ⟨k, hk'⟩).region = (regions.get ⟨k, hk⟩).region ∧
        (out.get ⟨k, hk'⟩)._live_data =
          (if (regions.get ⟨k, hk⟩).is_active = true ∧
              top_at_mark_start (first + k) < (regions.get ⟨k, hk⟩).region._top then
            (regions.get ⟨k, hk⟩)._live_data +
              ((((regions.get ⟨k, hk⟩).region._top - top_at_mark_start (first + k)) /
                HeapWordSize : Nat) : Int)
          else (regions.get ⟨k, hk⟩)._live_data) ∧
        0 ≤ (out.get ⟨k, hk'⟩)._live_data ∧
        (top_at_mark_start (first + k) ≤ (regions.get ⟨k, hk⟩).region._top →
          (out.get ⟨k, hk'⟩)._live_data * 8 ≤
            (((regions.get ⟨k, hk⟩).region._top - (regions.get ⟨k, hk⟩).region._bottom :
              Nat) : Int)) := by
  induction regions generalizing first with
  | nil =>
    exact ⟨[], rfl, rfl, fun k hk => absurd hk (Nat.not_lt_zero k)⟩
  | cons r rest ih =>
    obtain ⟨r', e1, e2, e3, e4, e5⟩ :=
      complete_liveness_of_ok (top_at_mark_start first) r (h 0 (Nat.succ_pos _))
    obtain ⟨out, o1, o2, o3⟩ := ih (first + 1) (by
      intro k hk
      have := h (k + 1) (Nat.succ_lt_succ hk)
      rw [show first + (k + 1) = first + 1 + k by omega] at this
      exact this)
    refine ⟨r' :: out, ?_, by simp [o2], ?_⟩
    · simp only [complete_liveness, e1, o1]
    · intro k hk hk'
      cases k with
      | zero => exact ⟨e2, e3, e4, e5⟩
      | succ k =>
        have := o3 k (Nat.lt_of_succ_lt_succ hk) (Nat.lt_of_succ_lt_succ hk')
        rw [show first + 1 + k = first + (k + 1) by omega] at this
        exact this

/-- Witness for C26: `sample_live_region` with top-at-mark-start 60 words up: the 40
words allocated past it are added to the 40 marked ones. -/
theorem complete_liveness_within_used_witness :
    ∃ out, complete_liveness (fun _ => 1504) 0 [sample_live_region] = Except.ok out ∧
      out.map RegionLiveness._live_data = [80] := by
  obtain ⟨out, h1, _⟩ := complete_liveness_within_used (fun _ => 1504) [sample_live_region] 0
    (by
      intro k hk
      have hk0 : k = 0 := by simpa using hk
      subst hk0
      show marked_below_tams 1504 sample_live_region
      decide)
  refine ⟨out, h1, ?_⟩
  have h2 : complete_liveness (fun _ => 1504) 0 [sample_live_region] =
      Except.ok [{ sample_live_region with _live_data := 80 }] := rfl
  rw [h2] at h1
  injection h1 with h1
  rw [← h1]
  rfl

end PoolClaims

section SliceClaims

open BitmapSlices

/-- C28: for a region `r` of the heap, `is_bitmap_slice_committed(r, skip_self)` returns
true exactly when some committed region has the same quotient of its number by the
regions per slice, `r` itself counting only when `skip_self` is false. When a region
other than `r` in that group is committed, `commit_bitmap_slice(r)` and
`uncommit_bitmap_slice(r)` return true and make no call to the operating system;
otherwise the first thing each does is the call on the first bitmap for the slice. -/
theorem bitmap_slice_shared (h : BitmapSlices) (r : Nat)
    (os_commit_memory os_uncommit_memory : Nat → Nat → Nat → Bool)
    (hrps : 0 < h._bitmap_regions_per_slice) (hr : r < h.num_regions)
    (hsize : h.num_regions + h._bitmap_regions_per_slice < WORD_MOD) :
    (∀ skip_self, ∃ b, h.is_bitmap_slice_committed r skip_self = some b ∧
      (b = true ↔ h.group_committed r skip_self)) ∧
    (h.group_committed r true →
      commit_bitmap_slice os_commit_memory h r = some (true, h) ∧
      uncommit_bitmap_slice os_uncommit_memory h r = some (true, h)) ∧
    (¬ h.group_committed r true →
      (∃ res, commit_bitmap_slice os_commit_memory h r = some res ∧
        (res.2.os_calls.drop h.os_calls.length).head? =
          some (OsCall.commit_memory 0
            ((h._bitmap_bytes_per_slice * (r / h._bitmap_regions_per_slice)) % WORD_MOD)
            h._bitmap_bytes_per_slice)) ∧
      (∃ res, uncommit_bitmap_slice os_uncommit_memory h r = some res ∧
        (res.2.os_calls.drop h.os_calls.length).head? =
          some (OsCall.uncommit_memory 0
            ((h._bitmap_bytes_per_slice * (r / h._bitmap_regions_per_slice)) % WORD_MOD)
            h._bitmap_bytes_per_slice))) := by
  obtain ⟨b, hb, hiff⟩ := is_bitmap_slice_committed_spec h r true hrps hr hsize
  refine ⟨fun skip => is_bitmap_slice_committed_spec h r skip hrps hr hsize, ?_, ?_⟩
  · intro hg
    have hbt : b = true := hiff.2 hg
    subst hbt
    constructor
    · simp only [commit_bitmap_slice, hb]
    · simp only [uncommit_bitmap_slice, hb]
  · intro hg
    have hbf : b = false := by
      cases b
      · rfl
      · exact absurd (hiff.1 rfl) hg
    subst hbf
    constructor
    · simp only [commit_bitmap_slice, hb]
      split
      · exact ⟨_, rfl, by simp⟩
      · split
        · exact ⟨_, rfl, by simp⟩
        · exact ⟨_, rfl, by simp⟩
    · simp only [uncommit_bitmap_slice, hb]
      split
      · exact ⟨_, rfl, by simp⟩
      · split
        · exact ⟨_, rfl, by simp⟩
        · exact ⟨_, rfl, by simp⟩

/-- Witness for C28: in `sample_slices` regions 0 and 1 share a slice and both are
committed, so the slice of region 0 is kept; region 2 shares its slice with the
uncommitted region 3 only, so uncommitting its slice goes to the operating system. -/
theorem bitmap_slice_shared_witness :
    uncommit_bitmap_slice (fun _ _ _ => true) sample_slices 0 = some (true, sample_slices) ∧
    (uncommit_bitmap_slice (fun _ _ _ => true) sample_slices 2).map (fun res => res.2.os_calls)
      = some [OsCall.uncommit_memory 0 4096 4096, OsCall.uncommit_memory 1 4096 4096] :=
  ⟨((bitmap_slice_shared sample_slices 0 (fun _ _ _ => true) (fun _ _ _ => true)
      (by decide) (by decide) (by decide)).2.1 ⟨1, by decide, by decide, by decide,
        by decide⟩).2,
    by decide⟩

end SliceClaims

section DedupClaims

open ShenandoahStrDedupThread

/-- C27: from a claim counter of 0 and with fewer than `max_jint` queues, a call of
`parallel_oops_do` returns (given fuel for one claim more than there are queues) with the
same traces as `oops_do_slow`: the chains of the queues 0 to `num_queues - 1` are walked
once each, in this order, and the closure sees the same oops in the same order. Any
number of callers one after the other leaves the same traces too, each later caller only
moving the counter; and in general `claim()` on a counter `c` below `max_jint` hands out
the index `c` and moves the counter to `c + 1`. -/
theorem parallel_oops_do_refines_slow (t : ShenandoahStrDedupThread)
    (hfresh : t._claimed = 0) (hsize : t.num_queues < max_jint) :
    (oops_do_slow t).queues_done = t.queues_done ++ List.range t.num_queues ∧
    (∀ fuel, t.num_queues < fuel →
      parallel_oops_do fuel t =
        some { oops_do_slow t with _claimed := ((t.num_queues + 1 : Nat) : Int) }) ∧
    (∀ fuel callers, t.num_queues < fuel → 0 < callers →
      t.num_queues + callers ≤ max_jint →
      successive_callers fuel callers t =
        some { oops_do_slow t with _claimed := ((t.num_queues + callers : Nat) : Int) }) ∧
    (∀ (s : ShenandoahStrDedupThread) (c : Nat), s._claimed = (c : Int) → c < max_jint →
      s.claim = (c, { s with _claimed := ((c + 1 : Nat) : Int) })) := by
  have hone : ∀ fuel, t.num_queues < fuel →
      parallel_oops_do fuel t =
        some { oops_do_slow t with _claimed := ((t.num_queues + 1 : Nat) : Int) } := by
    intro fuel hfuel
    have h := parallel_oops_do_from t.num_queues 0 fuel t hfresh (by omega) (by omega) hfuel
    have hm : max 0 t.num_queues = t.num_queues := by omega
    rw [hm] at h
    exact h
  refine ⟨?_, hone, ?_, fun s c hc hlt => claim_spec s c hc hlt⟩
  · rw [List.range_eq_range']
    exact (oops_do_slow_loop_fields t.num_queues 0 t).2.2
  · intro fuel callers hfuel hpos hk
    obtain ⟨k, rfl⟩ := Nat.exists_eq_succ_of_ne_zero (Nat.pos_iff_ne_zero.1 hpos)
    simp only [successive_callers, hone fuel hfuel]
    have hnq : ({ oops_do_slow t with _claimed := ((t.num_queues + 1 : Nat) : Int) } :
        ShenandoahStrDedupThread).num_queues = t.num_queues := by
      show (oops_do_slow_loop t.num_queues 0 t)._work_list.length = _
      rw [(oops_do_slow_loop_fields t.num_queues 0 t).2.1]
      rfl
    have h2 := successive_callers_late fuel (by omega) k (t.num_queues + 1)
      { oops_do_slow t with _claimed := ((t.num_queues + 1 : Nat) : Int) } rfl
      (by rw [hnq]; omega) (by omega)
    rw [h2]
    have : t.num_queues + 1 + k = t.num_queues + (k + 1) := by omega
    rw [this]

/-- Witness for C27: on `sample_dedup_thread`, one caller and then three callers. -/
theorem parallel_oops_do_refines_slow_witness :
    parallel_oops_do 4 sample_dedup_thread =
      some { _claimed := 4, _work_list := [[[16, 24]], [], [[32], [40, 48]]],
             queues_done := [0, 1, 2],
             oops_done := [(0, 16), (0, 24), (2, 32), (2, 40), (2, 48)] } ∧
    successive_callers 4 3 sample_dedup_thread =
      some { oops_do_slow sample_dedup_thread with _claimed := 6 } :=
  ⟨by decide,
    (parallel_oops_do_refines_slow sample_dedup_thread rfl (by decide)).2.2.1 4 3
      (by decide) (by decide) (by decide)⟩

end DedupClaims

section RootTaskClaims

open ShenandoahRootProcessor

/-- C21: let any number of workers (at least one) run `process_vm_roots` on a fresh root
processor, each with `jni_weak_roots` given (as from `process_all_roots`) or not (as from
`process_strong_roots`), their calls of `is_task_claimed` and their scans interleaved in
any order. Then at every moment no root category has been scanned twice; once every
worker is past its claims, each of the six categories Universe, JNI handles,
FlatProfiler, Management, JVMTI and SystemDictionary has been scanned exactly once, by
exactly one worker; and from every such moment the workers can run on until all are
past their claims. -/
theorem process_vm_roots_each_category_once (calls : List Bool) (schedule : List Nat)
    (hpos : calls ≠ []) :
    ∀ s, s = run schedule (fresh calls) →
      s.categories.Nodup ∧
      (s.all_finished → ∀ t ∈ vm_root_tasks false,
        s.categories.count t = 1 ∧ ∃ w, ∀ w', (w', t) ∈ s.scanned ↔ w' = w) ∧
      ∃ rest, (run (schedule ++ rest) (fresh calls)).all_finished := by
  intro s hs
  have hinv := run_tasks_invariant schedule (fresh calls) (fresh_tasks_invariant calls)
  rw [← hs] at hinv
  have hlen : s.workers.length = calls.length := by
    rw [hs, run_workers_length]
    simp only [fresh, List.length_map]
  refine ⟨hinv.1, ?_, ?_⟩
  · intro hall t ht
    have hposw : 0 < s.workers.length := by
      rw [hlen]
      exact List.length_pos.2 hpos
    have hmem := scanned_of_all_finished s hinv hposw hall t ht
    refine ⟨List.count_eq_one_of_mem hinv.1 hmem, ?_⟩
    obtain ⟨p, hp, hpt⟩ := List.mem_map.1 hmem
    refine ⟨p.1, fun w' => ⟨fun h => ?_, fun h => ?_⟩⟩
    · have heq := List.inj_on_of_nodup_map hinv.1 h hp (by rw [hpt])
      rw [← heq]
    · rw [h, ← hpt]
      exact hp
  · obtain ⟨rest, hrest⟩ := workers_can_finish s.workers.length s hinv (Nat.le_refl _)
    refine ⟨rest, ?_⟩
    rw [roots_run_append, ← hs]
    intro pc hpc
    obtain ⟨w, hw⟩ := List.mem_iff_getElem?.1 hpc
    have hlt : w < s.workers.length := by
      rw [← run_workers_length rest s]
      exact lt_length_of_getElem? _ _ _ hw
    exact Option.some.inj (hw.symm.trans (hrest w hlt))

set_option maxRecDepth 8192 in
/-- Witness for C21: a worker from `process_strong_roots` and one from
`process_all_roots`; worker 0 claims Universe, worker 1 finds it claimed and claims and
scans JNI handles and FlatProfiler before worker 0 has scanned Universe, and so on. -/
theorem process_vm_roots_each_category_once_witness :
    (run [0, 1, 1, 1, 1, 1, 0, 0, 0, 0, 0, 0, 0, 0, 0, 0, 1, 1, 1, 1, 1, 1]
      (fresh [false, true])).all_finished ∧
    (run [0, 1, 1, 1, 1, 1, 0, 0, 0, 0, 0, 0, 0, 0, 0, 0, 1, 1, 1, 1, 1, 1]
      (fresh [false, true])).categories.count RootTask.Universe_oops_do = 1 ∧
    (run [0, 1, 1, 1, 1, 1, 0, 0, 0, 0, 0, 0, 0, 0, 0, 0, 1, 1, 1, 1, 1, 1]
      (fresh [false, true])).scanned =
      [(1, RootTask.JNIHandles_oops_do), (1, RootTask.FlatProfiler_oops_do),
        (0, RootTask.Universe_oops_do), (0, RootTask.Management_oops_do),
        (0, RootTask.jvmti_oops_do), (0, RootTask.SystemDictionary_oops_do),
        (1, RootTask.JNIHandles_weak_oops_do)] :=
  ⟨by decide,
    ((process_vm_roots_each_category_once [false, true]
      [0, 1, 1, 1, 1, 1, 0, 0, 0, 0, 0, 0, 0, 0, 0, 0, 1, 1, 1, 1, 1, 1]
      (by decide) _ rfl).2.1 (by decide) RootTask.Universe_oops_do (by decide)).1,
    by decide⟩

end RootTaskClaims

section IterateClaims

open ObjectGraph

/-- C22 (counterexample): on the sample heap, a first call of `object_iterate` marks the
objects 16 and 48; a call that commits the auxiliary bitmap and finds these marks in it
passes no object to the closure, although the objects 16 and 48 are reachable from the
roots; with a mark on 16 alone it is the same. -/
theorem object_iterate_skips_stale_marks :
    (sample_graph.drain 2
      (sample_graph.do_oops { _aux_bit_map := [], oop_stack := [], reported := [] }
        sample_graph.roots)).map (fun st => st._aux_bit_map) = some [48, 16] ∧
    sample_graph.object_iterate true [48, 16] 2 = some [] ∧
    sample_graph.object_iterate true [16] 2 = some [] ∧
    sample_graph.Reachable 16 ∧ sample_graph.Reachable 48 :=
  ⟨by decide, by decide, by decide,
    Reachable.root 1000 16 (by decide) (by decide),
    Reachable.field 16 2000 48 (Reachable.root 1000 16 (by decide) (by decide)) (by decide)
      (by decide)⟩

/-- C22 (amended): on a heap graph whose objects reachable from the GC roots (through
references resolved by the forwarding pointer) all lie in a finite list `U`, cycles or
not, every call of `object_iterate` returns: the loop ends within `U.length` iterations.
If the auxiliary bitmap cannot be committed, no object is passed to the closure. If it is
committed, with the marks `marks` in it, no object is passed twice, and the objects
passed are exactly those reached from the roots along references to objects that were
not marked, all of them reachable; when the committed bitmap is clear these are the
reachable objects, each passed exactly once, and no other. -/
theorem object_iterate_reports_reachable (g : ObjectGraph) (U : List Nat)
    (marks : List Nat) (fuel : Nat)
    (hU : ∀ x, g.Reachable x → x ∈ U) (hfuel : U.length ≤ fuel) :
    g.object_iterate false marks fuel = some [] ∧
    ∃ reported, g.object_iterate true marks fuel = some reported ∧
      reported.Nodup ∧
      (∀ obj, obj ∈ reported ↔ g.ReachableUnmarked marks obj) ∧
      (∀ obj ∈ reported, g.Reachable obj ∧ obj ∉ marks) ∧
      (marks = [] → ∀ obj, obj ∈ reported ↔ g.Reachable obj) := by
  refine ⟨rfl, ?_⟩
  have h0 : g.marks_invariant marks
      { _aux_bit_map := marks, oop_stack := [], reported := [] } :=
    ⟨List.nodup_nil, fun x => by simp, fun x hx => by simp at hx⟩
  obtain ⟨k1, k2, _, k4⟩ := do_oops_spec g marks g.roots _ h0
    (fun p hp o ho hm => ReachableUnmarked.root p o hp ho hm)
  obtain ⟨st', hd, j1, j2, j3, j4⟩ := drain_spec g marks U hU fuel _ k1
    (fun obj hobj => by rw [k2] at hobj; exact absurd hobj (List.not_mem_nil obj)) k4
    (by omega)
  have hiff : ∀ obj, obj ∈ st'.reported ↔ g.ReachableUnmarked marks obj :=
    fun obj => ⟨fun h => j1.2.2 obj (Or.inr h), reported_of_reachable g marks st' j1 j2 j3 j4 obj⟩
  refine ⟨st'.reported, ?_, ?_, hiff, ?_, ?_⟩
  · simp [object_iterate, hd]
  · have hn := j1.1
    rw [j4] at hn
    exact hn
  · intro obj h
    exact reachable_of_unmarked g marks obj ((hiff obj).1 h)
  · intro hclear obj
    rw [hiff obj, hclear]
    exact ⟨fun h => (reachable_of_unmarked g [] obj h).1, unmarked_of_reachable g obj⟩

/-- Witness for C22 (amended): the sample heap, with a cycle between the objects 16 and
48 and a reference through the forwarded copy 32. With a clear bitmap the two reachable
objects are reported, in the order 16, 48, and the unreachable object 64 is not; with a
mark left on 48 only 16 is reported. -/
theorem object_iterate_reports_reachable_witness :
    sample_graph.object_iterate true [] 2 = some [16, 48] ∧
    sample_graph.object_iterate true [48] 2 = some [16] ∧
    sample_graph.object_iterate false [] 2 = some [] ∧
    (∃ reported, sample_graph.object_iterate true [] 2 = some reported ∧
      reported.Nodup ∧
      (∀ obj, obj ∈ reported ↔ sample_graph.ReachableUnmarked [] obj) ∧
      (∀ obj ∈ reported, sample_graph.Reachable obj ∧ obj ∉ ([] : List Nat)) ∧
      (([] : List Nat) = [] → ∀ obj, obj ∈ reported ↔ sample_graph.Reachable obj)) :=
  ⟨by decide, by decide,
    (object_iterate_reports_reachable sample_graph [16, 48] [] 2 sample_graph_reachable
      (by decide)).1,
    (object_iterate_reports_reachable sample_graph [16, 48] [] 2 sample_graph_reachable
      (by decide)).2⟩

end IterateClaims

section DominanceClaims

open ShenandoahBarrierNode

/-- C30: on the sample loop, `dominates_memory(b1, b2)` with `linear` set follows the
phi to barrier 1 on the entry branch, then gets back to barrier 2 through the back edge
without seeing barrier 1 there, and returns false, whatever the bound given for the
inner loop; the documentation of the function, and the claim, have it return true. -/
theorem dominates_memory_back_to_b2 :
    ∀ fuel, dominates_memory sample_loop_phase (fuel + 1) 1 2 true = Except.ok false := by
  intro fuel
  rfl

end DominanceClaims

end Shenandoah
